import Mathlib

/-!
# mswagger: annotation parser and type resolution engine

A shallow embedding of `parser.go` / `structs.go` of `mikunalpha/mswagger`.

Conventions of the embedding

* Go strings are `String`; every text function works on the character list
  and is structurally recursive.
* Go maps are association lists (`GoMap`): a key occurs at most once, writing an
  existing key replaces its value in place, writing a new key appends it.  `range`
  over a map visits the entries in list order (Go leaves the order unspecified).
* A `*OperationObject` is an address (`Nat`); the record it points to is passed
  and returned explicitly.
* `log.Fatalf` (process exit) is the outcome `Outcome.fatal`; recursion that the
  source does not bound is bounded by a fuel argument, `Outcome.outOfFuel`
  marking exhaustion.
-/

namespace MSwagger

/-! ## Go maps -/

/-- A Go `map[string]V`. -/
abbrev GoMap (V : Type) := List (String × V)

namespace GoMap

/-- The value `m[k]` with its presence flag. -/
def get {V : Type} : GoMap V → String → Option V
  | [], _ => none
  | (k, v) :: rest, key => if k = key then some v else get rest key

/-- The test `_, ok := m[k]`. -/
def has {V : Type} (m : GoMap V) (key : String) : Bool := (get m key).isSome

/-- The assignment `m[k] = v`. -/
def set {V : Type} : GoMap V → String → V → GoMap V
  | [], key, val => [(key, val)]
  | (k, v) :: rest, key, val =>
    if k = key then (k, val) :: rest else (k, v) :: set rest key val

/-- The key set, in iteration order. -/
def keys {V : Type} (m : GoMap V) : List String := m.map Prod.fst

end GoMap

/-! ## Text functions of the Go standard library -/

namespace strings

/-- Go `unicode.IsSpace`. -/
def isSpace (c : Char) : Bool :=
  let n := c.toNat
  n = 9 || n = 10 || n = 11 || n = 12 || n = 13 || n = 32 || n = 0x85 || n = 0xA0 ||
  n = 0x1680 || (0x2000 ≤ n && n ≤ 0x200a) || n = 0x2028 || n = 0x2029 || n = 0x202f ||
  n = 0x205f || n = 0x3000

/-- Drop the leading characters that satisfy `p`. -/
def dropWhileL (p : Char → Bool) : List Char → List Char
  | [] => []
  | c :: cs => if p c then dropWhileL p cs else c :: cs

/-- Drop the trailing characters that satisfy `p`. -/
def dropWhileR (p : Char → Bool) (cs : List Char) : List Char :=
  (dropWhileL p cs.reverse).reverse

/-- Go `strings.TrimSpace`. -/
def TrimSpace (s : String) : String :=
  ⟨dropWhileR isSpace (dropWhileL isSpace s.data)⟩

/-- Go `strings.TrimLeft(s, cutset)`. -/
def TrimLeft (s cutset : String) : String :=
  ⟨dropWhileL (fun c => cutset.data.contains c) s.data⟩

/-- Go `strings.Trim(s, cutset)`. -/
def Trim (s cutset : String) : String :=
  ⟨dropWhileR (fun c => cutset.data.contains c) (dropWhileL (fun c => cutset.data.contains c) s.data)⟩

/-- The fields of a character list; `cur` is the field being read, reversed. -/
def fieldsAux : List Char → List Char → List String
  | [], cur => if cur.isEmpty then [] else [⟨cur.reverse⟩]
  | c :: cs, cur =>
    if isSpace c then
      (if cur.isEmpty then fieldsAux cs [] else ⟨cur.reverse⟩ :: fieldsAux cs [])
    else fieldsAux cs (c :: cur)

/-- Go `strings.Fields`. -/
def Fields (s : String) : List String := fieldsAux s.data []

/-- Go `unicode.ToLower` as far as the program observes it: the program compares
lower-cased text with ASCII keywords only, so the characters whose lower case is an ASCII
letter are mapped (the ASCII capitals, U+0130 and the Kelvin sign U+212A) and every other
character, whose lower case is not ASCII, is left as it is. -/
def lowerChar (c : Char) : Char :=
  if 65 ≤ c.toNat ∧ c.toNat ≤ 90 then Char.ofNat (c.toNat + 32)
  else if c.toNat = 0x130 then 'i'
  else if c.toNat = 0x212A then 'k'
  else c

/-- Go `unicode.ToUpper` as far as the program observes it: the characters whose upper
case is an ASCII letter are mapped (the ASCII small letters, U+0131 and U+017F), every
other character is left as it is. -/
def upperChar (c : Char) : Char :=
  if 97 ≤ c.toNat ∧ c.toNat ≤ 122 then Char.ofNat (c.toNat - 32)
  else if c.toNat = 0x131 then 'I'
  else if c.toNat = 0x17F then 'S'
  else c

/-- Go `strings.ToLower`. -/
def ToLower (s : String) : String := ⟨s.data.map lowerChar⟩

/-- Go `strings.ToUpper`. -/
def ToUpper (s : String) : String := ⟨s.data.map upperChar⟩

/-- Splitting at a one-character separator; `cur` is the piece being read, reversed. -/
def splitAux (sep : Char) : List Char → List Char → List String
  | [], cur => [⟨cur.reverse⟩]
  | c :: cs, cur => if c = sep then ⟨cur.reverse⟩ :: splitAux sep cs [] else splitAux sep cs (c :: cur)

/-- Go `strings.Split(s, sep)` for the one-character separators the program uses. -/
def Split (s : String) (sep : Char) : List String := splitAux sep s.data []

/-- Go `strings.Join`. -/
def Join : List String → String → String
  | [], _ => ""
  | [a], _ => a
  | a :: b :: rest, sep => a ++ sep ++ Join (b :: rest) sep

/-- Whether `pat` is a prefix of `cs`. -/
def isPrefixOf : List Char → List Char → Bool
  | [], _ => true
  | _ :: _, [] => false
  | p :: ps, c :: cs => p = c && isPrefixOf ps cs

/-- Whether `pat` occurs in `cs`. -/
def containsAux (pat : List Char) : List Char → Bool
  | [] => pat.isEmpty
  | c :: cs => isPrefixOf pat (c :: cs) || containsAux pat cs

/-- Go `strings.Contains`. -/
def Contains (s substr : String) : Bool := containsAux substr.data s.data

/-- Go `strings.HasPrefix`. -/
def HasPrefix (s pre : String) : Bool := isPrefixOf pre.data s.data

/-- Go `strings.TrimPrefix`. -/
def TrimPrefix (s pre : String) : String :=
  if HasPrefix s pre then ⟨s.data.drop pre.data.length⟩ else s

/-- The Go slice expression `s[n:]` where `n` is the length of a prefix of `s`. -/
def sliceFrom (s : String) (n : Nat) : String := ⟨s.data.drop n⟩

end strings

/-! ## Regular expressions

The patterns of the program repeat single character classes only, so a pattern is a
list of atoms.  Matching is the leftmost-first backtracking search that Go's `regexp`
package is specified to agree with. -/

namespace regexp

/-- One element of a pattern. -/
inductive Atom where
  /-- One character of a class. -/
  | one (p : Char → Bool)
  /-- The greedy repetition `[...]+`. -/
  | plus (p : Char → Bool)
  /-- The greedy repetition `[...]*`. -/
  | star (p : Char → Bool)
  /-- The start of capture group `i`. -/
  | gopen (i : Nat)
  /-- The end of capture group `i`. -/
  | gclose (i : Nat)

/-- The class `\w`. -/
def isWord (c : Char) : Bool :=
  let n := c.toNat
  (48 ≤ n && n ≤ 57) || (65 ≤ n && n ≤ 90) || (97 ≤ n && n ≤ 122) || n = 95

/-- The class `\d`. -/
def isDigit (c : Char) : Bool := 48 ≤ c.toNat && c.toNat ≤ 57

/-- The class `\s`. -/
def isBlank (c : Char) : Bool :=
  let n := c.toNat
  n = 9 || n = 10 || n = 12 || n = 13 || n = 32

/-- The capture registers: for each group the input left at its start and at its end. -/
abbrev Caps := List (Nat × List Char × List Char)

/-- Record the start of group `i`. -/
def capOpen (caps : Caps) (i : Nat) (rest : List Char) : Caps := (i, rest, rest) :: caps

/-- Record the end of group `i`. -/
def capClose : Caps → Nat → List Char → Caps
  | [], _, _ => []
  | (j, st, en) :: more, i, rest =>
    if j = i then (j, st, rest) :: more else (j, st, en) :: capClose more i rest

/-- The text of group `i`. -/
def capText : Caps → Nat → String
  | [], _ => ""
  | (j, st, en) :: more, i =>
    if j = i then ⟨st.take (st.length - en.length)⟩ else capText more i

/-- Greedy repetition of a class: take as many characters as possible, then give back
one at a time until the continuation `k` succeeds. -/
def greedy (p : Char → Bool) (k : List Char → Option (Caps × List Char)) :
    List Char → Option (Caps × List Char)
  | [] => k []
  | c :: cs =>
    if p c then
      match greedy p k cs with
      | some r => some r
      | none => k (c :: cs)
    else k (c :: cs)

/-- Match a pattern at the start of the input; the result is the capture registers and
the input left after the match. -/
def matchHere : List Atom → Caps → List Char → Option (Caps × List Char)
  | [], caps, s => some (caps, s)
  | Atom.one p :: rest, caps, s =>
    match s with
    | [] => none
    | c :: cs => if p c then matchHere rest caps cs else none
  | Atom.plus p :: rest, caps, s =>
    match s with
    | [] => none
    | c :: cs => if p c then greedy p (matchHere rest caps) cs else none
  | Atom.star p :: rest, caps, s => greedy p (matchHere rest caps) s
  | Atom.gopen i :: rest, caps, s => matchHere rest (capOpen caps i s) s
  | Atom.gclose i :: rest, caps, s => matchHere rest (capClose caps i s) s

/-- The leftmost match: the start position is advanced one character at a time. -/
def search (re : List Atom) : List Char → Option (List Char × Caps × List Char)
  | [] => (matchHere re [] []).map (fun r => ([], r))
  | c :: cs =>
    match matchHere re [] (c :: cs) with
    | some r => some (c :: cs, r)
    | none => search re cs

/-- Go `FindStringSubmatch` for a pattern with `n` groups: the whole match followed by
the groups, or `[]` (nil) when there is no match. -/
def FindStringSubmatch (re : List Atom) (n : Nat) (s : String) : List String :=
  match search re s.data with
  | none => []
  | some (start, caps, rest) =>
    ⟨start.take (start.length - rest.length)⟩ :: (List.range n).map (fun i => capText caps (i + 1))

/-- Go `ReplaceAll(src, "$1.$2")` for a pattern with two groups that matches no empty
text: every match, left to right, is replaced by its two groups joined with a dot. -/
def replaceAllDot (re : List Atom) : Nat → List Char → List Char
  | 0, s => s
  | _ + 1, [] => []
  | fuel + 1, c :: cs =>
    match matchHere re [] (c :: cs) with
    | some (caps, rest) =>
      (capText caps 1).data ++ '.' :: (capText caps 2).data ++ replaceAllDot re fuel rest
    | none => c :: replaceAllDot re fuel cs

end regexp

/-! ## The source model (`go/ast`) -/

/-- An expression printed with `fmt.Sprint`: an identifier prints as its name, a
selector node as `&{x sel}`; any other node is carried with its printed form. -/
inductive Operand where
  | ident (name : String)
  | selector (x sel : String)
  | other (printed : String)
  deriving DecidableEq, Repr

/-- The type expression of a struct field (`ast.Expr`). -/
inductive Expr where
  /-- An `*ast.Ident`. -/
  | ident (name : String)
  /-- An `*ast.StarExpr` with operand `x`. -/
  | star (x : Operand)
  /-- An `*ast.SelectorExpr` `x.sel`; in a type expression `x` is a package identifier. -/
  | selector (x sel : String)
  /-- An `*ast.ArrayType` with element type `elt`. -/
  | array (elt : Expr)
  /-- An `*ast.MapType` with value type `value`. -/
  | mapType (key value : Expr)
  /-- An `*ast.InterfaceType`. -/
  | interfaceType
  /-- Any other node, with the text `fmt.Sprint` prints for it. -/
  | other (printed : String)
  deriving DecidableEq, Repr

/-- A struct tag as `reflect.StructTag.Get` reads it: the key/value pairs of the tag
literal, in order; `Get` returns the value of the first pair with the key, or `""`. -/
abbrev StructTag := List (String × String)

/-- Go `reflect.StructTag.Get`. -/
def StructTag.Get (tag : StructTag) (key : String) : String :=
  match tag.find? (fun kv => kv.1 = key) with
  | some kv => kv.2
  | none => ""

/-- An `ast.Field` of a struct type. -/
structure Field where
  -- `Type_` is the Go field `Type`
  Names : List String
  Type_ : Expr
  Tag : Option StructTag
  deriving DecidableEq, Repr

/-- The `Type` of an `ast.TypeSpec`, as far as `ParseModel` distinguishes it. -/
inductive TypeExpr where
  /-- A type definition over an identifier, `type X U` with `U` an `*ast.Ident`; a
  package-qualified `type X pkg.U` is a selector expression and falls under `other`. -/
  | ident (name : String)
  /-- A struct type with its field list. -/
  | structType (fields : List Field)
  /-- Any other type expression. -/
  | other
  deriving DecidableEq, Repr

/-- An `ast.TypeSpec`. -/
structure TypeSpec where
  Name : String
  Type_ : TypeExpr
  deriving DecidableEq, Repr

/-! ## The document (`structs.go`) -/

structure ReferenceObject where
  Ref : String := ""
  deriving DecidableEq, Repr

structure ModelPropertyItems where
  Ref : String := ""
  Type_ : String := ""
  deriving DecidableEq, Repr

structure ModelProperty where
  Ref : String := ""
  Type_ : String := ""
  Description : String := ""
  Format : String := ""
  Items : ModelPropertyItems := {}
  deriving DecidableEq, Repr

structure Model where
  Id : String := ""
  Required : List String := []
  Properties : GoMap ModelProperty := []
  deriving DecidableEq, Repr

structure SchemaObject where
  Ref : String := ""
  Type_ : String := ""
  Required : List String := []
  Properties : GoMap ModelProperty := []
  Items : Option ReferenceObject := none
  deriving DecidableEq, Repr

structure ResponseObject where
  Description : String := ""
  Schema : Option SchemaObject := none
  deriving DecidableEq, Repr

structure ParameterObject where
  Name : String := ""
  In : String := ""
  Description : String := ""
  Required : Bool := false
  Schema : Option SchemaObject := none
  Type_ : String := ""
  Format : String := ""
  deriving DecidableEq, Repr

structure TagObject where
  Name : String := ""
  Description : String := ""
  deriving DecidableEq, Repr

/-- A `PathItemObject`: each method slot holds the address of the attached operation. -/
structure PathItemObject where
  Get : Option Nat := none
  Put : Option Nat := none
  Post : Option Nat := none
  Delete : Option Nat := none
  Options : Option Nat := none
  Head : Option Nat := none
  Patch : Option Nat := none
  deriving DecidableEq, Repr

/-- An `OperationObject`; `addr` is the address of the Go object, the value a
`*OperationObject` stored in a path item holds. -/
structure OperationObject where
  addr : Nat := 0
  Tags : List String := []
  Summary : String := ""
  Description : String := ""
  Consumes : List String := []
  Produces : List String := []
  Parameters : List ParameterObject := []
  Responses : GoMap ResponseObject := []
  packageName : String := ""
  deriving DecidableEq, Repr

structure SwaggerObject where
  Paths : GoMap PathItemObject := []
  Definitions : GoMap SchemaObject := []
  Tags : List TagObject := []
  deriving DecidableEq, Repr

/-- The `Parser` together with the package-level tables `typeDefTranslations` and
`modelNamesPackageNames`.  `PackagePathCache` stands for `CheckRealPackagePath`: it holds
the real path of every package found on disk, a package without an entry is not
found. -/
structure Parser where
  Swagger : SwaggerObject := {}
  CurrentPackage : String := ""
  TypeDefinitions : GoMap (GoMap TypeSpec) := []
  PackagePathCache : GoMap String := []
  PackageImports : GoMap (GoMap (List String)) := []
  Ignore : String := ""
  TypesImplementingMarshalInterface : GoMap String := []
  typeDefTranslations : GoMap String := []
  modelNamesPackageNames : GoMap String := []
  deriving DecidableEq, Repr

/-- The result of a computation that may end the process (`log.Fatalf`) or exceed the
recursion budget of the embedding. -/
inductive Outcome (α : Type) where
  | ok (a : α)
  | fatal
  | outOfFuel
  deriving DecidableEq, Repr

/-! ## Primitive types -/

def basicTypes : GoMap Bool :=
  [("bool", true), ("uint", true), ("uint8", true), ("uint16", true), ("uint32", true),
   ("uint64", true), ("int", true), ("int8", true), ("int16", true), ("int32", true),
   ("int64", true), ("float32", true), ("float64", true), ("string", true),
   ("complex64", true), ("complex128", true), ("byte", true), ("rune", true),
   ("uintptr", true), ("error", true), ("Time", true), ("file", true), ("undefined", true)]

def basicTypesSwaggerTypes : GoMap String :=
  [("bool", "boolean"), ("uint", "integer"), ("uint8", "integer"), ("uint16", "integer"),
   ("uint32", "integer"), ("uint64", "integer"), ("int", "integer"), ("int8", "integer"),
   ("int16", "integer"), ("int32", "integer"), ("int64", "integer"), ("float32", "number"),
   ("float64", "number"), ("string", "string"), ("file", "formData")]

def basicTypesSwaggerFormats : GoMap String :=
  [("bool", "boolean"), ("uint", "integer"), ("uint8", "int64"), ("uint16", "int64"),
   ("uint32", "int64"), ("uint64", "int64"), ("int", "int64"), ("int8", "int64"),
   ("int16", "int64"), ("int32", "int64"), ("int64", "int64"), ("float32", "float"),
   ("float64", "double"), ("string", "string")]

def IsBasicType (typeName : String) : Bool :=
  GoMap.has basicTypes typeName || strings.Contains typeName "interface"

def IsBasicTypeSwaggerType (typeName : String) : Bool :=
  GoMap.has basicTypesSwaggerTypes typeName || strings.Contains typeName "interface"

/-- A map read `m[k]` whose missing value is the empty string. -/
def GoMap.getStr (m : GoMap String) (key : String) : String := (GoMap.get m key).getD ""

/-! ## Locating declarations -/

def CheckRealPackagePath (parser : Parser) (packagePath : String) : String :=
  (GoMap.get parser.PackagePathCache (strings.Trim packagePath "\"")).getD ""

def GetModelDefinition (parser : Parser) (model packageName : String) : Option TypeSpec :=
  let pkgRealPath := CheckRealPackagePath parser packageName
  if pkgRealPath = "" then none
  else
    match GoMap.get parser.TypeDefinitions pkgRealPath with
    | none => none
    | some packageModels => GoMap.get packageModels model

/-- The loop of `FindModelDefinition` over the candidate packages of an alias. -/
def findInPackages (parser : Parser) (model : String) : List String → Option (TypeSpec × String)
  | [] => none
  | packageName :: rest =>
    match GetModelDefinition parser model packageName with
    | some spec => some (spec, packageName)
    | none => findInPackages parser model rest

def FindModelDefinition (parser : Parser) (modelName currentPackage : String) :
    Outcome (TypeSpec × String) :=
  let modelNameParts := strings.Split modelName '.'
  if modelNameParts.length = 1 then
    match GetModelDefinition parser modelName currentPackage with
    | none => Outcome.fatal
    | some model => Outcome.ok (model, currentPackage)
  else
    let absolutePackageName := strings.Join modelNameParts.dropLast "/"
    let modelNameFromPath := modelNameParts.getLastD ""
    match GetModelDefinition parser modelNameFromPath absolutePackageName with
    | some model => Outcome.ok (model, absolutePackageName)
    | none =>
      if modelNameParts.length > 2 then Outcome.fatal
      else
        let pkgRealPath := CheckRealPackagePath parser currentPackage
        match GoMap.get parser.PackageImports pkgRealPath with
        | none => Outcome.fatal
        | some imports =>
          match GoMap.get imports (modelNameParts.headD "") with
          | none => Outcome.fatal
          | some relativePackage =>
            match findInPackages parser modelNameFromPath relativePackage with
            | some found => Outcome.ok found
            | none => Outcome.fatal

def IsImplementMarshalInterface (parser : Parser) (typeName : String) : Bool :=
  GoMap.has parser.TypesImplementingMarshalInterface typeName

/-! ## The type resolution engine -/

/-- Go `fmt.Sprint` of an expression node. -/
def fmtSprint : Operand → String
  | Operand.ident name => name
  | Operand.selector x sel => "&\x7b" ++ x ++ " " ++ sel ++ "\x7d"
  | Operand.other printed => printed

def GetTypeAsString : Expr → String
  | Expr.array elt => "[]" ++ GetTypeAsString elt
  | Expr.mapType _ value => "[]" ++ GetTypeAsString value
  | Expr.interfaceType => "interface"
  | Expr.star x => fmtSprint x
  | Expr.selector x sel => x ++ "." ++ sel
  | Expr.ident name => fmtSprint (Operand.ident name)
  | Expr.other printed => fmtSprint (Operand.other printed)

/-- The pattern `&\{(\w*) (\w*)\}` of `ParseModelProperty`. -/
def reInternalRepresentation : List regexp.Atom :=
  [.one (fun c => c = '&'), .one (fun c => c = '{'),
   .gopen 1, .star regexp.isWord, .gclose 1, .one (fun c => c = ' '),
   .gopen 2, .star regexp.isWord, .gclose 2, .one (fun c => c = '}')]

def NewModelProperty : ModelProperty := {}

def NewModel : Model := {}

def SetItemType (p : ModelProperty) (itemType : String) : ModelProperty :=
  if IsBasicType itemType then
    if IsBasicTypeSwaggerType itemType then
      { p with Items := { Type_ := GoMap.getStr basicTypesSwaggerTypes itemType } }
    else { p with Items := { Type_ := "undefined" } }
  else { p with Items := { Ref := itemType } }

/-- The outcome of `ParseModel`: the tables it wrote, the visited set, the receiver, and
the two results of the Go function. -/
structure ModelResult where
  parser : Parser
  knownModelNames : GoMap Bool
  m : Model
  err : Option String
  innerModels : List Model
  deriving DecidableEq, Repr

/-- The signature of `ParseModel` without its recursion budget: parser, visited set,
receiver, model name, current package. -/
abbrev ModelParser := Parser → GoMap Bool → Model → String → String → Outcome ModelResult

/-- The loop of `ParseModelProperty` over the comma-separated tag values; `none` is the
`return` taken at the value `-`. -/
def scanTagValues : List String → String → Bool → Option (String × Bool)
  | [], name, isRequired => some (name, isRequired)
  | v :: rest, name, isRequired =>
    let name := if v ≠ "" ∧ v ≠ "required" ∧ v ≠ "omitempty" then v else name
    let isRequired := if v = "required" then true else isRequired
    if v = "-" then none else scanTagValues rest name isRequired

/-- The merge `m.Properties[k] = v` of every entry of `src` into `dst`. -/
def mergeProperties (dst src : GoMap ModelProperty) : GoMap ModelProperty :=
  src.foldl (fun acc kv => GoMap.set acc kv.1 kv.2) dst

/-- The name `ParseModelProperty` gives an embedded field; `none` is the `log.Fatalf`
of the last branch. -/
def embeddedName : Expr → Option String
  | Expr.selector x sel => some (x ++ "." ++ strings.TrimPrefix sel "*")
  | Expr.ident name => some name
  | Expr.star (Operand.ident name) => some name
  | Expr.star _ => some ""
  | _ => none

/-- The type of a field as text (`ParseModelProperty`): `GetTypeAsString` followed by the
normalisation of `&{foo Bar}` to `foo.Bar`. -/
def fieldTypeString (field : Field) : String :=
  let typeAsString := GetTypeAsString field.Type_
  ⟨regexp.replaceAllDot reInternalRepresentation (typeAsString.length + 1) typeAsString.data⟩

/-- The property `ParseModelProperty` builds from the type text of a field. -/
def typeProperty (typeAsString : String) : ModelProperty :=
  let property := NewModelProperty
  if strings.HasPrefix typeAsString "[]" then
    SetItemType { property with Type_ := "array" } (strings.sliceFrom typeAsString 2)
  else if typeAsString = "time.Time" then { property with Type_ := "Time" }
  else { property with Type_ := typeAsString }

/-- The part of `ParseModelProperty` that reads the tag of a named field and stores the
property. -/
def applyTag (m : Model) (property : ModelProperty) (name : String) (structTag : StructTag) :
    Model :=
  let tagText := ""
  let tagText := if structTag.Get "thrift" ≠ "" then structTag.Get "thrift" else tagText
  let tagText := if structTag.Get "json" ≠ "" then structTag.Get "json" else tagText
  let tagValues := strings.Split tagText ','
  match scanTagValues tagValues name false with
  | none => m
  | some (name, isRequired) =>
    let required := if structTag.Get "required" ≠ "" ∨ isRequired
      then m.Required ++ [name] else m.Required
    let property := if structTag.Get "description" ≠ ""
      then { property with Description := structTag.Get "description" } else property
    { m with Required := required, Properties := GoMap.set m.Properties name property }

def ParseModelProperty (parseModel : ModelParser) (parser : Parser) (m : Model) (field : Field)
    (modelPackage : String) : Outcome (Parser × Model) :=
  let typeAsString := fieldTypeString field
  let property := typeProperty typeAsString
  if strings.HasPrefix typeAsString "[]" ∧ property.Items.Type_ = "undefined" then
    Outcome.ok (parser, m)
  else if field.Names.length = 0 then
    match embeddedName field.Type_ with
    | none => Outcome.fatal
    | some name =>
      match parseModel parser [] NewModel name modelPackage with
      | Outcome.fatal => Outcome.fatal
      | Outcome.outOfFuel => Outcome.outOfFuel
      | Outcome.ok r =>
        Outcome.ok (r.parser, { m with Properties := mergeProperties m.Properties r.m.Properties })
  else
    let name := field.Names.headD ""
    match field.Tag with
    | none => Outcome.ok (parser, { m with Properties := GoMap.set m.Properties name property })
    | some structTag => Outcome.ok (parser, applyTag m property name structTag)

/-- The loop of `ParseFieldList` over the fields. -/
def parseFields (parseModel : ModelParser) (modelPackage : String) :
    List Field → Parser → Model → Outcome (Parser × Model)
  | [], parser, m => Outcome.ok (parser, m)
  | field :: rest, parser, m =>
    match ParseModelProperty parseModel parser m field modelPackage with
    | Outcome.ok (parser, m) => parseFields parseModel modelPackage rest parser m
    | Outcome.fatal => Outcome.fatal
    | Outcome.outOfFuel => Outcome.outOfFuel

def ParseFieldList (parseModel : ModelParser) (parser : Parser) (m : Model)
    (fieldList : List Field) (modelPackage : String) : Outcome (Parser × Model) :=
  if fieldList = [] then Outcome.ok (parser, m)
  else parseFields parseModel modelPackage fieldList parser { m with Properties := [] }

/-- The type name the first loop of `ParseModel` reads off a property: the type, for an
array the item type or else the item reference, and its translation when
`typeDefTranslations` has one. -/
def propertyTypeName (parser : Parser) (property : ModelProperty) : String :=
  let typeName := property.Type_
  let typeName :=
    if typeName = "array" then
      (if property.Items.Type_ ≠ "" then property.Items.Type_ else property.Items.Ref)
    else typeName
  match GoMap.get parser.typeDefTranslations typeName with
  | some translation => translation
  | none => typeName

/-- One round of the first loop of `ParseModel`: the property as the loop leaves it and
the type name the round adds to `usedTypes`, if any. -/
def scanProperty (parser : Parser) (knownModelNames : GoMap Bool) (property : ModelProperty) :
    ModelProperty × Option String :=
  let typeName := propertyTypeName parser property
  if IsBasicType typeName then
    if IsBasicTypeSwaggerType typeName then
      let property := { property with Format := GoMap.getStr basicTypesSwaggerFormats typeName }
      if property.Type_ ≠ "array" then
        ({ property with Type_ := GoMap.getStr basicTypesSwaggerTypes typeName }, none)
      else (property, none)
    else (property, none)
  else if IsImplementMarshalInterface parser typeName then (property, none)
  else if GoMap.has knownModelNames typeName then
    if GoMap.has parser.modelNamesPackageNames typeName then
      ({ property with Ref := "#/definitions/" ++ GoMap.getStr parser.modelNamesPackageNames typeName },
        none)
    else (property, none)
  else (property, some typeName)

/-- The first loop of `ParseModel`: the properties as the loop leaves them and the set
`usedTypes`. -/
def scanProperties (parser : Parser) (knownModelNames : GoMap Bool) :
    GoMap ModelProperty → GoMap Bool → GoMap ModelProperty × GoMap Bool
  | [], usedTypes => ([], usedTypes)
  | (k, property) :: rest, usedTypes =>
    let r := scanProperty parser knownModelNames property
    let usedTypes := match r.2 with
      | some typeName => GoMap.set usedTypes typeName true
      | none => usedTypes
    let tail := scanProperties parser knownModelNames rest usedTypes
    ((k, r.1) :: tail.1, tail.2)

/-- The back-patch of one property once the model of `typeName` has the id `id`. -/
def backPatch (typeName id : String) (property : ModelProperty) : ModelProperty :=
  if property.Type_ = "array" then
    if property.Items.Ref = typeName then
      { property with Items := { property.Items with Ref := "#/definitions/" ++ id } }
    else property
  else if property.Type_ = typeName then { property with Ref := "#/definitions/" ++ id }
  else property

/-- The second loop of `ParseModel`, over `usedTypes`. -/
def parseUsedTypes (parseModel : ModelParser) (modelPackage : String) :
    List String → Parser → GoMap Bool → Model → List Model → Outcome ModelResult
  | [], parser, knownModelNames, m, innerModelList =>
    Outcome.ok ⟨parser, knownModelNames, m, none, innerModelList⟩
  | typeName :: rest, parser, knownModelNames, m, innerModelList =>
    match parseModel parser knownModelNames NewModel typeName modelPackage with
    | Outcome.fatal => Outcome.fatal
    | Outcome.outOfFuel => Outcome.outOfFuel
    | Outcome.ok r =>
      match r.err with
      | some err => Outcome.ok ⟨r.parser, r.knownModelNames, m, some err, []⟩
      | none =>
        let m := { m with
          Properties := m.Properties.map (fun kv => (kv.1, backPatch typeName r.m.Id kv.2)) }
        parseUsedTypes parseModel modelPackage rest r.parser r.knownModelNames m
          (innerModelList ++ r.m :: r.innerModels)

/-- The id `ParseModel` gives a model: the segments of the package path followed by the
last component of the model name, joined with dots. -/
def canonicalId (modelPackage modelName : String) : String :=
  let modelNameParts := strings.Split modelName '.'
  strings.Join (strings.Split modelPackage '/' ++ [modelNameParts.getLastD ""]) "."

/-- The entry `modelNamesPackageNames[modelName] = id` that `ParseModel` makes when the
name has none. -/
def recordModelName (parser : Parser) (modelName id : String) : Parser :=
  if GoMap.has parser.modelNamesPackageNames modelName then parser
  else { parser with
    modelNamesPackageNames := GoMap.set parser.modelNamesPackageNames modelName id }

/-- The body of `ParseModel`; `parseModel` stands for its recursive calls.  The second
loop visits the keys of `usedTypes` in the order of their insertion, one of the orders Go
may take; `ParseModelBodyIn` below takes the order as a parameter. -/
def ParseModelBody (parseModel : ModelParser) : ModelParser :=
  fun parser knownModelNames m modelName currentPackage =>
  let knownModelNames := GoMap.set knownModelNames modelName true
  match FindModelDefinition parser modelName currentPackage with
  | Outcome.fatal => Outcome.fatal
  | Outcome.outOfFuel => Outcome.outOfFuel
  | Outcome.ok (astTypeSpec, modelPackage) =>
    let m := { m with Id := canonicalId modelPackage modelName }
    let parser := recordModelName parser modelName m.Id
    match astTypeSpec.Type_ with
    | TypeExpr.ident name =>
      Outcome.ok ⟨{ parser with
          typeDefTranslations := GoMap.set parser.typeDefTranslations astTypeSpec.Name name },
        knownModelNames, m, none, []⟩
    | TypeExpr.structType fields =>
      match ParseFieldList parseModel parser m fields modelPackage with
      | Outcome.fatal => Outcome.fatal
      | Outcome.outOfFuel => Outcome.outOfFuel
      | Outcome.ok (parser, m) =>
        let scanned := scanProperties parser knownModelNames m.Properties []
        let m := { m with Properties := scanned.1 }
        parseUsedTypes parseModel modelPackage (GoMap.keys scanned.2) parser knownModelNames m []
    | TypeExpr.other => Outcome.ok ⟨parser, knownModelNames, m, none, []⟩

/-- `ParseModel` with a budget for the depth of its recursion. -/
def ParseModel : Nat → ModelParser
  | 0 => fun _ _ _ _ _ => Outcome.outOfFuel
  | fuel + 1 => ParseModelBody (ParseModel fuel)

/-- The merge of one model into `Definitions` (`registerType`): the entry is created
when the id is new, then every property is written into it. -/
def registerModel (definitions : GoMap SchemaObject) (m : Model) : GoMap SchemaObject :=
  let definitions :=
    if GoMap.has definitions m.Id then definitions
    else GoMap.set definitions m.Id { Type_ := "object", Required := m.Required, Properties := [] }
  match GoMap.get definitions m.Id with
  | some schema =>
    GoMap.set definitions m.Id { schema with Properties := mergeProperties schema.Properties m.Properties }
  | none => definitions

def registerType (fuel : Nat) (parser : Parser) (typeName : String) :
    Outcome (Parser × String × Option String) :=
  match GoMap.get parser.typeDefTranslations typeName with
  | some translation => Outcome.ok (parser, translation, none)
  | none =>
    if IsBasicType typeName then Outcome.ok (parser, typeName, none)
    else
      match ParseModel fuel parser [] NewModel typeName parser.CurrentPackage with
      | Outcome.fatal => Outcome.fatal
      | Outcome.outOfFuel => Outcome.outOfFuel
      | Outcome.ok r =>
        match r.err with
        | some err => Outcome.ok (r.parser, "", some err)
        | none =>
          match GoMap.get r.parser.typeDefTranslations typeName with
          | some translation => Outcome.ok (r.parser, translation, none)
          | none =>
            let definitions := registerModel r.parser.Swagger.Definitions r.m
            let definitions := r.innerModels.foldl registerModel definitions
            Outcome.ok ({ r.parser with Swagger := { r.parser.Swagger with Definitions := definitions } },
              r.m.Id, none)

/-- The body of `ParseModel` with the order of the second loop as a parameter.  Go leaves
the order in which `for typeName := range usedTypes` visits the keys unspecified; `order`
maps the keys of `usedTypes` to the sequence in which the loop visits them (a rearrangement
of the keys).  `ParseModelBody` is the case in which the keys are visited in the order of
their insertion. -/
def ParseModelBodyIn (order : List String → List String) (parseModel : ModelParser) :
    ModelParser :=
  fun parser knownModelNames m modelName currentPackage =>
  let knownModelNames := GoMap.set knownModelNames modelName true
  match FindModelDefinition parser modelName currentPackage with
  | Outcome.fatal => Outcome.fatal
  | Outcome.outOfFuel => Outcome.outOfFuel
  | Outcome.ok (astTypeSpec, modelPackage) =>
    let m := { m with Id := canonicalId modelPackage modelName }
    let parser := recordModelName parser modelName m.Id
    match astTypeSpec.Type_ with
    | TypeExpr.ident name =>
      Outcome.ok ⟨{ parser with
          typeDefTranslations := GoMap.set parser.typeDefTranslations astTypeSpec.Name name },
        knownModelNames, m, none, []⟩
    | TypeExpr.structType fields =>
      match ParseFieldList parseModel parser m fields modelPackage with
      | Outcome.fatal => Outcome.fatal
      | Outcome.outOfFuel => Outcome.outOfFuel
      | Outcome.ok (parser, m) =>
        let scanned := scanProperties parser knownModelNames m.Properties []
        let m := { m with Properties := scanned.1 }
        parseUsedTypes parseModel modelPackage (order (GoMap.keys scanned.2)) parser
          knownModelNames m []
    | TypeExpr.other => Outcome.ok ⟨parser, knownModelNames, m, none, []⟩

/-- `ParseModel` with a budget for the depth of its recursion and the order of the second
loop as a parameter. -/
def ParseModelIn (order : List String → List String) : Nat → ModelParser
  | 0 => fun _ _ _ _ _ => Outcome.outOfFuel
  | fuel + 1 => ParseModelBodyIn order (ParseModelIn order fuel)

/-- `registerType` with the order of the second loop of `ParseModel` as a parameter. -/
def registerTypeIn (order : List String → List String) (fuel : Nat) (parser : Parser)
    (typeName : String) : Outcome (Parser × String × Option String) :=
  match GoMap.get parser.typeDefTranslations typeName with
  | some translation => Outcome.ok (parser, translation, none)
  | none =>
    if IsBasicType typeName then Outcome.ok (parser, typeName, none)
    else
      match ParseModelIn order fuel parser [] NewModel typeName parser.CurrentPackage with
      | Outcome.fatal => Outcome.fatal
      | Outcome.outOfFuel => Outcome.outOfFuel
      | Outcome.ok r =>
        match r.err with
        | some err => Outcome.ok (r.parser, "", some err)
        | none =>
          match GoMap.get r.parser.typeDefTranslations typeName with
          | some translation => Outcome.ok (r.parser, translation, none)
          | none =>
            let definitions := registerModel r.parser.Swagger.Definitions r.m
            let definitions := r.innerModels.foldl registerModel definitions
            Outcome.ok ({ r.parser with Swagger := { r.parser.Swagger with Definitions := definitions } },
              r.m.Id, none)

/-! ## The annotation parser -/

namespace strconv

/-- The value of a run of decimal digits; `none` when a character is not a digit. -/
def digitsValue : List Char → Nat → Option Nat
  | [], acc => some acc
  | c :: cs, acc =>
    if regexp.isDigit c then digitsValue cs (acc * 10 + (c.toNat - 48)) else none

/-- Go `strconv.Atoi` on a 64-bit platform: an optional sign and decimal digits, an
error (`none`) for any other text and for a value outside the range of `int`. -/
def Atoi (s : String) : Option Int :=
  match s.data with
  | [] => none
  | '-' :: ds =>
    if ds = [] then none
    else match digitsValue ds 0 with
      | some n => if n ≤ 2 ^ 63 then some (- (n : Int)) else none
      | none => none
  | '+' :: ds =>
    if ds = [] then none
    else match digitsValue ds 0 with
      | some n => if n < 2 ^ 63 then some (n : Int) else none
      | none => none
  | ds =>
    match digitsValue ds 0 with
    | some n => if n < 2 ^ 63 then some (n : Int) else none
    | none => none

end strconv

/-- Go `fmt.Sprint` of an `int`. -/
def fmtSprintInt (n : Int) : String :=
  if n < 0 then "-" ++ Nat.repr n.natAbs else Nat.repr n.natAbs

/-- Modelled from the spec: the helper `IsInStringList` is not among the source files;
the `@resource` row of the tag table has the operation's tag list hold a name once, so the
helper is the membership test of a string in a list. -/
def IsInStringList (list : List String) (s : String) : Bool := list.contains s

def ContentTypeJson : String := "application/json"
def ContentTypeXml : String := "application/xml"
def ContentTypePlain : String := "text/plain"
def ContentTypeHtml : String := "text/html"
def ContentTypeMultiPartFormData : String := "multipart/form-data"

def NewOperationObject (addr : Nat) (packageName : String) : OperationObject :=
  { addr := addr, packageName := packageName, Responses := [] }

/-- The pattern `([\w\.\/\-{}]+)[^\[]+\[([^\]]+)` of `ParseRouterComment`. -/
def reRouter : List regexp.Atom :=
  [.gopen 1,
   .plus (fun c => regexp.isWord c || c = '.' || c = '/' || c = '-' || c = '{' || c = '}'),
   .gclose 1, .plus (fun c => c ≠ '['), .one (fun c => c = '['),
   .gopen 2, .plus (fun c => c ≠ ']'), .gclose 2]

/-- The pattern `([\d]+)[\s]+([\w\{\}]+)[\s]+([\w\-\.\/]+)[^"]*(.*)?` of
`ParseResponseComment`.  The last group is optional and greedy: its body `.*` matches at
any position, so the group always takes part and holds the rest of the line. -/
def reResponse : List regexp.Atom :=
  [.gopen 1, .plus regexp.isDigit, .gclose 1, .plus regexp.isBlank,
   .gopen 2, .plus (fun c => regexp.isWord c || c = '{' || c = '}'), .gclose 2,
   .plus regexp.isBlank,
   .gopen 3, .plus (fun c => regexp.isWord c || c = '-' || c = '.' || c = '/'), .gclose 3,
   .star (fun c => c ≠ '"'),
   .gopen 4, .star (fun c => c ≠ '\n'), .gclose 4]

/-- The pattern `([-\w]+)[\s]+([\w]+)[\s]+([\w.]+)[\s]+([\w]+)[\s]+"([^"]+)"` of
`ParseParamComment`. -/
def reParam : List regexp.Atom :=
  [.gopen 1, .plus (fun c => c = '-' || regexp.isWord c), .gclose 1, .plus regexp.isBlank,
   .gopen 2, .plus regexp.isWord, .gclose 2, .plus regexp.isBlank,
   .gopen 3, .plus (fun c => regexp.isWord c || c = '.'), .gclose 3, .plus regexp.isBlank,
   .gopen 4, .plus regexp.isWord, .gclose 4, .plus regexp.isBlank,
   .one (fun c => c = '"'), .gopen 5, .plus (fun c => c ≠ '"'), .gclose 5,
   .one (fun c => c = '"')]

/-- The pattern `([^\s]+)[\s]+"([^"]+)"` of the `@resource` case of `ParseComment`. -/
def reResource : List regexp.Atom :=
  [.gopen 1, .plus (fun c => !regexp.isBlank c), .gclose 1, .plus regexp.isBlank,
   .one (fun c => c = '"'), .gopen 2, .plus (fun c => c ≠ '"'), .gclose 2,
   .one (fun c => c = '"')]

/-- The method switch of `ParseRouterComment` on one path item: the slot of the method
is filled with the operation when it is empty. -/
def attachOperation (item : PathItemObject) (method : String) (operation : Nat) : PathItemObject :=
  if method = "GET" then (if item.Get = none then { item with Get := some operation } else item)
  else if method = "POST" then
    (if item.Post = none then { item with Post := some operation } else item)
  else if method = "PATCH" then
    (if item.Patch = none then { item with Patch := some operation } else item)
  else if method = "PUT" then (if item.Put = none then { item with Put := some operation } else item)
  else if method = "DELETE" then
    (if item.Delete = none then { item with Delete := some operation } else item)
  else if method = "OPTIONS" then
    (if item.Options = none then { item with Options := some operation } else item)
  else if method = "HEAD" then
    (if item.Head = none then { item with Head := some operation } else item)
  else item

def ParseRouterComment (parser : Parser) (operation : OperationObject) (commentLine : String) :
    Parser × Option String :=
  let sourceString := strings.TrimSpace (strings.sliceFrom commentLine "@Router".length)
  match regexp.FindStringSubmatch reRouter 2 sourceString with
  | [_, path, method] =>
    let paths := parser.Swagger.Paths
    let paths := if GoMap.has paths path then paths else GoMap.set paths path {}
    let item := (GoMap.get paths path).getD {}
    let paths := GoMap.set paths path (attachOperation item (strings.ToUpper method) operation.addr)
    ({ parser with Swagger := { parser.Swagger with Paths := paths } }, none)
  | _ => (parser, some ("Can not parse router comment \"" ++ commentLine ++ "\", skipped."))

def ParseResponseComment (fuel : Nat) (parser : Parser) (operation : OperationObject)
    (commentLine : String) : Outcome (Parser × OperationObject × Option String) :=
  match regexp.FindStringSubmatch reResponse 4 commentLine with
  | [_, m1, m2, m3, m4] =>
    -- `var code int`: the `code` that `strconv.Atoi` assigns is a new variable of the
    -- `if` statement, this one keeps its zero value
    let code : Int := 0
    match strconv.Atoi m1 with
    | none => Outcome.ok (parser, operation, some "Success http code must be int")
    | some code1 =>
      let key := fmtSprintInt code1
      let response : ResponseObject := { Schema := some {} }
      let response := { response with Description := strings.Trim m4 "\"" }
      match registerType fuel parser m3 with
      | Outcome.fatal => Outcome.fatal
      | Outcome.outOfFuel => Outcome.outOfFuel
      | Outcome.ok (parser, _, some err) =>
        Outcome.ok (parser,
          { operation with Responses := GoMap.set operation.Responses key response }, some err)
      | Outcome.ok (parser, typeName, none) =>
        let schema : SchemaObject := {}
        let schema :=
          if GoMap.has parser.Swagger.Definitions typeName then
            { schema with Ref := "#/definitions/" ++ typeName }
          else { schema with Type_ := strings.Trim m2 "{}" }
        let schema :=
          if code = 200 then
            if m2 = "{array}" then
              { schema with Type_ := "array", Items := some { Ref := "#/definitions/" ++ typeName } }
            else { schema with Type_ := typeName }
          else schema
        let response := { response with Schema := some schema }
        Outcome.ok (parser,
          { operation with Responses := GoMap.set operation.Responses key response }, none)
  | _ =>
    Outcome.ok (parser, operation,
      some ("Can not parse response comment \"" ++ commentLine ++ "\", skipped."))

def ParseParamComment (fuel : Nat) (parser : Parser) (operation : OperationObject)
    (commentLine : String) : Outcome (Parser × OperationObject × Option String) :=
  let swaggerParameter : ParameterObject := {}
  let paramString := commentLine
  match regexp.FindStringSubmatch reParam 5 paramString with
  | [_, m1, m2, m3, m4, m5] =>
    match registerType fuel parser m3 with
    | Outcome.fatal => Outcome.fatal
    | Outcome.outOfFuel => Outcome.outOfFuel
    | Outcome.ok (parser, _, some err) => Outcome.ok (parser, operation, some err)
    | Outcome.ok (parser, typeName, none) =>
      let swaggerParameter := { swaggerParameter with Name := m1, In := m2 }
      let swaggerParameter :=
        if IsBasicTypeSwaggerType typeName then
          { swaggerParameter with
            Type_ := GoMap.getStr basicTypesSwaggerTypes typeName,
            Format := GoMap.getStr basicTypesSwaggerFormats typeName }
        else if GoMap.has parser.Swagger.Definitions typeName then
          { swaggerParameter with Schema := some { Ref := "#/definitions/" ++ typeName } }
        else { swaggerParameter with Type_ := typeName }
      let requiredText := strings.ToLower m4
      let swaggerParameter :=
        { swaggerParameter with
          Required := (requiredText = "true" || requiredText = "required"),
          Description := m5 }
      Outcome.ok (parser,
        { operation with Parameters := operation.Parameters ++ [swaggerParameter] }, none)
  | _ =>
    Outcome.ok (parser, operation,
      some ("Can not parse param comment \"" ++ paramString ++ "\", skipped."))

/-- The switch of `ParseAcceptComment` and `ParseProduceComment` on one token: the media
type appended for it, if any. -/
def contentTypeOf (a : String) : Option String :=
  if a = "json" ∨ a = "application/json" then some ContentTypeJson
  else if a = "xml" ∨ a = "text/xml" then some ContentTypeXml
  else if a = "plain" ∨ a = "text/plain" then some ContentTypePlain
  else if a = "html" ∨ a = "text/html" then some ContentTypeHtml
  else if a = "mpfd" ∨ a = "multipart/form-data" then some ContentTypeMultiPartFormData
  else none

def ParseAcceptComment (operation : OperationObject) (commentLine : String) :
    OperationObject × Option String :=
  let accepts := strings.Split commentLine ','
  ({ operation with
    Consumes := accepts.foldl (fun acc a =>
      match contentTypeOf a with
      | some t => acc ++ [t]
      | none => acc) operation.Consumes }, none)

def ParseProduceComment (operation : OperationObject) (commentLine : String) :
    OperationObject × Option String :=
  let produces := strings.Split commentLine ','
  ({ operation with
    Produces := produces.foldl (fun acc a =>
      match contentTypeOf a with
      | some t => acc ++ [t]
      | none => acc) operation.Produces }, none)

/-- The `@resource` case of `ParseComment`. -/
def parseResource (parser : Parser) (operation : OperationObject) (commentLine attributeName : String) :
    Parser × OperationObject :=
  let resource := strings.TrimSpace (strings.sliceFrom commentLine attributeName.length)
  let r : Parser × String :=
    match regexp.FindStringSubmatch reResource 2 resource with
    | [_, name, description] =>
      let isExist := parser.Swagger.Tags.any (fun t => t.Name = name)
      let tags := if !isExist
        then parser.Swagger.Tags ++ [{ Name := name, Description := description }]
        else parser.Swagger.Tags
      ({ parser with Swagger := { parser.Swagger with Tags := tags } }, name)
    | _ => (parser, resource)
  let resource := if r.2 = "" then "others" else r.2
  let operation := if !IsInStringList operation.Tags resource
    then { operation with Tags := operation.Tags ++ [resource] } else operation
  (r.1, operation)

def ParseComment (fuel : Nat) (parser : Parser) (operation : OperationObject) (comment : String) :
    Outcome (Parser × OperationObject × Option String) :=
  let commentLine := strings.TrimSpace (strings.TrimLeft comment "//")
  if commentLine.length = 0 then Outcome.ok (parser, operation, none)
  else
    let attributeName := (strings.Fields commentLine).headD ""
    let tag := strings.ToLower attributeName
    let content := strings.TrimSpace (strings.sliceFrom commentLine attributeName.length)
    if tag = "@router" then
      let r := ParseRouterComment parser operation commentLine
      Outcome.ok (r.1, operation, r.2)
    else if tag = "@resource" then
      let r := parseResource parser operation commentLine attributeName
      Outcome.ok (r.1, r.2, none)
    else if tag = "@title" then Outcome.ok (parser, { operation with Summary := content }, none)
    else if tag = "@description" then
      Outcome.ok (parser, { operation with Description := content }, none)
    else if tag = "@success" ∨ tag = "@failure" then ParseResponseComment fuel parser operation content
    else if tag = "@param" then ParseParamComment fuel parser operation content
    else if tag = "@accept" ∨ tag = "@consume" then
      let r := ParseAcceptComment operation content
      Outcome.ok (parser, r.1, r.2)
    else if tag = "@produce" then
      let r := ParseProduceComment operation content
      Outcome.ok (parser, r.1, r.2)
    else Outcome.ok (parser, operation, none)

/-- The loop of `ParseApiDescription` over the comment lines of one declaration: every
line is given to `ParseComment` in the written order; an error is logged and the next line
is processed. -/
def parseComments (fuel : Nat) :
    List String → Parser → OperationObject → Outcome (Parser × OperationObject)
  | [], parser, operation => Outcome.ok (parser, operation)
  | comment :: rest, parser, operation =>
    match ParseComment fuel parser operation comment with
    | Outcome.ok (parser, operation, _) => parseComments fuel rest parser operation
    | Outcome.fatal => Outcome.fatal
    | Outcome.outOfFuel => Outcome.outOfFuel

/-! ## The import table (`ParseImportStatements`) -/

/-- An `ast.ImportSpec`: the explicit name of the import, if any, and the path literal with
its quotes. -/
structure ImportSpec where
  Name : Option String
  Path : String
  deriving DecidableEq, Repr

/-- The pattern `appengine+` of `isIgnoredPackage`. -/
def reAppengine : List regexp.Atom :=
  [.one (fun c => c = 'a'), .one (fun c => c = 'p'), .one (fun c => c = 'p'),
   .one (fun c => c = 'e'), .one (fun c => c = 'n'), .one (fun c => c = 'g'),
   .one (fun c => c = 'i'), .one (fun c => c = 'n'), .plus (fun c => c = 'e')]

/-- The test `isIgnoredPackage`.  `matchIgnore` stands for
`regexp.MatchString(parser.Ignore, ·)`, whose pattern is the `-ignore` argument of the
program: `none` is the error of an invalid pattern, which ends the process. -/
def isIgnoredPackage (matchIgnore : String → Option Bool) (packageName : String) :
    Outcome Bool :=
  match matchIgnore packageName with
  | none => Outcome.fatal
  | some matched =>
    Outcome.ok (packageName = "C" || (regexp.search reAppengine packageName.data).isSome ||
      matched)

/-- The body of the loop of `ParseImportStatements` over the imports of a file. -/
def parseImport (matchIgnore : String → Option Bool) (pkgRealPath : String) (parser : Parser)
    (imports : GoMap Bool) (astImport : ImportSpec) : Outcome (Parser × GoMap Bool) :=
  let importedPackageName := strings.Trim astImport.Path "\""
  match isIgnoredPackage matchIgnore importedPackageName with
  | Outcome.fatal => Outcome.fatal
  | Outcome.outOfFuel => Outcome.outOfFuel
  | Outcome.ok true => Outcome.ok (parser, imports)
  | Outcome.ok false =>
    let realPath := CheckRealPackagePath parser importedPackageName
    let imports :=
      if GoMap.has parser.TypeDefinitions realPath then imports
      else GoMap.set imports importedPackageName true
    let importedPackageAlias :=
      match astImport.Name with
      | some name =>
        if name ≠ "." ∧ name ≠ "_" then name
        else (strings.Split importedPackageName '/').getLastD ""
      | none => (strings.Split importedPackageName '/').getLastD ""
    let table := (GoMap.get parser.PackageImports pkgRealPath).getD []
    let candidates := (GoMap.get table importedPackageAlias).getD []
    let isExists := candidates.any (fun v => v = importedPackageName)
    if !isExists then
      Outcome.ok ({ parser with
        PackageImports := GoMap.set parser.PackageImports pkgRealPath
          (GoMap.set table importedPackageAlias (candidates ++ [importedPackageName])) }, imports)
    else Outcome.ok (parser, imports)

/-- The loops of `ParseImportStatements` over packages, files and imports, flattened to
the sequence of imports they visit. -/
def parseImports (matchIgnore : String → Option Bool) (pkgRealPath : String) :
    List ImportSpec → Parser → GoMap Bool → Outcome (Parser × GoMap Bool)
  | [], parser, imports => Outcome.ok (parser, imports)
  | astImport :: rest, parser, imports =>
    match parseImport matchIgnore pkgRealPath parser imports astImport with
    | Outcome.ok (parser, imports) => parseImports matchIgnore pkgRealPath rest parser imports
    | Outcome.fatal => Outcome.fatal
    | Outcome.outOfFuel => Outcome.outOfFuel

/-- `ParseImportStatements`.  `astPackages` is what `GetPackageAst` returns for the real
path of the package, in the order the loops visit it: for each package of the directory its
files, and for each file the imports of the file.  `GetRealPackagePath` is
`CheckRealPackagePath` followed by a log line. -/
def ParseImportStatements (matchIgnore : String → Option Bool)
    (astPackages : List (List (List ImportSpec))) (parser : Parser) (packageName : String) :
    Outcome (Parser × GoMap Bool) :=
  let parser := { parser with CurrentPackage := packageName }
  let pkgRealPath := CheckRealPackagePath parser packageName
  let parser := { parser with
    PackageImports := GoMap.set parser.PackageImports pkgRealPath [] }
  parseImports matchIgnore pkgRealPath astPackages.flatten.flatten parser []

/-! ## Observations used in the statements -/

/-- The value of an outcome that returned. -/
def Outcome.value? {α : Type} : Outcome α → Option α
  | Outcome.ok a => some a
  | Outcome.fatal => none
  | Outcome.outOfFuel => none

/-- The HTTP methods that have a slot in a path item. -/
inductive Method where
  | get | post | put | patch | delete | options | head
  deriving DecidableEq, Repr

/-- The slot of a method in a path item. -/
def PathItemObject.slot (item : PathItemObject) : Method → Option Nat
  | Method.get => item.Get
  | Method.post => item.Post
  | Method.put => item.Put
  | Method.patch => item.Patch
  | Method.delete => item.Delete
  | Method.options => item.Options
  | Method.head => item.Head

/-- The slot `(path, method)` of the path table of the document. -/
def slotOf (parser : Parser) (path : String) (method : Method) : Option Nat :=
  (GoMap.get parser.Swagger.Paths path).bind (fun item => item.slot method)

/-- The path a `@router` line names, when the line matches the router pattern. -/
def routerPath (commentLine : String) : Option String :=
  match regexp.FindStringSubmatch reRouter 2
      (strings.TrimSpace (strings.sliceFrom commentLine "@Router".length)) with
  | [_, path, _] => some path
  | _ => none

/-- A sequence of `@router` lines, each issued by an operation of its own. -/
def routerLines (parser : Parser) (steps : List (OperationObject × String)) : Parser :=
  steps.foldl (fun p step => (ParseRouterComment p step.1 step.2).1) parser

/-! ## Example sources and predicates of the statements -/

/-- Package `models` declaring `type Pet struct { Name string; Age int }`, the second field
tagged `json:"age,omitempty"`. -/
def petParser : Parser :=
  { CurrentPackage := "models"
    PackagePathCache := [("models", "/go/src/models")]
    TypeDefinitions :=
      [("/go/src/models",
        [("Pet", ⟨"Pet", TypeExpr.structType
          [⟨["Name"], Expr.ident "string", none⟩,
           ⟨["Age"], Expr.ident "int", some [("json", "age,omitempty")]⟩]⟩)])] }

/-- Package `a/b` declaring `type Pet struct { Name string }`. -/
def nestedPetParser : Parser :=
  { CurrentPackage := "a/b"
    PackagePathCache := [("a/b", "/go/src/a/b")]
    TypeDefinitions :=
      [("/go/src/a/b",
        [("Pet", ⟨"Pet", TypeExpr.structType [⟨["Name"], Expr.ident "string", none⟩]⟩)])] }

/-- Package `models` declaring `type int string`, a type definition that shadows the
predeclared `int`. -/
def shadowParser : Parser :=
  { CurrentPackage := "models"
    PackagePathCache := [("models", "/go/src/models")]
    TypeDefinitions := [("/go/src/models", [("int", ⟨"int", TypeExpr.ident "string"⟩)])] }

/-- Package `models` declaring `type B struct { X int }` and
`type A struct { B; Y string }`, where `A` embeds `B`, and `type D struct { X string }`
and `type C struct { D; Y string }`, where `C` embeds `D`. -/
def embedParser : Parser :=
  { CurrentPackage := "models"
    PackagePathCache := [("models", "/go/src/models")]
    TypeDefinitions :=
      [("/go/src/models",
        [("B", ⟨"B", TypeExpr.structType [⟨["X"], Expr.ident "int", none⟩]⟩),
         ("A", ⟨"A", TypeExpr.structType
            [⟨[], Expr.ident "B", none⟩, ⟨["Y"], Expr.ident "string", none⟩]⟩),
         ("D", ⟨"D", TypeExpr.structType [⟨["X"], Expr.ident "string", none⟩]⟩),
         ("C", ⟨"C", TypeExpr.structType
            [⟨[], Expr.ident "D", none⟩, ⟨["Y"], Expr.ident "string", none⟩]⟩)])] }

/-- The parser without the two package-level tables that `ParseModel` writes. -/
def Parser.frame (parser : Parser) : Parser :=
  { parser with typeDefTranslations := [], modelNamesPackageNames := [] }

/-- The names of the Tags catalogue of the document. -/
def tagNames (parser : Parser) : List String := parser.Swagger.Tags.map (fun t => t.Name)

/-- The comment line `ParseComment` works on: the comment without its markers and
surrounding white space. -/
def commentLineOf (comment : String) : String :=
  strings.TrimSpace (strings.TrimLeft comment "//")

/-- The tag token of a comment, as `ParseComment` reads it. -/
def attributeOf (comment : String) : String := (strings.Fields (commentLineOf comment)).headD ""

/-- The content that follows the tag token of a comment. -/
def contentOf (comment : String) : String :=
  strings.TrimSpace (strings.sliceFrom (commentLineOf comment) (attributeOf comment).length)

/-- One call of `ParseComment` that returns, by any operation on any comment: the step
relation of the document. -/
def CommentStep (parser parser1 : Parser) : Prop :=
  ∃ (fuel : Nat) (operation : OperationObject) (comment : String) (operation1 : OperationObject)
    (err : Option String),
    ParseComment fuel parser operation comment = Outcome.ok (parser1, operation1, err)
/-- A model parser that writes the two package-level tables only. -/
def KeepsFrame (f : ModelParser) : Prop :=
  ∀ parser known m modelName currentPackage r,
    f parser known m modelName currentPackage = Outcome.ok r → r.parser.frame = parser.frame

/-- The properties that the models with id `id` write, in the order of the writes. -/
def propertiesFor (id : String) : List Model → GoMap ModelProperty
  | [] => []
  | m :: rest => if m.Id = id then m.Properties ++ propertiesFor id rest else propertiesFor id rest

/-- A Definitions table in which no id and, within an entry, no property name occurs
twice: the tables a Go map can hold. -/
def WellFormedDefinitions (D : GoMap SchemaObject) : Prop :=
  (GoMap.keys D).Nodup ∧ ∀ id s, GoMap.get D id = some s → (GoMap.keys s.Properties).Nodup

/-- Every binding of `a` is a binding of `b`. -/
def Extends (a b : GoMap String) : Prop :=
  ∀ k v, GoMap.get a k = some v → GoMap.get b k = some v

/-- The declarations the type engine reads: the parser without the document, the current
package, the ignore pattern and the two package-level tables. -/
def Parser.decls (parser : Parser) : Parser :=
  { parser.frame with Swagger := {}, CurrentPackage := "", Ignore := "" }

/-- What a run of `ParseModel` may do to the parser when it records no new type
definition: add entries to `modelNamesPackageNames`. -/
def Grows (P P1 : Parser) : Prop :=
  P1.frame = P.frame ∧ P1.typeDefTranslations = P.typeDefTranslations ∧
  Extends P.modelNamesPackageNames P1.modelNamesPackageNames

/-- Parser `Q` has the declarations and translations of `R` and every entry of its
`modelNamesPackageNames`. -/
def Agree (R Q : Parser) : Prop :=
  Q.decls = R.decls ∧ Q.typeDefTranslations = R.typeDefTranslations ∧
  Extends R.modelNamesPackageNames Q.modelNamesPackageNames

/-- Every type definition over an identifier (`type X U`, with `U` an `*ast.Ident`) that
the parser can find is recorded in `typeDefTranslations` with its underlying name. -/
def Saturated (P : Parser) : Prop :=
  ∀ model pkg spec u, GetModelDefinition P model pkg = some spec →
    spec.Type_ = TypeExpr.ident u → GoMap.get P.typeDefTranslations spec.Name = some u

/-- Every visited name has an entry in `modelNamesPackageNames`. -/
def KnownRecorded (P : Parser) (known : GoMap Bool) : Prop :=
  ∀ k, GoMap.has known k = true → GoMap.has P.modelNamesPackageNames k = true

/-- A model parser whose run can be repeated: it only adds to `modelNamesPackageNames`,
and started again from any parser that agrees with its final one it returns the same
result and leaves that parser as it is. -/
def Replayable (f : ModelParser) : Prop :=
  ∀ P known m name pkg r, Saturated P → KnownRecorded P known →
    f P known m name pkg = Outcome.ok r →
    Grows P r.parser ∧ KnownRecorded r.parser r.knownModelNames ∧
    ∀ Q, Agree r.parser Q → f Q known m name pkg = Outcome.ok { r with parser := Q }

/-- Package `models` declaring `type MyInt int` and `type T struct { A MyInt }`. -/
def aliasParser : Parser :=
  { CurrentPackage := "models"
    PackagePathCache := [("models", "/go/src/models")]
    TypeDefinitions :=
      [("/go/src/models",
        [("MyInt", ⟨"MyInt", TypeExpr.ident "int"⟩),
         ("T", ⟨"T", TypeExpr.structType [⟨["A"], Expr.ident "MyInt", none⟩]⟩)])] }

/-- No package of the parser declares a type definition over a named type. -/
def declaresNoTypeDefinition (P : Parser) : Bool :=
  P.TypeDefinitions.all (fun pkg => pkg.2.all (fun decl =>
    match decl.2.Type_ with
    | TypeExpr.ident _ => false
    | _ => true))

/-- A type name that the engine resolves as a model of the current package: an
unqualified name that is no primitive, no marshalling type, and has no recorded type
definition. -/
def ModelName (parser : Parser) (name : String) : Prop :=
  '.' ∉ name.data ∧ IsBasicType name = false ∧
  IsImplementMarshalInterface parser name = false ∧
  GoMap.get parser.typeDefTranslations name = none

/-- A field that becomes one property, typed with the type text of the field: a named
field without tag whose type text is neither an array text nor `time.Time` nor `array`,
and is either the model name `partner` or a primitive without recorded translation. -/
def PlainField (parser : Parser) (partner : String) (f : Field) : Prop :=
  f.Names ≠ [] ∧ f.Tag = none ∧
  strings.HasPrefix (fieldTypeString f) "[]" = false ∧ fieldTypeString f ≠ "time.Time" ∧
  fieldTypeString f ≠ "array" ∧
  (fieldTypeString f = partner ∨
    (IsBasicType (fieldTypeString f) = true ∧
      GoMap.get parser.typeDefTranslations (fieldTypeString f) = none))

instance (parser : Parser) (name : String) : Decidable (ModelName parser name) := by
  unfold ModelName
  infer_instance

instance (parser : Parser) (partner : String) (f : Field) :
    Decidable (PlainField parser partner f) := by
  unfold PlainField
  infer_instance

/-- The properties `ParseFieldList` builds from plain fields. -/
def plainProperties (fs : List Field) (acc : GoMap ModelProperty) : GoMap ModelProperty :=
  fs.foldl (fun acc f => GoMap.set acc (f.Names.headD "") { Type_ := fieldTypeString f }) acc

/-- A property as a plain field leaves it. -/
def PlainProperty (parser : Parser) (partner : String) (p : ModelProperty) : Prop :=
  p = { Type_ := p.Type_ } ∧ p.Type_ ≠ "array" ∧
  (p.Type_ = partner ∨
    (IsBasicType p.Type_ = true ∧ GoMap.get parser.typeDefTranslations p.Type_ = none))

/-- Package `models` declaring `type A struct { Id int; B *B }` and
`type B struct { A A; Name string }`, and `type Node struct { Next *Node; Val float64 }`. -/
def cycleFieldsParser : Parser :=
  { CurrentPackage := "models"
    PackagePathCache := [("models", "/go/src/models")]
    TypeDefinitions :=
      [("/go/src/models",
        [("A", ⟨"A", TypeExpr.structType
            [⟨["Id"], Expr.ident "int", none⟩, ⟨["B"], Expr.star (Operand.ident "B"), none⟩]⟩),
         ("B", ⟨"B", TypeExpr.structType
            [⟨["A"], Expr.ident "A", none⟩, ⟨["Name"], Expr.ident "string", none⟩]⟩),
         ("Node", ⟨"Node", TypeExpr.structType
            [⟨["Next"], Expr.star (Operand.ident "Node"), none⟩,
             ⟨["Val"], Expr.ident "float64", none⟩]⟩)])] }

/-- The `@param` line made of the five parts separated by single blanks, the description
in double quotes. -/
def paramLine (name loc ty req desc : String) : String :=
  ⟨name.data ++ ' ' :: (loc.data ++ ' ' :: (ty.data ++ ' ' :: (req.data ++ ' ' :: '"' ::
    (desc.data ++ ['"']))))⟩

/-- Entry `s1` is entry `s` with properties added or overwritten: every field but the
property table is the same and every property name of `s` is a property name of `s1`. -/
def SchemaGrows (s s1 : SchemaObject) : Prop :=
  s1 = { s with Properties := s1.Properties } ∧
  ∀ k, GoMap.has s.Properties k = true → GoMap.has s1.Properties k = true

/-- Every entry of table `D` is in table `D1` under the same id, grown. -/
def DefinitionsGrow (D D1 : GoMap SchemaObject) : Prop :=
  ∀ id s, GoMap.get D id = some s → ∃ s1, GoMap.get D1 id = some s1 ∧ SchemaGrows s s1

/-- Package `models` of `petParser` with a Definitions table that already holds an entry
`models.Pet` with the property `Legacy` and an entry `models.Old`. -/
def legacyParser : Parser :=
  { petParser with
    Swagger :=
      { Definitions :=
          [("models.Old", { Type_ := "object", Properties := [("Id", { Type_ := "integer" })] }),
           ("models.Pet", { Type_ := "object", Required := ["Legacy"],
                            Properties := [("Legacy", { Type_ := "string" })] })] } }

/-- The tag of a comment: its first token in lower case, the value `ParseComment`
switches on. -/
def tagOf (comment : String) : String := strings.ToLower (attributeOf comment)

/-- A pattern one of whose atoms reads exactly the character `q`. -/
def Requires (q : Char) (atoms : List regexp.Atom) : Prop :=
  ∃ p, regexp.Atom.one p ∈ atoms ∧ ∀ c, p c = true → c = q

/-- The case labels of the switch of `ParseAcceptComment` and `ParseProduceComment`. -/
def mediaTokens : List String :=
  ["json", "application/json", "xml", "text/xml", "plain", "text/plain", "html", "text/html",
   "mpfd", "multipart/form-data"]

/-- Package `models` declaring `type MyTime time.Time`, a type definition over a
package-qualified type. -/
def qualifiedDefParser : Parser :=
  { CurrentPackage := "models"
    PackagePathCache := [("models", "/go/src/models")]
    TypeDefinitions := [("/go/src/models", [("MyTime", ⟨"MyTime", TypeExpr.other⟩)])] }

/-- Package `models` declaring `type Time int64`, a type definition under a name that the
table of primitive names holds. -/
def namedTimeParser : Parser :=
  { CurrentPackage := "models"
    PackagePathCache := [("models", "/go/src/models")]
    TypeDefinitions := [("/go/src/models", [("Time", ⟨"Time", TypeExpr.ident "int64"⟩)])] }

/-- Package `a` declaring `type ID int` and package `b` declaring `type ID string`; the
current package is `a`. -/
def twoPackageParser : Parser :=
  { CurrentPackage := "a"
    PackagePathCache := [("a", "/go/src/a"), ("b", "/go/src/b")]
    TypeDefinitions :=
      [("/go/src/a", [("ID", ⟨"ID", TypeExpr.ident "int"⟩)]),
       ("/go/src/b", [("ID", ⟨"ID", TypeExpr.ident "string"⟩)])] }

/-- The candidate packages that the import table of the current package holds for the
qualifier `q`. -/
def importCandidates (parser : Parser) (currentPackage q : String) : Option (List String) :=
  (GoMap.get parser.PackageImports (CheckRealPackagePath parser currentPackage)).bind
    (fun imports => GoMap.get imports q)

/-- Package `pkg` is the first of the list `l`, in list order, that declares `N`, and `spec`
is its declaration. -/
def FirstDeclaring (parser : Parser) (N : String) (l : List String) (spec : TypeSpec)
    (pkg : String) : Prop :=
  ∃ pre post, l = pre ++ pkg :: post ∧ (∀ p ∈ pre, GetModelDefinition parser N p = none) ∧
    GetModelDefinition parser N pkg = some spec

/-- Package `api` importing `lib/v1/models` and `lib/v2/models` under the alias `models`;
`lib/v1/models` declares `Old`, `lib/v2/models` declares `Pet`, and package `pets` declares
`Pet` as well. -/
def importParser : Parser :=
  { CurrentPackage := "api"
    PackagePathCache :=
      [("api", "/go/src/api"), ("lib/v1/models", "/go/src/lib/v1/models"),
       ("lib/v2/models", "/go/src/lib/v2/models"), ("pets", "/go/src/pets")]
    PackageImports := [("/go/src/api", [("models", ["lib/v1/models", "lib/v2/models"])])]
    TypeDefinitions :=
      [("/go/src/api", [("Handler", ⟨"Handler", TypeExpr.structType []⟩)]),
       ("/go/src/lib/v1/models", [("Old", ⟨"Old", TypeExpr.structType []⟩)]),
       ("/go/src/lib/v2/models",
        [("Pet", ⟨"Pet", TypeExpr.structType [⟨["Name"], Expr.ident "string", none⟩]⟩)]),
       ("/go/src/pets", [("Pet", ⟨"Pet", TypeExpr.structType []⟩)])] }

/-- Package `models` declaring `type Node struct { Next *Node; Children []Node }`, and
`type Tree struct { Root Leaf; Leaves []Leaf }` with
`type Leaf struct { Owner *Tree; Forest []Tree }`. -/
def nodeParser : Parser :=
  { CurrentPackage := "models"
    PackagePathCache := [("models", "/go/src/models")]
    TypeDefinitions :=
      [("/go/src/models",
        [("Node", ⟨"Node", TypeExpr.structType
            [⟨["Next"], Expr.star (Operand.ident "Node"), none⟩,
             ⟨["Children"], Expr.array (Expr.ident "Node"), none⟩]⟩),
         ("Tree", ⟨"Tree", TypeExpr.structType
            [⟨["Root"], Expr.ident "Leaf", none⟩,
             ⟨["Leaves"], Expr.array (Expr.ident "Leaf"), none⟩]⟩),
         ("Leaf", ⟨"Leaf", TypeExpr.structType
            [⟨["Owner"], Expr.star (Operand.ident "Tree"), none⟩,
             ⟨["Forest"], Expr.array (Expr.ident "Tree"), none⟩]⟩)])] }

/-- Package `models` declaring `type Ints struct { V []int }`,
`type Bools struct { V []bool }`, `type Floats struct { V []float64 }` and
`type Strings struct { V []string }`. -/
def sliceParser : Parser :=
  { CurrentPackage := "models"
    PackagePathCache := [("models", "/go/src/models")]
    TypeDefinitions :=
      [("/go/src/models",
        [("Ints", ⟨"Ints", TypeExpr.structType
            [⟨["V"], Expr.array (Expr.ident "int"), none⟩]⟩),
         ("Bools", ⟨"Bools", TypeExpr.structType
            [⟨["V"], Expr.array (Expr.ident "bool"), none⟩]⟩),
         ("Floats", ⟨"Floats", TypeExpr.structType
            [⟨["V"], Expr.array (Expr.ident "float64"), none⟩]⟩),
         ("Strings", ⟨"Strings", TypeExpr.structType
            [⟨["V"], Expr.array (Expr.ident "string"), none⟩]⟩)])] }

/-- Package `models` declaring `type T struct { *T }`, and `type A struct { *B }` with
`type B struct { *A }`. -/
def selfEmbedParser : Parser :=
  { CurrentPackage := "models"
    PackagePathCache := [("models", "/go/src/models")]
    TypeDefinitions :=
      [("/go/src/models",
        [("T", ⟨"T", TypeExpr.structType [⟨[], Expr.star (Operand.ident "T"), none⟩]⟩),
         ("A", ⟨"A", TypeExpr.structType [⟨[], Expr.star (Operand.ident "B"), none⟩]⟩),
         ("B", ⟨"B", TypeExpr.structType [⟨[], Expr.star (Operand.ident "A"), none⟩]⟩)])] }

/-- The primitive names that have no entry in the wire-type table. -/
def unmappedPrimitives : List String :=
  ["byte", "rune", "uintptr", "error", "complex64", "complex128", "Time", "undefined"]

/-- Packages `lib.v2/models` and `lib/v2/models`, each declaring a struct `Pet`. -/
def dottedPathParser : Parser :=
  { CurrentPackage := "lib/v2/models"
    PackagePathCache :=
      [("lib.v2/models", "/go/src/lib.v2/models"), ("lib/v2/models", "/go/src/lib/v2/models")]
    TypeDefinitions :=
      [("/go/src/lib.v2/models",
        [("Pet", ⟨"Pet", TypeExpr.structType [⟨["Name"], Expr.ident "string", none⟩]⟩)]),
       ("/go/src/lib/v2/models",
        [("Pet", ⟨"Pet", TypeExpr.structType [⟨["Age"], Expr.ident "int", none⟩]⟩)])] }

/-- The import table of a package after `ParseImportStatements`. -/
def importTable (parser : Parser) (packageName : String) : GoMap (List String) :=
  (GoMap.get parser.PackageImports (CheckRealPackagePath parser packageName)).getD []

/-- The candidate list of an alias in an import table. -/
def candidatesOf (table : GoMap (List String)) (importAlias : String) : List String :=
  (GoMap.get table importAlias).getD []

/-- The path an import names: the path literal without its quotes. -/
def importPath (astImport : ImportSpec) : String := strings.Trim astImport.Path "\""

/-- The alias key of an import as the specification words it: the explicit import name
when one is given and is neither `.` nor `_`, and otherwise the last segment of the import
path. -/
def aliasBySpec (astImport : ImportSpec) : String :=
  match astImport.Name with
  | some name =>
    if name = "." ∨ name = "_" then (strings.Split (importPath astImport) '/').getLastD ""
    else name
  | none => (strings.Split (importPath astImport) '/').getLastD ""

/-- The imports of `main.go` of a package: `models` under its last segment, `lib/v2/models`
under the explicit name `v2`, `lib/util` twice, a blank import of `db/driver`, and the
pseudo package `C`. -/
def mainImports : List (List (List ImportSpec)) :=
  [[[⟨none, "\"lib/models\""⟩, ⟨some "v2", "\"lib/v2/models\""⟩, ⟨none, "\"lib/util\""⟩],
    [⟨none, "\"lib/util\""⟩, ⟨some "_", "\"db/driver\""⟩, ⟨none, "\"C\""⟩,
     ⟨none, "\"other/models\""⟩]]]

/-- An ignore test for the examples: the pattern `other`. -/
def ignoreOther (packageName : String) : Option Bool := some (strings.Contains packageName "other")

/-- A type name that the engine resolves as a model when a property refers to it: no
primitive name, no marshalling type, without recorded type definition, and none of the
texts `array`, `time.Time` or an array text, which the engine reads differently. -/
def RefTarget (parser : Parser) (B : String) : Prop :=
  IsBasicType B = false ∧ IsImplementMarshalInterface parser B = false ∧
  GoMap.get parser.typeDefTranslations B = none ∧ B ≠ "array" ∧
  strings.HasPrefix B "[]" = false ∧ B ≠ "time.Time"

/-- A named field without tag whose type text is the name `B`, a slice of `B`, or a
primitive name that is no array text and has no recorded type definition. -/
def RefField (parser : Parser) (B : String) (f : Field) : Prop :=
  f.Names ≠ [] ∧ f.Tag = none ∧
  (fieldTypeString f = B ∨ fieldTypeString f = "[]" ++ B ∨
    (IsBasicType (fieldTypeString f) = true ∧
      strings.HasPrefix (fieldTypeString f) "[]" = false ∧
      GoMap.get parser.typeDefTranslations (fieldTypeString f) = none))

instance (parser : Parser) (B : String) : Decidable (RefTarget parser B) := by
  unfold RefTarget
  infer_instance

instance (parser : Parser) (B : String) (f : Field) : Decidable (RefField parser B f) := by
  unfold RefField
  infer_instance

/-- The properties `ParseFieldList` builds from named fields without tag. -/
def refProperties (fs : List Field) (acc : GoMap ModelProperty) : GoMap ModelProperty :=
  fs.foldl (fun acc f => GoMap.set acc (f.Names.headD "") (typeProperty (fieldTypeString f))) acc

/-- Package `models` declaring `type Time struct { Unix int64 }`,
`type NullString struct { Valid bool }` and `type Event struct { At Time; Note NullString }`,
with the marshalling types that `InitParser` lists. -/
def stampParser : Parser :=
  { CurrentPackage := "models"
    PackagePathCache := [("models", "/go/src/models")]
    TypesImplementingMarshalInterface :=
      [("NullString", "string"), ("NullInt64", "int"), ("NullFloat64", "float"),
       ("NullBool", "bool")]
    TypeDefinitions :=
      [("/go/src/models",
        [("Time", ⟨"Time", TypeExpr.structType [⟨["Unix"], Expr.ident "int64", none⟩]⟩),
         ("NullString", ⟨"NullString", TypeExpr.structType
            [⟨["Valid"], Expr.ident "bool", none⟩]⟩),
         ("Event", ⟨"Event", TypeExpr.structType
            [⟨["At"], Expr.ident "Time", none⟩,
             ⟨["Note"], Expr.ident "NullString", none⟩]⟩)])] }

/-- Package `models` declaring `type Userinterface int` and
`type Wrap struct { Userinterface }`, where `Wrap` embeds `Userinterface`. -/
def wrapParser : Parser :=
  { CurrentPackage := "models"
    PackagePathCache := [("models", "/go/src/models")]
    TypeDefinitions :=
      [("/go/src/models",
        [("Userinterface", ⟨"Userinterface", TypeExpr.ident "int"⟩),
         ("Wrap", ⟨"Wrap", TypeExpr.structType [⟨[], Expr.ident "Userinterface", none⟩]⟩)])] }

/-- Package `models` declaring `type Userinterface struct { Name string }`. -/
def wildcardParser : Parser :=
  { CurrentPackage := "models"
    PackagePathCache := [("models", "/go/src/models")]
    TypeDefinitions :=
      [("/go/src/models",
        [("Userinterface", ⟨"Userinterface", TypeExpr.structType
            [⟨["Name"], Expr.ident "string", none⟩]⟩)])] }

/-- The ignore test `regexp.MatchString(parser.Ignore, ·)` of a parser whose `Ignore` is
the empty string: the empty pattern compiles, without error, to the empty sequence of atoms,
which is searched in the package name. -/
def matchEmptyIgnore (packageName : String) : Option Bool :=
  some (regexp.search [] packageName.data).isSome

/-- The case labels of the method switch of `ParseRouterComment`. -/
def routerMethods : List String := ["GET", "POST", "PATCH", "PUT", "DELETE", "OPTIONS", "HEAD"]

/-- The name that the back-patch loop of `ParseModel` compares with the resolved type name:
the item reference of an array property, the type of any other property. -/
def patchKey (p : ModelProperty) : String :=
  if p.Type_ = "array" then p.Items.Ref else p.Type_

/-- The property after the back-patch with the id `id`: the reference is written into the
items of an array property and into the property itself otherwise. -/
def referTo (p : ModelProperty) (id : String) : ModelProperty :=
  if p.Type_ = "array" then { p with Items := { p.Items with Ref := "#/definitions/" ++ id } }
  else { p with Ref := "#/definitions/" ++ id }

/-- The tag text `ParseModelProperty` splits at the commas: the `json` key of the tag, else
its `thrift` key, else the empty text. -/
def tagTextOf (structTag : StructTag) : String :=
  if structTag.Get "json" ≠ "" then structTag.Get "json"
  else if structTag.Get "thrift" ≠ "" then structTag.Get "thrift" else ""

/-- The name under which `ParseModelProperty` stores the property of a named field: the
Go name, or the name the tag gives; `none` when the tag excludes the field. -/
def fieldKey (f : Field) : Option String :=
  match f.Tag with
  | none => some (f.Names.headD "")
  | some structTag =>
    (scanTagValues (strings.Split (tagTextOf structTag) ',') (f.Names.headD "") false).map
      (fun r => r.1)

/-- The property `ParseModelProperty` stores for a named field: the property of its type
text, with the description of its tag when the tag has one. -/
def fieldProperty (f : Field) : ModelProperty :=
  match f.Tag with
  | none => typeProperty (fieldTypeString f)
  | some structTag =>
    if structTag.Get "description" ≠ ""
    then { typeProperty (fieldTypeString f) with Description := structTag.Get "description" }
    else typeProperty (fieldTypeString f)

/-- Package `models` declaring `type Tree struct`, with the fields `Root Leaf` tagged
`json:"root,omitempty" description:"the root"`, `Leaves []Leaf` tagged `json:"leaves"`,
`Owner *Person` and `Name string` tagged `json:"name"`; `type Leaf struct`, with the fields
`Tree *Tree` tagged `json:"tree"` and `Keeper Person`; and
`type Person struct { Name string }`. -/
def branchParser : Parser :=
  { CurrentPackage := "models"
    PackagePathCache := [("models", "/go/src/models")]
    TypeDefinitions :=
      [("/go/src/models",
        [("Tree", ⟨"Tree", TypeExpr.structType
            [⟨["Root"], Expr.ident "Leaf",
               some [("json", "root,omitempty"), ("description", "the root")]⟩,
             ⟨["Leaves"], Expr.array (Expr.ident "Leaf"), some [("json", "leaves")]⟩,
             ⟨["Owner"], Expr.star (Operand.ident "Person"), none⟩,
             ⟨["Name"], Expr.ident "string", some [("json", "name")]⟩]⟩),
         ("Leaf", ⟨"Leaf", TypeExpr.structType
            [⟨["Tree"], Expr.star (Operand.ident "Tree"), some [("json", "tree")]⟩,
             ⟨["Keeper"], Expr.ident "Person", none⟩]⟩),
         ("Person", ⟨"Person", TypeExpr.structType
            [⟨["Name"], Expr.ident "string", none⟩]⟩)])] }

/-- Packages `models` and `time`.  Package `models` declares
`type Zone struct { Name string }`, `type Time struct { Zone Zone }`,
`type Hidden struct`, with the fields `Z Zone` tagged `json:"-"` and `N string`,
`type Shadow struct`, with the fields `Z Zone` and `W string` both tagged `json:"v"`,
`type array struct { Name string }`, `type Holder struct { X array }`,
`type Stamp struct { At time.Time }` and `type Place struct { Z Zone }`; package `time`
declares `type Time struct { wall uint64 }`. -/
def quirkParser : Parser :=
  { CurrentPackage := "models"
    PackagePathCache := [("models", "/go/src/models"), ("time", "/go/src/time")]
    TypeDefinitions :=
      [("/go/src/models",
        [("Zone", ⟨"Zone", TypeExpr.structType [⟨["Name"], Expr.ident "string", none⟩]⟩),
         ("Time", ⟨"Time", TypeExpr.structType [⟨["Zone"], Expr.ident "Zone", none⟩]⟩),
         ("Hidden", ⟨"Hidden", TypeExpr.structType
            [⟨["Z"], Expr.ident "Zone", some [("json", "-")]⟩,
             ⟨["N"], Expr.ident "string", none⟩]⟩),
         ("Shadow", ⟨"Shadow", TypeExpr.structType
            [⟨["Z"], Expr.ident "Zone", some [("json", "v")]⟩,
             ⟨["W"], Expr.ident "string", some [("json", "v")]⟩]⟩),
         ("array", ⟨"array", TypeExpr.structType [⟨["Name"], Expr.ident "string", none⟩]⟩),
         ("Holder", ⟨"Holder", TypeExpr.structType [⟨["X"], Expr.ident "array", none⟩]⟩),
         ("Stamp", ⟨"Stamp", TypeExpr.structType
            [⟨["At"], Expr.selector "time" "Time", none⟩]⟩),
         ("Place", ⟨"Place", TypeExpr.structType [⟨["Z"], Expr.ident "Zone", none⟩]⟩)]),
       ("/go/src/time",
        [("Time", ⟨"Time", TypeExpr.structType [⟨["wall"], Expr.ident "uint64", none⟩]⟩)])] }

/-- Package `models` declaring `type A struct { B *B; V []int }` and
`type B struct { A *A }`. -/
def cycleSliceParser : Parser :=
  { CurrentPackage := "models"
    PackagePathCache := [("models", "/go/src/models")]
    TypeDefinitions :=
      [("/go/src/models",
        [("A", ⟨"A", TypeExpr.structType
            [⟨["B"], Expr.star (Operand.ident "B"), none⟩,
             ⟨["V"], Expr.array (Expr.ident "int"), none⟩]⟩),
         ("B", ⟨"B", TypeExpr.structType
            [⟨["A"], Expr.star (Operand.ident "A"), none⟩]⟩)])] }

/-- Package `models` declaring `type T struct { X A; Y B }`, `type A struct { L []B }` and
`type B struct { Name string }`: the frame of `T` has the two used types `A` and `B`. -/
def orderParser : Parser :=
  { CurrentPackage := "models"
    PackagePathCache := [("models", "/go/src/models")]
    TypeDefinitions :=
      [("/go/src/models",
        [("T", ⟨"T", TypeExpr.structType
            [⟨["X"], Expr.ident "A", none⟩, ⟨["Y"], Expr.ident "B", none⟩]⟩),
         ("A", ⟨"A", TypeExpr.structType
            [⟨["L"], Expr.array (Expr.ident "B"), none⟩]⟩),
         ("B", ⟨"B", TypeExpr.structType
            [⟨["Name"], Expr.ident "string", none⟩]⟩)])] }

/-- The parser after `registerType("T")` on `orderParser`, when the frame of `T` visits
its used types in the order `A`, `B`: the three entries of Definitions and the three
recorded model names. -/
def orderFirstRun : Parser :=
  { orderParser with
    Swagger := { Definitions :=
      [("models.T", { Type_ := "object", Properties :=
          [("X", { Ref := "#/definitions/models.A", Type_ := "A" }),
           ("Y", { Ref := "#/definitions/models.B", Type_ := "B" })] }),
       ("models.A", { Type_ := "object", Properties :=
          [("L", { Type_ := "array", Items := { Ref := "#/definitions/models.B" } })] }),
       ("models.B", { Type_ := "object", Properties :=
          [("Name", { Type_ := "string", Format := "string" })] })] }
    modelNamesPackageNames := [("T", "models.T"), ("A", "models.A"), ("B", "models.B")] }

/-- Packages `shop` and `other`: `shop` declares `type Place struct { Z Zone }` and
`type Zone struct { P other.Place }`, and `other` declares `type Place string`. -/
def crossParser : Parser :=
  { CurrentPackage := "shop"
    PackagePathCache := [("shop", "/go/src/shop"), ("other", "/go/src/other")]
    TypeDefinitions :=
      [("/go/src/shop",
        [("Place", ⟨"Place", TypeExpr.structType [⟨["Z"], Expr.ident "Zone", none⟩]⟩),
         ("Zone", ⟨"Zone", TypeExpr.structType
            [⟨["P"], Expr.selector "other" "Place", none⟩]⟩)]),
       ("/go/src/other", [("Place", ⟨"Place", TypeExpr.ident "string"⟩)])] }

/-- Packages `p/q`, `r` and `p.q`: `p/q` declares `type T struct { X r.U }`, `r` declares
`type U struct { Y q.T }`, where `q` is the name under which `r` has `p.q` in its table of
imported packages, and `p.q` declares `type T struct { X string }`.  The structs `T` of
`p/q` and of `p.q` have the same canonical id, `p.q.T`. -/
def collideParser : Parser :=
  { CurrentPackage := "p/q"
    PackagePathCache := [("p/q", "/go/src/p/q"), ("r", "/go/src/r"), ("p.q", "/go/src/p.q")]
    PackageImports := [("/go/src/r", [("q", ["p.q"])])]
    TypeDefinitions :=
      [("/go/src/p/q",
        [("T", ⟨"T", TypeExpr.structType [⟨["X"], Expr.selector "r" "U", none⟩]⟩)]),
       ("/go/src/r",
        [("U", ⟨"U", TypeExpr.structType [⟨["Y"], Expr.selector "q" "T", none⟩]⟩)]),
       ("/go/src/p.q",
        [("T", ⟨"T", TypeExpr.structType [⟨["X"], Expr.ident "string", none⟩]⟩)])] }

/-! ## Lemmas on Go maps -/

theorem GoMap.get_set_self {V : Type} (m : GoMap V) (k : String) (v : V) :
    GoMap.get (GoMap.set m k v) k = some v := by
  induction m with
  | nil => simp [GoMap.set, GoMap.get]
  | cons kv rest ih =>
    obtain ⟨k0, v0⟩ := kv
    by_cases h : k0 = k
    · simp [GoMap.set, GoMap.get, h]
    · simp [GoMap.set, GoMap.get, h, ih]

theorem GoMap.get_set_of_ne {V : Type} (m : GoMap V) (k k1 : String) (v : V) (h : k ≠ k1) :
    GoMap.get (GoMap.set m k v) k1 = GoMap.get m k1 := by
  induction m with
  | nil => simp [GoMap.set, GoMap.get, h]
  | cons kv rest ih =>
    obtain ⟨k0, v0⟩ := kv
    by_cases h0 : k0 = k
    · subst h0
      simp [GoMap.set, GoMap.get, h]
    · by_cases h1 : k0 = k1
      · subst h1
        simp [GoMap.set, GoMap.get, h0]
      · simp [GoMap.set, GoMap.get, h0, h1, ih]

/-! ## Claims -/

/-- C1 (the code at the input of the claim): the line `200 {array} Pet "a list of pets"`,
with `Pet` resolving to the id `models.Pet` that the call enters into Definitions, stores
under key "200" a response whose schema is the bare reference `#/definitions/models.Pet`,
with empty type and no items: the `code` compared with 200 is not the parsed one. -/
theorem C1_array_response_has_no_items :
    (ParseResponseComment 2 petParser (NewOperationObject 1 "models")
        "200 {array} Pet \"a list of pets\"").value?.map
      (fun r => (GoMap.has r.1.Swagger.Definitions "models.Pet",
        GoMap.get r.2.1.Responses "200", r.2.2))
    = some (true,
        some { Description := "a list of pets",
               Schema := some { Ref := "#/definitions/models.Pet", Type_ := "", Items := none } },
        none) := by
  decide

theorem GoMap.has_iff_mem_keys {V : Type} (m : GoMap V) (k : String) :
    GoMap.has m k = true ↔ k ∈ GoMap.keys m := by
  induction m with
  | nil => simp [GoMap.has, GoMap.get, GoMap.keys]
  | cons kv rest ih =>
    obtain ⟨k0, v0⟩ := kv
    by_cases h : k0 = k
    · simp [GoMap.has, GoMap.get, GoMap.keys, h]
    · have h1 : ¬ k = k0 := fun e => h e.symm
      simpa [GoMap.has, GoMap.get, GoMap.keys, h, h1] using ih

theorem IsBasicType_of_wireType (ty : String) (h : GoMap.has basicTypesSwaggerTypes ty = true) :
    IsBasicType ty = true := by
  have hk := (GoMap.has_iff_mem_keys _ _).1 h
  simp only [GoMap.keys, basicTypesSwaggerTypes, List.map, List.mem_cons, List.mem_singleton,
    List.not_mem_nil, or_false] at hk
  rcases hk with h | h | h | h | h | h | h | h | h | h | h | h | h | h | h <;> subst h <;> decide

/-- C2 (counterexample): in package `models`, which declares `type int string`, the line
`x query models.int true "d"` records the translation of `int`; the line
`id path int true "pet id"` that follows appends a parameter of type `string` and format
`string`, not `integer` and `int64`. -/
theorem C2_counterexample_translated_primitive :
    (ParseParamComment 2 shadowParser (NewOperationObject 1 "models")
        "x query models.int true \"d\"").value?.bind
      (fun r1 => (ParseParamComment 2 r1.1 r1.2.1 "id path int true \"pet id\"").value?.map
        (fun r2 => r2.2.1.Parameters.map (fun p => (p.Name, p.Type_, p.Format))))
    = some [("x", "", ""), ("id", "string", "string")] := by
  decide

/-- C2 (amended): for a line that the `@param` pattern splits into name, location, type,
required flag and description (as it does every line of the written form, see
`FindStringSubmatch_paramLine`), whose type has an entry in the static wire-type table and
no entry in `typeDefTranslations`, `ParseParamComment` returns no error, leaves the parser
as it was and appends one parameter at the end of the operation's list, with the name,
location and description of the line, type and format read from the static tables, no
schema, and the required flag set exactly when the flag lower-cased is `true` or
`required`. -/
theorem C2_param_primitive (fuel : Nat) (parser : Parser) (operation : OperationObject)
    (line m0 name loc ty req desc : String)
    (hline : regexp.FindStringSubmatch reParam 5 line = [m0, name, loc, ty, req, desc])
    (hty : GoMap.has basicTypesSwaggerTypes ty = true)
    (htr : GoMap.get parser.typeDefTranslations ty = none) :
    ParseParamComment fuel parser operation line =
      Outcome.ok (parser,
        { operation with
          Parameters := operation.Parameters ++
            [{ Name := name, In := loc, Description := desc,
               Required := (strings.ToLower req = "true" || strings.ToLower req = "required"),
               Schema := none,
               Type_ := GoMap.getStr basicTypesSwaggerTypes ty,
               Format := GoMap.getStr basicTypesSwaggerFormats ty }] },
        none) := by
  have hb := IsBasicType_of_wireType ty hty
  have hs : IsBasicTypeSwaggerType ty = true := by simp [IsBasicTypeSwaggerType, hty]
  simp [ParseParamComment, hline, registerType, htr, hb, hs]

/-- C2 at the input of the claim: `id path int true "pet id"` gives name `id`, location
`path`, type `integer`, format `int64`, required, description `pet id`. -/
theorem C2_param_primitive_witness :
    ParseParamComment 0 petParser (NewOperationObject 1 "models") "id path int true \"pet id\"" =
      Outcome.ok (petParser,
        { NewOperationObject 1 "models" with
          Parameters := [{ Name := "id", In := "path", Description := "pet id", Required := true,
                           Schema := none, Type_ := "integer", Format := "int64" }] },
        none) :=
  C2_param_primitive 0 petParser (NewOperationObject 1 "models") "id path int true \"pet id\""
    "id path int true \"pet id\"" "id" "path" "int" "true" "pet id" (by decide) (by decide) (by decide)

theorem ite_slot (c : Prop) [Decidable c] (x y : PathItemObject) (M : Method) (a : Nat)
    (hx : c → x.slot M = some a) (hy : ¬ c → y.slot M = some a) :
    (if c then x else y).slot M = some a := by
  split
  · exact hx (by assumption)
  · exact hy (by assumption)

theorem attachOperation_slot (item : PathItemObject) (method : String) (operation a : Nat)
    (M : Method) (h : item.slot M = some a) :
    (attachOperation item method operation).slot M = some a := by
  unfold attachOperation
  repeat' first | apply ite_slot | intro _
  all_goals first
    | exact h
    | (rename_i hn
       cases M <;> first
        | exact h
        | (simp only [PathItemObject.slot] at h; rw [h] at hn; cases hn))

theorem ParseRouterComment_slot (parser : Parser) (operation : OperationObject)
    (commentLine path : String) (M : Method) (a : Nat) (h : slotOf parser path M = some a) :
    slotOf (ParseRouterComment parser operation commentLine).1 path M = some a := by
  unfold ParseRouterComment
  simp only
  split
  · rename_i x p meth hm
    by_cases hp : p = path
    · subst hp
      simp only [slotOf, GoMap.get_set_self, Option.bind_some]
      simp only [slotOf] at h
      cases hg : GoMap.get parser.Swagger.Paths p with
      | none => simp [hg] at h
      | some item =>
        simp only [hg, Option.bind_some] at h
        simp only [GoMap.has, hg, Option.isSome_some, if_true, Option.getD_some]
        exact attachOperation_slot item _ _ a M h
    · simp only [slotOf, GoMap.get_set_of_ne _ _ _ _ hp]
      split_ifs
      · exact h
      · rw [GoMap.get_set_of_ne _ _ _ _ hp]; exact h
  · exact h

theorem ParseRouterComment_other_path (parser : Parser) (operation : OperationObject)
    (commentLine path : String) (h : routerPath commentLine ≠ some path) :
    GoMap.get (ParseRouterComment parser operation commentLine).1.Swagger.Paths path =
      GoMap.get parser.Swagger.Paths path := by
  unfold ParseRouterComment
  unfold routerPath at h
  simp only at h ⊢
  split
  · rename_i x p meth hm
    rw [hm] at h
    have hp : p ≠ path := fun e => h (by rw [e])
    simp only [GoMap.get_set_of_ne _ _ _ _ hp]
    split_ifs
    · rfl
    · rw [GoMap.get_set_of_ne _ _ _ _ hp]
  · rfl

/-- C3: over any sequence of `@router` lines, issued by any operations, a filled slot
`(path, method)` of the path table keeps the operation it holds (it is neither replaced nor
cleared), and the path item of a path that none of the lines names is left as it was. -/
theorem C3_first_router_wins (parser : Parser) (steps : List (OperationObject × String))
    (path : String) :
    (∀ (M : Method) (a : Nat), slotOf parser path M = some a →
        slotOf (routerLines parser steps) path M = some a) ∧
    ((∀ step ∈ steps, routerPath step.2 ≠ some path) →
        GoMap.get (routerLines parser steps).Swagger.Paths path =
          GoMap.get parser.Swagger.Paths path) := by
  induction steps generalizing parser with
  | nil => exact ⟨fun _ _ h => h, fun _ => rfl⟩
  | cons step rest ih =>
    have ih1 := ih (ParseRouterComment parser step.1 step.2).1
    constructor
    · intro M a h
      exact ih1.1 M a (ParseRouterComment_slot parser step.1 step.2 path M a h)
    · intro h
      have h1 := ih1.2 (fun s hs => h s (List.mem_cons_of_mem _ hs))
      have h2 := ParseRouterComment_other_path parser step.1 step.2 path
        (h step (List.mem_cons_self _ _))
      simpa [routerLines] using h1.trans h2

/-- C3 at a concrete input: after `@router /pets/{id} [get]` of the operation at address 1,
the same line and a `[post]` line of the operation at address 2 leave the `get` slot with
operation 1. -/
theorem C3_first_router_wins_witness :
    slotOf (ParseRouterComment petParser (NewOperationObject 1 "models")
        "@router /pets/{id} [get]").1 "/pets/{id}" Method.get = some 1 ∧
    slotOf (routerLines (ParseRouterComment petParser (NewOperationObject 1 "models")
        "@router /pets/{id} [get]").1
        [(NewOperationObject 2 "models", "@router /pets/{id} [get]"),
         (NewOperationObject 2 "models", "@router /pets/{id} [post]")])
      "/pets/{id}" Method.get = some 1 :=
  ⟨by decide,
   (C3_first_router_wins _ _ "/pets/{id}").1 Method.get 1 (by decide)⟩

/-- C4: for a type name that `IsBasicType` accepts, `registerType` returns without error
and leaves the parser, its Definitions table included, exactly as it was. -/
theorem C4_registerType_primitive (fuel : Nat) (parser : Parser) (typeName : String)
    (h : IsBasicType typeName = true) :
    ∃ name, registerType fuel parser typeName = Outcome.ok (parser, name, none) := by
  unfold registerType
  cases GoMap.get parser.typeDefTranslations typeName with
  | some translation => exact ⟨translation, rfl⟩
  | none => exact ⟨typeName, by simp [h]⟩

/-- C4 at concrete inputs: an interface wildcard and the sentinel `undefined`. -/
theorem C4_registerType_primitive_witness :
    (∃ name, registerType 0 petParser "interface{}" = Outcome.ok (petParser, name, none)) ∧
    (∃ name, registerType 0 petParser "undefined" = Outcome.ok (petParser, name, none)) :=
  ⟨C4_registerType_primitive 0 petParser "interface{}" (by decide),
   C4_registerType_primitive 0 petParser "undefined" (by decide)⟩

/-- C9: for a named field whose `json` tag is `-`, `ParseModelProperty` returns with the
parser and the model (its Properties and its Required list) as they were, whatever the type
of the field. -/
theorem C9_excluded_field_adds_nothing (parseModel : ModelParser) (parser : Parser) (m : Model)
    (field : Field) (modelPackage : String) (tag : StructTag)
    (hn : field.Names ≠ []) (ht : field.Tag = some tag) (hj : tag.Get "json" = "-") :
    ParseModelProperty parseModel parser m field modelPackage = Outcome.ok (parser, m) := by
  have hlen : ¬ field.Names.length = 0 := by
    intro h
    exact hn (List.length_eq_zero.1 h)
  have hsplit : strings.Split "-" ',' = ["-"] := by decide
  have hne : ("-" : String) ≠ "" := by decide
  unfold ParseModelProperty
  simp only [ht, hlen, if_false, applyTag, hj, hne, if_true, hsplit, scanTagValues, ne_eq,
    not_false_eq_true, ite_self]

/-- C9 at a concrete input: the field `Secret string` tagged `json:"-"`. -/
theorem C9_excluded_field_adds_nothing_witness :
    ParseModelProperty (ParseModel 0) petParser { Id := "models.Pet" }
      ⟨["Secret"], Expr.ident "string", some [("json", "-")]⟩ "models" =
      Outcome.ok (petParser, { Id := "models.Pet" }) :=
  C9_excluded_field_adds_nothing (ParseModel 0) petParser { Id := "models.Pet" }
    ⟨["Secret"], Expr.ident "string", some [("json", "-")]⟩ "models" [("json", "-")]
    (by decide) rfl (by decide)

theorem ParseModelProperty_Id (parseModel : ModelParser) (parser : Parser) (m : Model)
    (field : Field) (modelPackage : String) (parser1 : Parser) (m1 : Model)
    (h : ParseModelProperty parseModel parser m field modelPackage = Outcome.ok (parser1, m1)) :
    m1.Id = m.Id := by
  unfold ParseModelProperty at h
  simp only at h
  split at h
  · cases h; rfl
  · split at h
    · split at h
      · cases h
      · split at h
        · cases h
        · cases h
        · cases h; rfl
    · split at h
      · cases h; rfl
      · cases h
        unfold applyTag
        simp only
        split <;> rfl

theorem parseFields_Id (parseModel : ModelParser) (modelPackage : String) (fields : List Field)
    (parser : Parser) (m : Model) (parser1 : Parser) (m1 : Model)
    (h : parseFields parseModel modelPackage fields parser m = Outcome.ok (parser1, m1)) :
    m1.Id = m.Id := by
  induction fields generalizing parser m with
  | nil =>
    simp only [parseFields] at h
    cases h; rfl
  | cons field rest ih =>
    simp only [parseFields] at h
    split at h
    · rename_i p2 m2 hp
      rw [ih p2 m2 h]
      exact ParseModelProperty_Id _ _ _ _ _ _ _ hp
    · cases h
    · cases h

theorem parseUsedTypes_Id (parseModel : ModelParser) (modelPackage : String)
    (usedTypes : List String) (parser : Parser) (known : GoMap Bool) (m : Model)
    (inner : List Model) (r : ModelResult)
    (h : parseUsedTypes parseModel modelPackage usedTypes parser known m inner = Outcome.ok r) :
    r.m.Id = m.Id := by
  induction usedTypes generalizing parser known m inner with
  | nil =>
    simp only [parseUsedTypes] at h
    cases h; rfl
  | cons typeName rest ih =>
    simp only [parseUsedTypes] at h
    split at h
    · cases h
    · cases h
    · split at h
      · cases h; rfl
      · rw [ih _ _ _ _ h]

/-- The canonical id `ParseModel` computes from the package path and the model name. -/
theorem ParseModelBody_Id (parseModel : ModelParser) (parser : Parser) (known : GoMap Bool)
    (m : Model) (modelName currentPackage : String) (spec : TypeSpec) (modelPackage : String)
    (r : ModelResult)
    (hf : FindModelDefinition parser modelName currentPackage = Outcome.ok (spec, modelPackage))
    (hr : ParseModelBody parseModel parser known m modelName currentPackage = Outcome.ok r) :
    r.m.Id = canonicalId modelPackage modelName := by
  unfold ParseModelBody at hr
  simp only [hf] at hr
  split at hr
  · cases hr; rfl
  · unfold ParseFieldList at hr
    split at hr
    · cases hr
    · cases hr
    · rename_i p2 m2 hp
      split at hp
      · cases hp
        rw [parseUsedTypes_Id _ _ _ _ _ _ _ _ hr]
      · rw [parseUsedTypes_Id _ _ _ _ _ _ _ _ hr]
        exact parseFields_Id _ _ _ _ _ _ _ hp
  · cases hr; rfl

/-- C10: when `FindModelDefinition` locates the model in package path `P` and `ParseModel`
returns, the model's Id is the `/`-separated segments of `P` followed by the last
`.`-separated component of the model name, joined with `.`; type `Pet` of package `models`
gets `models.Pet`, and of package `a/b` gets `a.b.Pet`, under its plain and under its
qualified name. -/
theorem C10_canonical_id :
    (∀ (fuel : Nat) (parser : Parser) (known : GoMap Bool) (m : Model)
        (modelName currentPackage : String) (spec : TypeSpec) (modelPackage : String)
        (r : ModelResult),
        FindModelDefinition parser modelName currentPackage = Outcome.ok (spec, modelPackage) →
        ParseModel fuel parser known m modelName currentPackage = Outcome.ok r →
        r.m.Id = strings.Join (strings.Split modelPackage '/' ++
          [(strings.Split modelName '.').getLastD ""]) ".") ∧
    (ParseModel 1 petParser [] NewModel "Pet" "models").value?.map (fun r => r.m.Id)
      = some "models.Pet" ∧
    (ParseModel 1 nestedPetParser [] NewModel "Pet" "a/b").value?.map (fun r => r.m.Id)
      = some "a.b.Pet" ∧
    (ParseModel 1 nestedPetParser [] NewModel "a.b.Pet" "a/b").value?.map (fun r => r.m.Id)
      = some "a.b.Pet" := by
  refine ⟨?_, by decide, by decide, by decide⟩
  intro fuel parser known m modelName currentPackage spec modelPackage r hf hr
  cases fuel with
  | zero => simp [ParseModel] at hr
  | succ n => exact ParseModelBody_Id _ _ _ _ _ _ _ _ _ hf hr

/-- C10 at a concrete input: `Pet` located in package `models`. -/
theorem C10_canonical_id_witness :
    ∀ r, ParseModel 1 petParser [] NewModel "Pet" "models" = Outcome.ok r → r.m.Id = "models.Pet" :=
  fun r hr =>
    (C10_canonical_id.1 1 petParser [] NewModel "Pet" "models"
      ⟨"Pet", TypeExpr.structType
          [⟨["Name"], Expr.ident "string", none⟩,
           ⟨["Age"], Expr.ident "int", some [("json", "age,omitempty")]⟩]⟩
      "models" r (by decide) hr).trans (by decide)

/-- C7 (the code at a failing input): with `type B struct { X int }` embedded in
`type A struct { B; Y string }`, resolving `A` ends the process for every recursion budget
that lets the run proceed: the embedded property `X` arrives with the wire type `integer`,
which the first loop of `ParseModel` takes for a model name and fails to find.  Resolving
`B` alone succeeds, and so does resolving `C`, which embeds a struct whose only field is a
`string`: `C` gets the properties `X` and `Y` at top level. -/
theorem C7_embedding_primitive_field_is_fatal :
    (∀ fuel, registerType (fuel + 2) embedParser "A" = Outcome.fatal) ∧
    (registerType 1 embedParser "B").value?.map (fun r => (r.2.1, r.2.2)) =
      some ("models.B", none) ∧
    (registerType 2 embedParser "C").value?.map
      (fun r => (r.2.1, (GoMap.get r.1.Swagger.Definitions "models.C").map
        (fun s => GoMap.keys s.Properties), GoMap.keys r.1.Swagger.Definitions)) =
      some ("models.C", some ["X", "Y"], ["models.C"]) := by
  refine ⟨fun fuel => ?_, by decide, by decide⟩
  rfl

theorem ParseModelProperty_frame (f : ModelParser) (hf : KeepsFrame f) (parser : Parser)
    (m : Model) (field : Field) (modelPackage : String) (parser1 : Parser) (m1 : Model)
    (h : ParseModelProperty f parser m field modelPackage = Outcome.ok (parser1, m1)) :
    parser1.frame = parser.frame := by
  unfold ParseModelProperty at h
  simp only at h
  split at h
  · cases h; rfl
  · split at h
    · split at h
      · cases h
      · split at h
        · cases h
        · cases h
        · rename_i r hr
          cases h
          exact hf _ _ _ _ _ _ hr
    · split at h
      · cases h; rfl
      · cases h; rfl

theorem parseFields_frame (f : ModelParser) (hf : KeepsFrame f) (modelPackage : String)
    (fields : List Field) (parser : Parser) (m : Model) (parser1 : Parser) (m1 : Model)
    (h : parseFields f modelPackage fields parser m = Outcome.ok (parser1, m1)) :
    parser1.frame = parser.frame := by
  induction fields generalizing parser m with
  | nil =>
    simp only [parseFields] at h
    cases h; rfl
  | cons field rest ih =>
    simp only [parseFields] at h
    split at h
    · rename_i p2 m2 hp
      rw [ih p2 m2 h]
      exact ParseModelProperty_frame f hf _ _ _ _ _ _ hp
    · cases h
    · cases h

theorem parseUsedTypes_frame (f : ModelParser) (hf : KeepsFrame f) (modelPackage : String)
    (usedTypes : List String) (parser : Parser) (known : GoMap Bool) (m : Model)
    (inner : List Model) (r : ModelResult)
    (h : parseUsedTypes f modelPackage usedTypes parser known m inner = Outcome.ok r) :
    r.parser.frame = parser.frame := by
  induction usedTypes generalizing parser known m inner with
  | nil =>
    simp only [parseUsedTypes] at h
    cases h; rfl
  | cons typeName rest ih =>
    simp only [parseUsedTypes] at h
    split at h
    · cases h
    · cases h
    · rename_i r1 hr1
      split at h
      · cases h
        exact hf _ _ _ _ _ r1 hr1
      · rw [ih _ _ _ _ h]
        exact hf _ _ _ _ _ _ hr1

theorem ParseModelBody_frame (f : ModelParser) (hf : KeepsFrame f) : KeepsFrame (ParseModelBody f) := by
  intro parser known m modelName currentPackage r h
  unfold ParseModelBody at h
  simp only at h
  split at h
  · cases h
  · cases h
  · rename_i spec modelPackage hfind
    have hp : ∀ (n v : String), (recordModelName parser n v).frame = parser.frame := by
      intro n v
      unfold recordModelName
      split <;> rfl
    split at h
    · cases h
      exact hp _ _
    · unfold ParseFieldList at h
      split at h
      · cases h
      · cases h
      · rename_i p2 m2 hfl
        rw [parseUsedTypes_frame f hf _ _ _ _ _ _ _ h]
        split at hfl
        · cases hfl
          exact hp _ _
        · rw [parseFields_frame f hf _ _ _ _ _ _ hfl]
          exact hp _ _
    · cases h
      exact hp _ _

theorem ParseModel_frame (fuel : Nat) : KeepsFrame (ParseModel fuel) := by
  induction fuel with
  | zero =>
    intro parser known m modelName currentPackage r h
    simp [ParseModel] at h
  | succ n ih => exact ParseModelBody_frame _ ih

/-- `registerType` changes, besides the two package-level tables, Definitions only. -/
theorem registerType_frame (fuel : Nat) (parser : Parser) (typeName : String) (parser1 : Parser)
    (name : String) (err : Option String)
    (h : registerType fuel parser typeName = Outcome.ok (parser1, name, err)) :
    ∃ definitions, parser1.frame =
      { parser.frame with Swagger := { parser.Swagger with Definitions := definitions } } := by
  unfold registerType at h
  split at h
  · cases h
    exact ⟨parser.Swagger.Definitions, rfl⟩
  · split at h
    · cases h
      exact ⟨parser.Swagger.Definitions, rfl⟩
    · split at h
      · cases h
      · cases h
      · rename_i r hr
        have hfr := ParseModel_frame fuel _ _ _ _ _ _ hr
        have hsw : r.parser.Swagger = parser.Swagger := by
          have h1 := congrArg Parser.Swagger hfr
          exact h1
        split at h
        · cases h
          exact ⟨parser.Swagger.Definitions, hfr⟩
        · split at h
          · cases h
            exact ⟨parser.Swagger.Definitions, hfr⟩
          · cases h
            refine ⟨List.foldl registerModel
              (registerModel r.parser.Swagger.Definitions r.m) r.innerModels, ?_⟩
            rw [← hfr, ← hsw]
            rfl

theorem registerType_tags (fuel : Nat) (parser : Parser) (typeName : String) (parser1 : Parser)
    (name : String) (err : Option String)
    (h : registerType fuel parser typeName = Outcome.ok (parser1, name, err)) :
    parser1.Swagger.Tags = parser.Swagger.Tags := by
  obtain ⟨d, hd⟩ := registerType_frame fuel parser typeName parser1 name err h
  have h1 := congrArg (fun p => p.Swagger.Tags) hd
  exact h1

theorem ParseResponseComment_tags (fuel : Nat) (parser : Parser) (operation : OperationObject)
    (commentLine : String) (parser1 : Parser) (operation1 : OperationObject)
    (err : Option String)
    (h : ParseResponseComment fuel parser operation commentLine =
      Outcome.ok (parser1, operation1, err)) :
    parser1.Swagger.Tags = parser.Swagger.Tags := by
  unfold ParseResponseComment at h
  split at h
  · simp only at h
    split at h
    · cases h; rfl
    · split at h
      · cases h
      · cases h
      · rename_i hr
        cases h
        exact registerType_tags _ _ _ _ _ _ hr
      · rename_i hr
        cases h
        exact registerType_tags _ _ _ _ _ _ hr
  · cases h; rfl

theorem ParseParamComment_tags (fuel : Nat) (parser : Parser) (operation : OperationObject)
    (commentLine : String) (parser1 : Parser) (operation1 : OperationObject)
    (err : Option String)
    (h : ParseParamComment fuel parser operation commentLine =
      Outcome.ok (parser1, operation1, err)) :
    parser1.Swagger.Tags = parser.Swagger.Tags := by
  unfold ParseParamComment at h
  simp only at h
  split at h
  · split at h
    · cases h
    · cases h
    · rename_i hr
      cases h
      exact registerType_tags _ _ _ _ _ _ hr
    · rename_i hr
      cases h
      exact registerType_tags _ _ _ _ _ _ hr
  · cases h; rfl

theorem ParseRouterComment_tags (parser : Parser) (operation : OperationObject)
    (commentLine : String) :
    (ParseRouterComment parser operation commentLine).1.Swagger.Tags = parser.Swagger.Tags := by
  unfold ParseRouterComment
  simp only
  split <;> rfl

/-- The Tags catalogue after the `@resource` case: the name is in it, and it has no
duplicate name when it had none. -/
theorem parseResource_tags (parser : Parser) (operation : OperationObject)
    (commentLine attributeName : String) (h : (tagNames parser).Nodup) :
    (tagNames (parseResource parser operation commentLine attributeName).1).Nodup ∧
    ∀ m0 name description,
      regexp.FindStringSubmatch reResource 2
        (strings.TrimSpace (strings.sliceFrom commentLine attributeName.length))
        = [m0, name, description] →
      name ∈ tagNames (parseResource parser operation commentLine attributeName).1 ∧
      (name ∈ tagNames parser →
        (parseResource parser operation commentLine attributeName).1 = parser) := by
  unfold parseResource
  simp only
  split
  · rename_i x name description hm
    by_cases hex : parser.Swagger.Tags.any (fun t => decide (t.Name = name)) = true
    · have hmem : name ∈ tagNames parser := by
        simp only [List.any_eq_true, decide_eq_true_eq] at hex
        obtain ⟨t, ht, hn⟩ := hex
        exact List.mem_map.2 ⟨t, ht, hn⟩
      simp only [hex, Bool.not_true, Bool.false_eq_true, if_false]
      refine ⟨h, ?_⟩
      intro m0 n d heq
      rw [hm] at heq
      injection heq with _ heq
      injection heq with heq _
      subst heq
      exact ⟨hmem, fun _ => trivial⟩
    · have hnot : name ∉ tagNames parser := by
        intro hmem
        obtain ⟨t, ht, hn⟩ := List.mem_map.1 hmem
        exact hex (List.any_eq_true.2 ⟨t, ht, by simpa using hn⟩)
      simp only [hex, Bool.not_false, if_true]
      refine ⟨?_, ?_⟩
      · simp only [tagNames, List.map_append, List.map_cons, List.map_nil]
        exact List.Nodup.append h (List.nodup_singleton _) (List.disjoint_singleton.2 hnot)
      · intro m0 n d heq
        rw [hm] at heq
        injection heq with _ heq
        injection heq with heq _
        subst heq
        refine ⟨?_, fun hm => absurd hm hnot⟩
        simp [tagNames]
  · rename_i hno
    refine ⟨h, ?_⟩
    intro m0 name description heq
    exact absurd heq (hno m0 name description)

theorem ParseComment_tags_nodup (parser parser1 : Parser) (hstep : CommentStep parser parser1)
    (h : (tagNames parser).Nodup) : (tagNames parser1).Nodup := by
  obtain ⟨fuel, operation, comment, operation1, err, hc⟩ := hstep
  unfold ParseComment at hc
  simp only at hc
  have keep : ∀ p : Parser, p.Swagger.Tags = parser.Swagger.Tags → (tagNames p).Nodup := by
    intro p hp
    unfold tagNames
    rw [hp]
    exact h
  split at hc
  · cases hc; exact h
  · split at hc
    · cases hc
      exact keep _ (ParseRouterComment_tags _ _ _)
    · split at hc
      · cases hc
        exact (parseResource_tags _ _ _ _ h).1
      · split at hc
        · cases hc; exact h
        · split at hc
          · cases hc; exact h
          · split at hc
            · exact keep _ (ParseResponseComment_tags _ _ _ _ _ _ _ hc)
            · split at hc
              · exact keep _ (ParseParamComment_tags _ _ _ _ _ _ _ hc)
              · split at hc
                · cases hc; exact h
                · split at hc
                  · cases hc; exact h
                  · cases hc; exact h

/-- A `@resource` comment with a quoted description: what `ParseComment` returns. -/
theorem ParseComment_resource (fuel : Nat) (parser : Parser) (operation : OperationObject)
    (comment : String) (htag : strings.ToLower (attributeOf comment) = "@resource") :
    ParseComment fuel parser operation comment =
      Outcome.ok ((parseResource parser operation (commentLineOf comment) (attributeOf comment)).1,
        (parseResource parser operation (commentLineOf comment) (attributeOf comment)).2, none) := by
  have hlen : ¬ (commentLineOf comment).length = 0 := by
    intro h0
    have hd : (commentLineOf comment).data = [] := List.length_eq_zero.1 h0
    have : attributeOf comment = "" := by
      simp [attributeOf, strings.Fields, hd, strings.fieldsAux]
    rw [this] at htag
    exact absurd htag (by decide)
  have h1 : ¬ ("@resource" : String) = "@router" := by decide
  unfold ParseComment
  simp only [commentLineOf, attributeOf] at hlen htag ⊢
  simp only [hlen, if_false, htag, h1, if_true]

/-- C8: along any sequence of `ParseComment` calls that return, on whatever operations
and comments, a Tags catalogue without duplicate names stays without duplicate names; and
a `@resource <name> "<description>"` comment processed twice, by two operations, returns
without error both times and leaves exactly one entry with that name. -/
theorem C8_tags_have_no_duplicate_names (parser : Parser) (h : (tagNames parser).Nodup) :
    (∀ parser1, Relation.ReflTransGen CommentStep parser parser1 → (tagNames parser1).Nodup) ∧
    (∀ (fuel : Nat) (operation operation2 : OperationObject) (comment m0 name description : String),
      strings.ToLower (attributeOf comment) = "@resource" →
      regexp.FindStringSubmatch reResource 2 (contentOf comment) = [m0, name, description] →
      ∃ parser1 operation1 parser2 operation3,
        ParseComment fuel parser operation comment = Outcome.ok (parser1, operation1, none) ∧
        ParseComment fuel parser1 operation2 comment = Outcome.ok (parser2, operation3, none) ∧
        (tagNames parser2).count name = 1) := by
  constructor
  · intro parser1 hreach
    induction hreach with
    | refl => exact h
    | tail _ hstep ih => exact ParseComment_tags_nodup _ _ hstep ih
  · intro fuel operation operation2 comment m0 name description htag hm
    have r1 := parseResource_tags parser operation (commentLineOf comment) (attributeOf comment) h
    have r1m := r1.2 m0 name description hm
    have r2 := parseResource_tags _ operation2 (commentLineOf comment) (attributeOf comment) r1.1
    have r2m := r2.2 m0 name description hm
    refine ⟨_, _, _, _, ParseComment_resource fuel parser operation comment htag,
      ParseComment_resource fuel _ operation2 comment htag, ?_⟩
    exact List.count_eq_one_of_mem r2.1 r2m.1

/-- C8 at the input of the claim: `@resource pets "Pet operations"` processed twice. -/
theorem C8_tags_have_no_duplicate_names_witness :
    ∃ parser1 operation1 parser2 operation3,
      ParseComment 0 petParser (NewOperationObject 1 "models")
        "// @resource pets \"Pet operations\"" = Outcome.ok (parser1, operation1, none) ∧
      ParseComment 0 parser1 (NewOperationObject 2 "models")
        "// @resource pets \"Pet operations\"" = Outcome.ok (parser2, operation3, none) ∧
      (tagNames parser2).count "pets" = 1 :=
  (C8_tags_have_no_duplicate_names petParser (by decide)).2 0 (NewOperationObject 1 "models")
    (NewOperationObject 2 "models") "// @resource pets \"Pet operations\""
    "pets \"Pet operations\"" "pets" "Pet operations" (by decide) (by decide)

theorem splitAux_of_not_mem (sep : Char) (cs cur : List Char) (h : sep ∉ cs) :
    strings.splitAux sep cs cur = [⟨cur.reverse ++ cs⟩] := by
  induction cs generalizing cur with
  | nil => simp [strings.splitAux]
  | cons c rest ih =>
    have hc : ¬ c = sep := fun e => h (by simp [e])
    have hr : sep ∉ rest := fun e => h (List.mem_cons_of_mem _ e)
    simp [strings.splitAux, hc, ih _ hr]

theorem Split_of_not_mem (s : String) (sep : Char) (h : sep ∉ s.data) :
    strings.Split s sep = [s] := by
  simp [strings.Split, splitAux_of_not_mem sep s.data [] h]

theorem GetModelDefinition_frame (P Q : Parser) (h : Q.frame = P.frame) (model pkg : String) :
    GetModelDefinition Q model pkg = GetModelDefinition P model pkg := by
  have h1 : Q.TypeDefinitions = P.TypeDefinitions := by
    have := congrArg Parser.TypeDefinitions h
    exact this
  have h2 : Q.PackagePathCache = P.PackagePathCache := by
    have := congrArg Parser.PackagePathCache h
    exact this
  simp only [GetModelDefinition, CheckRealPackagePath, h1, h2]

theorem findInPackages_frame (P Q : Parser) (h : Q.frame = P.frame) (model : String)
    (pkgs : List String) : findInPackages Q model pkgs = findInPackages P model pkgs := by
  induction pkgs with
  | nil => rfl
  | cons pkg rest ih => simp only [findInPackages, GetModelDefinition_frame P Q h, ih]

theorem FindModelDefinition_frame (P Q : Parser) (h : Q.frame = P.frame)
    (modelName currentPackage : String) :
    FindModelDefinition Q modelName currentPackage = FindModelDefinition P modelName currentPackage := by
  have h2 : Q.PackagePathCache = P.PackagePathCache := by
    have := congrArg Parser.PackagePathCache h
    exact this
  have h3 : Q.PackageImports = P.PackageImports := by
    have := congrArg Parser.PackageImports h
    exact this
  simp only [FindModelDefinition, GetModelDefinition_frame P Q h, findInPackages_frame P Q h,
    CheckRealPackagePath, h2, h3]

theorem recordModelName_frame (P : Parser) (n id : String) :
    (recordModelName P n id).frame = P.frame := by
  unfold recordModelName
  split <;> rfl

theorem recordModelName_translations (P : Parser) (n id : String) :
    (recordModelName P n id).typeDefTranslations = P.typeDefTranslations := by
  unfold recordModelName
  split <;> rfl

theorem FindModelDefinition_unqualified (P : Parser) (X pkg : String) (spec : TypeSpec)
    (hdot : '.' ∉ X.data) (hX : GetModelDefinition P X pkg = some spec) :
    FindModelDefinition P X pkg = Outcome.ok (spec, pkg) := by
  simp [FindModelDefinition, Split_of_not_mem X '.' hdot, hX]

theorem canonicalId_unqualified (pkg X : String) (hdot : '.' ∉ X.data) :
    canonicalId pkg X = strings.Join (strings.Split pkg '/' ++ [X]) "." := by
  simp [canonicalId, Split_of_not_mem X '.' hdot]

theorem registerType_of_ParseModel (fuel : Nat) (P : Parser) (T : String) (r : ModelResult)
    (h1 : GoMap.get P.typeDefTranslations T = none) (h2 : IsBasicType T = false)
    (hr : ParseModel fuel P [] NewModel T P.CurrentPackage = Outcome.ok r)
    (herr : r.err = none) (h3 : GoMap.get r.parser.typeDefTranslations T = none) :
    registerType fuel P T =
      Outcome.ok ({ r.parser with
          Swagger := { r.parser.Swagger with
            Definitions := List.foldl registerModel
              (registerModel r.parser.Swagger.Definitions r.m) r.innerModels } },
        r.m.Id, none) := by
  unfold registerType
  simp only [h1, h2, Bool.false_eq_true, if_false, hr, herr, h3]

theorem GoMap.has_set {V : Type} (m : GoMap V) (k k1 : String) (v : V) :
    GoMap.has (GoMap.set m k v) k1 = true ↔ (GoMap.has m k1 = true ∨ k1 = k) := by
  by_cases h : k = k1
  · subst h
    simp [GoMap.has, GoMap.get_set_self]
  · have h1 : ¬ k1 = k := fun e => h e.symm
    simp [GoMap.has, GoMap.get_set_of_ne _ _ _ _ h, h1]

theorem has_registerModel (D : GoMap SchemaObject) (m : Model) (id : String) :
    GoMap.has (registerModel D m) id = true ↔ (GoMap.has D id = true ∨ id = m.Id) := by
  unfold registerModel
  by_cases hh : GoMap.has D m.Id = true
  · simp only [hh, if_true]
    cases hg : GoMap.get D m.Id with
    | none => simp [GoMap.has, hg] at hh
    | some schema =>
      simp only [GoMap.has_set]
  · have hf : GoMap.has D m.Id = false := by simpa using hh
    simp only [hf, Bool.false_eq_true, if_false, GoMap.get_set_self, GoMap.has_set]
    tauto

theorem recordModelName_definitions (P : Parser) (n id : String) :
    (recordModelName P n id).Swagger = P.Swagger := by
  unfold recordModelName
  split <;> rfl

theorem GoMap.keys_set {V : Type} (m : GoMap V) (k : String) (v : V) :
    GoMap.keys (GoMap.set m k v) = if GoMap.has m k = true then GoMap.keys m else GoMap.keys m ++ [k] := by
  induction m with
  | nil => simp [GoMap.set, GoMap.keys, GoMap.has, GoMap.get]
  | cons kv rest ih =>
    obtain ⟨k0, v0⟩ := kv
    by_cases h : k0 = k
    · simp [GoMap.set, GoMap.keys, GoMap.has, GoMap.get, h]
    · simp only [GoMap.set, h, if_false, GoMap.keys, List.map_cons, GoMap.has, GoMap.get] at ih ⊢
      rw [ih]
      split <;> simp

theorem GoMap.not_has_iff {V : Type} (m : GoMap V) (k : String) :
    GoMap.has m k = false ↔ k ∉ GoMap.keys m := by
  rw [← GoMap.has_iff_mem_keys]
  simp

theorem GoMap.nodup_keys_set {V : Type} (m : GoMap V) (k : String) (v : V)
    (h : (GoMap.keys m).Nodup) : (GoMap.keys (GoMap.set m k v)).Nodup := by
  rw [GoMap.keys_set]
  split
  · exact h
  · rename_i hk
    have hk1 : k ∉ GoMap.keys m := by
      rw [← GoMap.has_iff_mem_keys]
      exact hk
    exact List.Nodup.append h (List.nodup_singleton _) (List.disjoint_singleton.2 hk1)

theorem GoMap.get_eq_none_of_not_mem {V : Type} (m : GoMap V) (k : String)
    (h : k ∉ GoMap.keys m) : GoMap.get m k = none := by
  have := (GoMap.not_has_iff m k).2 h
  simpa [GoMap.has] using this

/-- Two maps with the same keys in the same order, none twice, and the same value at each
key are equal. -/
theorem GoMap.ext_of_keys {V : Type} (a b : GoMap V) (hk : GoMap.keys a = GoMap.keys b)
    (hn : (GoMap.keys a).Nodup) (hg : ∀ k, GoMap.get a k = GoMap.get b k) : a = b := by
  induction a generalizing b with
  | nil =>
    cases b with
    | nil => rfl
    | cons kv rest => simp [GoMap.keys] at hk
  | cons kv rest ih =>
    cases b with
    | nil => simp [GoMap.keys] at hk
    | cons kv1 rest1 =>
      obtain ⟨k0, v0⟩ := kv
      obtain ⟨k1, v1⟩ := kv1
      simp only [GoMap.keys, List.map_cons, List.cons.injEq] at hk
      obtain ⟨hk0, hkr⟩ := hk
      subst hk0
      have hv : v0 = v1 := by
        have := hg k0
        simpa [GoMap.get] using this
      subst hv
      have hn1 : k0 ∉ GoMap.keys rest ∧ (GoMap.keys rest).Nodup := by
        have hn2 := hn
        simp only [GoMap.keys, List.map_cons, List.nodup_cons] at hn2
        exact hn2
      have hrest : rest = rest1 := by
        apply ih rest1 hkr hn1.2
        intro k
        by_cases hkk : k0 = k
        · subst hkk
          rw [GoMap.get_eq_none_of_not_mem rest k0 hn1.1,
            GoMap.get_eq_none_of_not_mem rest1 k0 (by
              show k0 ∉ List.map Prod.fst rest1
              rw [← hkr]
              exact hn1.1)]
        · have := hg k
          simpa [GoMap.get, hkk] using this
      rw [hrest]

theorem get_mergeProperties (P Q : GoMap ModelProperty) (k : String) :
    GoMap.get (mergeProperties P Q) k =
      (match GoMap.get Q.reverse k with
       | some v => some v
       | none => GoMap.get P k) := by
  induction Q generalizing P with
  | nil => simp [mergeProperties, GoMap.get]
  | cons kv rest ih =>
    have hstep : mergeProperties P (kv :: rest) = mergeProperties (GoMap.set P kv.1 kv.2) rest := rfl
    rw [hstep, ih]
    have happ : ∀ (a b : GoMap ModelProperty), GoMap.get (a ++ b) k =
        (match GoMap.get a k with
         | some v => some v
         | none => GoMap.get b k) := by
      intro a b
      induction a with
      | nil => simp [GoMap.get]
      | cons x xs ihx =>
        obtain ⟨kx, vx⟩ := x
        by_cases hx : kx = k
        · simp [GoMap.get, hx]
        · simp only [List.cons_append, GoMap.get, hx, if_false]
          exact ihx
    rw [List.reverse_cons, happ]
    cases GoMap.get rest.reverse k with
    | some v => rfl
    | none =>
      obtain ⟨k0, v0⟩ := kv
      by_cases h0 : k0 = k
      · subst h0
        simp [GoMap.get, GoMap.get_set_self]
      · simp [GoMap.get, h0, GoMap.get_set_of_ne _ _ _ _ h0]

theorem has_mergeProperties (P Q : GoMap ModelProperty) (k : String) :
    GoMap.has (mergeProperties P Q) k = true ↔ (GoMap.has P k = true ∨ k ∈ GoMap.keys Q) := by
  induction Q generalizing P with
  | nil => simp [mergeProperties, GoMap.keys]
  | cons kv rest ih =>
    have hstep : mergeProperties P (kv :: rest) = mergeProperties (GoMap.set P kv.1 kv.2) rest := rfl
    rw [hstep, ih, GoMap.has_set]
    simp only [GoMap.keys, List.map_cons, List.mem_cons]
    tauto

theorem keys_mergeProperties_of_has (P Q : GoMap ModelProperty)
    (h : ∀ kv ∈ Q, GoMap.has P kv.1 = true) :
    GoMap.keys (mergeProperties P Q) = GoMap.keys P := by
  induction Q generalizing P with
  | nil => rfl
  | cons kv rest ih =>
    have hstep : mergeProperties P (kv :: rest) = mergeProperties (GoMap.set P kv.1 kv.2) rest := rfl
    rw [hstep, ih, GoMap.keys_set, h kv (List.mem_cons_self _ _)]
    · simp
    · intro kv1 hkv1
      rw [GoMap.has_set]
      exact Or.inl (h kv1 (List.mem_cons_of_mem _ hkv1))

theorem nodup_keys_mergeProperties (P Q : GoMap ModelProperty) (h : (GoMap.keys P).Nodup) :
    (GoMap.keys (mergeProperties P Q)).Nodup := by
  induction Q generalizing P with
  | nil => exact h
  | cons kv rest ih => exact ih _ (GoMap.nodup_keys_set P kv.1 kv.2 h)

theorem mergeProperties_append (P Q R : GoMap ModelProperty) :
    mergeProperties (mergeProperties P Q) R = mergeProperties P (Q ++ R) := by
  simp [mergeProperties, List.foldl_append]

/-- Writing the same properties a second time changes nothing. -/
theorem mergeProperties_idem (P Q : GoMap ModelProperty) (h : (GoMap.keys P).Nodup) :
    mergeProperties (mergeProperties P Q) Q = mergeProperties P Q := by
  apply GoMap.ext_of_keys
  · apply keys_mergeProperties_of_has
    intro kv hkv
    rw [has_mergeProperties]
    exact Or.inr (List.mem_map.2 ⟨kv, hkv, rfl⟩)
  · exact nodup_keys_mergeProperties _ _ (nodup_keys_mergeProperties _ _ h)
  · intro k
    rw [get_mergeProperties, get_mergeProperties]
    cases GoMap.get Q.reverse k <;> rfl

theorem get_registerModel_of_ne (D : GoMap SchemaObject) (m : Model) (id : String)
    (h : m.Id ≠ id) : GoMap.get (registerModel D m) id = GoMap.get D id := by
  unfold registerModel
  simp only
  split
  · rw [GoMap.get_set_of_ne _ _ _ _ h]
    split
    · rfl
    · rw [GoMap.get_set_of_ne _ _ _ _ h]
  · split
    · rfl
    · rw [GoMap.get_set_of_ne _ _ _ _ h]

theorem get_registerModel_some (D : GoMap SchemaObject) (m : Model) (s : SchemaObject)
    (h : GoMap.get D m.Id = some s) :
    GoMap.get (registerModel D m) m.Id =
      some { s with Properties := mergeProperties s.Properties m.Properties } := by
  unfold registerModel
  simp only [GoMap.has, h, Option.isSome_some, if_true, GoMap.get_set_self]

theorem get_registerModel_none (D : GoMap SchemaObject) (m : Model)
    (h : GoMap.get D m.Id = none) :
    GoMap.get (registerModel D m) m.Id =
      some { Type_ := "object", Required := m.Required,
             Properties := mergeProperties [] m.Properties } := by
  unfold registerModel
  simp only [GoMap.has, h, Option.isSome_none, Bool.false_eq_true, if_false, GoMap.get_set_self]

theorem keys_registerModel (D : GoMap SchemaObject) (m : Model) :
    GoMap.keys (registerModel D m) =
      if GoMap.has D m.Id = true then GoMap.keys D else GoMap.keys D ++ [m.Id] := by
  unfold registerModel
  by_cases hh : GoMap.has D m.Id = true
  · simp only [hh, if_true]
    cases hg : GoMap.get D m.Id with
    | none => simp [GoMap.has, hg] at hh
    | some s => simp only [GoMap.keys_set, hh, if_true]
  · have hf : GoMap.has D m.Id = false := by simpa using hh
    simp only [hf, Bool.false_eq_true, if_false, GoMap.get_set_self, GoMap.keys_set]
    have : GoMap.has (GoMap.set D m.Id
        ({ Type_ := "object", Required := m.Required, Properties := [] } : SchemaObject)) m.Id
        = true := by
      rw [GoMap.has_set]; exact Or.inr rfl
    rw [if_pos this]

theorem wellFormed_registerModel (D : GoMap SchemaObject) (m : Model)
    (h : WellFormedDefinitions D) : WellFormedDefinitions (registerModel D m) := by
  obtain ⟨hk, hp⟩ := h
  constructor
  · rw [keys_registerModel]
    split
    · exact hk
    · rename_i hh
      have hk1 : m.Id ∉ GoMap.keys D := by
        rw [← GoMap.has_iff_mem_keys]
        exact hh
      exact List.Nodup.append hk (List.nodup_singleton _) (List.disjoint_singleton.2 hk1)
  · intro id s hs
    by_cases hid : m.Id = id
    · subst hid
      cases hg : GoMap.get D m.Id with
      | some s0 =>
        rw [get_registerModel_some D m s0 hg] at hs
        cases hs
        exact nodup_keys_mergeProperties _ _ (hp _ _ hg)
      | none =>
        rw [get_registerModel_none D m hg] at hs
        cases hs
        exact nodup_keys_mergeProperties _ _ (by simp [GoMap.keys])
    · rw [get_registerModel_of_ne D m id hid] at hs
      exact hp id s hs

theorem wellFormed_foldl_registerModel (ms : List Model) (D : GoMap SchemaObject)
    (h : WellFormedDefinitions D) : WellFormedDefinitions (ms.foldl registerModel D) := by
  induction ms generalizing D with
  | nil => exact h
  | cons m rest ih => exact ih _ (wellFormed_registerModel D m h)

theorem has_foldl_registerModel (ms : List Model) (D : GoMap SchemaObject) (id : String) :
    GoMap.has (ms.foldl registerModel D) id = true ↔
      (GoMap.has D id = true ∨ ∃ m ∈ ms, m.Id = id) := by
  induction ms generalizing D with
  | nil => simp
  | cons m rest ih =>
    rw [List.foldl_cons, ih, has_registerModel]
    simp only [List.mem_cons, exists_eq_or_imp]
    constructor
    · rintro ((h | h) | h)
      · exact Or.inl h
      · exact Or.inr (Or.inl h.symm)
      · exact Or.inr (Or.inr h)
    · rintro (h | h | h)
      · exact Or.inl (Or.inl h)
      · exact Or.inl (Or.inr h.symm)
      · exact Or.inr h

theorem keys_foldl_registerModel_of_has (ms : List Model) (D : GoMap SchemaObject)
    (h : ∀ m ∈ ms, GoMap.has D m.Id = true) :
    GoMap.keys (ms.foldl registerModel D) = GoMap.keys D := by
  induction ms generalizing D with
  | nil => rfl
  | cons m rest ih =>
    rw [List.foldl_cons, ih, keys_registerModel, if_pos (h m (List.mem_cons_self _ _))]
    intro m1 hm1
    rw [has_registerModel]
    exact Or.inl (h m1 (List.mem_cons_of_mem _ hm1))

theorem get_foldl_registerModel_of_ne (ms : List Model) (D : GoMap SchemaObject) (id : String)
    (h : ∀ m ∈ ms, m.Id ≠ id) : GoMap.get (ms.foldl registerModel D) id = GoMap.get D id := by
  induction ms generalizing D with
  | nil => rfl
  | cons m rest ih =>
    rw [List.foldl_cons, ih _ (fun m1 hm1 => h m1 (List.mem_cons_of_mem _ hm1)),
      get_registerModel_of_ne D m id (h m (List.mem_cons_self _ _))]

theorem get_foldl_registerModel_some (ms : List Model) (D : GoMap SchemaObject) (id : String)
    (s : SchemaObject) (h : GoMap.get D id = some s) :
    GoMap.get (ms.foldl registerModel D) id =
      some { s with Properties := mergeProperties s.Properties (propertiesFor id ms) } := by
  induction ms generalizing D s with
  | nil => simpa [propertiesFor, mergeProperties] using h
  | cons m rest ih =>
    rw [List.foldl_cons]
    by_cases hid : m.Id = id
    · subst hid
      rw [ih _ _ (get_registerModel_some D m s h)]
      simp only [propertiesFor, if_true, mergeProperties_append]
    · rw [ih _ s (by rw [get_registerModel_of_ne D m id hid]; exact h)]
      simp only [propertiesFor, hid, if_false]

theorem get_foldl_registerModel_none (ms : List Model) (D : GoMap SchemaObject) (id : String)
    (h : GoMap.get D id = none) (s1 : SchemaObject)
    (h1 : GoMap.get (ms.foldl registerModel D) id = some s1) :
    s1.Properties = mergeProperties [] (propertiesFor id ms) := by
  induction ms generalizing D with
  | nil =>
    rw [List.foldl_nil, h] at h1
    cases h1
  | cons m rest ih =>
    rw [List.foldl_cons] at h1
    by_cases hid : m.Id = id
    · subst hid
      rw [get_foldl_registerModel_some rest _ _ _ (get_registerModel_none D m h)] at h1
      cases h1
      simp only [propertiesFor, if_true, mergeProperties_append]
    · have := ih _ (by rw [get_registerModel_of_ne D m id hid]; exact h) h1
      simpa only [propertiesFor, hid, if_false] using this

/-- Merging the same models into Definitions a second time changes nothing. -/
theorem foldl_registerModel_idem (ms : List Model) (D : GoMap SchemaObject)
    (h : WellFormedDefinitions D) :
    ms.foldl registerModel (ms.foldl registerModel D) = ms.foldl registerModel D := by
  have hwf := wellFormed_foldl_registerModel ms D h
  apply GoMap.ext_of_keys
  · apply keys_foldl_registerModel_of_has
    intro m hm
    rw [has_foldl_registerModel]
    exact Or.inr ⟨m, hm, rfl⟩
  · exact (wellFormed_foldl_registerModel ms _ hwf).1
  · intro id
    cases h1 : GoMap.get (ms.foldl registerModel D) id with
    | none =>
      rw [get_foldl_registerModel_of_ne ms _ id, h1]
      intro m hm hid
      have hhas : GoMap.has (ms.foldl registerModel D) id = true := by
        rw [has_foldl_registerModel]
        exact Or.inr ⟨m, hm, hid⟩
      simp [GoMap.has, h1] at hhas
    | some s1 =>
      rw [get_foldl_registerModel_some ms _ id s1 h1]
      have habs : ∃ P0, (GoMap.keys P0).Nodup ∧
          s1.Properties = mergeProperties P0 (propertiesFor id ms) := by
        cases h0 : GoMap.get D id with
        | some s0 =>
          rw [get_foldl_registerModel_some ms D id s0 h0] at h1
          cases h1
          exact ⟨s0.Properties, h.2 id s0 h0, rfl⟩
        | none =>
          exact ⟨[], by simp [GoMap.keys], get_foldl_registerModel_none ms D id h0 s1 h1⟩
      obtain ⟨P0, hn, hP⟩ := habs
      have : mergeProperties s1.Properties (propertiesFor id ms) = s1.Properties := by
        rw [hP, mergeProperties_idem P0 _ hn]
      rw [this]

theorem extends_refl (a : GoMap String) : Extends a a := fun _ _ h => h

theorem extends_trans {a b c : GoMap String} (h1 : Extends a b) (h2 : Extends b c) :
    Extends a c := fun k v h => h2 k v (h1 k v h)

theorem grows_refl (P : Parser) : Grows P P := ⟨rfl, rfl, extends_refl _⟩

theorem grows_trans {P P1 P2 : Parser} (h1 : Grows P P1) (h2 : Grows P1 P2) : Grows P P2 :=
  ⟨h2.1.trans h1.1, h2.2.1.trans h1.2.1, extends_trans h1.2.2 h2.2.2⟩

theorem decls_of_frame {P Q : Parser} (h : Q.frame = P.frame) : Q.decls = P.decls := by
  unfold Parser.decls
  rw [h]

theorem Agree.of_grows {P P1 Q : Parser} (h1 : Grows P P1) (h2 : Agree P1 Q) : Agree P Q :=
  ⟨h2.1.trans (decls_of_frame h1.1), h2.2.1.trans h1.2.1, extends_trans h1.2.2 h2.2.2⟩

theorem GetModelDefinition_decls (P Q : Parser) (h : Q.decls = P.decls) (model pkg : String) :
    GetModelDefinition Q model pkg = GetModelDefinition P model pkg := by
  have h1 : Q.TypeDefinitions = P.TypeDefinitions := by
    have := congrArg Parser.TypeDefinitions h
    exact this
  have h2 : Q.PackagePathCache = P.PackagePathCache := by
    have := congrArg Parser.PackagePathCache h
    exact this
  simp only [GetModelDefinition, CheckRealPackagePath, h1, h2]

theorem findInPackages_decls (P Q : Parser) (h : Q.decls = P.decls) (model : String)
    (pkgs : List String) : findInPackages Q model pkgs = findInPackages P model pkgs := by
  induction pkgs with
  | nil => rfl
  | cons pkg rest ih => simp only [findInPackages, GetModelDefinition_decls P Q h, ih]

theorem FindModelDefinition_decls (P Q : Parser) (h : Q.decls = P.decls)
    (modelName currentPackage : String) :
    FindModelDefinition Q modelName currentPackage = FindModelDefinition P modelName currentPackage := by
  have h2 : Q.PackagePathCache = P.PackagePathCache := by
    have := congrArg Parser.PackagePathCache h
    exact this
  have h3 : Q.PackageImports = P.PackageImports := by
    have := congrArg Parser.PackageImports h
    exact this
  simp only [FindModelDefinition, GetModelDefinition_decls P Q h, findInPackages_decls P Q h,
    CheckRealPackagePath, h2, h3]

theorem Saturated.of_agree {P Q : Parser} (h : Saturated P) (ha : Agree P Q) : Saturated Q := by
  intro model pkg spec u hg ht
  rw [GetModelDefinition_decls P Q ha.1] at hg
  rw [ha.2.1]
  exact h model pkg spec u hg ht

theorem Agree.of_grows_self {P P1 : Parser} (h : Grows P P1) : Agree P P1 :=
  ⟨decls_of_frame h.1, h.2.1, h.2.2⟩

theorem GoMap.set_of_get {V : Type} (m : GoMap V) (k : String) (v : V)
    (h : GoMap.get m k = some v) : GoMap.set m k v = m := by
  induction m with
  | nil => simp [GoMap.get] at h
  | cons kv rest ih =>
    obtain ⟨k0, v0⟩ := kv
    by_cases h0 : k0 = k
    · simp only [GoMap.get, h0, if_true, Option.some.injEq] at h
      simp [GoMap.set, h0, h]
    · simp only [GoMap.get, h0, if_false] at h
      simp [GoMap.set, h0, ih h]

theorem recordModelName_grows (P : Parser) (n id : String) : Grows P (recordModelName P n id) := by
  refine ⟨recordModelName_frame P n id, recordModelName_translations P n id, ?_⟩
  unfold recordModelName
  split
  · exact extends_refl _
  · rename_i hh
    intro k v hk
    have hne : n ≠ k := by
      intro e
      subst e
      simp [GoMap.has, hk] at hh
    simp only
    rw [GoMap.get_set_of_ne _ _ _ _ hne]
    exact hk

theorem recordModelName_has (P : Parser) (n id : String) :
    GoMap.has (recordModelName P n id).modelNamesPackageNames n = true := by
  unfold recordModelName
  split
  · assumption
  · simp only
    rw [GoMap.has_set]
    exact Or.inr rfl

theorem recordModelName_of_has (Q : Parser) (n id : String)
    (h : GoMap.has Q.modelNamesPackageNames n = true) : recordModelName Q n id = Q := by
  unfold recordModelName
  rw [if_pos h]

theorem has_of_extends {a b : GoMap String} (h : Extends a b) (k : String)
    (hk : GoMap.has a k = true) : GoMap.has b k = true := by
  cases hg : GoMap.get a k with
  | none => simp [GoMap.has, hg] at hk
  | some v => simp [GoMap.has, h k v hg]

theorem scanProperty_agree (R Q : Parser) (known : GoMap Bool) (property : ModelProperty)
    (ha : Agree R Q) (hk : KnownRecorded R known) :
    scanProperty Q known property = scanProperty R known property := by
  have hm : Q.TypesImplementingMarshalInterface = R.TypesImplementingMarshalInterface := by
    have := congrArg Parser.TypesImplementingMarshalInterface ha.1
    exact this
  have ht : propertyTypeName Q property = propertyTypeName R property := by
    simp only [propertyTypeName, ha.2.1]
  unfold scanProperty
  simp only [ht, IsImplementMarshalInterface, hm]
  generalize propertyTypeName R property = t
  by_cases h1 : IsBasicType t = true
  · simp only [h1, if_true]
  · simp only [h1, if_false, Bool.false_eq_true]
    by_cases h2 : GoMap.has R.TypesImplementingMarshalInterface t = true
    · simp only [h2, if_true]
    · simp only [h2, if_false, Bool.false_eq_true]
      by_cases h3 : GoMap.has known t = true
      · have hR := hk _ h3
        have hQ := has_of_extends ha.2.2 _ hR
        simp only [h3, hR, hQ, if_true]
        cases hg : GoMap.get R.modelNamesPackageNames t with
        | none => simp [GoMap.has, hg] at hR
        | some v => simp only [GoMap.getStr, hg, ha.2.2 _ v hg]
      · simp only [h3, if_false, Bool.false_eq_true]

theorem scanProperties_agree (R Q : Parser) (known : GoMap Bool) (props : GoMap ModelProperty)
    (used : GoMap Bool) (ha : Agree R Q) (hk : KnownRecorded R known) :
    scanProperties Q known props used = scanProperties R known props used := by
  induction props generalizing used with
  | nil => rfl
  | cons kv rest ih =>
    obtain ⟨k, p⟩ := kv
    simp only [scanProperties, scanProperty_agree R Q known p ha hk, ih]

theorem ParseModelProperty_replay (f : ModelParser) (hf : Replayable f) (P : Parser)
    (m : Model) (field : Field) (pkg : String) (P1 : Parser) (m1 : Model) (hs : Saturated P)
    (h : ParseModelProperty f P m field pkg = Outcome.ok (P1, m1)) :
    Grows P P1 ∧ ∀ Q, Agree P1 Q → ParseModelProperty f Q m field pkg = Outcome.ok (Q, m1) := by
  unfold ParseModelProperty at h ⊢
  simp only at h ⊢
  split at h
  · rename_i hc
    cases h
    refine ⟨grows_refl _, fun Q _ => ?_⟩
    rw [if_pos hc]
  · rename_i hc
    split at h
    · rename_i hn
      split at h
      · cases h
      · rename_i name hname
        split at h
        · cases h
        · cases h
        · rename_i r hr
          cases h
          obtain ⟨hg, _, hrep⟩ := hf P [] NewModel name pkg r hs
            (fun k hk => by simp [GoMap.has, GoMap.get] at hk) hr
          refine ⟨hg, fun Q hQ => ?_⟩
          rw [if_neg hc, if_pos hn]
          simp only [hname, hrep Q hQ]
    · rename_i hn
      split at h
      · rename_i htag
        cases h
        refine ⟨grows_refl _, fun Q _ => ?_⟩
        rw [if_neg hc, if_neg hn]
      · rename_i tag htag
        cases h
        refine ⟨grows_refl _, fun Q _ => ?_⟩
        rw [if_neg hc, if_neg hn]

theorem parseFields_replay (f : ModelParser) (hf : Replayable f) (pkg : String)
    (fields : List Field) (P : Parser) (m : Model) (P1 : Parser) (m1 : Model)
    (hs : Saturated P) (h : parseFields f pkg fields P m = Outcome.ok (P1, m1)) :
    Grows P P1 ∧ ∀ Q, Agree P1 Q → parseFields f pkg fields Q m = Outcome.ok (Q, m1) := by
  induction fields generalizing P m with
  | nil =>
    simp only [parseFields] at h ⊢
    cases h
    exact ⟨grows_refl _, fun Q _ => rfl⟩
  | cons field rest ih =>
    simp only [parseFields] at h ⊢
    split at h
    · rename_i P2 m2 hp
      obtain ⟨hg1, hrep1⟩ := ParseModelProperty_replay f hf P m field pkg P2 m2 hs hp
      obtain ⟨hg2, hrep2⟩ := ih P2 m2 (hs.of_agree (Agree.of_grows_self hg1)) h
      refine ⟨grows_trans hg1 hg2, fun Q hQ => ?_⟩
      rw [hrep1 Q (Agree.of_grows hg2 hQ)]
      exact hrep2 Q hQ
    · cases h
    · cases h

theorem parseUsedTypes_replay (f : ModelParser) (hf : Replayable f) (pkg : String)
    (usedTypes : List String) (P : Parser) (known : GoMap Bool) (m : Model) (inner : List Model)
    (r : ModelResult) (hs : Saturated P) (hk : KnownRecorded P known)
    (h : parseUsedTypes f pkg usedTypes P known m inner = Outcome.ok r) :
    Grows P r.parser ∧ KnownRecorded r.parser r.knownModelNames ∧
    ∀ Q, Agree r.parser Q →
      parseUsedTypes f pkg usedTypes Q known m inner = Outcome.ok { r with parser := Q } := by
  induction usedTypes generalizing P known m inner with
  | nil =>
    simp only [parseUsedTypes] at h ⊢
    cases h
    exact ⟨grows_refl _, hk, fun Q _ => rfl⟩
  | cons typeName rest ih =>
    simp only [parseUsedTypes] at h ⊢
    split at h
    · cases h
    · cases h
    · rename_i r1 hr1
      obtain ⟨hg1, hk1, hrep1⟩ := hf P known NewModel typeName pkg r1 hs hk hr1
      split at h
      · rename_i e he
        cases h
        refine ⟨hg1, hk1, fun Q hQ => ?_⟩
        rw [hrep1 Q hQ]
        simp only [he]
      · rename_i he
        obtain ⟨hg2, hk2, hrep2⟩ := ih r1.parser r1.knownModelNames _ _
          (hs.of_agree (Agree.of_grows_self hg1)) hk1 h
        refine ⟨grows_trans hg1 hg2, hk2, fun Q hQ => ?_⟩
        rw [hrep1 Q (Agree.of_grows hg2 hQ)]
        simp only [he]
        exact hrep2 Q hQ

theorem findInPackages_spec (P : Parser) (model : String) (pkgs : List String)
    (spec : TypeSpec) (pkg : String) (h : findInPackages P model pkgs = some (spec, pkg)) :
    GetModelDefinition P model pkg = some spec := by
  induction pkgs with
  | nil => simp [findInPackages] at h
  | cons p rest ih =>
    simp only [findInPackages] at h
    split at h
    · rename_i s hs
      cases h
      exact hs
    · exact ih h

theorem FindModelDefinition_spec (P : Parser) (modelName currentPackage : String)
    (spec : TypeSpec) (pkg : String)
    (h : FindModelDefinition P modelName currentPackage = Outcome.ok (spec, pkg)) :
    ∃ model, GetModelDefinition P model pkg = some spec := by
  unfold FindModelDefinition at h
  simp only at h
  split at h
  · split at h
    · cases h
    · rename_i s hs
      cases h
      exact ⟨_, hs⟩
  · split at h
    · rename_i s hs
      cases h
      exact ⟨_, hs⟩
    · split at h
      · cases h
      · split at h
        · cases h
        · split at h
          · cases h
          · split at h
            · rename_i found hfound
              cases h
              exact ⟨_, findInPackages_spec P _ _ _ _ hfound⟩
            · cases h

theorem ParseFieldList_replay (f : ModelParser) (hf : Replayable f) (P : Parser) (m : Model)
    (fields : List Field) (pkg : String) (P1 : Parser) (m1 : Model) (hs : Saturated P)
    (h : ParseFieldList f P m fields pkg = Outcome.ok (P1, m1)) :
    Grows P P1 ∧ ∀ Q, Agree P1 Q → ParseFieldList f Q m fields pkg = Outcome.ok (Q, m1) := by
  unfold ParseFieldList at h ⊢
  split at h
  · rename_i hnil
    cases h
    refine ⟨grows_refl _, fun Q _ => ?_⟩
    rw [if_pos hnil]
  · rename_i hnil
    obtain ⟨hg, hrep⟩ := parseFields_replay f hf pkg fields P _ P1 m1 hs h
    refine ⟨hg, fun Q hQ => ?_⟩
    rw [if_neg hnil]
    exact hrep Q hQ

theorem knownRecorded_set (P P2 : Parser) (known : GoMap Bool) (name : String)
    (hk : KnownRecorded P known) (hg : Extends P.modelNamesPackageNames P2.modelNamesPackageNames)
    (hn : GoMap.has P2.modelNamesPackageNames name = true) :
    KnownRecorded P2 (GoMap.set known name true) := by
  intro k hkk
  rw [GoMap.has_set] at hkk
  rcases hkk with h | h
  · exact has_of_extends hg k (hk k h)
  · rw [h]; exact hn

theorem ParseModelBody_replay (f : ModelParser) (hf : Replayable f) :
    Replayable (ParseModelBody f) := by
  intro P known m name pkg r hs hk h
  unfold ParseModelBody at h
  simp only at h
  split at h
  · cases h
  · cases h
  · rename_i spec mp hfind
    obtain ⟨model, hspec⟩ := FindModelDefinition_spec P name pkg spec mp hfind
    have hg1 := recordModelName_grows P name (canonicalId mp name)
    have hh1 := recordModelName_has P name (canonicalId mp name)
    have hs1 : Saturated (recordModelName P name (canonicalId mp name)) :=
      hs.of_agree (Agree.of_grows_self hg1)
    have hfindQ : ∀ Q, Agree (recordModelName P name (canonicalId mp name)) Q →
        FindModelDefinition Q name pkg = Outcome.ok (spec, mp) := by
      intro Q hQ
      rw [FindModelDefinition_decls P Q (hQ.1.trans (decls_of_frame hg1.1))]
      exact hfind
    have hrecQ : ∀ Q, Agree (recordModelName P name (canonicalId mp name)) Q →
        recordModelName Q name (canonicalId mp name) = Q := by
      intro Q hQ
      exact recordModelName_of_has Q _ _ (has_of_extends hQ.2.2 _ hh1)
    split at h
    · rename_i u hty
      have htr : GoMap.get (recordModelName P name (canonicalId mp name)).typeDefTranslations
          spec.Name = some u := by
        rw [hg1.2.1]
        exact hs model mp spec u hspec hty
      have hnoop : ∀ Q : Parser, GoMap.get Q.typeDefTranslations spec.Name = some u →
          ({ Q with typeDefTranslations := GoMap.set Q.typeDefTranslations spec.Name u } : Parser)
            = Q := by
        intro Q hq
        rw [GoMap.set_of_get _ _ _ hq]
      cases h
      simp only [hnoop _ htr]
      refine ⟨hg1, knownRecorded_set P _ known name hk hg1.2.2 hh1, fun Q hQ => ?_⟩
      unfold ParseModelBody
      simp only [hfindQ Q hQ, hrecQ Q hQ, hty]
      rw [hnoop Q (by rw [hQ.2.1]; exact htr)]
    · rename_i fields hty
      split at h
      · cases h
      · cases h
      · rename_i P2 m2 hfl
        obtain ⟨hg2, hrep2⟩ := ParseFieldList_replay f hf _ _ fields mp P2 m2 hs1 hfl
        have hs2 : Saturated P2 := hs1.of_agree (Agree.of_grows_self hg2)
        have hk2 : KnownRecorded P2 (GoMap.set known name true) :=
          knownRecorded_set P P2 known name hk (extends_trans hg1.2.2 hg2.2.2)
            (has_of_extends hg2.2.2 _ hh1)
        obtain ⟨hg3, hk3, hrep3⟩ := parseUsedTypes_replay f hf mp _ P2 _ _ _ r hs2 hk2 h
        refine ⟨grows_trans (grows_trans hg1 hg2) hg3, hk3, fun Q hQ => ?_⟩
        have hQ2 : Agree P2 Q := Agree.of_grows hg3 hQ
        have hQ1 : Agree (recordModelName P name (canonicalId mp name)) Q := Agree.of_grows hg2 hQ2
        unfold ParseModelBody
        simp only [hfindQ Q hQ1, hrecQ Q hQ1, hty, hrep2 Q hQ2,
          scanProperties_agree P2 Q _ _ _ hQ2 hk2]
        exact hrep3 Q hQ
    · rename_i hty
      cases h
      refine ⟨hg1, knownRecorded_set P _ known name hk hg1.2.2 hh1, fun Q hQ => ?_⟩
      unfold ParseModelBody
      simp only [hfindQ Q hQ, hrecQ Q hQ, hty]

theorem ParseModel_replay (fuel : Nat) : Replayable (ParseModel fuel) := by
  induction fuel with
  | zero =>
    intro P known m name pkg r _ _ h
    simp [ParseModel] at h
  | succ n ih => exact ParseModelBody_replay _ ih

theorem GoMap.mem_of_get {V : Type} (m : GoMap V) (k : String) (v : V)
    (h : GoMap.get m k = some v) : (k, v) ∈ m := by
  induction m with
  | nil => simp [GoMap.get] at h
  | cons kv rest ih =>
    obtain ⟨k0, v0⟩ := kv
    by_cases h0 : k0 = k
    · simp only [GoMap.get, h0, if_true, Option.some.injEq] at h
      simp [h0, h]
    · simp only [GoMap.get, h0, if_false] at h
      exact List.mem_cons_of_mem _ (ih h)

theorem Saturated.of_declaresNoTypeDefinition (P : Parser)
    (h : declaresNoTypeDefinition P = true) : Saturated P := by
  intro model pkg spec u hg ht
  unfold GetModelDefinition at hg
  simp only at hg
  split at hg
  · cases hg
  · split at hg
    · cases hg
    · rename_i models hm
      have h1 := GoMap.mem_of_get _ _ _ hm
      have h2 := GoMap.mem_of_get _ _ _ hg
      unfold declaresNoTypeDefinition at h
      rw [List.all_eq_true] at h
      have h3 := h _ h1
      rw [List.all_eq_true] at h3
      have h4 := h3 _ h2
      simp only [ht] at h4
      cases h4

theorem typeProperty_of_plain (T : String) (h1 : strings.HasPrefix T "[]" = false)
    (h2 : T ≠ "time.Time") : typeProperty T = { Type_ := T } := by
  simp [typeProperty, h1, h2, NewModelProperty]

theorem ParseModelProperty_plain (g : ModelParser) (Q : Parser) (m : Model) (f : Field)
    (pkg partner : String) (h : PlainField Q partner f) :
    ParseModelProperty g Q m f pkg =
      Outcome.ok (Q, { m with
        Properties := GoMap.set m.Properties (f.Names.headD "") { Type_ := fieldTypeString f } }) := by
  obtain ⟨hn, htag, hpre, htime, _, _⟩ := h
  have hlen : ¬ f.Names.length = 0 := fun e => hn (List.length_eq_zero.1 e)
  unfold ParseModelProperty
  simp [typeProperty_of_plain _ hpre htime, hpre, hlen, htag]

theorem parseFields_plain (g : ModelParser) (Q : Parser) (pkg partner : String)
    (fs : List Field) (m : Model) (h : ∀ f ∈ fs, PlainField Q partner f) :
    parseFields g pkg fs Q m =
      Outcome.ok (Q, { m with Properties := plainProperties fs m.Properties }) := by
  induction fs generalizing m with
  | nil => rfl
  | cons f rest ih =>
    simp only [parseFields, ParseModelProperty_plain g Q m f pkg partner (h f (List.mem_cons_self _ _))]
    rw [ih _ (fun f1 hf1 => h f1 (List.mem_cons_of_mem _ hf1))]
    rfl

theorem GoMap.mem_set {V : Type} (m : GoMap V) (k : String) (v : V) (kv : String × V)
    (h : kv ∈ GoMap.set m k v) : kv ∈ m ∨ kv = (k, v) := by
  induction m with
  | nil =>
    simp only [GoMap.set, List.mem_singleton] at h
    exact Or.inr h
  | cons x rest ih =>
    obtain ⟨k0, v0⟩ := x
    by_cases h0 : k0 = k
    · simp only [GoMap.set, h0, if_true, List.mem_cons] at h
      rcases h with h | h
      · exact Or.inr h
      · exact Or.inl (List.mem_cons_of_mem _ h)
    · simp only [GoMap.set, h0, if_false, List.mem_cons] at h
      rcases h with h | h
      · exact Or.inl (by rw [h]; exact List.mem_cons_self _ _)
      · rcases ih h with h1 | h1
        · exact Or.inl (List.mem_cons_of_mem _ h1)
        · exact Or.inr h1

theorem plainProperty_of_field (P : Parser) (partner : String) (f : Field)
    (h : PlainField P partner f) : PlainProperty P partner { Type_ := fieldTypeString f } :=
  ⟨rfl, h.2.2.2.2.1, h.2.2.2.2.2⟩

theorem plainProperties_plain (P : Parser) (partner : String) (fs : List Field)
    (acc : GoMap ModelProperty) (h : ∀ f ∈ fs, PlainField P partner f)
    (hacc : ∀ kv ∈ acc, PlainProperty P partner kv.2) :
    ∀ kv ∈ plainProperties fs acc, PlainProperty P partner kv.2 := by
  induction fs generalizing acc with
  | nil => exact hacc
  | cons f rest ih =>
    apply ih _ (fun f1 hf1 => h f1 (List.mem_cons_of_mem _ hf1))
    intro kv hkv
    rcases GoMap.mem_set _ _ _ _ hkv with h1 | h1
    · exact hacc kv h1
    · rw [h1]
      exact plainProperty_of_field P partner f (h f (List.mem_cons_self _ _))

theorem propertyTypeName_plain (Q : Parser) (T : String) (p : ModelProperty)
    (hT : ModelName Q T) (hp : PlainProperty Q T p) : propertyTypeName Q p = p.Type_ := by
  obtain ⟨_, harr, hcase⟩ := hp
  have htr : GoMap.get Q.typeDefTranslations p.Type_ = none := by
    rcases hcase with h | h
    · rw [h]; exact hT.2.2.2
    · exact h.2
  simp [propertyTypeName, harr, htr]

theorem scanProperty_plain (Q : Parser) (known : GoMap Bool) (T : String) (p : ModelProperty)
    (hT : ModelName Q T) (hp : PlainProperty Q T p) :
    (scanProperty Q known p).2 =
      if p.Type_ = T ∧ GoMap.has known T = false then some T else none := by
  have hname := propertyTypeName_plain Q T p hT hp
  obtain ⟨_, harr, hcase⟩ := hp
  obtain ⟨_, hb, hm, _⟩ := hT
  unfold scanProperty
  simp only [hname]
  by_cases hpt : p.Type_ = T
  · rw [hpt]
    simp only [hb, hm, Bool.false_eq_true, if_false, true_and]
    by_cases hk : GoMap.has known T = true
    · simp only [hk, if_true, Bool.true_eq_false, if_false]
      split <;> rfl
    · have hk1 : GoMap.has known T = false := by simpa using hk
      simp only [hk1, Bool.false_eq_true, if_false, if_true]
  · have hbasic : IsBasicType p.Type_ = true := by
      rcases hcase with h | h
      · exact absurd h hpt
      · exact h.1
    simp only [hbasic, if_true, hpt, false_and, if_false]
    repeat' split
    all_goals rfl

theorem GoMap.set_set_self {V : Type} (m : GoMap V) (k : String) (v : V) :
    GoMap.set (GoMap.set m k v) k v = GoMap.set m k v :=
  GoMap.set_of_get _ _ _ (GoMap.get_set_self m k v)

theorem scanProperties_used (Q : Parser) (known : GoMap Bool) (T : String)
    (props : GoMap ModelProperty) (used : GoMap Bool) (hT : ModelName Q T)
    (hp : ∀ kv ∈ props, PlainProperty Q T kv.2) :
    (scanProperties Q known props used).2 =
      if GoMap.has known T = false ∧ props.any (fun kv => kv.2.Type_ = T) = true
      then GoMap.set used T true else used := by
  induction props generalizing used with
  | nil => simp [scanProperties]
  | cons kv rest ih =>
    obtain ⟨k, p⟩ := kv
    have hp0 := hp (k, p) (List.mem_cons_self _ _)
    have hrest := fun kv1 hkv1 => hp kv1 (List.mem_cons_of_mem _ hkv1)
    simp only [scanProperties, scanProperty_plain Q known T p hT hp0, ih _ hrest, List.any_cons]
    by_cases hk : GoMap.has known T = false
    · by_cases hpt : p.Type_ = T
      · simp only [hk, hpt, and_self, if_true, true_and, decide_True, Bool.true_or,
          GoMap.set_set_self]
        split <;> rfl
      · simp only [hk, hpt, false_and, if_false, true_and, decide_False, Bool.false_or]
    · have hk1 : GoMap.has known T = true := by simpa using hk
      simp only [hk1, Bool.true_eq_false, and_false, false_and, if_false]

theorem get_plainProperties_of_not_mem (fs : List Field) (acc : GoMap ModelProperty)
    (k : String) (h : k ∉ fs.map (fun f => f.Names.headD "")) :
    GoMap.get (plainProperties fs acc) k = GoMap.get acc k := by
  induction fs generalizing acc with
  | nil => rfl
  | cons f rest ih =>
    simp only [List.map_cons, List.mem_cons, not_or] at h
    have hstep : plainProperties (f :: rest) acc =
        plainProperties rest (GoMap.set acc (f.Names.headD "") { Type_ := fieldTypeString f }) := rfl
    rw [hstep, ih _ h.2, GoMap.get_set_of_ne _ _ _ _ (fun e => h.1 e.symm)]

theorem get_plainProperties_of_mem (fs : List Field) (acc : GoMap ModelProperty) (f : Field)
    (hn : (fs.map (fun f => f.Names.headD "")).Nodup) (hf : f ∈ fs) :
    GoMap.get (plainProperties fs acc) (f.Names.headD "") =
      some { Type_ := fieldTypeString f } := by
  induction fs generalizing acc with
  | nil => cases hf
  | cons g rest ih =>
    simp only [List.map_cons, List.nodup_cons] at hn
    have hstep : plainProperties (g :: rest) acc =
        plainProperties rest (GoMap.set acc (g.Names.headD "") { Type_ := fieldTypeString g }) := rfl
    rw [hstep]
    rcases List.mem_cons.1 hf with h | h
    · subst h
      rw [get_plainProperties_of_not_mem rest _ _ hn.1, GoMap.get_set_self]
    · exact ih _ hn.2 h

theorem any_plainProperties (fs : List Field) (B : String)
    (hn : (fs.map (fun f => f.Names.headD "")).Nodup)
    (hB : ∃ f ∈ fs, fieldTypeString f = B) :
    (plainProperties fs []).any (fun kv => kv.2.Type_ = B) = true := by
  obtain ⟨f, hf, hfB⟩ := hB
  have hget := get_plainProperties_of_mem fs [] f hn hf
  have hmem := GoMap.mem_of_get _ _ _ hget
  rw [List.any_eq_true]
  exact ⟨_, hmem, by simp [hfB]⟩

theorem ModelName_of_frame (P Q : Parser) (hf : Q.frame = P.frame)
    (ht : Q.typeDefTranslations = P.typeDefTranslations) (T : String) (h : ModelName P T) :
    ModelName Q T := by
  have hm : Q.TypesImplementingMarshalInterface = P.TypesImplementingMarshalInterface := by
    have := congrArg Parser.TypesImplementingMarshalInterface hf
    exact this
  obtain ⟨h1, h2, h3, h4⟩ := h
  refine ⟨h1, h2, ?_, ?_⟩
  · simpa only [IsImplementMarshalInterface, hm] using h3
  · rw [ht]; exact h4

theorem PlainField_of_translations (P Q : Parser)
    (ht : Q.typeDefTranslations = P.typeDefTranslations) (T : String) (f : Field)
    (h : PlainField P T f) : PlainField Q T f := by
  obtain ⟨h1, h2, h3, h4, h5, h6⟩ := h
  exact ⟨h1, h2, h3, h4, h5, by rw [ht]; exact h6⟩

theorem ParseFieldList_plain (g : ModelParser) (Q : Parser) (pkg partner id : String)
    (fs : List Field) (h : ∀ f ∈ fs, PlainField Q partner f) :
    ParseFieldList g Q { Id := id } fs pkg =
      Outcome.ok (Q, { Id := id, Properties := plainProperties fs [] }) := by
  unfold ParseFieldList
  split
  · rename_i hnil
    rw [hnil]
    rfl
  · rw [parseFields_plain g Q pkg partner fs _ h]

/-- The prelude of `ParseModel` on a struct of plain fields: the declaration is found, the
id recorded, the fields parsed and scanned. -/
theorem ParseModelBody_plain (g : ModelParser) (P : Parser) (known : GoMap Bool)
    (X pkg nX : String) (fs : List Field) (T : String)
    (hX : GetModelDefinition P X pkg = some ⟨nX, TypeExpr.structType fs⟩)
    (hdot : '.' ∉ X.data) (hfs : ∀ f ∈ fs, PlainField P T f) (hT : ModelName P T) :
    ParseModelBody g P known NewModel X pkg =
      parseUsedTypes g pkg
        (if GoMap.has (GoMap.set known X true) T = false ∧
            (plainProperties fs []).any (fun kv => kv.2.Type_ = T) = true then [T] else [])
        (recordModelName P X (canonicalId pkg X)) (GoMap.set known X true)
        { Id := canonicalId pkg X,
          Properties := (scanProperties (recordModelName P X (canonicalId pkg X))
            (GoMap.set known X true) (plainProperties fs []) []).1 } [] := by
  have hQf := recordModelName_frame P X (canonicalId pkg X)
  have hQt := recordModelName_translations P X (canonicalId pkg X)
  have hTQ := ModelName_of_frame P _ hQf hQt T hT
  have hfsQ : ∀ f ∈ fs, PlainField (recordModelName P X (canonicalId pkg X)) T f :=
    fun f hf => PlainField_of_translations P _ hQt T f (hfs f hf)
  have hfind := FindModelDefinition_unqualified P X pkg _ hdot hX
  have hprops := plainProperties_plain _ T fs [] hfsQ (fun kv hkv => by cases hkv)
  have hused := scanProperties_used (recordModelName P X (canonicalId pkg X))
    (GoMap.set known X true) T (plainProperties fs []) [] hTQ hprops
  unfold ParseModelBody
  simp only [hfind, NewModel]
  rw [ParseFieldList_plain g _ pkg T _ fs hfsQ]
  simp only [hused]
  split <;> rfl

/-- Cycles of plain fields resolve, the used types visited in the order of insertion:
struct `A` and struct `B` of the current package, each made of named untagged fields
whose types are primitives or the other struct (by value or by pointer), `A` with a
field of type `B` (and `B` free to refer back to `A`), and a struct of such fields that
may refer to itself: for every recursion budget from 2 (from 1 for the self-reference)
`registerType(A)` returns the canonical id of `A` without error, and Definitions holds
afterwards the ids it held before and the canonical ids of the structs of the cycle, no
other. -/
theorem reference_cycle_terminates_plain :
    (∀ (fuel : Nat) (P : Parser) (A B nA nB : String) (fsA fsB : List Field),
      GetModelDefinition P A P.CurrentPackage = some ⟨nA, TypeExpr.structType fsA⟩ →
      GetModelDefinition P B P.CurrentPackage = some ⟨nB, TypeExpr.structType fsB⟩ →
      (∀ f ∈ fsA, PlainField P B f) → (∀ f ∈ fsB, PlainField P A f) →
      (fsA.map (fun f => f.Names.headD "")).Nodup →
      (∃ f ∈ fsA, fieldTypeString f = B) →
      A ≠ B → ModelName P A → ModelName P B →
      ∃ P1, registerType (fuel + 2) P A =
          Outcome.ok (P1, canonicalId P.CurrentPackage A, none) ∧
        ∀ id, GoMap.has P1.Swagger.Definitions id = true ↔
          (GoMap.has P.Swagger.Definitions id = true ∨ id = canonicalId P.CurrentPackage A ∨
            id = canonicalId P.CurrentPackage B)) ∧
    (∀ (fuel : Nat) (P : Parser) (A nA : String) (fsA : List Field),
      GetModelDefinition P A P.CurrentPackage = some ⟨nA, TypeExpr.structType fsA⟩ →
      (∀ f ∈ fsA, PlainField P A f) → ModelName P A →
      ∃ P1, registerType (fuel + 1) P A =
          Outcome.ok (P1, canonicalId P.CurrentPackage A, none) ∧
        ∀ id, GoMap.has P1.Swagger.Definitions id = true ↔
          (GoMap.has P.Swagger.Definitions id = true ∨ id = canonicalId P.CurrentPackage A)) := by
  constructor
  · intro fuel P A B nA nB fsA fsB hA hB hfsA hfsB hnodup hAB hne hPA hPB
    have hQf := recordModelName_frame P A (canonicalId P.CurrentPackage A)
    have hQt := recordModelName_translations P A (canonicalId P.CurrentPackage A)
    have hAQ := ModelName_of_frame P _ hQf hQt A hPA
    have hBQ : GetModelDefinition (recordModelName P A (canonicalId P.CurrentPackage A)) B
        P.CurrentPackage = some ⟨nB, TypeExpr.structType fsB⟩ := by
      rw [GetModelDefinition_frame P _ hQf]; exact hB
    have hfsBQ : ∀ f ∈ fsB, PlainField (recordModelName P A (canonicalId P.CurrentPackage A)) A f :=
      fun f hf => PlainField_of_translations P _ hQt A f (hfsB f hf)
    have hk : GoMap.has (GoMap.set (GoMap.set [] A true) B true) A = true := by
      rw [GoMap.has_set, GoMap.has_set]
      exact Or.inl (Or.inr rfl)
    have hk1 : GoMap.has (GoMap.set ([] : GoMap Bool) A true) B = false := by
      rw [← Bool.not_eq_true, GoMap.has_set]
      rintro (h | h)
      · simp [GoMap.has, GoMap.get] at h
      · exact hne h.symm
    have hleaf := ParseModelBody_plain (ParseModel fuel) _ (GoMap.set [] A true) B
      P.CurrentPackage nB fsB A hBQ hPB.1 hfsBQ hAQ
    simp only [hk, Bool.true_eq_false, false_and, if_false, parseUsedTypes] at hleaf
    have hnode := ParseModelBody_plain (ParseModel (fuel + 1)) P [] A P.CurrentPackage nA fsA B
      hA hPA.1 hfsA hPB
    simp only [hk1, any_plainProperties fsA B hnodup hAB, and_self, if_true, parseUsedTypes]
      at hnode
    have hleaf1 : ParseModel (fuel + 1) (recordModelName P A (canonicalId P.CurrentPackage A))
        (GoMap.set [] A true) NewModel B P.CurrentPackage = _ := hleaf
    simp only [hleaf1, List.nil_append] at hnode
    have hnode1 : ParseModel (fuel + 2) P [] NewModel A P.CurrentPackage = _ := hnode
    have hreg := registerType_of_ParseModel (fuel + 2) P A _ hPA.2.2.2 hPA.2.1 hnode1 rfl
      (by
        show GoMap.get (recordModelName _ _ _).typeDefTranslations A = none
        rw [recordModelName_translations, hQt]
        exact hPA.2.2.2)
    refine ⟨_, hreg, ?_⟩
    intro id
    simp only [List.foldl, has_registerModel, recordModelName_definitions]
    tauto
  · intro fuel P A nA fsA hA hfsA hPA
    have hk : GoMap.has (GoMap.set ([] : GoMap Bool) A true) A = true := by
      rw [GoMap.has_set]
      exact Or.inr rfl
    have hleaf := ParseModelBody_plain (ParseModel fuel) P [] A P.CurrentPackage nA fsA A
      hA hPA.1 hfsA hPA
    simp only [hk, Bool.true_eq_false, false_and, if_false, parseUsedTypes] at hleaf
    have hleaf1 : ParseModel (fuel + 1) P [] NewModel A P.CurrentPackage = _ := hleaf
    have hreg := registerType_of_ParseModel (fuel + 1) P A _ hPA.2.2.2 hPA.2.1 hleaf1 rfl
      (by
        show GoMap.get (recordModelName _ _ _).typeDefTranslations A = none
        rw [recordModelName_translations]
        exact hPA.2.2.2)
    refine ⟨_, hreg, ?_⟩
    intro id
    simp only [List.foldl, has_registerModel, recordModelName_definitions]

/-- Cycles of plain fields at concrete inputs: `type A struct { Id int; B *B }` with
`type B struct { A A; Name string }`, and `type Node struct { Next *Node; Val float64 }`,
in package `models` with empty Definitions. -/
theorem reference_cycle_terminates_plain_example :
    (∃ P1, registerType 2 cycleFieldsParser "A" = Outcome.ok (P1, "models.A", none) ∧
      ∀ id, GoMap.has P1.Swagger.Definitions id = true ↔
        (GoMap.has cycleFieldsParser.Swagger.Definitions id = true ∨ id = "models.A" ∨
          id = "models.B")) ∧
    (∃ P1, registerType 1 cycleFieldsParser "Node" = Outcome.ok (P1, "models.Node", none) ∧
      ∀ id, GoMap.has P1.Swagger.Definitions id = true ↔
        (GoMap.has cycleFieldsParser.Swagger.Definitions id = true ∨ id = "models.Node")) :=
  ⟨reference_cycle_terminates_plain.1 0 cycleFieldsParser "A" "B" "A" "B"
      [⟨["Id"], Expr.ident "int", none⟩, ⟨["B"], Expr.star (Operand.ident "B"), none⟩]
      [⟨["A"], Expr.ident "A", none⟩, ⟨["Name"], Expr.ident "string", none⟩]
      (by decide) (by decide) (by decide) (by decide) (by decide)
      ⟨⟨["B"], Expr.star (Operand.ident "B"), none⟩, by decide, by decide⟩ (by decide)
      (by decide) (by decide),
   reference_cycle_terminates_plain.2 0 cycleFieldsParser "Node" "Node"
      [⟨["Next"], Expr.star (Operand.ident "Node"), none⟩, ⟨["Val"], Expr.ident "float64", none⟩]
      (by decide) (by decide) (by decide)⟩

theorem greedy_run (p : Char → Bool) (k : List Char → Option (regexp.Caps × List Char))
    (w rest : List Char) (r : regexp.Caps × List Char) (hw : ∀ c ∈ w, p c = true)
    (hstop : ∀ c, rest.head? = some c → p c = false) (hk : k rest = some r) :
    regexp.greedy p k (w ++ rest) = some r := by
  induction w with
  | nil =>
    cases rest with
    | nil => simpa [regexp.greedy] using hk
    | cons c cs => simp [regexp.greedy, hstop c rfl, hk]
  | cons a w1 ih =>
    have ha : p a = true := hw a (List.mem_cons_self _ _)
    have h1 := ih (fun c hc => hw c (List.mem_cons_of_mem _ hc))
    simp [regexp.greedy, ha, h1]

theorem matchHere_plus_run (p : Char → Bool) (atoms : List regexp.Atom) (caps : regexp.Caps)
    (w rest : List Char) (r : regexp.Caps × List Char) (hne : w ≠ [])
    (hw : ∀ c ∈ w, p c = true) (hstop : ∀ c, rest.head? = some c → p c = false)
    (hk : regexp.matchHere atoms caps rest = some r) :
    regexp.matchHere (regexp.Atom.plus p :: atoms) caps (w ++ rest) = some r := by
  cases w with
  | nil => exact absurd rfl hne
  | cons a w1 =>
    have ha : p a = true := hw a (List.mem_cons_self _ _)
    simp only [List.cons_append, regexp.matchHere, ha, if_true]
    exact greedy_run p _ w1 rest r (fun c hc => hw c (List.mem_cons_of_mem _ hc)) hstop hk

theorem matchHere_group_run (i : Nat) (p : Char → Bool) (atoms : List regexp.Atom)
    (caps : regexp.Caps) (w rest : List Char) (r : regexp.Caps × List Char) (hne : w ≠ [])
    (hw : ∀ c ∈ w, p c = true) (hstop : ∀ c, rest.head? = some c → p c = false)
    (hk : regexp.matchHere atoms ((i, w ++ rest, rest) :: caps) rest = some r) :
    regexp.matchHere (regexp.Atom.gopen i :: regexp.Atom.plus p :: regexp.Atom.gclose i :: atoms)
      caps (w ++ rest) = some r := by
  have h1 : regexp.matchHere
      (regexp.Atom.gopen i :: regexp.Atom.plus p :: regexp.Atom.gclose i :: atoms) caps (w ++ rest)
      = regexp.matchHere (regexp.Atom.plus p :: regexp.Atom.gclose i :: atoms)
          (regexp.capOpen caps i (w ++ rest)) (w ++ rest) := rfl
  rw [h1]
  apply matchHere_plus_run p _ _ w rest r hne hw hstop
  have h2 : regexp.matchHere (regexp.Atom.gclose i :: atoms)
      (regexp.capOpen caps i (w ++ rest)) rest
      = regexp.matchHere atoms (regexp.capClose (regexp.capOpen caps i (w ++ rest)) i rest) rest :=
    rfl
  rw [h2]
  simpa [regexp.capOpen, regexp.capClose] using hk

theorem matchHere_one_run (p : Char → Bool) (atoms : List regexp.Atom) (caps : regexp.Caps)
    (c : Char) (rest : List Char) (r : regexp.Caps × List Char) (hc : p c = true)
    (hk : regexp.matchHere atoms caps rest = some r) :
    regexp.matchHere (regexp.Atom.one p :: atoms) caps (c :: rest) = some r := by
  simp [regexp.matchHere, hc, hk]

theorem mem_of_head?_append (l rest : List Char) (c : Char) (hne : l ≠ [])
    (h : (l ++ rest).head? = some c) : c ∈ l := by
  cases l with
  | nil => exact absurd rfl hne
  | cons a as =>
    simp only [List.cons_append, List.head?_cons, Option.some.injEq] at h
    rw [← h]
    exact List.mem_cons_self _ _

theorem isBlank_of_isWord (c : Char) (h : (regexp.isWord c || c = '.') = true) :
    regexp.isBlank c = false := by
  by_cases hdot : c = '.'
  · rw [hdot]; decide
  · simp only [hdot, decide_False, Bool.or_false] at h
    simp only [regexp.isWord, Bool.or_eq_true, Bool.and_eq_true, decide_eq_true_eq] at h
    simp only [regexp.isBlank, Bool.or_eq_false_iff, decide_eq_false_iff_not]
    omega

/-- A line of the canonical form, whose parts are of the character classes of the pattern,
is split by the `@param` pattern into exactly these parts. -/
theorem FindStringSubmatch_paramLine (name loc ty req desc : String)
    (hname : name.data ≠ [] ∧ ∀ c ∈ name.data, (c = '-' || regexp.isWord c) = true)
    (hloc : loc.data ≠ [] ∧ ∀ c ∈ loc.data, regexp.isWord c = true)
    (hty : ty.data ≠ [] ∧ ∀ c ∈ ty.data, (regexp.isWord c || c = '.') = true)
    (hreq : req.data ≠ [] ∧ ∀ c ∈ req.data, regexp.isWord c = true)
    (hdesc : desc.data ≠ [] ∧ ∀ c ∈ desc.data, c ≠ '"') :
    regexp.FindStringSubmatch reParam 5 (paramLine name loc ty req desc) =
      [paramLine name loc ty req desc, name, loc, ty, req, desc] := by
  have hblank : ∀ c ∈ [' '], regexp.isBlank c = true := by
    intro c hc
    simp only [List.mem_singleton] at hc
    rw [hc]; decide
  have hw : ∀ (l rest : List Char), l ≠ [] → (∀ c ∈ l, regexp.isWord c = true) →
      ∀ c, (l ++ rest).head? = some c → regexp.isBlank c = false := by
    intro l rest hne hl c hc
    exact isBlank_of_isWord c (by simp [hl c (mem_of_head?_append l rest c hne hc)])
  have hwd : ∀ (l rest : List Char), l ≠ [] → (∀ c ∈ l, (regexp.isWord c || c = '.') = true) →
      ∀ c, (l ++ rest).head? = some c → regexp.isBlank c = false := by
    intro l rest hne hl c hc
    exact isBlank_of_isWord c (hl c (mem_of_head?_append l rest c hne hc))
  have hspace : ∀ (p : Char → Bool) (rest : List Char), p ' ' = false →
      ∀ c, (' ' :: rest).head? = some c → p c = false := by
    intro p rest hp c hc
    simp only [List.head?_cons, Option.some.injEq] at hc
    rw [← hc]; exact hp
  have hmatch : regexp.matchHere reParam [] (paramLine name loc ty req desc).data =
      some ([(5, desc.data ++ ['"'], ['"']),
             (4, req.data ++ ' ' :: '"' :: (desc.data ++ ['"']), ' ' :: '"' :: (desc.data ++ ['"'])),
             (3, ty.data ++ ' ' :: (req.data ++ ' ' :: '"' :: (desc.data ++ ['"'])),
                 ' ' :: (req.data ++ ' ' :: '"' :: (desc.data ++ ['"']))),
             (2, loc.data ++ ' ' :: (ty.data ++ ' ' :: (req.data ++ ' ' :: '"' ::
                   (desc.data ++ ['"']))),
                 ' ' :: (ty.data ++ ' ' :: (req.data ++ ' ' :: '"' :: (desc.data ++ ['"'])))),
             (1, name.data ++ ' ' :: (loc.data ++ ' ' :: (ty.data ++ ' ' :: (req.data ++ ' ' ::
                   '"' :: (desc.data ++ ['"'])))),
                 ' ' :: (loc.data ++ ' ' :: (ty.data ++ ' ' :: (req.data ++ ' ' :: '"' ::
                   (desc.data ++ ['"'])))))], []) := by
    unfold reParam paramLine
    refine matchHere_group_run 1 _ _ _ name.data _ _ hname.1 hname.2
      (hspace _ _ (by decide)) ?_
    refine matchHere_plus_run _ _ _ [' '] _ _ (by simp) hblank (hw _ _ hloc.1 hloc.2) ?_
    refine matchHere_group_run 2 _ _ _ loc.data _ _ hloc.1 hloc.2 (hspace _ _ (by decide)) ?_
    refine matchHere_plus_run _ _ _ [' '] _ _ (by simp) hblank (hwd _ _ hty.1 hty.2) ?_
    refine matchHere_group_run 3 _ _ _ ty.data _ _ hty.1 hty.2 (hspace _ _ (by decide)) ?_
    refine matchHere_plus_run _ _ _ [' '] _ _ (by simp) hblank (hw _ _ hreq.1 hreq.2) ?_
    refine matchHere_group_run 4 _ _ _ req.data _ _ hreq.1 hreq.2 (hspace _ _ (by decide)) ?_
    refine matchHere_plus_run _ _ _ [' '] _ _ (by simp) hblank
      (fun c hc => by
        simp only [List.head?_cons, Option.some.injEq] at hc
        rw [← hc]; decide) ?_
    refine matchHere_one_run _ _ _ '"' _ _ (by decide) ?_
    refine matchHere_group_run 5 _ _ _ desc.data ['"'] _ hdesc.1
      (fun c hc => by simpa using hdesc.2 c hc)
      (fun c hc => by
        simp only [List.head?_cons, Option.some.injEq] at hc
        rw [← hc]; decide) ?_
    exact matchHere_one_run _ _ _ '"' [] _ (by decide) rfl
  have hdata : (paramLine name loc ty req desc).data ≠ [] := by
    unfold paramLine
    cases hn : name.data with
    | nil => exact absurd hn hname.1
    | cons a as => simp
  unfold regexp.FindStringSubmatch
  cases hl : (paramLine name loc ty req desc).data with
  | nil => exact absurd hl hdata
  | cons a as =>
    rw [hl] at hmatch
    simp only [regexp.search, hmatch]
    have hrange : List.range 5 = [0, 1, 2, 3, 4] := by decide
    rw [hrange]
    simp only [List.map, regexp.capText, List.length_nil, Nat.sub_zero, List.take_length]
    simp only [← hl]
    simp [paramLine]

theorem schemaGrows_refl (s : SchemaObject) : SchemaGrows s s := ⟨rfl, fun _ h => h⟩

theorem schemaGrows_trans {a b c : SchemaObject} (h1 : SchemaGrows a b) (h2 : SchemaGrows b c) :
    SchemaGrows a c := by
  refine ⟨?_, fun k hk => h2.2 k (h1.2 k hk)⟩
  rw [h2.1, h1.1]

theorem definitionsGrow_refl (D : GoMap SchemaObject) : DefinitionsGrow D D :=
  fun _ s h => ⟨s, h, schemaGrows_refl s⟩

theorem definitionsGrow_trans {A B C : GoMap SchemaObject} (h1 : DefinitionsGrow A B)
    (h2 : DefinitionsGrow B C) : DefinitionsGrow A C := by
  intro id s h
  obtain ⟨s1, hs1, g1⟩ := h1 id s h
  obtain ⟨s2, hs2, g2⟩ := h2 id s1 hs1
  exact ⟨s2, hs2, schemaGrows_trans g1 g2⟩

theorem definitionsGrow_registerModel (D : GoMap SchemaObject) (m : Model) :
    DefinitionsGrow D (registerModel D m) := by
  intro id s h
  by_cases hid : m.Id = id
  · subst hid
    refine ⟨_, get_registerModel_some D m s h, rfl, ?_⟩
    intro k hk
    exact (has_mergeProperties s.Properties m.Properties k).2 (Or.inl hk)
  · exact ⟨s, by rw [get_registerModel_of_ne D m id hid]; exact h, schemaGrows_refl s⟩

theorem definitionsGrow_foldl_registerModel (ms : List Model) (D : GoMap SchemaObject) :
    DefinitionsGrow D (ms.foldl registerModel D) := by
  induction ms generalizing D with
  | nil => exact definitionsGrow_refl D
  | cons m rest ih =>
    exact definitionsGrow_trans (definitionsGrow_registerModel D m) (ih (registerModel D m))

/-- The Definitions table after `registerType`: the table before with a list of models
merged into it. -/
theorem registerType_definitions (fuel : Nat) (parser : Parser) (typeName : String)
    (parser1 : Parser) (name : String) (err : Option String)
    (h : registerType fuel parser typeName = Outcome.ok (parser1, name, err)) :
    ∃ ms : List Model,
      parser1.Swagger.Definitions = ms.foldl registerModel parser.Swagger.Definitions := by
  unfold registerType at h
  split at h
  · cases h
    exact ⟨[], rfl⟩
  · split at h
    · cases h
      exact ⟨[], rfl⟩
    · split at h
      · cases h
      · cases h
      · rename_i r hr
        have hfr := ParseModel_frame fuel _ _ _ _ _ _ hr
        have hsw : r.parser.Swagger = parser.Swagger := by
          have h1 := congrArg Parser.Swagger hfr
          exact h1
        split at h
        · cases h
          exact ⟨[], by rw [hsw]; rfl⟩
        · split at h
          · cases h
            exact ⟨[], by rw [hsw]; rfl⟩
          · cases h
            refine ⟨r.m :: r.innerModels, ?_⟩
            rw [← hsw]
            rfl

/-- C11: for every `registerType` call that returns (with or without error), every id that
Definitions held before the call is held afterwards, and its entry is the entry of before
with properties added or overwritten: the other fields of the entry are the same and every
property name it had is still in it. -/
theorem C11_definitions_only_grow (fuel : Nat) (parser : Parser) (typeName : String)
    (parser1 : Parser) (name : String) (err : Option String)
    (h : registerType fuel parser typeName = Outcome.ok (parser1, name, err)) :
    ∀ id s, GoMap.get parser.Swagger.Definitions id = some s →
      ∃ s1, GoMap.get parser1.Swagger.Definitions id = some s1 ∧
        s1 = { s with Properties := s1.Properties } ∧
        ∀ k, GoMap.has s.Properties k = true → GoMap.has s1.Properties k = true := by
  obtain ⟨ms, hms⟩ := registerType_definitions fuel parser typeName parser1 name err h
  rw [hms]
  exact definitionsGrow_foldl_registerModel ms parser.Swagger.Definitions

/-- C11 at a concrete input: `Pet` registered in a document that already holds
`models.Pet` with the property `Legacy`; the entry keeps `Legacy`, its type and its required
list, and gains the properties of the struct. -/
theorem C11_definitions_only_grow_witness :
    ∃ P1 s1, registerType 1 legacyParser "Pet" = Outcome.ok (P1, "models.Pet", none) ∧
      GoMap.get P1.Swagger.Definitions "models.Pet" = some s1 ∧
      s1 = { Type_ := "object", Required := ["Legacy"], Properties := s1.Properties } ∧
      (∀ k, GoMap.has [("Legacy", ({ Type_ := "string" } : ModelProperty))] k = true →
        GoMap.has s1.Properties k = true) ∧
      GoMap.keys s1.Properties = ["Legacy", "Name", "age"] ∧
      GoMap.keys P1.Swagger.Definitions = ["models.Old", "models.Pet"] := by
  obtain ⟨s1, h1, h2, h3⟩ := C11_definitions_only_grow 1 legacyParser "Pet" _ "models.Pet" none
    rfl "models.Pet"
    { Type_ := "object", Required := ["Legacy"], Properties := [("Legacy", { Type_ := "string" })] }
    rfl
  have h4 : GoMap.get (List.foldl registerModel legacyParser.Swagger.Definitions
      [{ Id := "models.Pet",
         Properties := [("Name", { Type_ := "string", Format := "string" }),
                        ("age", { Type_ := "integer", Format := "int64" })] }])
      "models.Pet" = some s1 := h1
  have h5 : s1 = { Type_ := "object", Required := ["Legacy"],
                   Properties := [("Legacy", { Type_ := "string" }),
                                  ("Name", { Type_ := "string", Format := "string" }),
                                  ("age", { Type_ := "integer", Format := "int64" })] } :=
    (Option.some.inj h4).symm
  refine ⟨_, s1, rfl, h1, h2, h3, ?_, by decide⟩
  rw [h5]
  decide

theorem commentLine_ne_of_tag (comment : String) (h : tagOf comment ≠ "") :
    ¬ (commentLineOf comment).length = 0 := by
  intro h0
  have hd : (commentLineOf comment).data = [] := List.length_eq_zero.1 h0
  have : attributeOf comment = "" := by
    simp [attributeOf, strings.Fields, hd, strings.fieldsAux]
  apply h
  unfold tagOf
  rw [this]
  decide

theorem length_ToLower (s : String) : (strings.ToLower s).length = s.length := by
  show (s.data.map strings.lowerChar).length = s.data.length
  exact List.length_map _ _

/-- A `@router` comment: what `ParseComment` returns. -/
theorem ParseComment_router (fuel : Nat) (parser : Parser) (operation : OperationObject)
    (comment : String) (htag : tagOf comment = "@router") :
    ParseComment fuel parser operation comment =
      Outcome.ok ((ParseRouterComment parser operation (commentLineOf comment)).1, operation,
        (ParseRouterComment parser operation (commentLineOf comment)).2) := by
  have hlen := commentLine_ne_of_tag comment (by rw [htag]; decide)
  unfold ParseComment
  simp only [commentLineOf, attributeOf, tagOf] at hlen htag ⊢
  simp only [hlen, if_false, htag, if_true]

/-- A `@success` or `@failure` comment: what `ParseComment` returns. -/
theorem ParseComment_response (fuel : Nat) (parser : Parser) (operation : OperationObject)
    (comment : String) (htag : tagOf comment = "@success" ∨ tagOf comment = "@failure") :
    ParseComment fuel parser operation comment =
      ParseResponseComment fuel parser operation (contentOf comment) := by
  have hlen := commentLine_ne_of_tag comment (by rcases htag with h | h <;> rw [h] <;> decide)
  have h1 : tagOf comment ≠ "@router" := by rcases htag with h | h <;> rw [h] <;> decide
  have h2 : tagOf comment ≠ "@resource" := by rcases htag with h | h <;> rw [h] <;> decide
  have h3 : tagOf comment ≠ "@title" := by rcases htag with h | h <;> rw [h] <;> decide
  have h4 : tagOf comment ≠ "@description" := by rcases htag with h | h <;> rw [h] <;> decide
  unfold ParseComment
  simp only [commentLineOf, attributeOf, tagOf, contentOf] at hlen htag h1 h2 h3 h4 ⊢
  simp only [hlen, if_false, h1, h2, h3, h4, htag, if_true]

/-- A `@param` comment: what `ParseComment` returns. -/
theorem ParseComment_param (fuel : Nat) (parser : Parser) (operation : OperationObject)
    (comment : String) (htag : tagOf comment = "@param") :
    ParseComment fuel parser operation comment =
      ParseParamComment fuel parser operation (contentOf comment) := by
  have hlen := commentLine_ne_of_tag comment (by rw [htag]; decide)
  unfold ParseComment
  simp only [commentLineOf, attributeOf, tagOf, contentOf] at hlen htag ⊢
  simp only [hlen, if_false, htag]
  simp +decide only [if_false, if_true, false_or, or_false]

/-- A `@title` comment: what `ParseComment` returns. -/
theorem ParseComment_title (fuel : Nat) (parser : Parser) (operation : OperationObject)
    (comment : String) (htag : tagOf comment = "@title") :
    ParseComment fuel parser operation comment =
      Outcome.ok (parser, { operation with Summary := contentOf comment }, none) := by
  have hlen := commentLine_ne_of_tag comment (by rw [htag]; decide)
  unfold ParseComment
  simp only [commentLineOf, attributeOf, tagOf, contentOf] at hlen htag ⊢
  simp only [hlen, if_false, htag]
  simp +decide only [if_false, if_true]

/-- A `@accept` or `@consume` comment: what `ParseComment` returns. -/
theorem ParseComment_accept (fuel : Nat) (parser : Parser) (operation : OperationObject)
    (comment : String) (htag : tagOf comment = "@accept" ∨ tagOf comment = "@consume") :
    ParseComment fuel parser operation comment =
      Outcome.ok (parser, (ParseAcceptComment operation (contentOf comment)).1,
        (ParseAcceptComment operation (contentOf comment)).2) := by
  have hlen := commentLine_ne_of_tag comment (by rcases htag with h | h <;> rw [h] <;> decide)
  unfold ParseComment
  simp only [commentLineOf, attributeOf, tagOf, contentOf] at hlen htag ⊢
  rcases htag with h | h <;> simp only [hlen, if_false, h] <;>
    simp +decide only [if_false, if_true, or_true, true_or]

/-- A `@produce` comment: what `ParseComment` returns. -/
theorem ParseComment_produce (fuel : Nat) (parser : Parser) (operation : OperationObject)
    (comment : String) (htag : tagOf comment = "@produce") :
    ParseComment fuel parser operation comment =
      Outcome.ok (parser, (ParseProduceComment operation (contentOf comment)).1,
        (ParseProduceComment operation (contentOf comment)).2) := by
  have hlen := commentLine_ne_of_tag comment (by rw [htag]; decide)
  unfold ParseComment
  simp only [commentLineOf, attributeOf, tagOf, contentOf] at hlen htag ⊢
  simp only [hlen, if_false, htag]
  simp +decide only [if_false, if_true, false_or, or_false, or_self]

/-- The text `ParseRouterComment` cuts off a `@router` line is the content of the line. -/
theorem routerContent (comment : String) (htag : tagOf comment = "@router") :
    strings.TrimSpace (strings.sliceFrom (commentLineOf comment) "@Router".length) =
      contentOf comment := by
  have h7 : (attributeOf comment).length = 7 := by
    rw [← length_ToLower]
    show (tagOf comment).length = 7
    rw [htag]
    rfl
  unfold contentOf
  rw [h7]
  rfl

theorem ParseRouterComment_no_match (parser : Parser) (operation : OperationObject)
    (commentLine : String)
    (h : regexp.FindStringSubmatch reRouter 2
      (strings.TrimSpace (strings.sliceFrom commentLine "@Router".length)) = []) :
    ParseRouterComment parser operation commentLine =
      (parser, some ("Can not parse router comment \"" ++ commentLine ++ "\", skipped.")) := by
  unfold ParseRouterComment
  simp only [h]

theorem ParseParamComment_no_match (fuel : Nat) (parser : Parser) (operation : OperationObject)
    (commentLine : String) (h : regexp.FindStringSubmatch reParam 5 commentLine = []) :
    ParseParamComment fuel parser operation commentLine =
      Outcome.ok (parser, operation,
        some ("Can not parse param comment \"" ++ commentLine ++ "\", skipped.")) := by
  unfold ParseParamComment
  simp only [h]

theorem ParseResponseComment_no_match (fuel : Nat) (parser : Parser)
    (operation : OperationObject) (commentLine : String)
    (h : regexp.FindStringSubmatch reResponse 4 commentLine = []) :
    ParseResponseComment fuel parser operation commentLine =
      Outcome.ok (parser, operation,
        some ("Can not parse response comment \"" ++ commentLine ++ "\", skipped.")) := by
  unfold ParseResponseComment
  simp only [h]

/-- C12: a `@router`, `@param`, `@success` or `@failure` comment whose content the pattern
of the tag does not match (`FindStringSubmatch` finds nothing) makes `ParseComment` return
the parse error of the tag, with the operation and the parser, document included, exactly
as they were. -/
theorem C12_malformed_line_is_skipped (fuel : Nat) (parser : Parser)
    (operation : OperationObject) (comment : String) :
    (tagOf comment = "@router" →
      regexp.FindStringSubmatch reRouter 2 (contentOf comment) = [] →
      ParseComment fuel parser operation comment =
        Outcome.ok (parser, operation,
          some ("Can not parse router comment \"" ++ commentLineOf comment ++ "\", skipped."))) ∧
    (tagOf comment = "@param" →
      regexp.FindStringSubmatch reParam 5 (contentOf comment) = [] →
      ParseComment fuel parser operation comment =
        Outcome.ok (parser, operation,
          some ("Can not parse param comment \"" ++ contentOf comment ++ "\", skipped."))) ∧
    (tagOf comment = "@success" ∨ tagOf comment = "@failure" →
      regexp.FindStringSubmatch reResponse 4 (contentOf comment) = [] →
      ParseComment fuel parser operation comment =
        Outcome.ok (parser, operation,
          some ("Can not parse response comment \"" ++ contentOf comment ++ "\", skipped."))) := by
  refine ⟨fun htag hno => ?_, fun htag hno => ?_, fun htag hno => ?_⟩
  · rw [ParseComment_router fuel parser operation comment htag,
      ParseRouterComment_no_match parser operation _ (by rw [routerContent comment htag]; exact hno)]
  · rw [ParseComment_param fuel parser operation comment htag,
      ParseParamComment_no_match fuel parser operation _ hno]
  · rw [ParseComment_response fuel parser operation comment htag,
      ParseResponseComment_no_match fuel parser operation _ hno]

/-- C12 at concrete inputs: a `@router` line without bracketed method, a `@param` line
without quoted description, a `@success` line without type name, and a `@failure` line
that starts with no status code. -/
theorem C12_malformed_line_is_skipped_witness :
    ParseComment 0 petParser (NewOperationObject 1 "models") "// @router /pets/{id} get" =
      Outcome.ok (petParser, NewOperationObject 1 "models",
        some "Can not parse router comment \"@router /pets/{id} get\", skipped.") ∧
    ParseComment 0 petParser (NewOperationObject 1 "models") "// @Param id path int true" =
      Outcome.ok (petParser, NewOperationObject 1 "models",
        some "Can not parse param comment \"id path int true\", skipped.") ∧
    ParseComment 0 petParser (NewOperationObject 1 "models") "// @Success 200 {object}" =
      Outcome.ok (petParser, NewOperationObject 1 "models",
        some "Can not parse response comment \"200 {object}\", skipped.") ∧
    ParseComment 0 petParser (NewOperationObject 1 "models") "// @Failure {object} Pet" =
      Outcome.ok (petParser, NewOperationObject 1 "models",
        some "Can not parse response comment \"{object} Pet\", skipped.") :=
  ⟨(C12_malformed_line_is_skipped 0 petParser (NewOperationObject 1 "models")
      "// @router /pets/{id} get").1 (by decide) (by decide),
   (C12_malformed_line_is_skipped 0 petParser (NewOperationObject 1 "models")
      "// @Param id path int true").2.1 (by decide) (by decide),
   (C12_malformed_line_is_skipped 0 petParser (NewOperationObject 1 "models")
      "// @Success 200 {object}").2.2 (by decide) (by decide),
   (C12_malformed_line_is_skipped 0 petParser (NewOperationObject 1 "models")
      "// @Failure {object} Pet").2.2 (by decide) (by decide)⟩

theorem greedy_none (p : Char → Bool) (k : List Char → Option (regexp.Caps × List Char))
    (s : List Char) (h : ∀ t, (∀ c ∈ t, c ∈ s) → k t = none) : regexp.greedy p k s = none := by
  induction s with
  | nil => exact h [] (fun c hc => hc)
  | cons c cs ih =>
    have h1 : regexp.greedy p k cs = none :=
      ih (fun t ht => h t (fun x hx => List.mem_cons_of_mem _ (ht x hx)))
    have h2 : k (c :: cs) = none := h (c :: cs) (fun x hx => hx)
    simp only [regexp.greedy, h1, h2]
    split <;> rfl

/-- A pattern that requires a character finds no match in a text without it. -/
theorem matchHere_none_of_requires (q : Char) (atoms : List regexp.Atom) :
    ∀ (caps : regexp.Caps) (s : List Char), Requires q atoms → q ∉ s →
      regexp.matchHere atoms caps s = none := by
  induction atoms with
  | nil =>
    intro caps s hr
    obtain ⟨p, hp, _⟩ := hr
    cases hp
  | cons a rest ih =>
    intro caps s hr hq
    have tail : (∀ p0, a ≠ regexp.Atom.one p0) → Requires q rest := by
      intro hne
      obtain ⟨p, hp, hpq⟩ := hr
      rcases List.mem_cons.1 hp with h | h
      · exact absurd h.symm (hne p)
      · exact ⟨p, h, hpq⟩
    cases a with
    | one p =>
      cases s with
      | nil => rfl
      | cons c cs =>
        simp only [regexp.matchHere]
        by_cases hpc : p c = true
        · simp only [hpc, if_true]
          obtain ⟨p0, hp0, hpq⟩ := hr
          rcases List.mem_cons.1 hp0 with h | h
          · injection h with h
            subst h
            exact absurd (hpq c hpc) (fun hc => hq (hc ▸ List.mem_cons_self _ _))
          · exact ih caps cs ⟨p0, h, hpq⟩ (fun hm => hq (List.mem_cons_of_mem _ hm))
        · simp only [hpc, Bool.false_eq_true, if_false]
    | plus p =>
      have hrest := tail (fun p0 h => by cases h)
      cases s with
      | nil => rfl
      | cons c cs =>
        simp only [regexp.matchHere]
        split
        · exact greedy_none p _ cs (fun t ht => ih caps t hrest
            (fun hm => hq (List.mem_cons_of_mem _ (ht q hm))))
        · rfl
    | star p =>
      have hrest := tail (fun p0 h => by cases h)
      simp only [regexp.matchHere]
      exact greedy_none p _ s (fun t ht => ih caps t hrest (fun hm => hq (ht q hm)))
    | gopen i =>
      simp only [regexp.matchHere]
      exact ih _ s (tail (fun p0 h => by cases h)) hq
    | gclose i =>
      simp only [regexp.matchHere]
      exact ih _ s (tail (fun p0 h => by cases h)) hq

theorem search_none_of_requires (q : Char) (atoms : List regexp.Atom) (hr : Requires q atoms)
    (s : List Char) (hq : q ∉ s) : regexp.search atoms s = none := by
  induction s with
  | nil =>
    simp only [regexp.search, matchHere_none_of_requires q atoms [] [] hr hq, Option.map_none']
  | cons c cs ih =>
    simp only [regexp.search, matchHere_none_of_requires q atoms [] (c :: cs) hr hq]
    exact ih (fun hm => hq (List.mem_cons_of_mem _ hm))

theorem FindStringSubmatch_none_of_requires (q : Char) (atoms : List regexp.Atom)
    (hr : Requires q atoms) (n : Nat) (s : String) (hq : q ∉ s.data) :
    regexp.FindStringSubmatch atoms n s = [] := by
  unfold regexp.FindStringSubmatch
  rw [search_none_of_requires q atoms hr s.data hq]

theorem requires_quote_reResource : Requires '"' reResource :=
  ⟨fun c => c = '"', by simp [reResource], fun c hc => by simpa using hc⟩

/-- C13 (counterexample): the bare line `@resource pets`, with `pets` not in the Tags
catalogue, returns without error and leaves the catalogue empty; the name is added to the
tag list of the operation only. -/
theorem C13_counterexample_bare_resource :
    (ParseComment 0 petParser (NewOperationObject 1 "models") "// @resource pets").value?.map
      (fun r => (tagNames r.1, r.2.1.Tags, r.2.2)) = some ([], ["pets"], none) := by
  decide

/-- C13 (amended): a `@resource` comment whose content is a non-empty name without quoted
description (no double quote in it) returns without error, leaves the parser, and with it
the Tags catalogue of the document, exactly as it was, and leaves the name in the tag list
of the operation: appended at the end when the list did not hold it, the list unchanged
when it did; nothing else of the operation changes. -/
theorem C13_bare_resource_tags_operation (fuel : Nat) (parser : Parser)
    (operation : OperationObject) (comment : String) (htag : tagOf comment = "@resource")
    (hne : contentOf comment ≠ "") (hq : '"' ∉ (contentOf comment).data) :
    ∃ tags, ParseComment fuel parser operation comment =
        Outcome.ok (parser, { operation with Tags := tags }, none) ∧
      contentOf comment ∈ tags ∧
      tags = if contentOf comment ∈ operation.Tags then operation.Tags
        else operation.Tags ++ [contentOf comment] := by
  have hno := FindStringSubmatch_none_of_requires '"' reResource requires_quote_reResource 2
    (contentOf comment) hq
  rw [ParseComment_resource fuel parser operation comment htag]
  unfold parseResource
  simp only [contentOf] at hno hne hq ⊢
  simp only [hno, hne, if_false, IsInStringList]
  by_cases hmem : contentOf comment ∈ operation.Tags
  · simp only [contentOf] at hmem
    refine ⟨operation.Tags, ?_, hmem, by simp only [hmem, if_true]⟩
    simp [hmem]
  · simp only [contentOf] at hmem
    refine ⟨operation.Tags ++ [strings.TrimSpace (strings.sliceFrom (commentLineOf comment)
      (attributeOf comment).length)], ?_, by simp, by simp only [hmem, if_false]⟩
    simp [hmem]

/-- C13 at the input of the claim: `@resource pets` on an operation without tags. -/
theorem C13_bare_resource_tags_operation_witness :
    ∃ tags, ParseComment 0 petParser (NewOperationObject 1 "models") "// @resource pets" =
        Outcome.ok (petParser, { NewOperationObject 1 "models" with Tags := tags }, none) ∧
      "pets" ∈ tags ∧ tags = if "pets" ∈ ([] : List String) then [] else [] ++ ["pets"] :=
  C13_bare_resource_tags_operation 0 petParser (NewOperationObject 1 "models")
    "// @resource pets" (by decide) (by decide) (by decide)

/-- C14 (counterexample): the line `404 {object} string "not found"` has a kind other than
`{array}` and a code other than 200, `string` resolves to the primitive name `string`,
which is no id of Definitions, and the schema stored under `404` has the type `object`,
the kind without its braces, not the type name `string`. -/
theorem C14_counterexample_kind_is_type :
    (ParseResponseComment 0 petParser (NewOperationObject 1 "models")
        "404 {object} string \"not found\"").value?.map
      (fun r => (GoMap.get r.2.1.Responses "404", r.2.2, GoMap.keys r.1.Swagger.Definitions)) =
    some (some { Description := "not found", Schema := some { Type_ := "object" } }, none, []) ∧
    (registerType 0 petParser "string").value?.map (fun r => r.2.1) = some "string" := by
  decide

/-- C14 (amended): for a line that the response pattern splits into code, kind, type name
and description, whose code is an integer other than 200 and whose type name
`registerType` resolves without error: `ParseResponseComment` returns no error and stores
under the code, as text, a response with the description without its quotes and a schema
that is the reference `#/definitions/<Id>` alone when the resolved name is an id of
Definitions, and otherwise has as type the kind without its braces; the schema has no
items. -/
theorem C14_response_schema_not_200 (fuel : Nat) (parser : Parser) (operation : OperationObject)
    (line m0 code kind ty desc : String) (c : Int) (parser1 : Parser) (typeName : String)
    (hline : regexp.FindStringSubmatch reResponse 4 line = [m0, code, kind, ty, desc])
    (hcode : strconv.Atoi code = some c) (h200 : c ≠ 200)
    (hreg : registerType fuel parser ty = Outcome.ok (parser1, typeName, none)) :
    ParseResponseComment fuel parser operation line =
      Outcome.ok (parser1,
        { operation with
          Responses := GoMap.set operation.Responses (fmtSprintInt c)
            { Description := strings.Trim desc "\"",
              Schema := some
                (if GoMap.has parser1.Swagger.Definitions typeName = true
                 then { Ref := "#/definitions/" ++ typeName, Type_ := "", Items := none }
                 else { Ref := "", Type_ := strings.Trim kind "{}", Items := none }) } },
        none) := by
  have _ := h200
  unfold ParseResponseComment
  simp only [hline, hcode, hreg]
  by_cases hd : GoMap.has parser1.Swagger.Definitions typeName = true
  · simp [hd]
  · simp [hd]

/-- C14 at concrete inputs: `404 {object} Pet "not found"`, where `Pet` resolves to the
id `models.Pet` of Definitions, and `500 {string} string "failure"`. -/
theorem C14_response_schema_not_200_witness :
    (∃ P1, registerType 1 petParser "Pet" = Outcome.ok (P1, "models.Pet", none) ∧
      ParseResponseComment 1 petParser (NewOperationObject 1 "models")
          "404 {object} Pet \"not found\"" =
        Outcome.ok (P1,
          { NewOperationObject 1 "models" with
            Responses := [("404", { Description := "not found",
                                    Schema := some { Ref := "#/definitions/models.Pet" } })] },
          none)) ∧
    ParseResponseComment 0 petParser (NewOperationObject 1 "models")
        "500 {string} string \"failure\"" =
      Outcome.ok (petParser,
        { NewOperationObject 1 "models" with
          Responses := [("500", { Description := "failure",
                                  Schema := some { Type_ := "string" } })] },
        none) :=
  ⟨⟨_, rfl, C14_response_schema_not_200 1 petParser (NewOperationObject 1 "models")
      "404 {object} Pet \"not found\"" "404 {object} Pet \"not found\"" "404" "{object}" "Pet"
      "\"not found\"" 404 _ "models.Pet" (by decide) (by decide) (by decide) rfl⟩,
   C14_response_schema_not_200 0 petParser (NewOperationObject 1 "models")
      "500 {string} string \"failure\"" "500 {string} string \"failure\"" "500" "{string}"
      "string" "\"failure\"" 500 petParser "string" (by decide) (by decide) (by decide) rfl⟩

/-- C15 (counterexample): with `type MyInt int`, the line `n query MyInt true "d"` names a
type that is not in the wire-type table and resolves to `int`, no id of Definitions; the
parameter gets the type `integer` and the format `int64`, not the bare name `int`.  The line
`x body interface true "d"` resolves to `interface`, which the table does not hold either;
the parameter gets an empty type. -/
theorem C15_counterexample_resolved_primitive :
    (ParseParamComment 1 aliasParser (NewOperationObject 1 "models")
        "n query MyInt true \"d\"").value?.map
      (fun r => (r.2.1.Parameters, GoMap.keys r.1.Swagger.Definitions, r.2.2)) =
    some ([{ Name := "n", In := "query", Description := "d", Required := true, Schema := none,
             Type_ := "integer", Format := "int64" }], [], none) ∧
    (registerType 1 aliasParser "MyInt").value?.map (fun r => r.2.1) = some "int" ∧
    GoMap.has basicTypesSwaggerTypes "MyInt" = false ∧
    (ParseParamComment 0 petParser (NewOperationObject 1 "models")
        "x body interface true \"d\"").value?.map
      (fun r => (r.2.1.Parameters, GoMap.keys r.1.Swagger.Definitions, r.2.2)) =
    some ([{ Name := "x", In := "body", Description := "d", Required := true, Schema := none,
             Type_ := "", Format := "" }], [], none) ∧
    (registerType 0 petParser "interface").value?.map (fun r => r.2.1) = some "interface" ∧
    GoMap.has basicTypesSwaggerTypes "interface" = false := by
  decide

/-- C15 (amended): for a line that the `@param` pattern splits into name, location, type,
required flag and description, whose type `registerType` resolves without error to a name
that `IsBasicTypeSwaggerType` rejects (it is not in the wire-type table and does not contain
`interface`): `ParseParamComment` returns no error and appends one parameter which, when the
resolved name is an id of Definitions, has the schema reference `#/definitions/<Id>` and
empty type and format, and otherwise has no schema, the resolved name as type and an empty
format. -/
theorem C15_param_model_or_bare (fuel : Nat) (parser : Parser) (operation : OperationObject)
    (line m0 name loc ty req desc : String) (parser1 : Parser) (typeName : String)
    (hline : regexp.FindStringSubmatch reParam 5 line = [m0, name, loc, ty, req, desc])
    (hreg : registerType fuel parser ty = Outcome.ok (parser1, typeName, none))
    (hnb : IsBasicTypeSwaggerType typeName = false) :
    ParseParamComment fuel parser operation line =
      Outcome.ok (parser1,
        { operation with
          Parameters := operation.Parameters ++
            [if GoMap.has parser1.Swagger.Definitions typeName = true
             then { Name := name, In := loc, Description := desc,
                    Required := (strings.ToLower req = "true" || strings.ToLower req = "required"),
                    Schema := some { Ref := "#/definitions/" ++ typeName },
                    Type_ := "", Format := "" }
             else { Name := name, In := loc, Description := desc,
                    Required := (strings.ToLower req = "true" || strings.ToLower req = "required"),
                    Schema := none, Type_ := typeName, Format := "" }] },
        none) := by
  unfold ParseParamComment
  simp only [hline, hreg, hnb]
  by_cases hd : GoMap.has parser1.Swagger.Definitions typeName = true
  · simp [hd]
  · simp [hd]

/-- C15 at concrete inputs: `pet body Pet true "the pet"`, where `Pet` resolves to the id
`models.Pet` of Definitions, and `since query Time false "start"`, where `Time` is a
primitive name outside the wire-type table. -/
theorem C15_param_model_or_bare_witness :
    (∃ P1, registerType 1 petParser "Pet" = Outcome.ok (P1, "models.Pet", none) ∧
      ParseParamComment 1 petParser (NewOperationObject 1 "models")
          "pet body Pet true \"the pet\"" =
        Outcome.ok (P1,
          { NewOperationObject 1 "models" with
            Parameters := [{ Name := "pet", In := "body", Description := "the pet",
                             Required := true,
                             Schema := some { Ref := "#/definitions/models.Pet" },
                             Type_ := "", Format := "" }] },
          none)) ∧
    ParseParamComment 0 petParser (NewOperationObject 1 "models")
        "since query Time false \"start\"" =
      Outcome.ok (petParser,
        { NewOperationObject 1 "models" with
          Parameters := [{ Name := "since", In := "query", Description := "start",
                           Required := false, Schema := none, Type_ := "Time", Format := "" }] },
        none) :=
  ⟨⟨_, rfl, C15_param_model_or_bare 1 petParser (NewOperationObject 1 "models")
      "pet body Pet true \"the pet\"" "pet body Pet true \"the pet\"" "pet" "body" "Pet" "true"
      "the pet" _ "models.Pet" (by decide) rfl (by decide)⟩,
   C15_param_model_or_bare 0 petParser (NewOperationObject 1 "models")
      "since query Time false \"start\"" "since query Time false \"start\"" "since" "query"
      "Time" "false" "start" petParser "Time" (by decide) rfl (by decide)⟩

/-- C16 (counterexample): the line `id cookie int true "pet id"`, whose location `cookie`
is none of path, query, body, header, form, returns no error and appends a parameter with
the location `cookie`. -/
theorem C16_counterexample_any_location :
    ParseParamComment 0 petParser (NewOperationObject 1 "models")
        "id cookie int true \"pet id\"" =
      Outcome.ok (petParser,
        { NewOperationObject 1 "models" with
          Parameters := [{ Name := "id", In := "cookie", Description := "pet id",
                           Required := true, Schema := none, Type_ := "integer",
                           Format := "int64" }] },
        none) := by
  decide

/-- C16 (amended): a line that the `@param` pattern does not match returns the parse error
and leaves the operation, its parameters included, and the parser as they were; a line
`<name> <in> <type> <required> "<description>"` whose `<in>` is any word (letters, digits,
underscores) is matched, and when its type resolves without error one parameter is appended
whose location is `<in>` as written, and no error is returned. -/
theorem C16_param_location_unchecked (fuel : Nat) (parser : Parser)
    (operation : OperationObject) :
    (∀ line, regexp.FindStringSubmatch reParam 5 line = [] →
      ParseParamComment fuel parser operation line =
        Outcome.ok (parser, operation,
          some ("Can not parse param comment \"" ++ line ++ "\", skipped."))) ∧
    (∀ (name loc ty req desc : String) (parser1 : Parser) (typeName : String),
      (name.data ≠ [] ∧ ∀ c ∈ name.data, (c = '-' || regexp.isWord c) = true) →
      (loc.data ≠ [] ∧ ∀ c ∈ loc.data, regexp.isWord c = true) →
      (ty.data ≠ [] ∧ ∀ c ∈ ty.data, (regexp.isWord c || c = '.') = true) →
      (req.data ≠ [] ∧ ∀ c ∈ req.data, regexp.isWord c = true) →
      (desc.data ≠ [] ∧ ∀ c ∈ desc.data, c ≠ '"') →
      registerType fuel parser ty = Outcome.ok (parser1, typeName, none) →
      ∃ p, ParseParamComment fuel parser operation (paramLine name loc ty req desc) =
          Outcome.ok (parser1,
            { operation with Parameters := operation.Parameters ++ [p] }, none) ∧
        p.Name = name ∧ p.In = loc ∧ p.Description = desc) := by
  refine ⟨fun line hno => ParseParamComment_no_match fuel parser operation line hno, ?_⟩
  intro name loc ty req desc parser1 typeName hname hloc hty hreq hdesc hreg
  have hline := FindStringSubmatch_paramLine name loc ty req desc hname hloc hty hreq hdesc
  unfold ParseParamComment
  simp only [hline, hreg]
  exact ⟨_, rfl, by split <;> [rfl; (split <;> rfl)], by split <;> [rfl; (split <;> rfl)],
    by split <;> [rfl; (split <;> rfl)]⟩

/-- C16 at concrete inputs: `id path int true` without description, and
`id cookie int true "pet id"`. -/
theorem C16_param_location_unchecked_witness :
    ParseParamComment 0 petParser (NewOperationObject 1 "models") "id path int true" =
      Outcome.ok (petParser, NewOperationObject 1 "models",
        some "Can not parse param comment \"id path int true\", skipped.") ∧
    ∃ p, ParseParamComment 0 petParser (NewOperationObject 1 "models")
        (paramLine "id" "cookie" "int" "true" "pet id") =
        Outcome.ok (petParser,
          { NewOperationObject 1 "models" with
            Parameters := (NewOperationObject 1 "models").Parameters ++ [p] }, none) ∧
      p.Name = "id" ∧ p.In = "cookie" ∧ p.Description = "pet id" :=
  ⟨(C16_param_location_unchecked 0 petParser (NewOperationObject 1 "models")).1
      "id path int true" (by decide),
   (C16_param_location_unchecked 0 petParser (NewOperationObject 1 "models")).2
      "id" "cookie" "int" "true" "pet id" petParser "int"
      (by decide) (by decide) (by decide) (by decide) (by decide) rfl⟩

theorem foldl_contentTypeOf (tokens : List String) (acc : List String) :
    tokens.foldl (fun acc a =>
      match contentTypeOf a with
      | some t => acc ++ [t]
      | none => acc) acc = acc ++ tokens.filterMap contentTypeOf := by
  induction tokens generalizing acc with
  | nil => simp
  | cons a rest ih =>
    rw [List.foldl_cons, ih]
    cases h : contentTypeOf a with
    | none => simp [List.filterMap_cons, h]
    | some t => simp [List.filterMap_cons, h]

theorem contentTypeOf_none_of_not_mem (a : String) (h : a ∉ mediaTokens) :
    contentTypeOf a = none := by
  simp only [mediaTokens, List.mem_cons, List.mem_singleton, List.not_mem_nil, or_false,
    not_or] at h
  obtain ⟨h1, h2, h3, h4, h5, h6, h7, h8, h9, h10⟩ := h
  simp [contentTypeOf, h1, h2, h3, h4, h5, h6, h7, h8, h9, h10]

/-- C17: `ParseAcceptComment` returns no error and changes the Consumes list only: the
list of before followed, in the order of the comma-separated tokens, by the media type of
every token that has one; the token `json` has `application/json`, `xml` has
`application/xml`, `plain` has `text/plain`, `html` has `text/html`, `mpfd` has
`multipart/form-data`, and a token that is none of the case labels of the switch has
none. -/
theorem C17_accept_appends_in_token_order (operation : OperationObject) (content : String) :
    ParseAcceptComment operation content =
      ({ operation with
          Consumes := operation.Consumes ++ (strings.Split content ',').filterMap contentTypeOf },
        none) ∧
    contentTypeOf "json" = some "application/json" ∧
    contentTypeOf "xml" = some "application/xml" ∧
    contentTypeOf "plain" = some "text/plain" ∧
    contentTypeOf "html" = some "text/html" ∧
    contentTypeOf "mpfd" = some "multipart/form-data" ∧
    ∀ a, a ∉ mediaTokens → contentTypeOf a = none := by
  refine ⟨?_, by decide, by decide, by decide, by decide, by decide,
    contentTypeOf_none_of_not_mem⟩
  have h := foldl_contentTypeOf (strings.Split content ',') operation.Consumes
  exact congrArg
    (fun c => (({ operation with Consumes := c } : OperationObject), (none : Option String))) h

/-- C17 at a concrete input: the content `json,yaml,mpfd,xml` on an operation that
consumes `text/html` and produces `text/plain`. -/
theorem C17_accept_appends_in_token_order_witness :
    ParseAcceptComment
        { NewOperationObject 1 "models" with Consumes := ["text/html"], Produces := ["text/plain"] }
        "json,yaml,mpfd,xml" =
      ({ NewOperationObject 1 "models" with
          Consumes := ["text/html", "application/json", "multipart/form-data", "application/xml"],
          Produces := ["text/plain"] }, none) ∧
    contentTypeOf "yaml" = none :=
  ⟨(C17_accept_appends_in_token_order
      { NewOperationObject 1 "models" with Consumes := ["text/html"], Produces := ["text/plain"] }
      "json,yaml,mpfd,xml").1,
   (C17_accept_appends_in_token_order (NewOperationObject 1 "models") "").2.2.2.2.2.2 "yaml"
      (by decide)⟩

/-- C18 (the code at the failing input): the token `application/xml`, the media type the
parser emits for `xml`, appends nothing to the consumed list under `@accept` and nothing to
the produced list under `@produce`: the case label for XML is `text/xml`, which appends
`application/xml`.  Each of the four other media types the parser emits appends itself. -/
theorem C18_application_xml_is_dropped :
    (ParseAcceptComment (NewOperationObject 1 "models") "application/xml").1.Consumes = [] ∧
    (ParseProduceComment (NewOperationObject 1 "models") "application/xml").1.Produces = [] ∧
    (ParseAcceptComment (NewOperationObject 1 "models") "text/xml").1.Consumes =
      ["application/xml"] ∧
    (ParseProduceComment (NewOperationObject 1 "models") "text/xml").1.Produces =
      ["application/xml"] ∧
    ["application/json", "text/plain", "text/html", "multipart/form-data"].map
        (fun a => ((ParseAcceptComment (NewOperationObject 1 "models") a).1.Consumes,
          (ParseProduceComment (NewOperationObject 1 "models") a).1.Produces)) =
      [(["application/json"], ["application/json"]), (["text/plain"], ["text/plain"]),
       (["text/html"], ["text/html"]), (["multipart/form-data"], ["multipart/form-data"])] := by
  decide

theorem ParseResponseComment_summary (fuel : Nat) (parser : Parser)
    (operation : OperationObject) (commentLine : String) (parser1 : Parser)
    (operation1 : OperationObject) (err : Option String)
    (h : ParseResponseComment fuel parser operation commentLine =
      Outcome.ok (parser1, operation1, err)) :
    operation1.Summary = operation.Summary := by
  unfold ParseResponseComment at h
  split at h
  · simp only at h
    split at h
    · cases h; rfl
    · split at h
      · cases h
      · cases h
      · cases h; rfl
      · cases h; rfl
  · cases h; rfl

theorem ParseParamComment_summary (fuel : Nat) (parser : Parser) (operation : OperationObject)
    (commentLine : String) (parser1 : Parser) (operation1 : OperationObject)
    (err : Option String)
    (h : ParseParamComment fuel parser operation commentLine =
      Outcome.ok (parser1, operation1, err)) :
    operation1.Summary = operation.Summary := by
  unfold ParseParamComment at h
  simp only at h
  split at h
  · split at h
    · cases h
    · cases h
    · cases h; rfl
    · cases h; rfl
  · cases h; rfl

theorem parseResource_summary (parser : Parser) (operation : OperationObject)
    (commentLine attributeName : String) :
    (parseResource parser operation commentLine attributeName).2.Summary = operation.Summary := by
  unfold parseResource
  simp only
  split
  · split <;> rfl
  · split <;> rfl

/-- A comment whose tag is not `@title` leaves the summary of the operation as it was. -/
theorem ParseComment_summary (fuel : Nat) (parser : Parser) (operation : OperationObject)
    (comment : String) (parser1 : Parser) (operation1 : OperationObject) (err : Option String)
    (htag : tagOf comment ≠ "@title")
    (h : ParseComment fuel parser operation comment = Outcome.ok (parser1, operation1, err)) :
    operation1.Summary = operation.Summary := by
  unfold ParseComment at h
  simp only [tagOf, attributeOf, commentLineOf] at htag
  simp only [htag, if_false] at h
  split at h
  · cases h; rfl
  · split at h
    · cases h; rfl
    · split at h
      · cases h
        exact parseResource_summary _ _ _ _
      · split at h
        · cases h; rfl
        · split at h
          · exact ParseResponseComment_summary _ _ _ _ _ _ _ h
          · split at h
            · exact ParseParamComment_summary _ _ _ _ _ _ _ h
            · split at h
              · cases h; rfl
              · split at h
                · cases h; rfl
                · cases h; rfl

theorem parseComments_summary (fuel : Nat) (lines : List String)
    (hlines : ∀ l ∈ lines, tagOf l ≠ "@title") (parser : Parser) (operation : OperationObject)
    (parser1 : Parser) (operation1 : OperationObject)
    (h : parseComments fuel lines parser operation = Outcome.ok (parser1, operation1)) :
    operation1.Summary = operation.Summary := by
  induction lines generalizing parser operation with
  | nil =>
    simp only [parseComments] at h
    cases h
    rfl
  | cons l rest ih =>
    simp only [parseComments] at h
    split at h
    · rename_i p2 op2 e2 hc
      rw [ih (fun x hx => hlines x (List.mem_cons_of_mem _ hx)) p2 op2 h]
      exact ParseComment_summary fuel parser operation l p2 op2 e2
        (hlines l (List.mem_cons_self _ _)) hc
    · cases h
    · cases h

/-- C19 (counterexample): `@Title First` followed by `@Title Second`, the run returns and
the summary is `Second`, the text of the second occurrence. -/
theorem C19_counterexample_second_title :
    (parseComments 0 ["// @Title First", "// @Title Second"] petParser
        (NewOperationObject 1 "models")).value?.map (fun r => r.2.Summary) = some "Second" := by
  decide

/-- C19 (amended): when the comment lines of one declaration have been parsed in their
written order, the summary of the operation is the content of the last `@title` line,
however many `@title` lines come before it. -/
theorem C19_last_title_wins (fuel : Nat) (pre post : List String) (t : String)
    (parser : Parser) (operation : OperationObject) (parser1 : Parser)
    (operation1 : OperationObject) (ht : tagOf t = "@title")
    (hpost : ∀ l ∈ post, tagOf l ≠ "@title")
    (h : parseComments fuel (pre ++ t :: post) parser operation =
      Outcome.ok (parser1, operation1)) :
    operation1.Summary = contentOf t := by
  induction pre generalizing parser operation with
  | nil =>
    simp only [List.nil_append, parseComments, ParseComment_title fuel parser operation t ht] at h
    rw [parseComments_summary fuel post hpost _ _ _ _ h]
  | cons l rest ih =>
    simp only [List.cons_append, parseComments] at h
    split at h
    · rename_i p2 op2 e2 hc
      exact ih p2 op2 h
    · cases h
    · cases h

/-- C19 at a concrete input: three `@title` lines among other lines; the summary is the
text of the third. -/
theorem C19_last_title_wins_witness :
    ∃ P1 operation1,
      parseComments 0 ["// @Title First", "// @Description d", "// @Title Second",
          "// @Title  Third one ", "// @Accept json"] petParser (NewOperationObject 1 "models") =
        Outcome.ok (P1, operation1) ∧
      operation1.Summary = "Third one" :=
  ⟨_, _, rfl,
    C19_last_title_wins 0 ["// @Title First", "// @Description d", "// @Title Second"]
      ["// @Accept json"] "// @Title  Third one " petParser (NewOperationObject 1 "models") _ _
      (by decide) (by decide) rfl⟩

/-- C20 (counterexample): with `type Time int64`, `registerType("Time")` returns `Time`,
not the underlying name `int64`: the name is in the table of primitive names, which is
consulted before the declarations.  With `type ID int` in package `a` and `type ID string`
in package `b`, `registerType("ID")` in package `a` returns `int`, and `registerType("ID")`
in package `b` afterwards returns `int` as well, not `string`: the translation is recorded
under the local name and read before the declarations.  With `type MyInt int`, the
qualified name `models.MyInt` returns the id `models.MyInt` and creates a Definitions entry
under it: the translation is recorded under the local name `MyInt` and looked up under the
name as written.  With `type MyTime time.Time`, `registerType("MyTime")` returns the id
`models.MyTime`, creates an empty Definitions entry under it and records no translation:
`ParseModel` records a translation only when the underlying type is an identifier. -/
theorem C20_counterexample_primitive_name_and_qualified :
    registerType 1 namedTimeParser "Time" = Outcome.ok (namedTimeParser, "Time", none) ∧
    (registerType 1 twoPackageParser "ID").value?.bind
      (fun r1 => (registerType 1 { r1.1 with CurrentPackage := "b" } "ID").value?.map
        (fun r2 => (r1.2.1, r1.2.2, r2.2.1, r2.2.2))) = some ("int", none, "int", none) ∧
    (registerType 1 aliasParser "models.MyInt").value?.map
      (fun r => (r.2.1, r.2.2, r.1.Swagger.Definitions, r.1.typeDefTranslations)) =
    some ("models.MyInt", none,
      [("models.MyInt", { Type_ := "object", Required := [], Properties := [] })],
      [("MyInt", "int")]) ∧
    (registerType 1 qualifiedDefParser "MyTime").value?.map
      (fun r => (r.2.1, r.2.2, r.1.Swagger.Definitions, r.1.typeDefTranslations)) =
    some ("models.MyTime", none,
      [("models.MyTime", { Type_ := "object", Required := [], Properties := [] })], []) :=
  ⟨rfl, rfl, rfl, rfl⟩

/-- C20 (amended): for an unqualified name `X` that is no primitive name, whose declaration
in the current package is a type definition over an identifier, `type X U` with `U` a plain
(not package-qualified) type name, and for which `typeDefTranslations` has no entry or the
entry `U`: `registerType(X)` returns `U` without error, leaves the document, Definitions
included, exactly as it was, and leaves the translation of `X` to `U` recorded. -/
theorem C20_unqualified_type_definition (fuel : Nat) (P : Parser) (X U : String)
    (spec : TypeSpec) (hdot : '.' ∉ X.data)
    (hdecl : GetModelDefinition P X P.CurrentPackage = some spec) (hname : spec.Name = X)
    (hty : spec.Type_ = TypeExpr.ident U) (hbasic : IsBasicType X = false)
    (htr : GoMap.get P.typeDefTranslations X = none ∨
      GoMap.get P.typeDefTranslations X = some U) :
    ∃ P1, registerType (fuel + 1) P X = Outcome.ok (P1, U, none) ∧
      P1.Swagger = P.Swagger ∧ GoMap.get P1.typeDefTranslations X = some U := by
  rcases htr with hnone | hsome
  · have hfind := FindModelDefinition_unqualified P X P.CurrentPackage spec hdot hdecl
    refine ⟨{ recordModelName P X (canonicalId P.CurrentPackage X) with
        typeDefTranslations :=
          GoMap.set (recordModelName P X (canonicalId P.CurrentPackage X)).typeDefTranslations
            X U }, ?_, ?_, ?_⟩
    · unfold registerType
      simp only [hnone, hbasic, Bool.false_eq_true, if_false, ParseModel, ParseModelBody, hfind,
        hty, hname, GoMap.get_set_self]
    · exact recordModelName_definitions P X _
    · exact GoMap.get_set_self _ X U
  · refine ⟨P, ?_, rfl, hsome⟩
    unfold registerType
    simp only [hsome]

/-- C20 at a concrete input: `MyInt` in the package that declares `type MyInt int`. -/
theorem C20_unqualified_type_definition_witness :
    ∃ P1, registerType 1 aliasParser "MyInt" = Outcome.ok (P1, "int", none) ∧
      P1.Swagger = aliasParser.Swagger ∧ GoMap.get P1.typeDefTranslations "MyInt" = some "int" :=
  C20_unqualified_type_definition 0 aliasParser "MyInt" "int" ⟨"MyInt", TypeExpr.ident "int"⟩
    (by decide) (by decide) rfl rfl (by decide) (Or.inl (by decide))

theorem splitAux_append (sep : Char) (a b cur : List Char) (h : sep ∉ a) :
    strings.splitAux sep (a ++ sep :: b) cur =
      ⟨cur.reverse ++ a⟩ :: strings.splitAux sep b [] := by
  induction a generalizing cur with
  | nil => simp [strings.splitAux]
  | cons c cs ih =>
    have hc : c ≠ sep := fun e => h (e ▸ List.mem_cons_self _ _)
    have hcs : sep ∉ cs := fun m => h (List.mem_cons_of_mem _ m)
    show strings.splitAux sep (c :: (cs ++ sep :: b)) cur = _
    simp only [strings.splitAux, hc, if_false]
    rw [ih (c :: cur) hcs]
    simp

/-- The parts of a name with one dot. -/
theorem Split_qualified (q N : String) (hq : '.' ∉ q.data) (hN : '.' ∉ N.data) :
    strings.Split (q ++ "." ++ N) '.' = [q, N] := by
  have hdata : (q ++ "." ++ N).data = q.data ++ '.' :: N.data := by
    simp [String.data_append]
  unfold strings.Split
  rw [hdata, splitAux_append '.' q.data N.data [] hq, splitAux_of_not_mem '.' N.data [] hN]
  simp

theorem findInPackages_first (parser : Parser) (N : String) (l : List String) (spec : TypeSpec)
    (pkg : String) (h : FirstDeclaring parser N l spec pkg) :
    findInPackages parser N l = some (spec, pkg) := by
  obtain ⟨pre, post, hl, hpre, hpkg⟩ := h
  subst hl
  induction pre with
  | nil => simp [findInPackages, hpkg]
  | cons p rest ih =>
    simp only [List.cons_append, findInPackages, hpre p (List.mem_cons_self _ _)]
    exact ih (fun x hx => hpre x (List.mem_cons_of_mem _ hx))

theorem findInPackages_none_iff (parser : Parser) (N : String) (l : List String) :
    findInPackages parser N l = none ↔ ∀ p ∈ l, GetModelDefinition parser N p = none := by
  induction l with
  | nil => simp [findInPackages]
  | cons p rest ih =>
    cases hp : GetModelDefinition parser N p with
    | none => simp [findInPackages, hp, ih]
    | some spec => simp [findInPackages, hp]

/-- What `FindModelDefinition` does with a name of one dot. -/
theorem FindModelDefinition_qualified (parser : Parser) (currentPackage q N : String)
    (hq : '.' ∉ q.data) (hN : '.' ∉ N.data) :
    FindModelDefinition parser (q ++ "." ++ N) currentPackage =
      match GetModelDefinition parser N q with
      | some spec => Outcome.ok (spec, q)
      | none =>
        match importCandidates parser currentPackage q with
        | none => Outcome.fatal
        | some l =>
          match findInPackages parser N l with
          | some found => Outcome.ok found
          | none => Outcome.fatal := by
  have e1 : ([q, N] : List String).getLastD "" = N := rfl
  have e2 : strings.Join ([q, N] : List String).dropLast "/" = q := rfl
  have e3 : ([q, N] : List String).headD "" = q := rfl
  have e4 : ([q, N] : List String).length = 2 := rfl
  have n1 : ¬ (2 = 1) := by decide
  have n2 : ¬ (2 > 2) := by decide
  unfold FindModelDefinition importCandidates
  simp only [Split_qualified q N hq hN, e1, e2, e3, e4, n1, n2, if_false]
  cases h1 : GetModelDefinition parser N q with
  | some spec => rfl
  | none =>
    cases h2 : GoMap.get parser.PackageImports (CheckRealPackagePath parser currentPackage) with
    | none => rfl
    | some imports =>
      cases h3 : GoMap.get imports q with
      | none => simp [h3]
      | some l =>
        simp only [h3, Option.some_bind]

/-- C21: `FindModelDefinition` resolves a name without dot in the current package only,
returning the current package, and fails exactly when the current package does not declare
it.  A name `q.N` is resolved in the package of path `q` when that package declares `N`;
otherwise in the first package, in list order, of the candidates that the import table of
the current package holds for `q` that declares `N`; it fails exactly when neither the
package `q` nor any candidate declares `N` (in particular when there is no candidate
list).  A name of more than two parts is resolved under its absolute path only. -/
theorem C21_FindModelDefinition_resolution (parser : Parser) (currentPackage : String) :
    (∀ X, '.' ∉ X.data →
      (∀ spec, GetModelDefinition parser X currentPackage = some spec →
        FindModelDefinition parser X currentPackage = Outcome.ok (spec, currentPackage)) ∧
      (FindModelDefinition parser X currentPackage = Outcome.fatal ↔
        GetModelDefinition parser X currentPackage = none)) ∧
    (∀ q N, '.' ∉ q.data → '.' ∉ N.data →
      (∀ spec, GetModelDefinition parser N q = some spec →
        FindModelDefinition parser (q ++ "." ++ N) currentPackage = Outcome.ok (spec, q)) ∧
      (∀ l spec pkg, GetModelDefinition parser N q = none →
        importCandidates parser currentPackage q = some l →
        FirstDeclaring parser N l spec pkg →
        FindModelDefinition parser (q ++ "." ++ N) currentPackage = Outcome.ok (spec, pkg)) ∧
      (FindModelDefinition parser (q ++ "." ++ N) currentPackage = Outcome.fatal ↔
        GetModelDefinition parser N q = none ∧
        ∀ l, importCandidates parser currentPackage q = some l →
          ∀ p ∈ l, GetModelDefinition parser N p = none)) ∧
    (∀ name, (strings.Split name '.').length > 2 →
      FindModelDefinition parser name currentPackage =
        match GetModelDefinition parser ((strings.Split name '.').getLastD "")
            (strings.Join (strings.Split name '.').dropLast "/") with
        | some spec => Outcome.ok (spec, strings.Join (strings.Split name '.').dropLast "/")
        | none => Outcome.fatal) := by
  refine ⟨fun X hX => ⟨fun spec h => FindModelDefinition_unqualified parser X currentPackage
      spec hX h, ?_⟩, fun q N hq hN => ⟨?_, ?_, ?_⟩, ?_⟩
  · unfold FindModelDefinition
    simp only [Split_of_not_mem X '.' hX, List.length_singleton, if_true]
    cases GetModelDefinition parser X currentPackage with
    | none => simp
    | some spec => simp
  · intro spec h
    rw [FindModelDefinition_qualified parser currentPackage q N hq hN, h]
  · intro l spec pkg h hl hfirst
    rw [FindModelDefinition_qualified parser currentPackage q N hq hN, h]
    simp only [hl, findInPackages_first parser N l spec pkg hfirst]
  · rw [FindModelDefinition_qualified parser currentPackage q N hq hN]
    cases h1 : GetModelDefinition parser N q with
    | some spec => simp
    | none =>
      cases h2 : importCandidates parser currentPackage q with
      | none => simp
      | some l =>
        cases h3 : findInPackages parser N l with
        | none =>
          simp only [h3, true_and, Option.some.injEq, forall_eq']
          exact ⟨fun _ => (findInPackages_none_iff parser N l).1 h3, fun _ => trivial⟩
        | some found =>
          simp only [h3, true_and, Option.some.injEq, forall_eq']
          constructor
          · intro hbad
            cases hbad
          · intro hall
            rw [(findInPackages_none_iff parser N l).2 hall] at h3
            cases h3
  · intro name hlen
    have n1 : ¬ (strings.Split name '.').length = 1 := by omega
    unfold FindModelDefinition
    simp only [n1, if_false, hlen, if_true]

/-- C21 at concrete inputs, in package `api` that imports `lib/v1/models` and
`lib/v2/models` under the alias `models`: `Handler` resolves in `api`; `pets.Pet` resolves
in the package of path `pets`; `models.Pet` resolves in `lib/v2/models`, the first candidate
that declares `Pet`; `Pet` and `models.Cat` fail. -/
theorem C21_FindModelDefinition_resolution_witness :
    FindModelDefinition importParser "Handler" "api" =
      Outcome.ok (⟨"Handler", TypeExpr.structType []⟩, "api") ∧
    FindModelDefinition importParser "Pet" "api" = Outcome.fatal ∧
    FindModelDefinition importParser ("pets" ++ "." ++ "Pet") "api" =
      Outcome.ok (⟨"Pet", TypeExpr.structType []⟩, "pets") ∧
    FindModelDefinition importParser ("models" ++ "." ++ "Pet") "api" =
      Outcome.ok (⟨"Pet", TypeExpr.structType [⟨["Name"], Expr.ident "string", none⟩]⟩,
        "lib/v2/models") ∧
    FindModelDefinition importParser ("models" ++ "." ++ "Cat") "api" = Outcome.fatal :=
  ⟨((C21_FindModelDefinition_resolution importParser "api").1 "Handler" (by decide)).1 _
      (by decide),
   ((C21_FindModelDefinition_resolution importParser "api").1 "Pet" (by decide)).2.2
      (by decide),
   ((C21_FindModelDefinition_resolution importParser "api").2.1 "pets" "Pet" (by decide)
      (by decide)).1 _ (by decide),
   ((C21_FindModelDefinition_resolution importParser "api").2.1 "models" "Pet" (by decide)
      (by decide)).2.1 ["lib/v1/models", "lib/v2/models"] _ "lib/v2/models" (by decide)
      (by decide) ⟨["lib/v1/models"], [], rfl, by decide, by decide⟩,
   ((C21_FindModelDefinition_resolution importParser "api").2.1 "models" "Cat" (by decide)
      (by decide)).2.2.2 ⟨by decide, by decide⟩⟩

/-- C23 (the code at the failing input): with
`type Node struct { Next *Node; Children []Node }`, `registerType("Node")` returns with one
budget unit, so `Node` is not resolved again; the scalar property `Next` carries the
reference `#/definitions/models.Node`, but the array property `Children` carries that
reference on the property itself and keeps the bare name `Node` as the reference of its
items.  The same holds for `Forest []Tree` of `Leaf`, reached from `Tree`. -/
theorem C23_visited_array_keeps_bare_item_name :
    (registerType 1 nodeParser "Node").value?.map
      (fun r => (r.2.1, r.2.2, (GoMap.get r.1.Swagger.Definitions "models.Node").map
        (fun s => s.Properties))) =
    some ("models.Node", none,
      some [("Next", { Ref := "#/definitions/models.Node", Type_ := "Node" }),
            ("Children", { Ref := "#/definitions/models.Node", Type_ := "array",
                           Items := { Ref := "Node", Type_ := "" } })]) ∧
    (registerType 2 nodeParser "Tree").value?.map
      (fun r => (r.2.1, r.2.2, (GoMap.get r.1.Swagger.Definitions "models.Leaf").map
        (fun s => s.Properties))) =
    some ("models.Tree", none,
      some [("Owner", { Ref := "#/definitions/models.Tree", Type_ := "Tree" }),
            ("Forest", { Ref := "#/definitions/models.Tree", Type_ := "array",
                         Items := { Ref := "Tree", Type_ := "" } })]) :=
  ⟨rfl, rfl⟩

/-- C24 (the code at failing inputs): resolving `type Ints struct { V []int }` ends the
process whatever the recursion budget, and so do `[]bool` and `[]float64`: the item type of
the property is already the wire type (`integer`, `boolean`, `number`), which the first
loop of `ParseModel` takes for a model name and fails to find.  Resolving
`type Strings struct { V []string }` succeeds, with type `array` and item type `string`:
the wire type of `string` is a primitive name. -/
theorem C24_primitive_slice_is_fatal :
    (∀ fuel, registerType (fuel + 2) sliceParser "Ints" = Outcome.fatal) ∧
    (∀ fuel, registerType (fuel + 2) sliceParser "Bools" = Outcome.fatal) ∧
    (∀ fuel, registerType (fuel + 2) sliceParser "Floats" = Outcome.fatal) ∧
    (typeProperty "[]int", typeProperty "[]bool", typeProperty "[]float64") =
      ({ Type_ := "array", Items := { Type_ := "integer" } },
       { Type_ := "array", Items := { Type_ := "boolean" } },
       { Type_ := "array", Items := { Type_ := "number" } }) ∧
    (registerType 1 sliceParser "Strings").value?.map
      (fun r => (r.2.1, r.2.2, (GoMap.get r.1.Swagger.Definitions "models.Strings").map
        (fun s => s.Properties))) =
    some ("models.Strings", none,
      some [("V", { Type_ := "array", Format := "string", Items := { Type_ := "string" } })]) := by
  refine ⟨fun fuel => rfl, fun fuel => rfl, fun fuel => rfl, rfl, rfl⟩

/-- Resolving a struct that embeds a pointer to itself exhausts every budget: each level
descends into the embedded type with an empty visited set. -/
theorem ParseModel_selfEmbed (fuel : Nat) :
    ∀ (P : Parser) (known : GoMap Bool) (m : Model), P.frame = selfEmbedParser.frame →
      ParseModel fuel P known m "T" "models" = Outcome.outOfFuel := by
  induction fuel with
  | zero => intro P known m _; rfl
  | succ n ih =>
    intro P known m hP
    have hfind : FindModelDefinition P "T" "models" =
        Outcome.ok (⟨"T", TypeExpr.structType [⟨[], Expr.star (Operand.ident "T"), none⟩]⟩,
          "models") := by
      rw [FindModelDefinition_frame selfEmbedParser P hP]
      rfl
    have hrec : ∀ (Q : Parser) (m1 : Model), Q.frame = P.frame →
        ParseModelProperty (ParseModel n) Q m1
          ⟨[], Expr.star (Operand.ident "T"), none⟩ "models" = Outcome.outOfFuel := by
      intro Q m1 hQ
      have hs : fieldTypeString ⟨[], Expr.star (Operand.ident "T"), none⟩ = "T" := by decide
      unfold ParseModelProperty
      simp only [hs]
      simp +decide only [embeddedName, ih Q [] NewModel (hQ.trans hP), if_false, if_true,
        false_and, List.length_nil]
    show ParseModelBody (ParseModel n) P known m "T" "models" = Outcome.outOfFuel
    unfold ParseModelBody
    simp only [hfind, ParseFieldList]
    simp +decide only [if_false, parseFields, hrec _ _ (recordModelName_frame P "T" _)]

theorem ParseModel_mutualEmbed (fuel : Nat) :
    ∀ (P : Parser) (known : GoMap Bool) (m : Model), P.frame = selfEmbedParser.frame →
      ParseModel fuel P known m "A" "models" = Outcome.outOfFuel ∧
      ParseModel fuel P known m "B" "models" = Outcome.outOfFuel := by
  induction fuel with
  | zero => intro P known m _; exact ⟨rfl, rfl⟩
  | succ n ih =>
    intro P known m hP
    have hfindA : FindModelDefinition P "A" "models" =
        Outcome.ok (⟨"A", TypeExpr.structType [⟨[], Expr.star (Operand.ident "B"), none⟩]⟩,
          "models") := by
      rw [FindModelDefinition_frame selfEmbedParser P hP]
      rfl
    have hfindB : FindModelDefinition P "B" "models" =
        Outcome.ok (⟨"B", TypeExpr.structType [⟨[], Expr.star (Operand.ident "A"), none⟩]⟩,
          "models") := by
      rw [FindModelDefinition_frame selfEmbedParser P hP]
      rfl
    have hrecB : ∀ (Q : Parser) (m1 : Model), Q.frame = P.frame →
        ParseModelProperty (ParseModel n) Q m1
          ⟨[], Expr.star (Operand.ident "B"), none⟩ "models" = Outcome.outOfFuel := by
      intro Q m1 hQ
      have hs : fieldTypeString ⟨[], Expr.star (Operand.ident "B"), none⟩ = "B" := by decide
      unfold ParseModelProperty
      simp only [hs]
      simp +decide only [embeddedName, (ih Q [] NewModel (hQ.trans hP)).2, if_false, if_true,
        false_and, List.length_nil]
    have hrecA : ∀ (Q : Parser) (m1 : Model), Q.frame = P.frame →
        ParseModelProperty (ParseModel n) Q m1
          ⟨[], Expr.star (Operand.ident "A"), none⟩ "models" = Outcome.outOfFuel := by
      intro Q m1 hQ
      have hs : fieldTypeString ⟨[], Expr.star (Operand.ident "A"), none⟩ = "A" := by decide
      unfold ParseModelProperty
      simp only [hs]
      simp +decide only [embeddedName, (ih Q [] NewModel (hQ.trans hP)).1, if_false, if_true,
        false_and, List.length_nil]
    constructor
    · show ParseModelBody (ParseModel n) P known m "A" "models" = Outcome.outOfFuel
      unfold ParseModelBody
      simp only [hfindA, ParseFieldList]
      simp +decide only [if_false, parseFields, hrecB _ _ (recordModelName_frame P "A" _)]
    · show ParseModelBody (ParseModel n) P known m "B" "models" = Outcome.outOfFuel
      unfold ParseModelBody
      simp only [hfindB, ParseFieldList]
      simp +decide only [if_false, parseFields, hrecA _ _ (recordModelName_frame P "B" _)]

/-- C30 (the code at failing inputs): with `type T struct { *T }`, `registerType("T")`
returns for no recursion budget, and with `type A struct { *B }` and
`type B struct { *A }` neither does `registerType("A")`: the descent into an embedded field
starts with an empty visited set, so the recursion has no bound. -/
theorem C30_embedded_self_reference_diverges :
    (∀ fuel, registerType fuel selfEmbedParser "T" = Outcome.outOfFuel) ∧
    (∀ fuel, registerType fuel selfEmbedParser "A" = Outcome.outOfFuel) := by
  refine ⟨fun fuel => ?_, fun fuel => ?_⟩
  · unfold registerType
    have h := ParseModel_selfEmbed fuel selfEmbedParser [] NewModel rfl
    have h1 : GoMap.get selfEmbedParser.typeDefTranslations "T" = none := rfl
    have h2 : IsBasicType "T" = false := by decide
    have h3 : selfEmbedParser.CurrentPackage = "models" := rfl
    simp only [h1, h2, h3, h, Bool.false_eq_true, if_false]
  · unfold registerType
    have h := (ParseModel_mutualEmbed fuel selfEmbedParser [] NewModel rfl).1
    have h1 : GoMap.get selfEmbedParser.typeDefTranslations "A" = none := rfl
    have h2 : IsBasicType "A" = false := by decide
    have h3 : selfEmbedParser.CurrentPackage = "models" := rfl
    simp only [h1, h2, h3, h, Bool.false_eq_true, if_false]

/-- A field whose type text is an array text with item type `undefined` adds nothing. -/
theorem ParseModelProperty_dropped (parseModel : ModelParser) (parser : Parser) (m : Model)
    (field : Field) (modelPackage : String)
    (h : strings.HasPrefix (fieldTypeString field) "[]" = true ∧
      (typeProperty (fieldTypeString field)).Items.Type_ = "undefined") :
    ParseModelProperty parseModel parser m field modelPackage = Outcome.ok (parser, m) := by
  unfold ParseModelProperty
  simp only [h, and_self, if_true]

theorem fieldTypeString_of_type (f g : Field) (h : f.Type_ = g.Type_) :
    fieldTypeString f = fieldTypeString g := by
  unfold fieldTypeString
  rw [h]

/-- C25: a struct field, named or not, tagged or not, whose type is a slice, a slice of
pointers or a map with element type `byte`, `rune`, `uintptr`, `error`, `complex64`,
`complex128`, `Time` or `undefined` makes `ParseModelProperty` return with the parser and
the model, its Properties and Required list included, as they were. -/
theorem C25_unmapped_element_is_dropped (parseModel : ModelParser) (parser : Parser) (m : Model)
    (field : Field) (modelPackage e : String) (key : Expr) (he : e ∈ unmappedPrimitives)
    (hty : field.Type_ = Expr.array (Expr.ident e) ∨
      field.Type_ = Expr.array (Expr.star (Operand.ident e)) ∨
      field.Type_ = Expr.mapType key (Expr.ident e)) :
    ParseModelProperty parseModel parser m field modelPackage = Outcome.ok (parser, m) := by
  apply ParseModelProperty_dropped
  have hs : fieldTypeString field = fieldTypeString ⟨[], Expr.array (Expr.ident e), none⟩ := by
    rcases hty with h | h | h
    · exact fieldTypeString_of_type _ _ h
    · unfold fieldTypeString
      rw [h]
      rfl
    · unfold fieldTypeString
      rw [h]
      rfl
  rw [hs]
  simp only [unmappedPrimitives, List.mem_cons, List.mem_singleton, List.not_mem_nil,
    or_false] at he
  rcases he with h | h | h | h | h | h | h | h <;> subst h <;> decide

/-- C25 at concrete inputs: the fields `Raw []byte` with a `json` tag and
`Stamps map[string]Time`. -/
theorem C25_unmapped_element_is_dropped_witness :
    ParseModelProperty (ParseModel 0) petParser { Id := "models.Pet" }
      ⟨["Raw"], Expr.array (Expr.ident "byte"), some [("json", "raw")]⟩ "models" =
      Outcome.ok (petParser, { Id := "models.Pet" }) ∧
    ParseModelProperty (ParseModel 0) petParser { Id := "models.Pet" }
      ⟨["Stamps"], Expr.mapType (Expr.ident "string") (Expr.ident "Time"), none⟩ "models" =
      Outcome.ok (petParser, { Id := "models.Pet" }) :=
  ⟨C25_unmapped_element_is_dropped (ParseModel 0) petParser { Id := "models.Pet" }
      ⟨["Raw"], Expr.array (Expr.ident "byte"), some [("json", "raw")]⟩ "models" "byte"
      (Expr.ident "string") (by decide) (Or.inl rfl),
   C25_unmapped_element_is_dropped (ParseModel 0) petParser { Id := "models.Pet" }
      ⟨["Stamps"], Expr.mapType (Expr.ident "string") (Expr.ident "Time"), none⟩ "models" "Time"
      (Expr.ident "string") (by decide) (Or.inr (Or.inr rfl))⟩

/-- C27 (counterexample): `byte` is a primitive name for `IsBasicType` and is rejected by
`IsBasicTypeSwaggerType`; the line `data body byte true "d"` appends a parameter with the
bare name `byte` as type and no format. -/
theorem C27_counterexample_byte :
    IsBasicType "byte" = true ∧ IsBasicTypeSwaggerType "byte" = false ∧
    ParseParamComment 0 petParser (NewOperationObject 1 "models") "data body byte true \"d\"" =
      Outcome.ok (petParser,
        { NewOperationObject 1 "models" with
          Parameters := [{ Name := "data", In := "body", Description := "d", Required := true,
                           Schema := none, Type_ := "byte", Format := "" }] },
        none) := by
  decide

/-- C27 (amended): every name of the wire-type table is accepted by `IsBasicType` and by
`IsBasicTypeSwaggerType`; a name that `IsBasicType` accepts is rejected by
`IsBasicTypeSwaggerType` exactly when it is one of `byte`, `rune`, `uintptr`, `error`,
`complex64`, `complex128`, `Time`, `undefined`; and a `@param` line whose type is one of
these eight, with no recorded type definition and no Definitions entry of that name, appends
a parameter with the bare name as type, no format and no schema. -/
theorem C27_primitives_without_wire_type :
    (∀ T, GoMap.has basicTypesSwaggerTypes T = true →
      IsBasicType T = true ∧ IsBasicTypeSwaggerType T = true) ∧
    (∀ T, IsBasicType T = true → (IsBasicTypeSwaggerType T = false ↔ T ∈ unmappedPrimitives)) ∧
    (∀ (fuel : Nat) (parser : Parser) (operation : OperationObject)
        (line m0 name loc ty req desc : String),
      regexp.FindStringSubmatch reParam 5 line = [m0, name, loc, ty, req, desc] →
      ty ∈ unmappedPrimitives →
      GoMap.get parser.typeDefTranslations ty = none →
      GoMap.has parser.Swagger.Definitions ty = false →
      ParseParamComment fuel parser operation line =
        Outcome.ok (parser,
          { operation with
            Parameters := operation.Parameters ++
              [{ Name := name, In := loc, Description := desc,
                 Required := (strings.ToLower req = "true" || strings.ToLower req = "required"),
                 Schema := none, Type_ := ty, Format := "" }] },
          none)) := by
  have key : ∀ T, T ∈ unmappedPrimitives →
      IsBasicType T = true ∧ IsBasicTypeSwaggerType T = false := by
    intro T hT
    simp only [unmappedPrimitives, List.mem_cons, List.mem_singleton, List.not_mem_nil,
      or_false] at hT
    rcases hT with h | h | h | h | h | h | h | h <;> subst h <;> decide
  refine ⟨fun T hT => ⟨IsBasicType_of_wireType T hT, by simp [IsBasicTypeSwaggerType, hT]⟩,
    ?_, ?_⟩
  · intro T hT
    constructor
    · intro hS
      unfold IsBasicTypeSwaggerType at hS
      unfold IsBasicType at hT
      simp only [Bool.or_eq_false_iff] at hS
      simp only [hS.2, Bool.or_false] at hT
      have hmem := (GoMap.has_iff_mem_keys basicTypes T).1 hT
      simp only [basicTypes, GoMap.keys, List.map_cons, List.map_nil, List.mem_cons,
        List.mem_singleton, List.not_mem_nil, or_false] at hmem
      have hS1 := hS.1
      rcases hmem with h | h | h | h | h | h | h | h | h | h | h | h | h | h | h | h | h | h |
        h | h | h | h | h <;> subst h <;> first | decide | exact absurd hS1 (by decide)
    · intro hmem
      exact (key T hmem).2
  · intro fuel parser operation line m0 name loc ty req desc hline hty htr hdef
    obtain ⟨hb, hs⟩ := key ty hty
    simp [ParseParamComment, hline, registerType, htr, hb, hs, hdef]

/-- C27 at concrete inputs: `int` of the wire-type table, `Time` outside of it, and the
line `since query Time false "start"`. -/
theorem C27_primitives_without_wire_type_witness :
    (IsBasicType "int" = true ∧ IsBasicTypeSwaggerType "int" = true) ∧
    (IsBasicTypeSwaggerType "Time" = false ↔ "Time" ∈ unmappedPrimitives) ∧
    ParseParamComment 0 petParser (NewOperationObject 1 "models")
        "since query Time false \"start\"" =
      Outcome.ok (petParser,
        { NewOperationObject 1 "models" with
          Parameters := [{ Name := "since", In := "query", Description := "start",
                           Required := false, Schema := none, Type_ := "Time", Format := "" }] },
        none) :=
  ⟨C27_primitives_without_wire_type.1 "int" (by decide),
   C27_primitives_without_wire_type.2.1 "Time" (by decide),
   C27_primitives_without_wire_type.2.2 0 petParser (NewOperationObject 1 "models")
      "since query Time false \"start\"" "since query Time false \"start\"" "since" "query"
      "Time" "false" "start" (by decide) (by decide) (by decide) (by decide)⟩

theorem Join_splitAux (c : Char) (cs cur : List Char) :
    strings.Join (strings.splitAux c cs cur) ⟨[c]⟩ = ⟨cur.reverse ++ cs⟩ := by
  induction cs generalizing cur with
  | nil => simp [strings.splitAux, strings.Join]
  | cons x xs ih =>
    by_cases hx : x = c
    · subst hx
      simp only [strings.splitAux, if_true]
      have h := ih []
      cases hr : strings.splitAux x xs [] with
      | nil =>
        rw [hr] at h
        simp only [strings.Join, List.reverse_nil, List.nil_append] at h
        have hxs : xs = [] := by
          have := congrArg String.data h
          simpa using this.symm
        subst hxs
        simp [strings.splitAux] at hr
      | cons y ys =>
        rw [hr] at h
        simp only [strings.Join, h]
        apply String.ext
        simp [String.data_append]
    · simp only [strings.splitAux, hx, if_false]
      rw [ih (x :: cur)]
      simp

/-- Joining the pieces of a split with the separator gives the text back. -/
theorem Join_Split (s : String) (c : Char) : strings.Join (strings.Split s c) ⟨[c]⟩ = s := by
  unfold strings.Split
  rw [Join_splitAux]
  rfl

/-- Splitting a join of pieces without separator gives the pieces back. -/
theorem Split_Join (c : Char) (l : List String) (hne : l ≠ []) (h : ∀ s ∈ l, c ∉ s.data) :
    strings.Split (strings.Join l ⟨[c]⟩) c = l := by
  induction l with
  | nil => exact absurd rfl hne
  | cons a rest ih =>
    cases rest with
    | nil =>
      simp only [strings.Join]
      exact Split_of_not_mem a c (h a (List.mem_cons_self _ _))
    | cons b more =>
      have hdata : (strings.Join (a :: b :: more) ⟨[c]⟩).data =
          a.data ++ c :: (strings.Join (b :: more) ⟨[c]⟩).data := by
        simp [strings.Join, String.data_append]
      have ih1 := ih (by simp) (fun s hs => h s (List.mem_cons_of_mem _ hs))
      unfold strings.Split at ih1 ⊢
      rw [hdata, splitAux_append c a.data _ [] (h a (List.mem_cons_self _ _)), ih1]
      simp

theorem not_mem_of_mem_splitAux (c : Char) (cs cur : List Char) (hcur : c ∉ cur) :
    ∀ s ∈ strings.splitAux c cs cur, c ∉ s.data := by
  induction cs generalizing cur with
  | nil =>
    intro s hs
    simp only [strings.splitAux, List.mem_singleton] at hs
    subst hs
    simpa using hcur
  | cons x xs ih =>
    intro s hs
    by_cases hx : x = c
    · simp only [strings.splitAux, hx, if_true, List.mem_cons] at hs
      rcases hs with h | h
      · subst h
        simpa using hcur
      · exact ih [] (by simp) s h
    · simp only [strings.splitAux, hx, if_false] at hs
      refine ih (x :: cur) ?_ s hs
      simp only [List.mem_cons, not_or]
      exact ⟨fun e => hx e.symm, hcur⟩

theorem subset_of_mem_splitAux (c : Char) (cs cur : List Char) :
    ∀ s ∈ strings.splitAux c cs cur, ∀ x ∈ s.data, x ∈ cur ∨ x ∈ cs := by
  induction cs generalizing cur with
  | nil =>
    intro s hs x hxs
    simp only [strings.splitAux, List.mem_singleton] at hs
    subst hs
    left
    simpa using hxs
  | cons y ys ih =>
    intro s hs x hxs
    by_cases hy : y = c
    · simp only [strings.splitAux, hy, if_true, List.mem_cons] at hs
      rcases hs with h | h
      · subst h
        left
        simpa using hxs
      · rcases ih [] s h x hxs with h1 | h1
        · cases h1
        · right
          exact List.mem_cons_of_mem _ h1
    · simp only [strings.splitAux, hy, if_false] at hs
      rcases ih (y :: cur) s hs x hxs with h1 | h1
      · rcases List.mem_cons.1 h1 with h2 | h2
        · right
          rw [h2]
          exact List.mem_cons_self _ _
        · left
          exact h2
      · right
        exact List.mem_cons_of_mem _ h1

theorem splitAux_ne_nil (c : Char) (cs cur : List Char) : strings.splitAux c cs cur ≠ [] := by
  induction cs generalizing cur with
  | nil => simp [strings.splitAux]
  | cons x xs ih =>
    by_cases hx : x = c
    · simp [strings.splitAux, hx]
    · simp only [strings.splitAux, hx, if_false]
      exact ih _

theorem getLastD_mem_cons (rest : List String) (a : String) : rest.getLastD a ∈ a :: rest := by
  induction rest generalizing a with
  | nil => simp
  | cons b r ih =>
    rw [List.getLastD_cons]
    exact List.mem_cons_of_mem _ (ih b)

/-- The last part of a name holds no dot. -/
theorem localName_no_dot (name : String) : '.' ∉ ((strings.Split name '.').getLastD "").data := by
  have hne := splitAux_ne_nil '.' name.data []
  have hmem : (strings.Split name '.').getLastD "" ∈ strings.Split name '.' := by
    unfold strings.Split
    cases h : strings.splitAux '.' name.data [] with
    | nil => exact absurd h hne
    | cons a rest =>
      rw [List.getLastD_cons]
      exact getLastD_mem_cons rest a
  exact not_mem_of_mem_splitAux '.' name.data [] (by simp) _ hmem

/-- The id is injective on package paths without dot. -/
theorem canonicalId_injective (pkg pkg1 name name1 : String) (h : '.' ∉ pkg.data)
    (h1 : '.' ∉ pkg1.data) (hid : canonicalId pkg name = canonicalId pkg1 name1) :
    pkg = pkg1 ∧ (strings.Split name '.').getLastD "" = (strings.Split name1 '.').getLastD "" := by
  unfold canonicalId at hid
  have hparts : ∀ (p n : String), '.' ∉ p.data →
      ∀ s ∈ strings.Split p '/' ++ [(strings.Split n '.').getLastD ""], '.' ∉ s.data := by
    intro p n hp s hs
    rcases List.mem_append.1 hs with hs | hs
    · intro hdot
      rcases subset_of_mem_splitAux '/' p.data [] s hs '.' hdot with h2 | h2
      · cases h2
      · exact hp h2
    · rw [List.mem_singleton.1 hs]
      exact localName_no_dot n
  have e := congrArg (fun s => strings.Split s '.') hid
  simp only at e
  have hdot : ("." : String) = ⟨['.']⟩ := rfl
  rw [hdot, Split_Join '.' _ (by simp) (hparts pkg name h),
    Split_Join '.' _ (by simp) (hparts pkg1 name1 h1)] at e
  have e2 := List.append_inj' e rfl
  refine ⟨?_, by simpa using e2.2⟩
  have e3 := congrArg (fun l => strings.Join l ⟨['/']⟩) e2.1
  simp only [Join_Split] at e3
  exact e3

theorem ParseModel_Id (fuel : Nat) (parser : Parser) (known : GoMap Bool) (m : Model)
    (modelName currentPackage : String) (spec : TypeSpec) (modelPackage : String)
    (r : ModelResult)
    (hf : FindModelDefinition parser modelName currentPackage = Outcome.ok (spec, modelPackage))
    (hr : ParseModel fuel parser known m modelName currentPackage = Outcome.ok r) :
    r.m.Id = canonicalId modelPackage modelName := by
  cases fuel with
  | zero => simp [ParseModel] at hr
  | succ n => exact ParseModelBody_Id _ parser known m modelName currentPackage spec modelPackage r hf hr

/-- C29 (counterexample): `Pet` of the package with path `lib.v2/models` and `Pet` of the
package with path `lib/v2/models` are two pairs of package path and local name, and
`ParseModel` gives both the id `lib.v2.models.Pet`; registered one after the other they
share one Definitions entry that holds the properties of both. -/
theorem C29_counterexample_dotted_path :
    (ParseModel 1 dottedPathParser [] NewModel "Pet" "lib.v2/models").value?.map
      (fun r => r.m.Id) = some "lib.v2.models.Pet" ∧
    (ParseModel 1 dottedPathParser [] NewModel "Pet" "lib/v2/models").value?.map
      (fun r => r.m.Id) = some "lib.v2.models.Pet" ∧
    (FindModelDefinition dottedPathParser "Pet" "lib.v2/models").value?.map (fun r => r.2) =
      some "lib.v2/models" ∧
    (FindModelDefinition dottedPathParser "Pet" "lib/v2/models").value?.map (fun r => r.2) =
      some "lib/v2/models" ∧
    (registerType 1 dottedPathParser "Pet").value?.bind
      (fun r1 => (registerType 1 { r1.1 with CurrentPackage := "lib.v2/models" } "Pet").value?.map
        (fun r2 => (r1.2.1, r2.2.1,
          r2.1.Swagger.Definitions.map (fun kv => (kv.1, GoMap.keys kv.2.Properties))))) =
      some ("lib.v2.models.Pet", "lib.v2.models.Pet", [("lib.v2.models.Pet", ["Age", "Name"])]) :=
  ⟨rfl, rfl, rfl, rfl, rfl⟩

/-- C29 (amended): when `ParseModel` resolves two names, each located by
`FindModelDefinition` in a package whose path holds no dot, and gives the two models the
same id, the two package paths are equal and the two local names (the last part of each
name) are equal. -/
theorem C29_canonical_id_injective_without_dots (fuel fuel1 : Nat) (parser parser1 : Parser)
    (known known1 : GoMap Bool) (m m1 : Model) (name name1 cur cur1 : String)
    (spec spec1 : TypeSpec) (pkg pkg1 : String) (r r1 : ModelResult)
    (hf : FindModelDefinition parser name cur = Outcome.ok (spec, pkg))
    (hf1 : FindModelDefinition parser1 name1 cur1 = Outcome.ok (spec1, pkg1))
    (hr : ParseModel fuel parser known m name cur = Outcome.ok r)
    (hr1 : ParseModel fuel1 parser1 known1 m1 name1 cur1 = Outcome.ok r1)
    (hdot : '.' ∉ pkg.data) (hdot1 : '.' ∉ pkg1.data) (hid : r.m.Id = r1.m.Id) :
    pkg = pkg1 ∧
    (strings.Split name '.').getLastD "" = (strings.Split name1 '.').getLastD "" := by
  rw [ParseModel_Id fuel parser known m name cur spec pkg r hf hr,
    ParseModel_Id fuel1 parser1 known1 m1 name1 cur1 spec1 pkg1 r1 hf1 hr1] at hid
  exact canonicalId_injective pkg pkg1 name name1 hdot hdot1 hid

/-- C29 at a concrete input: `Pet` and `a.b.Pet`, both resolved in package `a/b`, get the
same id, and are the same pair: path `a/b`, local name `Pet`. -/
theorem C29_canonical_id_injective_without_dots_witness :
    ∃ r r1, ParseModel 1 nestedPetParser [] NewModel "Pet" "a/b" = Outcome.ok r ∧
      ParseModel 1 nestedPetParser [] NewModel "a.b.Pet" "a/b" = Outcome.ok r1 ∧
      r.m.Id = r1.m.Id ∧ ("a/b" : String) = "a/b" ∧
      (strings.Split "Pet" '.').getLastD "" = (strings.Split "a.b.Pet" '.').getLastD "" :=
  ⟨_, _, rfl, rfl, rfl,
    C29_canonical_id_injective_without_dots 1 1 nestedPetParser nestedPetParser [] [] NewModel
      NewModel "Pet" "a.b.Pet" "a/b" "a/b"
      ⟨"Pet", TypeExpr.structType [⟨["Name"], Expr.ident "string", none⟩]⟩
      ⟨"Pet", TypeExpr.structType [⟨["Name"], Expr.ident "string", none⟩]⟩ "a/b" "a/b" _ _
      rfl rfl rfl rfl (by decide) (by decide) rfl⟩

/-- The tag loop over values that are all options or empty: the name is kept, the field is
required when `required` is among them. -/
theorem scanTagValues_options (opts : List String) (name : String) (isRequired : Bool)
    (h : ∀ o ∈ opts, o = "" ∨ o = "required" ∨ o = "omitempty") :
    scanTagValues opts name isRequired =
      some (name, isRequired || decide ("required" ∈ opts)) := by
  induction opts generalizing isRequired with
  | nil => simp [scanTagValues]
  | cons o rest ih =>
    have hrest : ∀ x ∈ rest, x = "" ∨ x = "required" ∨ x = "omitempty" :=
      fun x hx => h x (List.mem_cons_of_mem _ hx)
    rcases h o (List.mem_cons_self _ _) with ho | ho | ho
    · subst ho
      simp +decide only [scanTagValues, if_false, ih _ hrest, ne_eq, not_true_eq_false,
        false_and, List.mem_cons, false_or]
    · subst ho
      simp +decide only [scanTagValues, if_false, if_true, ih _ hrest, ne_eq,
        not_true_eq_false, and_false, false_and, List.mem_cons, true_or, Bool.or_true]
      simp
    · subst ho
      simp +decide only [scanTagValues, if_false, ih _ hrest, ne_eq, not_true_eq_false,
        and_false, List.mem_cons, false_or]

/-- C26 (counterexample): the field `Age int` tagged `json:"age,string"` is stored under
the name `string`, the option that follows the wire name, not under `age`. -/
theorem C26_counterexample_option_becomes_name :
    ParseModelProperty (ParseModel 0) petParser { Id := "models.Pet" }
      ⟨["Age"], Expr.ident "int", some [("json", "age,string")]⟩ "models" =
      Outcome.ok (petParser,
        { Id := "models.Pet", Properties := [("string", { Type_ := "int" })] }) := by
  decide

/-- C26 (amended): for a named field that is not dropped for its element type, whose
`json` tag splits at the commas into a wire name that is not empty and none of `-`,
`required`, `omitempty`, followed by options that are each `omitempty`, `required` or
empty: `ParseModelProperty` stores the property under the wire name, with the description of
the tag when it has one, writes no other key of Properties, and appends the wire name to
Required when the tag has a `required` key or the option `required`. -/
theorem C26_wire_name_with_known_options (parseModel : ModelParser) (parser : Parser)
    (m : Model) (field : Field) (modelPackage : String) (tag : StructTag) (w : String)
    (opts : List String) (hn : field.Names ≠ []) (ht : field.Tag = some tag)
    (hkeep : ¬ (strings.HasPrefix (fieldTypeString field) "[]" = true ∧
      (typeProperty (fieldTypeString field)).Items.Type_ = "undefined"))
    (hsplit : strings.Split (tag.Get "json") ',' = w :: opts)
    (hw : w ≠ "" ∧ w ≠ "-" ∧ w ≠ "required" ∧ w ≠ "omitempty")
    (hopts : ∀ o ∈ opts, o = "" ∨ o = "required" ∨ o = "omitempty") :
    ParseModelProperty parseModel parser m field modelPackage =
      Outcome.ok (parser,
        { m with
          Required := if tag.Get "required" ≠ "" ∨ "required" ∈ opts
            then m.Required ++ [w] else m.Required,
          Properties := GoMap.set m.Properties w
            (if tag.Get "description" ≠ ""
             then { typeProperty (fieldTypeString field) with
                    Description := tag.Get "description" }
             else typeProperty (fieldTypeString field)) }) := by
  obtain ⟨hw1, hw2, hw3, hw4⟩ := hw
  have hjson : tag.Get "json" ≠ "" := by
    intro he
    rw [he] at hsplit
    have : ("" : String) = w := by
      have h0 : strings.Split "" ',' = [""] := rfl
      rw [h0] at hsplit
      exact (List.cons.inj hsplit).1
    exact hw1 this.symm
  have hlen : ¬ field.Names.length = 0 := fun h0 => hn (List.length_eq_zero.1 h0)
  have hscan : scanTagValues (w :: opts) (field.Names.headD "") false =
      some (w, decide ("required" ∈ opts)) := by
    simp only [scanTagValues, hw1, hw2, hw3, hw4, ne_eq, not_false_eq_true, and_self, if_true,
      if_false]
    rw [scanTagValues_options opts w false hopts]
    simp
  unfold ParseModelProperty
  simp only [hkeep, if_false, hlen, ht, applyTag, hjson, ne_eq, not_false_eq_true, if_true,
    hsplit, hscan, decide_eq_true_eq]

/-- C26 at a concrete input: the field `Age int` tagged `json:"age,omitempty,required"`
with a description. -/
theorem C26_wire_name_with_known_options_witness :
    ParseModelProperty (ParseModel 0) petParser { Id := "models.Pet" }
      ⟨["Age"], Expr.ident "int",
        some [("json", "age,omitempty,required"), ("description", "years")]⟩ "models" =
      Outcome.ok (petParser,
        { Id := "models.Pet", Required := ["age"],
          Properties := [("age", { Type_ := "int", Description := "years" })] }) :=
  C26_wire_name_with_known_options (ParseModel 0) petParser { Id := "models.Pet" }
    ⟨["Age"], Expr.ident "int",
      some [("json", "age,omitempty,required"), ("description", "years")]⟩ "models"
    [("json", "age,omitempty,required"), ("description", "years")] "age"
    ["omitempty", "required"] (by decide) rfl (by decide) (by decide) (by decide) (by decide)

theorem candidatesOf_set (t : GoMap (List String)) (a a1 : String) (l : List String) :
    candidatesOf (GoMap.set t a l) a1 = if a1 = a then l else candidatesOf t a1 := by
  unfold candidatesOf
  by_cases h : a1 = a
  · subst h
    simp [GoMap.get_set_self]
  · simp only [h, if_false]
    rw [GoMap.get_set_of_ne t a a1 l (fun e => h e.symm)]

/-- One round of the import loop: the import is ignored or already listed and nothing
changes, or its path is appended to the candidates of its alias. -/
theorem parseImport_step (matchIgnore : String → Option Bool) (real : String) (P : Parser)
    (imps : GoMap Bool) (imp : ImportSpec) (P1 : Parser) (imps1 : GoMap Bool)
    (h : parseImport matchIgnore real P imps imp = Outcome.ok (P1, imps1)) :
    (isIgnoredPackage matchIgnore (importPath imp) = Outcome.ok true ∧ P1 = P) ∨
    (isIgnoredPackage matchIgnore (importPath imp) = Outcome.ok false ∧
      ((importPath imp ∈ candidatesOf ((GoMap.get P.PackageImports real).getD [])
            (aliasBySpec imp) ∧ P1 = P) ∨
       (importPath imp ∉ candidatesOf ((GoMap.get P.PackageImports real).getD [])
            (aliasBySpec imp) ∧
        P1 = { P with
          PackageImports := GoMap.set P.PackageImports real
            (GoMap.set ((GoMap.get P.PackageImports real).getD []) (aliasBySpec imp)
              (candidatesOf ((GoMap.get P.PackageImports real).getD []) (aliasBySpec imp) ++
                [importPath imp])) }))) := by
  have halias : (match imp.Name with
      | some name =>
        if name ≠ "." ∧ name ≠ "_" then name
        else (strings.Split (strings.Trim imp.Path "\"") '/').getLastD ""
      | none => (strings.Split (strings.Trim imp.Path "\"") '/').getLastD "") =
      aliasBySpec imp := by
    unfold aliasBySpec importPath
    cases imp.Name with
    | none => rfl
    | some name =>
      by_cases h1 : name = "."
      · simp [h1]
      · by_cases h2 : name = "_"
        · simp [h2]
        · simp [h1, h2]
  unfold parseImport at h
  simp only [halias] at h
  cases hig : isIgnoredPackage matchIgnore (strings.Trim imp.Path "\"") with
  | fatal => simp [hig] at h
  | outOfFuel => simp [hig] at h
  | ok b =>
    cases b with
    | true =>
      simp only [hig] at h
      cases h
      exact Or.inl ⟨hig, rfl⟩
    | false =>
      simp only [hig] at h
      right
      refine ⟨hig, ?_⟩
      by_cases hex : importPath imp ∈
          candidatesOf ((GoMap.get P.PackageImports real).getD []) (aliasBySpec imp)
      · left
        refine ⟨hex, ?_⟩
        have hany : (List.any ((GoMap.get ((GoMap.get P.PackageImports real).getD [])
            (aliasBySpec imp)).getD []) fun v => decide (v = strings.Trim imp.Path "\"")) =
            true := by
          rw [List.any_eq_true]
          exact ⟨_, hex, by simp [importPath]⟩
        simp only [hany, Bool.not_true, Bool.false_eq_true, if_false] at h
        cases h
        rfl
      · right
        refine ⟨hex, ?_⟩
        have hany : (List.any ((GoMap.get ((GoMap.get P.PackageImports real).getD [])
            (aliasBySpec imp)).getD []) fun v => decide (v = strings.Trim imp.Path "\"")) =
            false := by
          rw [Bool.eq_false_iff]
          intro hc
          rw [List.any_eq_true] at hc
          obtain ⟨v, hv, hveq⟩ := hc
          have : v = importPath imp := by simpa [importPath] using hveq
          exact hex (this ▸ hv)
        simp only [hany, Bool.not_false, if_true] at h
        cases h
        rfl

/-- What one round of the import loop does to the candidate lists of the table. -/
theorem parseImport_spec (matchIgnore : String → Option Bool) (real : String) (P : Parser)
    (imps : GoMap Bool) (imp : ImportSpec) (P1 : Parser) (imps1 : GoMap Bool)
    (h : parseImport matchIgnore real P imps imp = Outcome.ok (P1, imps1)) :
    P1.PackagePathCache = P.PackagePathCache ∧
    ((∀ a, (candidatesOf ((GoMap.get P.PackageImports real).getD []) a).Nodup) →
      ∀ a, (candidatesOf ((GoMap.get P1.PackageImports real).getD []) a).Nodup) ∧
    (∀ a p, p ∈ candidatesOf ((GoMap.get P.PackageImports real).getD []) a →
      p ∈ candidatesOf ((GoMap.get P1.PackageImports real).getD []) a) ∧
    (isIgnoredPackage matchIgnore (importPath imp) = Outcome.ok false →
      importPath imp ∈
        candidatesOf ((GoMap.get P1.PackageImports real).getD []) (aliasBySpec imp)) ∧
    (∀ a p, p ∈ candidatesOf ((GoMap.get P1.PackageImports real).getD []) a →
      p ∈ candidatesOf ((GoMap.get P.PackageImports real).getD []) a ∨
      (isIgnoredPackage matchIgnore (importPath imp) = Outcome.ok false ∧
        importPath imp = p ∧ aliasBySpec imp = a)) := by
  rcases parseImport_step matchIgnore real P imps imp P1 imps1 h with
    ⟨hig, rfl⟩ | ⟨hig, ⟨hmem, rfl⟩ | ⟨hnot, rfl⟩⟩
  · refine ⟨rfl, fun hn => hn, fun a p hp => hp, ?_, fun a p hp => Or.inl hp⟩
    intro hf
    rw [hig] at hf
    cases hf
  · exact ⟨rfl, fun hn => hn, fun a p hp => hp, fun _ => hmem, fun a p hp => Or.inl hp⟩
  · have htbl : (GoMap.get (GoMap.set P.PackageImports real
        (GoMap.set ((GoMap.get P.PackageImports real).getD []) (aliasBySpec imp)
          (candidatesOf ((GoMap.get P.PackageImports real).getD []) (aliasBySpec imp) ++
            [importPath imp]))) real).getD [] =
        GoMap.set ((GoMap.get P.PackageImports real).getD []) (aliasBySpec imp)
          (candidatesOf ((GoMap.get P.PackageImports real).getD []) (aliasBySpec imp) ++
            [importPath imp]) := by
      rw [GoMap.get_set_self]
      rfl
    simp only [htbl, candidatesOf_set]
    refine ⟨trivial, ?_, ?_, ?_, ?_⟩
    · intro hn a
      by_cases ha : a = aliasBySpec imp
      · simp only [ha, if_true]
        exact List.Nodup.append (hn _) (List.nodup_singleton _)
          (List.disjoint_singleton.2 hnot)
      · simp only [ha, if_false]
        exact hn a
    · intro a p hp
      by_cases ha : a = aliasBySpec imp
      · simp only [ha, if_true]
        exact List.mem_append_left _ (ha ▸ hp)
      · simp only [ha, if_false]
        exact hp
    · intro _
      simp
    · intro a p hp
      by_cases ha : a = aliasBySpec imp
      · simp only [ha, if_true] at hp
        rcases List.mem_append.1 hp with h1 | h1
        · exact Or.inl (ha ▸ h1)
        · exact Or.inr ⟨hig, (List.mem_singleton.1 h1).symm, ha.symm⟩
      · simp only [ha, if_false] at hp
        exact Or.inl hp

/-- What the import loop does to the candidate lists of the table. -/
theorem parseImports_spec (matchIgnore : String → Option Bool) (real : String)
    (l : List ImportSpec) :
    ∀ (P : Parser) (imps : GoMap Bool) (P1 : Parser) (imps1 : GoMap Bool),
    parseImports matchIgnore real l P imps = Outcome.ok (P1, imps1) →
    P1.PackagePathCache = P.PackagePathCache ∧
    ((∀ a, (candidatesOf ((GoMap.get P.PackageImports real).getD []) a).Nodup) →
      ∀ a, (candidatesOf ((GoMap.get P1.PackageImports real).getD []) a).Nodup) ∧
    (∀ a p, p ∈ candidatesOf ((GoMap.get P.PackageImports real).getD []) a →
      p ∈ candidatesOf ((GoMap.get P1.PackageImports real).getD []) a) ∧
    (∀ imp ∈ l, isIgnoredPackage matchIgnore (importPath imp) = Outcome.ok false →
      importPath imp ∈
        candidatesOf ((GoMap.get P1.PackageImports real).getD []) (aliasBySpec imp)) ∧
    (∀ a p, p ∈ candidatesOf ((GoMap.get P1.PackageImports real).getD []) a →
      p ∈ candidatesOf ((GoMap.get P.PackageImports real).getD []) a ∨
      ∃ imp ∈ l, isIgnoredPackage matchIgnore (importPath imp) = Outcome.ok false ∧
        importPath imp = p ∧ aliasBySpec imp = a) := by
  induction l with
  | nil =>
    intro P imps P1 imps1 h
    simp only [parseImports] at h
    cases h
    exact ⟨rfl, fun hn => hn, fun a p hp => hp, fun imp hi => absurd hi (List.not_mem_nil _),
      fun a p hp => Or.inl hp⟩
  | cons imp rest ih =>
    intro P imps P1 imps1 h
    simp only [parseImports] at h
    split at h
    · rename_i P2 imps2 hstep
      obtain ⟨c1, n1, m1, i1, o1⟩ := parseImport_spec matchIgnore real P imps imp P2 imps2 hstep
      obtain ⟨c2, n2, m2, i2, o2⟩ := ih P2 imps2 P1 imps1 h
      refine ⟨c2.trans c1, fun hn => n2 (n1 hn), fun a p hp => m2 a p (m1 a p hp), ?_, ?_⟩
      · intro x hx hig
        rcases List.mem_cons.1 hx with hx | hx
        · subst hx
          exact m2 _ _ (i1 hig)
        · exact i2 x hx hig
      · intro a p hp
        rcases o2 a p hp with h2 | ⟨x, hx, hx2⟩
        · rcases o1 a p h2 with h3 | h3
          · exact Or.inl h3
          · exact Or.inr ⟨imp, List.mem_cons_self _ _, h3⟩
        · exact Or.inr ⟨x, List.mem_cons_of_mem _ hx, hx2⟩
    · cases h
    · cases h

/-- The import loop returns when the ignore pattern is valid. -/
theorem parseImports_returns (matchIgnore : String → Option Bool)
    (hm : ∀ s, matchIgnore s ≠ none) (real : String) (l : List ImportSpec) :
    ∀ (P : Parser) (imps : GoMap Bool), ∃ r, parseImports matchIgnore real l P imps =
      Outcome.ok r := by
  induction l with
  | nil => intro P imps; exact ⟨_, rfl⟩
  | cons imp rest ih =>
    intro P imps
    have hstep : ∃ r, parseImport matchIgnore real P imps imp = Outcome.ok r := by
      have hig : ∃ b, isIgnoredPackage matchIgnore (strings.Trim imp.Path "\"") =
          Outcome.ok b := by
        unfold isIgnoredPackage
        cases hmi : matchIgnore (strings.Trim imp.Path "\"") with
        | none => exact absurd hmi (hm _)
        | some b => exact ⟨_, rfl⟩
      obtain ⟨b, hb⟩ := hig
      unfold parseImport
      simp only [hb]
      cases b with
      | true => exact ⟨_, rfl⟩
      | false =>
        simp only
        split
        · exact ⟨_, rfl⟩
        · exact ⟨_, rfl⟩
    obtain ⟨⟨P2, imps2⟩, h2⟩ := hstep
    obtain ⟨r, hr⟩ := ih P2 imps2
    exact ⟨r, by simp only [parseImports, h2, hr]⟩

/-- C28: `ParseImportStatements` returns when the ignore pattern is valid, and when it
returns, the import table of the package holds, for every import that is not ignored,
the import path among the candidates of its alias (the explicit import name when one is
given and is neither `.` nor `_`, otherwise the last segment of the path); no candidate list
holds a path twice; and every candidate of every alias is the path of such an import. -/
theorem C28_import_aliases (matchIgnore : String → Option Bool)
    (astPackages : List (List (List ImportSpec))) (parser : Parser) (packageName : String) :
    ((∀ s, matchIgnore s ≠ none) →
      ∃ r, ParseImportStatements matchIgnore astPackages parser packageName = Outcome.ok r) ∧
    ∀ P1 imports,
      ParseImportStatements matchIgnore astPackages parser packageName =
        Outcome.ok (P1, imports) →
      (∀ imp ∈ astPackages.flatten.flatten,
        isIgnoredPackage matchIgnore (importPath imp) = Outcome.ok false →
        importPath imp ∈ candidatesOf (importTable P1 packageName) (aliasBySpec imp)) ∧
      (∀ a, (candidatesOf (importTable P1 packageName) a).Nodup) ∧
      (∀ a p, p ∈ candidatesOf (importTable P1 packageName) a →
        ∃ imp ∈ astPackages.flatten.flatten,
          isIgnoredPackage matchIgnore (importPath imp) = Outcome.ok false ∧
          importPath imp = p ∧ aliasBySpec imp = a) := by
  refine ⟨fun hm => parseImports_returns matchIgnore hm _ _ _ _, ?_⟩
  intro P1 imports h
  unfold ParseImportStatements at h
  obtain ⟨hc, hn, _, hi, ho⟩ := parseImports_spec matchIgnore _ _ _ _ _ _ h
  have hreal : CheckRealPackagePath P1 packageName = CheckRealPackagePath parser packageName := by
    unfold CheckRealPackagePath
    rw [hc]
  have h0 : ∀ a, candidatesOf ((GoMap.get (GoMap.set parser.PackageImports
      (CheckRealPackagePath parser packageName) []) (CheckRealPackagePath parser packageName)).getD
        []) a = [] := by
    intro a
    rw [GoMap.get_set_self]
    rfl
  have htable : importTable P1 packageName =
      (GoMap.get P1.PackageImports (CheckRealPackagePath parser packageName)).getD [] := by
    unfold importTable
    rw [hreal]
  rw [htable]
  refine ⟨hi, hn (fun a => ?_), fun a p hp => ?_⟩
  · have := h0 a
    simp only [CheckRealPackagePath] at this ⊢
    rw [this]
    exact List.nodup_nil
  · rcases ho a p hp with h1 | h1
    · have := h0 a
      simp only [CheckRealPackagePath] at this h1
      rw [this] at h1
      cases h1
    · exact h1

/-- C28 at a concrete input: the imports `lib/models`, `v2 "lib/v2/models"`, `lib/util`
(in two files), `_ "db/driver"`, `C` and `other/models`, the last one ignored by the
pattern. -/
theorem C28_import_aliases_witness :
    ∃ P1 imports,
      ParseImportStatements ignoreOther mainImports petParser "models" =
        Outcome.ok (P1, imports) ∧
      importTable P1 "models" =
        [("models", ["lib/models"]), ("v2", ["lib/v2/models"]), ("util", ["lib/util"]),
         ("driver", ["db/driver"])] ∧
      (∀ a, (candidatesOf (importTable P1 "models") a).Nodup) :=
  ⟨_, _, rfl, rfl,
    ((C28_import_aliases ignoreOther mainImports petParser "models").2 _ _ rfl).2.1⟩

theorem HasPrefix_slice (B : String) : strings.HasPrefix ("[]" ++ B) "[]" = true := by
  have hdata : ("[]" ++ B).data = '[' :: ']' :: B.data := by
    simp [String.data_append]
  unfold strings.HasPrefix
  rw [hdata]
  simp [strings.isPrefixOf]

theorem sliceFrom_slice (B : String) : strings.sliceFrom ("[]" ++ B) 2 = B := by
  have hdata : ("[]" ++ B).data = '[' :: ']' :: B.data := by
    simp [String.data_append]
  unfold strings.sliceFrom
  rw [hdata]
  rfl

theorem typeProperty_slice (B : String) (hb : IsBasicType B = false) :
    typeProperty ("[]" ++ B) = { Type_ := "array", Items := { Ref := B } } := by
  unfold typeProperty
  simp only [HasPrefix_slice, if_true, sliceFrom_slice, SetItemType, hb, Bool.false_eq_true,
    if_false, NewModelProperty]

theorem IsBasicType_time : IsBasicType "time.Time" = false := by decide

/-- A named field without tag that is not dropped is stored under its Go name. -/
theorem ParseModelProperty_simple (g : ModelParser) (Q : Parser) (m : Model) (f : Field)
    (pkg : String) (hn : f.Names ≠ []) (htag : f.Tag = none)
    (hkeep : ¬ (strings.HasPrefix (fieldTypeString f) "[]" = true ∧
      (typeProperty (fieldTypeString f)).Items.Type_ = "undefined")) :
    ParseModelProperty g Q m f pkg =
      Outcome.ok (Q, { m with
        Properties := GoMap.set m.Properties (f.Names.headD "")
          (typeProperty (fieldTypeString f)) }) := by
  have hlen : ¬ f.Names.length = 0 := fun e => hn (List.length_eq_zero.1 e)
  unfold ParseModelProperty
  simp only [hkeep, if_false, hlen, htag]

theorem RefField_keep (P : Parser) (B : String) (f : Field) (hB : RefTarget P B)
    (h : RefField P B f) :
    ¬ (strings.HasPrefix (fieldTypeString f) "[]" = true ∧
      (typeProperty (fieldTypeString f)).Items.Type_ = "undefined") := by
  obtain ⟨hb, _, _, _, hpre, _⟩ := hB
  obtain ⟨_, _, hcase⟩ := h
  rintro ⟨h1, h2⟩
  rcases hcase with hc | hc | hc
  · rw [hc, hpre] at h1
    cases h1
  · rw [hc, typeProperty_slice B hb] at h2
    exact absurd h2 (show ¬ ("" : String) = "undefined" by decide)
  · rw [hc.2.1] at h1
    cases h1

theorem parseFields_ref (g : ModelParser) (Q : Parser) (pkg B : String) (fs : List Field)
    (m : Model) (hB : RefTarget Q B) (h : ∀ f ∈ fs, RefField Q B f) :
    parseFields g pkg fs Q m =
      Outcome.ok (Q, { m with Properties := refProperties fs m.Properties }) := by
  induction fs generalizing m with
  | nil => rfl
  | cons f rest ih =>
    have hf := h f (List.mem_cons_self _ _)
    simp only [parseFields,
      ParseModelProperty_simple g Q m f pkg hf.1 hf.2.1 (RefField_keep Q B f hB hf)]
    rw [ih _ (fun f1 hf1 => h f1 (List.mem_cons_of_mem _ hf1))]
    rfl

theorem ParseFieldList_ref (g : ModelParser) (Q : Parser) (pkg B id : String)
    (fs : List Field) (hB : RefTarget Q B) (h : ∀ f ∈ fs, RefField Q B f) :
    ParseFieldList g Q { Id := id } fs pkg =
      Outcome.ok (Q, { Id := id, Properties := refProperties fs [] }) := by
  unfold ParseFieldList
  by_cases hfs : fs = []
  · subst hfs
    rfl
  · simp only [hfs, if_false]
    rw [parseFields_ref g Q pkg B fs _ hB h]

theorem get_refProperties_of_not_mem (fs : List Field) (acc : GoMap ModelProperty)
    (k : String) (h : k ∉ fs.map (fun f => f.Names.headD "")) :
    GoMap.get (refProperties fs acc) k = GoMap.get acc k := by
  induction fs generalizing acc with
  | nil => rfl
  | cons f rest ih =>
    simp only [List.map_cons, List.mem_cons, not_or] at h
    have hstep : refProperties (f :: rest) acc =
        refProperties rest (GoMap.set acc (f.Names.headD "")
          (typeProperty (fieldTypeString f))) := rfl
    rw [hstep, ih _ h.2, GoMap.get_set_of_ne _ _ _ _ (fun e => h.1 e.symm)]

theorem get_refProperties_of_mem (fs : List Field) (acc : GoMap ModelProperty) (f : Field)
    (hn : (fs.map (fun f => f.Names.headD "")).Nodup) (hf : f ∈ fs) :
    GoMap.get (refProperties fs acc) (f.Names.headD "") =
      some (typeProperty (fieldTypeString f)) := by
  induction fs generalizing acc with
  | nil => cases hf
  | cons g rest ih =>
    simp only [List.map_cons, List.nodup_cons] at hn
    have hstep : refProperties (g :: rest) acc =
        refProperties rest (GoMap.set acc (g.Names.headD "")
          (typeProperty (fieldTypeString g))) := rfl
    rw [hstep]
    rcases List.mem_cons.1 hf with h | h
    · subst h
      rw [get_refProperties_of_not_mem rest _ _ hn.1, GoMap.get_set_self]
    · exact ih _ hn.2 h

theorem mem_refProperties (fs : List Field) (acc : GoMap ModelProperty) :
    ∀ kv ∈ refProperties fs acc,
      kv ∈ acc ∨ ∃ f ∈ fs, kv.2 = typeProperty (fieldTypeString f) := by
  induction fs generalizing acc with
  | nil => intro kv h; exact Or.inl h
  | cons g rest ih =>
    intro kv h
    have hstep : refProperties (g :: rest) acc =
        refProperties rest (GoMap.set acc (g.Names.headD "")
          (typeProperty (fieldTypeString g))) := rfl
    rw [hstep] at h
    rcases ih _ kv h with h1 | ⟨f, hf, hkv⟩
    · rcases GoMap.mem_set acc _ _ kv h1 with h2 | h2
      · exact Or.inl h2
      · exact Or.inr ⟨g, List.mem_cons_self _ _, by rw [h2]⟩
    · exact Or.inr ⟨f, List.mem_cons_of_mem _ hf, hkv⟩

theorem parseUsedTypes_err (g : ModelParser)
    (hg : ∀ P known m name pkg r, g P known m name pkg = Outcome.ok r → r.err = none)
    (pkg : String) (used : List String) (P : Parser) (known : GoMap Bool) (m : Model)
    (inner : List Model) (r : ModelResult)
    (h : parseUsedTypes g pkg used P known m inner = Outcome.ok r) : r.err = none := by
  induction used generalizing P known m inner with
  | nil =>
    simp only [parseUsedTypes] at h
    cases h
    rfl
  | cons t rest ih =>
    simp only [parseUsedTypes] at h
    split at h
    · cases h
    · cases h
    · rename_i r1 hr1
      have hnone := hg _ _ _ _ _ _ hr1
      simp only [hnone] at h
      exact ih _ _ _ _ h

theorem ParseModelBody_err (g : ModelParser)
    (hg : ∀ P known m name pkg r, g P known m name pkg = Outcome.ok r → r.err = none)
    (P : Parser) (known : GoMap Bool) (m : Model) (name pkg : String) (r : ModelResult)
    (h : ParseModelBody g P known m name pkg = Outcome.ok r) : r.err = none := by
  unfold ParseModelBody at h
  simp only at h
  split at h
  · cases h
  · cases h
  · split at h
    · cases h
      rfl
    · split at h
      · cases h
      · cases h
      · exact parseUsedTypes_err g hg _ _ _ _ _ _ _ h
    · cases h
      rfl

/-- The model functions report failure by ending the process, never by an error value. -/
theorem ParseModel_err (fuel : Nat) (P : Parser) (known : GoMap Bool) (m : Model)
    (name pkg : String) (r : ModelResult)
    (h : ParseModel fuel P known m name pkg = Outcome.ok r) : r.err = none := by
  induction fuel generalizing P known m name pkg r with
  | zero => cases h
  | succ n ih => exact ParseModelBody_err (ParseModel n) ih P known m name pkg r h

theorem get_scanProperties (Q : Parser) (known : GoMap Bool) (props : GoMap ModelProperty)
    (used : GoMap Bool) (k : String) :
    GoMap.get (scanProperties Q known props used).1 k =
      (GoMap.get props k).map (fun p => (scanProperty Q known p).1) := by
  induction props generalizing used with
  | nil => rfl
  | cons kv rest ih =>
    obtain ⟨k0, p⟩ := kv
    by_cases h0 : k0 = k
    · simp [scanProperties, GoMap.get, h0]
    · simp only [scanProperties, GoMap.get, h0, if_false]
      exact ih _

theorem keys_scanProperties (Q : Parser) (known : GoMap Bool) (props : GoMap ModelProperty)
    (used : GoMap Bool) :
    GoMap.keys (scanProperties Q known props used).1 = GoMap.keys props := by
  induction props generalizing used with
  | nil => rfl
  | cons kv rest ih =>
    obtain ⟨k0, p⟩ := kv
    simp only [scanProperties, GoMap.keys, List.map_cons, List.cons.injEq, true_and]
    exact ih _

theorem get_map_value (props : GoMap ModelProperty) (f : ModelProperty → ModelProperty)
    (k : String) :
    GoMap.get (props.map (fun kv => (kv.1, f kv.2))) k = (GoMap.get props k).map f := by
  induction props with
  | nil => rfl
  | cons kv rest ih =>
    obtain ⟨k0, p⟩ := kv
    by_cases h0 : k0 = k
    · simp [GoMap.get, h0]
    · simp only [List.map_cons, GoMap.get, h0, if_false]
      exact ih

theorem keys_map_value (props : GoMap ModelProperty) (f : ModelProperty → ModelProperty) :
    GoMap.keys (props.map (fun kv => (kv.1, f kv.2))) = GoMap.keys props := by
  simp [GoMap.keys, List.map_map, Function.comp_def]

theorem nodup_keys_refProperties (fs : List Field) (acc : GoMap ModelProperty)
    (h : (GoMap.keys acc).Nodup) : (GoMap.keys (refProperties fs acc)).Nodup := by
  induction fs generalizing acc with
  | nil => exact h
  | cons f rest ih => exact ih _ (GoMap.nodup_keys_set acc _ _ h)

theorem get_mergeProperties_of_not_mem (P Q : GoMap ModelProperty) (k : String)
    (h : k ∉ GoMap.keys Q) : GoMap.get (mergeProperties P Q) k = GoMap.get P k := by
  induction Q generalizing P with
  | nil => rfl
  | cons kv rest ih =>
    have hstep : mergeProperties P (kv :: rest) = mergeProperties (GoMap.set P kv.1 kv.2) rest := rfl
    simp only [GoMap.keys, List.map_cons, List.mem_cons, not_or] at h
    rw [hstep, ih _ h.2, GoMap.get_set_of_ne _ _ _ _ (fun e => h.1 e.symm)]

theorem get_mergeProperties_of_get (P Q : GoMap ModelProperty) (k : String) (v : ModelProperty)
    (hn : (GoMap.keys Q).Nodup) (h : GoMap.get Q k = some v) :
    GoMap.get (mergeProperties P Q) k = some v := by
  induction Q generalizing P with
  | nil => cases h
  | cons kv rest ih =>
    obtain ⟨k0, v0⟩ := kv
    have hstep : mergeProperties P ((k0, v0) :: rest) = mergeProperties (GoMap.set P k0 v0) rest :=
      rfl
    simp only [GoMap.keys, List.map_cons, List.nodup_cons] at hn
    rw [hstep]
    by_cases h0 : k0 = k
    · subst h0
      simp only [GoMap.get, if_true, Option.some.injEq] at h
      subst h
      rw [get_mergeProperties_of_not_mem _ _ _ hn.1, GoMap.get_set_self]
    · simp only [GoMap.get, h0, if_false] at h
      exact ih _ hn.2 h

theorem IsBasicType_array : IsBasicType "array" = false := by decide

theorem scanProperty_target (Q : Parser) (known : GoMap Bool) (B : String)
    (hB : RefTarget Q B) (hk : GoMap.has known B = false) :
    scanProperty Q known { Type_ := B } = ({ Type_ := B }, some B) := by
  obtain ⟨hb, hm, ht, harr, _, _⟩ := hB
  simp [scanProperty, propertyTypeName, harr, ht, hb, hm, hk]

theorem scanProperty_target_slice (Q : Parser) (known : GoMap Bool) (B : String)
    (hB : RefTarget Q B) (hk : GoMap.has known B = false) :
    scanProperty Q known { Type_ := "array", Items := { Ref := B } } =
      ({ Type_ := "array", Items := { Ref := B } }, some B) := by
  obtain ⟨hb, hm, ht, harr, _, _⟩ := hB
  simp [scanProperty, propertyTypeName, ht, hb, hm, hk]

theorem scanProperty_primitive (Q : Parser) (known : GoMap Bool) (T : String)
    (hb : IsBasicType T = true) (ht : GoMap.get Q.typeDefTranslations T = none) :
    (scanProperty Q known { Type_ := T }).2 = none := by
  have harr : T ≠ "array" := by
    intro e
    rw [e, IsBasicType_array] at hb
    cases hb
  simp only [scanProperty, propertyTypeName, harr, if_false, ht, hb, if_true]
  repeat' split
  all_goals rfl

/-- What the first loop of `ParseModel` does with the property of a field of the domain. -/
theorem scanProperty_ref (Q : Parser) (known : GoMap Bool) (B : String) (f : Field)
    (hB : RefTarget Q B) (hk : GoMap.has known B = false) (h : RefField Q B f) :
    (fieldTypeString f = B →
      scanProperty Q known (typeProperty (fieldTypeString f)) = ({ Type_ := B }, some B)) ∧
    (fieldTypeString f = "[]" ++ B →
      scanProperty Q known (typeProperty (fieldTypeString f)) =
        ({ Type_ := "array", Items := { Ref := B } }, some B)) ∧
    ((scanProperty Q known (typeProperty (fieldTypeString f))).2 = none ∨
      (scanProperty Q known (typeProperty (fieldTypeString f))).2 = some B) := by
  have hB1 := hB
  obtain ⟨hb, _, _, _, hpre, htime⟩ := hB1
  have h1 : fieldTypeString f = B →
      scanProperty Q known (typeProperty (fieldTypeString f)) = ({ Type_ := B }, some B) := by
    intro e
    rw [e, typeProperty_of_plain B hpre htime]
    exact scanProperty_target Q known B hB hk
  have h2 : fieldTypeString f = "[]" ++ B →
      scanProperty Q known (typeProperty (fieldTypeString f)) =
        ({ Type_ := "array", Items := { Ref := B } }, some B) := by
    intro e
    rw [e, typeProperty_slice B hb]
    exact scanProperty_target_slice Q known B hB hk
  refine ⟨h1, h2, ?_⟩
  rcases h.2.2 with e | e | e
  · exact Or.inr (by rw [h1 e])
  · exact Or.inr (by rw [h2 e])
  · left
    have htm : fieldTypeString f ≠ "time.Time" := by
      intro e1
      rw [e1, IsBasicType_time] at e
      cases e.1
    rw [typeProperty_of_plain _ e.2.1 htm]
    exact scanProperty_primitive Q known _ e.1 e.2.2

theorem scanProperties_used_one (Q : Parser) (known : GoMap Bool) (B : String)
    (props : GoMap ModelProperty) (used : GoMap Bool)
    (h : ∀ kv ∈ props, (scanProperty Q known kv.2).2 = none ∨
      (scanProperty Q known kv.2).2 = some B) :
    (scanProperties Q known props used).2 =
      if props.any (fun kv => (scanProperty Q known kv.2).2 = some B) = true
      then GoMap.set used B true else used := by
  induction props generalizing used with
  | nil => simp [scanProperties]
  | cons kv rest ih =>
    obtain ⟨k, p⟩ := kv
    have hrest := fun kv1 hkv1 => h kv1 (List.mem_cons_of_mem _ hkv1)
    simp only [scanProperties, ih _ hrest, List.any_cons]
    rcases h (k, p) (List.mem_cons_self _ _) with h0 | h0
    · simp only [h0, decide_False, Bool.false_or]
      rfl
    · simp only [h0, decide_True, Bool.true_or, if_true, GoMap.set_set_self]
      split <;> rfl

theorem RefTarget_of_frame (P Q : Parser) (hf : Q.frame = P.frame)
    (ht : Q.typeDefTranslations = P.typeDefTranslations) (B : String) (h : RefTarget P B) :
    RefTarget Q B := by
  have hm : Q.TypesImplementingMarshalInterface = P.TypesImplementingMarshalInterface := by
    have := congrArg Parser.TypesImplementingMarshalInterface hf
    exact this
  obtain ⟨h1, h2, h3, h4⟩ := h
  refine ⟨h1, ?_, ?_, h4⟩
  · simpa only [IsImplementMarshalInterface, hm] using h2
  · rw [ht]; exact h3

theorem RefField_of_translations (P Q : Parser)
    (ht : Q.typeDefTranslations = P.typeDefTranslations) (B : String) (f : Field)
    (h : RefField P B f) : RefField Q B f := by
  obtain ⟨h1, h2, h3⟩ := h
  exact ⟨h1, h2, by rw [ht]; exact h3⟩

theorem backPatch_target (B id : String) (harr : B ≠ "array") :
    backPatch B id { Type_ := B } = { Type_ := B, Ref := "#/definitions/" ++ id } := by
  simp [backPatch, harr]

theorem backPatch_target_slice (B id : String) :
    backPatch B id { Type_ := "array", Items := { Ref := B } } =
      { Type_ := "array", Items := { Ref := "#/definitions/" ++ id } } := by
  simp [backPatch]

/-- The run of `ParseModel` on a struct `A` whose fields are of the domain and refer to `B`:
the declaration is found, the fields parsed and scanned, `B` resolved by the one recursive
call, and every property patched with the id of `B`. -/
theorem ParseModelBody_ref (g : ModelParser) (P : Parser) (A B pkg nA : String)
    (fs : List Field) (rB : ModelResult)
    (hA : GetModelDefinition P A pkg = some ⟨nA, TypeExpr.structType fs⟩)
    (hdot : '.' ∉ A.data) (hPB : RefTarget P B) (hne : A ≠ B)
    (hfs : ∀ f ∈ fs, RefField P B f)
    (hnodup : (fs.map (fun f => f.Names.headD "")).Nodup)
    (hex : ∃ f ∈ fs, fieldTypeString f = B ∨ fieldTypeString f = "[]" ++ B)
    (hB : g (recordModelName P A (canonicalId pkg A)) [(A, true)] NewModel B pkg =
      Outcome.ok rB)
    (herr : rB.err = none) :
    ParseModelBody g P [] NewModel A pkg =
      Outcome.ok ⟨rB.parser, rB.knownModelNames,
        { Id := canonicalId pkg A,
          Properties :=
            ((scanProperties (recordModelName P A (canonicalId pkg A)) [(A, true)]
              (refProperties fs []) []).1).map (fun kv => (kv.1, backPatch B rB.m.Id kv.2)) },
        none, rB.m :: rB.innerModels⟩ := by
  have hQf := recordModelName_frame P A (canonicalId pkg A)
  have hQt := recordModelName_translations P A (canonicalId pkg A)
  have hBQ := RefTarget_of_frame P _ hQf hQt B hPB
  have hfsQ : ∀ f ∈ fs, RefField (recordModelName P A (canonicalId pkg A)) B f :=
    fun f hf => RefField_of_translations P _ hQt B f (hfs f hf)
  have hk : GoMap.has ([(A, true)] : GoMap Bool) B = false := by
    simp [GoMap.has, GoMap.get, hne]
  have hset : GoMap.set ([] : GoMap Bool) A true = [(A, true)] := rfl
  have hfind := FindModelDefinition_unqualified P A pkg _ hdot hA
  have hprops : ∀ kv ∈ refProperties fs [],
      (scanProperty (recordModelName P A (canonicalId pkg A)) [(A, true)] kv.2).2 = none ∨
      (scanProperty (recordModelName P A (canonicalId pkg A)) [(A, true)] kv.2).2 = some B := by
    intro kv hkv
    rcases mem_refProperties fs [] kv hkv with h0 | ⟨f, hf, hkvf⟩
    · cases h0
    · rw [hkvf]
      exact (scanProperty_ref _ _ B f hBQ hk (hfsQ f hf)).2.2
  have hany : (refProperties fs []).any
      (fun kv => (scanProperty (recordModelName P A (canonicalId pkg A)) [(A, true)] kv.2).2 =
        some B) = true := by
    obtain ⟨f, hf, hfB⟩ := hex
    have hmem := GoMap.mem_of_get _ _ _ (get_refProperties_of_mem fs [] f hnodup hf)
    rw [List.any_eq_true]
    refine ⟨_, hmem, ?_⟩
    have hsc := scanProperty_ref _ [(A, true)] B f hBQ hk (hfsQ f hf)
    rcases hfB with e | e
    · simp [hsc.1 e]
    · simp [hsc.2.1 e]
  have hused := scanProperties_used_one (recordModelName P A (canonicalId pkg A)) [(A, true)] B
    (refProperties fs []) [] hprops
  rw [hany, if_pos rfl] at hused
  have hkeys : GoMap.keys (GoMap.set ([] : GoMap Bool) B true) = [B] := rfl
  unfold ParseModelBody
  simp only [hfind, NewModel, hset]
  rw [ParseFieldList_ref g _ pkg B _ fs hBQ hfsQ]
  simp only [hused, hkeys, parseUsedTypes, NewModel] at hB ⊢
  simp only [hB, herr, List.nil_append]

/-- The declaration `ParseModel` found when it returned, and the id it gave the model. -/
theorem ParseModel_found (fuel : Nat) (P : Parser) (known : GoMap Bool) (m : Model)
    (name pkg : String) (r : ModelResult)
    (h : ParseModel fuel P known m name pkg = Outcome.ok r) :
    ∃ spec modelPackage, FindModelDefinition P name pkg = Outcome.ok (spec, modelPackage) ∧
      r.m.Id = canonicalId modelPackage name := by
  cases fuel with
  | zero => cases h
  | succ n =>
    have h1 : ParseModelBody (ParseModel n) P known m name pkg = Outcome.ok r := h
    cases hf : FindModelDefinition P name pkg with
    | fatal =>
      unfold ParseModelBody at h1
      simp only [hf] at h1
      cases h1
    | outOfFuel =>
      unfold ParseModelBody at h1
      simp only [hf] at h1
      cases h1
    | ok found =>
      obtain ⟨spec, modelPackage⟩ := found
      exact ⟨spec, modelPackage, rfl, ParseModelBody_Id _ _ _ _ _ _ _ _ _ hf h1⟩

/-- Untagged fields referring to one struct, the used types visited in the order of
insertion: let `A` be a struct of the current package, under an unqualified name that is
no primitive, marshalling type or recorded type definition, whose fields are named,
untagged, under distinct names, each of a type whose text is a primitive name, `B` (the
struct by value or by pointer) or `[]B` (a slice of it), at least one of them `B` or `[]B`;
let `B` be another name (not `A`, which the frame of `A` is resolving) that is no primitive
name, no marshalling type name, has no recorded type definition, and is none of the texts
`array`, `time.Time` or an array text.  When resolving `B` from the frame of `A` returns
with budget `fuel`, records no type definition named `A` and yields no model with the id of
`A`, then `registerType(A)` returns with budget `fuel + 1` the canonical id of `A` without
error; the id of `B` is the canonical id of the declaration found for `B`; Definitions
contains the id of `B`; and in the Definitions entry of `A` every field of type `B` has the
property of type `B` with `$ref` equal to `#/definitions/` followed by the id of `B`, and
every field of type `[]B` has the property of type `array` whose items have `$ref` equal to
`#/definitions/` followed by the id of `B`. -/
theorem struct_field_references_plain (fuel : Nat) (P : Parser) (A B nA : String)
    (fs : List Field) (rB : ModelResult)
    (hA : GetModelDefinition P A P.CurrentPackage = some ⟨nA, TypeExpr.structType fs⟩)
    (hPA : ModelName P A) (hPB : RefTarget P B) (hne : A ≠ B)
    (hfs : ∀ f ∈ fs, RefField P B f)
    (hnodup : (fs.map (fun f => f.Names.headD "")).Nodup)
    (hex : ∃ f ∈ fs, fieldTypeString f = B ∨ fieldTypeString f = "[]" ++ B)
    (hB : ParseModel fuel (recordModelName P A (canonicalId P.CurrentPackage A)) [(A, true)]
      NewModel B P.CurrentPackage = Outcome.ok rB)
    (htr : GoMap.get rB.parser.typeDefTranslations A = none)
    (hid : ∀ m ∈ rB.m :: rB.innerModels, m.Id ≠ canonicalId P.CurrentPackage A) :
    ∃ P1 s, registerType (fuel + 1) P A =
        Outcome.ok (P1, canonicalId P.CurrentPackage A, none) ∧
      (∃ spec modelPackage,
        FindModelDefinition P B P.CurrentPackage = Outcome.ok (spec, modelPackage) ∧
        rB.m.Id = canonicalId modelPackage B) ∧
      GoMap.has P1.Swagger.Definitions rB.m.Id = true ∧
      GoMap.get P1.Swagger.Definitions (canonicalId P.CurrentPackage A) = some s ∧
      ∀ f ∈ fs,
        (fieldTypeString f = B →
          GoMap.get s.Properties (f.Names.headD "") =
            some { Type_ := B, Ref := "#/definitions/" ++ rB.m.Id }) ∧
        (fieldTypeString f = "[]" ++ B →
          GoMap.get s.Properties (f.Names.headD "") =
            some { Type_ := "array", Items := { Ref := "#/definitions/" ++ rB.m.Id } }) := by
  have hQf := recordModelName_frame P A (canonicalId P.CurrentPackage A)
  have hQt := recordModelName_translations P A (canonicalId P.CurrentPackage A)
  have hBQ := RefTarget_of_frame P _ hQf hQt B hPB
  have hfsQ : ∀ f ∈ fs, RefField (recordModelName P A (canonicalId P.CurrentPackage A)) B f :=
    fun f hf => RefField_of_translations P _ hQt B f (hfs f hf)
  have hk : GoMap.has ([(A, true)] : GoMap Bool) B = false := by
    simp [GoMap.has, GoMap.get, hne]
  have hnode := ParseModelBody_ref (ParseModel fuel) P A B P.CurrentPackage nA fs rB hA hPA.1
    hPB hne hfs hnodup hex hB (ParseModel_err fuel _ _ _ _ _ rB hB)
  have hnode1 : ParseModel (fuel + 1) P [] NewModel A P.CurrentPackage = _ := hnode
  have hreg := registerType_of_ParseModel (fuel + 1) P A _ hPA.2.2.2 hPA.2.1 hnode1 rfl htr
  obtain ⟨spec, modelPackage, hfind, hidB⟩ := ParseModel_found fuel _ _ _ _ _ rB hB
  rw [FindModelDefinition_frame P _ hQf] at hfind
  -- the entry of `A` after the merge of its own model
  have hentry : ∃ s base,
      GoMap.get (registerModel rB.parser.Swagger.Definitions
        { Id := canonicalId P.CurrentPackage A,
          Properties :=
            ((scanProperties (recordModelName P A (canonicalId P.CurrentPackage A)) [(A, true)]
              (refProperties fs []) []).1).map (fun kv => (kv.1, backPatch B rB.m.Id kv.2)) })
        (canonicalId P.CurrentPackage A) = some s ∧
      s.Properties = mergeProperties base
        (((scanProperties (recordModelName P A (canonicalId P.CurrentPackage A)) [(A, true)]
          (refProperties fs []) []).1).map (fun kv => (kv.1, backPatch B rB.m.Id kv.2))) := by
    cases hD : GoMap.get rB.parser.Swagger.Definitions (canonicalId P.CurrentPackage A) with
    | none => exact ⟨_, [], get_registerModel_none _ _ hD, rfl⟩
    | some s0 => exact ⟨_, s0.Properties, get_registerModel_some _ _ s0 hD, rfl⟩
  obtain ⟨s, base, hs, hsp⟩ := hentry
  have hkeys : (GoMap.keys
      (((scanProperties (recordModelName P A (canonicalId P.CurrentPackage A)) [(A, true)]
        (refProperties fs []) []).1).map (fun kv => (kv.1, backPatch B rB.m.Id kv.2)))).Nodup := by
    rw [keys_map_value, keys_scanProperties]
    exact nodup_keys_refProperties fs [] List.nodup_nil
  refine ⟨_, s, hreg, ⟨spec, modelPackage, hfind, hidB⟩, ?_, ?_, ?_⟩
  · rw [has_foldl_registerModel]
    exact Or.inr ⟨rB.m, List.mem_cons_self _ _, rfl⟩
  · show GoMap.get (List.foldl registerModel _ (rB.m :: rB.innerModels)) _ = some s
    rw [get_foldl_registerModel_of_ne _ _ _ hid]
    exact hs
  · intro f hf
    have hsc := scanProperty_ref _ [(A, true)] B f hBQ hk (hfsQ f hf)
    have hget := get_refProperties_of_mem fs [] f hnodup hf
    constructor
    · intro e
      rw [hsp]
      apply get_mergeProperties_of_get _ _ _ _ hkeys
      rw [get_map_value, get_scanProperties, hget, Option.map_some', Option.map_some', hsc.1 e,
        backPatch_target B _ hPB.2.2.2.1]
    · intro e
      rw [hsp]
      apply get_mergeProperties_of_get _ _ _ _ hkeys
      rw [get_map_value, get_scanProperties, hget, Option.map_some', Option.map_some',
        hsc.2.1 e, backPatch_target_slice]

/-- Untagged fields referring to one struct, at a concrete input:
`type Tree struct { Root Leaf; Leaves []Leaf }` with
`type Leaf struct { Owner *Tree; Forest []Tree }` in package `models`. -/
theorem struct_field_references_plain_example :
    ∃ P1 s, registerType 2 nodeParser "Tree" = Outcome.ok (P1, "models.Tree", none) ∧
      GoMap.has P1.Swagger.Definitions "models.Leaf" = true ∧
      GoMap.get P1.Swagger.Definitions "models.Tree" = some s ∧
      GoMap.get s.Properties "Root" =
        some { Type_ := "Leaf", Ref := "#/definitions/models.Leaf" } ∧
      GoMap.get s.Properties "Leaves" =
        some { Type_ := "array", Items := { Ref := "#/definitions/models.Leaf" } } := by
  obtain ⟨P1, s, h1, _, h2, h3, h4⟩ :=
    struct_field_references_plain 1 nodeParser "Tree" "Leaf" "Tree"
      [⟨["Root"], Expr.ident "Leaf", none⟩, ⟨["Leaves"], Expr.array (Expr.ident "Leaf"), none⟩]
      { parser := { nodeParser with
          modelNamesPackageNames := [("Tree", "models.Tree"), ("Leaf", "models.Leaf")] }
        knownModelNames := [("Tree", true), ("Leaf", true)]
        m := { Id := "models.Leaf"
               Properties :=
                 [("Owner", { Ref := "#/definitions/models.Tree", Type_ := "Tree" }),
                  ("Forest", { Ref := "#/definitions/models.Tree", Type_ := "array",
                               Items := { Ref := "Tree" } })] }
        err := none
        innerModels := [] }
      (by decide) (by decide) (by decide) (by decide) (by decide) (by decide)
      ⟨⟨["Root"], Expr.ident "Leaf", none⟩, by decide, Or.inl (by decide)⟩ rfl (by decide)
      (by decide)
  exact ⟨P1, s, h1, h2, h3,
    (h4 ⟨["Root"], Expr.ident "Leaf", none⟩ (by decide)).1 (by decide),
    (h4 ⟨["Leaves"], Expr.array (Expr.ident "Leaf"), none⟩ (by decide)).2 (by decide)⟩

/-- C31: let two response lines be split by the response pattern into the same kind, type
name and description and into codes that `strconv.Atoi` reads as `n1` and `n2`.  From the
same parser and operation, `ParseResponseComment` ends both runs the same way: both end the
process, or both exceed the budget, or both return the same parser and the same error
value, and the two operations differ from the initial one only in the entry of the response
table written, which holds the same response object (description and schema) under the key
`fmt.Sprint(n1)` in one run and `fmt.Sprint(n2)` in the other. -/
theorem C31_response_independent_of_code (fuel : Nat) (parser : Parser)
    (operation : OperationObject) (line1 line2 a1 a2 c1 c2 kind ty desc : String) (n1 n2 : Int)
    (h1 : regexp.FindStringSubmatch reResponse 4 line1 = [a1, c1, kind, ty, desc])
    (h2 : regexp.FindStringSubmatch reResponse 4 line2 = [a2, c2, kind, ty, desc])
    (hc1 : strconv.Atoi c1 = some n1) (hc2 : strconv.Atoi c2 = some n2) :
    (ParseResponseComment fuel parser operation line1 = Outcome.fatal ∧
      ParseResponseComment fuel parser operation line2 = Outcome.fatal) ∨
    (ParseResponseComment fuel parser operation line1 = Outcome.outOfFuel ∧
      ParseResponseComment fuel parser operation line2 = Outcome.outOfFuel) ∨
    ∃ (P1 : Parser) (response : ResponseObject) (err : Option String),
      ParseResponseComment fuel parser operation line1 =
        Outcome.ok (P1,
          { operation with
            Responses := GoMap.set operation.Responses (fmtSprintInt n1) response }, err) ∧
      ParseResponseComment fuel parser operation line2 =
        Outcome.ok (P1,
          { operation with
            Responses := GoMap.set operation.Responses (fmtSprintInt n2) response }, err) := by
  unfold ParseResponseComment
  simp only [h1, h2, hc1, hc2]
  cases hreg : registerType fuel parser ty with
  | fatal => exact Or.inl ⟨rfl, rfl⟩
  | outOfFuel => exact Or.inr (Or.inl ⟨rfl, rfl⟩)
  | ok r =>
    obtain ⟨P, name, err⟩ := r
    cases err with
    | some e => exact Or.inr (Or.inr ⟨P, _, some e, rfl, rfl⟩)
    | none => exact Or.inr (Or.inr ⟨P, _, none, rfl, rfl⟩)

/-- C31 at concrete inputs: the lines `200 {array} Pet "pets"` and `007 {array} Pet "pets"`
in package `models` give the same response, a reference to `models.Pet` described as
`pets`, under the keys `200` and `7`. -/
theorem C31_response_independent_of_code_witness :
    (ParseResponseComment 2 petParser (NewOperationObject 1 "models")
        "200 {array} Pet \"pets\"").value?.map (fun r => r.2.1.Responses) =
      some [("200", { Description := "pets",
                      Schema := some { Ref := "#/definitions/models.Pet" } })] ∧
    (ParseResponseComment 2 petParser (NewOperationObject 1 "models")
        "007 {array} Pet \"pets\"").value?.map (fun r => r.2.1.Responses) =
      some [("7", { Description := "pets",
                    Schema := some { Ref := "#/definitions/models.Pet" } })] ∧
    ((ParseResponseComment 2 petParser (NewOperationObject 1 "models")
          "200 {array} Pet \"pets\"" = Outcome.fatal ∧
        ParseResponseComment 2 petParser (NewOperationObject 1 "models")
          "007 {array} Pet \"pets\"" = Outcome.fatal) ∨
      (ParseResponseComment 2 petParser (NewOperationObject 1 "models")
          "200 {array} Pet \"pets\"" = Outcome.outOfFuel ∧
        ParseResponseComment 2 petParser (NewOperationObject 1 "models")
          "007 {array} Pet \"pets\"" = Outcome.outOfFuel) ∨
      ∃ (P1 : Parser) (response : ResponseObject) (err : Option String),
        ParseResponseComment 2 petParser (NewOperationObject 1 "models")
            "200 {array} Pet \"pets\"" =
          Outcome.ok (P1,
            { NewOperationObject 1 "models" with
              Responses := GoMap.set (NewOperationObject 1 "models").Responses
                (fmtSprintInt 200) response }, err) ∧
        ParseResponseComment 2 petParser (NewOperationObject 1 "models")
            "007 {array} Pet \"pets\"" =
          Outcome.ok (P1,
            { NewOperationObject 1 "models" with
              Responses := GoMap.set (NewOperationObject 1 "models").Responses
                (fmtSprintInt 7) response }, err)) :=
  ⟨rfl, rfl,
    C31_response_independent_of_code 2 petParser (NewOperationObject 1 "models")
      "200 {array} Pet \"pets\"" "007 {array} Pet \"pets\"" "200 {array} Pet \"pets\""
      "007 {array} Pet \"pets\"" "200" "007" "{array}" "Pet" "\"pets\"" 200 7
      (by decide) (by decide) (by decide) (by decide)⟩

/-- C32 (counterexample): with `type Userinterface int` embedded in
`type Wrap struct { Userinterface }`, resolving `Wrap` descends into the embedded type and
records the type definition of `Userinterface`; `registerType("Userinterface")` then returns
`int`, not the name, although the name contains `interface`. -/
theorem C32_counterexample_recorded_type_definition :
    strings.Contains "Userinterface" "interface" = true ∧
    (registerType 2 wrapParser "Wrap").value?.map
      (fun r => (r.2.1, r.2.2, r.1.typeDefTranslations)) =
      some ("models.Wrap", none, [("Userinterface", "int")]) ∧
    (registerType 2 wrapParser "Wrap").value?.bind
      (fun r => (registerType 2 r.1 "Userinterface").value?.map (fun r1 => r1.2)) =
      some ("int", none) :=
  ⟨by decide, rfl, rfl⟩

/-- C32 (amended): a type name that contains `interface` is accepted by `IsBasicType` and by
`IsBasicTypeSwaggerType`; for every parser and every recursion budget (none is needed, no
declaration is looked up), `registerType` returns without error and leaves the parser, its
Definitions table included, as it was; the name it returns is the name itself when
`typeDefTranslations` has no entry for it, and the entry otherwise. -/
theorem C32_interface_names_are_primitive (typeName : String)
    (h : strings.Contains typeName "interface" = true) :
    IsBasicType typeName = true ∧ IsBasicTypeSwaggerType typeName = true ∧
    ∀ (fuel : Nat) (parser : Parser),
      (GoMap.get parser.typeDefTranslations typeName = none →
        registerType fuel parser typeName = Outcome.ok (parser, typeName, none)) ∧
      (∀ translation, GoMap.get parser.typeDefTranslations typeName = some translation →
        registerType fuel parser typeName = Outcome.ok (parser, translation, none)) := by
  have hb : IsBasicType typeName = true := by simp [IsBasicType, h]
  have hs : IsBasicTypeSwaggerType typeName = true := by simp [IsBasicTypeSwaggerType, h]
  refine ⟨hb, hs, fun fuel parser => ⟨fun hn => ?_, fun translation ht => ?_⟩⟩
  · unfold registerType
    simp only [hn, hb, if_true]
  · unfold registerType
    simp only [ht]

/-- C32 at the input of the claim: `Userinterface`, declared as a struct in package
`models`, with no budget for a resolution. -/
theorem C32_interface_names_are_primitive_witness :
    IsBasicType "Userinterface" = true ∧ IsBasicTypeSwaggerType "Userinterface" = true ∧
    registerType 0 wildcardParser "Userinterface" =
      Outcome.ok (wildcardParser, "Userinterface", none) :=
  ⟨(C32_interface_names_are_primitive "Userinterface" (by decide)).1,
   (C32_interface_names_are_primitive "Userinterface" (by decide)).2.1,
   ((C32_interface_names_are_primitive "Userinterface" (by decide)).2.2 0 wildcardParser).1
      (by decide)⟩

theorem search_empty (s : List Char) : (regexp.search [] s).isSome = true := by
  cases s <;> rfl

theorem parseImports_ignored (matchIgnore : String → Option Bool)
    (h : ∀ name, isIgnoredPackage matchIgnore name = Outcome.ok true) (real : String)
    (imps : List ImportSpec) (P : Parser) (imports : GoMap Bool) :
    parseImports matchIgnore real imps P imports = Outcome.ok (P, imports) := by
  induction imps with
  | nil => rfl
  | cons imp rest ih =>
    have hstep : parseImport matchIgnore real P imports imp = Outcome.ok (P, imports) := by
      unfold parseImport
      simp only [h]
    simp only [parseImports, hstep, ih]

/-- C33: the empty pattern matches every package name, so with an empty `Ignore`
`isIgnoredPackage` answers true for every package name, and `ParseImportStatements` of any
package, whatever its files import, returns an empty set of imports and leaves the import
table of the package empty, as it created it: no alias is recorded. -/
theorem C33_empty_ignore_ignores_every_package :
    (∀ name, matchEmptyIgnore name = some true) ∧
    (∀ name, isIgnoredPackage matchEmptyIgnore name = Outcome.ok true) ∧
    (∀ (astPackages : List (List (List ImportSpec))) (parser : Parser) (packageName : String),
      ∃ P1, ParseImportStatements matchEmptyIgnore astPackages parser packageName =
          Outcome.ok (P1, []) ∧
        importTable P1 packageName = [] ∧
        P1 = { parser with
          CurrentPackage := packageName
          PackageImports :=
            GoMap.set parser.PackageImports (CheckRealPackagePath parser packageName) [] }) ∧
    (ParseImportStatements matchEmptyIgnore mainImports petParser "models").value?.map
      (fun r => (importTable r.1 "models", r.2)) = some ([], []) := by
  have h1 : ∀ name, matchEmptyIgnore name = some true := by
    intro name
    unfold matchEmptyIgnore
    rw [search_empty]
  have h2 : ∀ name, isIgnoredPackage matchEmptyIgnore name = Outcome.ok true := by
    intro name
    unfold isIgnoredPackage
    simp only [h1, Bool.or_true]
  refine ⟨h1, h2, fun astPackages parser packageName => ⟨_, ?_, ?_, rfl⟩, rfl⟩
  · unfold ParseImportStatements
    simp only [parseImports_ignored matchEmptyIgnore h2]
    rfl
  · unfold importTable
    show (GoMap.get (GoMap.set parser.PackageImports (CheckRealPackagePath parser packageName) [])
      (CheckRealPackagePath parser packageName)).getD [] = []
    rw [GoMap.get_set_self]
    rfl

theorem attachOperation_other (item : PathItemObject) (method : String) (operation : Nat)
    (h : method ∉ routerMethods) : attachOperation item method operation = item := by
  simp only [routerMethods, List.mem_cons, List.mem_singleton, List.not_mem_nil, or_false,
    not_or] at h
  obtain ⟨h1, h2, h3, h4, h5, h6, h7⟩ := h
  simp only [attachOperation, h1, h2, h3, h4, h5, h6, h7, if_false]

/-- C34: for a `@router` line that the router pattern splits into a path and a bracketed
method whose upper case is none of `GET`, `POST`, `PATCH`, `PUT`, `DELETE`, `OPTIONS`,
`HEAD`, `ParseRouterComment` returns no error and changes the parser in one place only: the
path table gets an empty path item at the path when it has none.  Afterwards the path table
has an item at the path, and every method slot of every path holds what it held before, so
the operation is attached nowhere. -/
theorem C34_unknown_method_attaches_nothing (parser : Parser) (operation : OperationObject)
    (commentLine m0 path method : String)
    (hline : regexp.FindStringSubmatch reRouter 2
      (strings.TrimSpace (strings.sliceFrom commentLine "@Router".length)) = [m0, path, method])
    (hm : strings.ToUpper method ∉ routerMethods) :
    ParseRouterComment parser operation commentLine =
      ({ parser with
          Swagger := { parser.Swagger with
            Paths := if GoMap.has parser.Swagger.Paths path = true then parser.Swagger.Paths
              else GoMap.set parser.Swagger.Paths path {} } }, none) ∧
    GoMap.has (ParseRouterComment parser operation commentLine).1.Swagger.Paths path = true ∧
    ∀ (p : String) (M : Method),
      slotOf (ParseRouterComment parser operation commentLine).1 p M = slotOf parser p M := by
  have hres : ParseRouterComment parser operation commentLine =
      ({ parser with
          Swagger := { parser.Swagger with
            Paths := if GoMap.has parser.Swagger.Paths path = true then parser.Swagger.Paths
              else GoMap.set parser.Swagger.Paths path {} } }, none) := by
    unfold ParseRouterComment
    simp only [hline, attachOperation_other _ _ _ hm]
    cases hg : GoMap.get parser.Swagger.Paths path with
    | some item =>
      have hh : GoMap.has parser.Swagger.Paths path = true := by simp [GoMap.has, hg]
      simp only [hh, if_true, hg, Option.getD_some, GoMap.set_of_get _ _ _ hg]
    | none =>
      have hh : GoMap.has parser.Swagger.Paths path = false := by simp [GoMap.has, hg]
      simp only [hh, Bool.false_eq_true, if_false, GoMap.get_set_self, Option.getD_some,
        GoMap.set_set_self]
  refine ⟨hres, ?_, ?_⟩
  · rw [hres]
    by_cases hh : GoMap.has parser.Swagger.Paths path = true
    · simp only [hh, if_true]
    · have hf : GoMap.has parser.Swagger.Paths path = false := by simpa using hh
      simp only [hf, Bool.false_eq_true, if_false]
      exact (GoMap.has_set _ _ _ _).2 (Or.inr rfl)
  · intro p M
    rw [hres]
    by_cases hh : GoMap.has parser.Swagger.Paths path = true
    · simp only [hh, if_true, slotOf]
    · have hf : GoMap.has parser.Swagger.Paths path = false := by simpa using hh
      simp only [hf, Bool.false_eq_true, if_false, slotOf]
      have hnone : GoMap.get parser.Swagger.Paths path = none := by
        simpa [GoMap.has] using hh
      by_cases hp : path = p
      · subst hp
        rw [GoMap.get_set_self, hnone]
        cases M <;> rfl
      · rw [GoMap.get_set_of_ne _ _ _ _ hp]

/-- C34 at concrete inputs: the lines `@router /pets [trace]` and `@router /pets [get,post]`
give the path `/pets` an item with every slot empty. -/
theorem C34_unknown_method_attaches_nothing_witness :
    ParseRouterComment petParser (NewOperationObject 1 "models") "@router /pets [trace]" =
      ({ petParser with Swagger := { petParser.Swagger with Paths := [("/pets", {})] } },
        none) ∧
    ParseRouterComment petParser (NewOperationObject 1 "models") "@router /pets [get,post]" =
      ({ petParser with Swagger := { petParser.Swagger with Paths := [("/pets", {})] } },
        none) :=
  ⟨(C34_unknown_method_attaches_nothing petParser (NewOperationObject 1 "models")
      "@router /pets [trace]" "/pets [trace" "/pets" "trace" (by decide) (by decide)).1,
   (C34_unknown_method_attaches_nothing petParser (NewOperationObject 1 "models")
      "@router /pets [get,post]" "/pets [get,post" "/pets" "get,post" (by decide)
      (by decide)).1⟩

/-- Visiting the used types in insertion order is `ParseModelBody`. -/
theorem ParseModelBodyIn_insertion (parseModel : ModelParser) :
    ParseModelBodyIn (fun keys => keys) parseModel = ParseModelBody parseModel := rfl

theorem ParseModelIn_insertion (fuel : Nat) :
    ParseModelIn (fun keys => keys) fuel = ParseModel fuel := by
  induction fuel with
  | zero => rfl
  | succ n ih =>
    show ParseModelBodyIn (fun keys => keys) (ParseModelIn (fun keys => keys) n) =
      ParseModelBody (ParseModel n)
    rw [ih]
    rfl

theorem registerTypeIn_insertion (fuel : Nat) (parser : Parser) (typeName : String) :
    registerTypeIn (fun keys => keys) fuel parser typeName = registerType fuel parser typeName := by
  unfold registerTypeIn registerType
  rw [ParseModelIn_insertion]

theorem ParseModelBodyIn_frame (order : List String → List String) (f : ModelParser)
    (hf : KeepsFrame f) : KeepsFrame (ParseModelBodyIn order f) := by
  intro parser known m modelName currentPackage r h
  unfold ParseModelBodyIn at h
  simp only at h
  split at h
  · cases h
  · cases h
  · rename_i spec modelPackage hfind
    have hp : ∀ (n v : String), (recordModelName parser n v).frame = parser.frame := by
      intro n v
      unfold recordModelName
      split <;> rfl
    split at h
    · cases h
      exact hp _ _
    · unfold ParseFieldList at h
      split at h
      · cases h
      · cases h
      · rename_i p2 m2 hfl
        rw [parseUsedTypes_frame f hf _ _ _ _ _ _ _ h]
        split at hfl
        · cases hfl
          exact hp _ _
        · rw [parseFields_frame f hf _ _ _ _ _ _ hfl]
          exact hp _ _
    · cases h
      exact hp _ _

theorem ParseModelIn_frame (order : List String → List String) (fuel : Nat) :
    KeepsFrame (ParseModelIn order fuel) := by
  induction fuel with
  | zero =>
    intro parser known m modelName currentPackage r h
    simp [ParseModelIn] at h
  | succ n ih => exact ParseModelBodyIn_frame order _ ih

theorem ParseModelBodyIn_replay (order : List String → List String) (f : ModelParser)
    (hf : Replayable f) : Replayable (ParseModelBodyIn order f) := by
  intro P known m name pkg r hs hk h
  unfold ParseModelBodyIn at h
  simp only at h
  split at h
  · cases h
  · cases h
  · rename_i spec mp hfind
    obtain ⟨model, hspec⟩ := FindModelDefinition_spec P name pkg spec mp hfind
    have hg1 := recordModelName_grows P name (canonicalId mp name)
    have hh1 := recordModelName_has P name (canonicalId mp name)
    have hs1 : Saturated (recordModelName P name (canonicalId mp name)) :=
      hs.of_agree (Agree.of_grows_self hg1)
    have hfindQ : ∀ Q, Agree (recordModelName P name (canonicalId mp name)) Q →
        FindModelDefinition Q name pkg = Outcome.ok (spec, mp) := by
      intro Q hQ
      rw [FindModelDefinition_decls P Q (hQ.1.trans (decls_of_frame hg1.1))]
      exact hfind
    have hrecQ : ∀ Q, Agree (recordModelName P name (canonicalId mp name)) Q →
        recordModelName Q name (canonicalId mp name) = Q := by
      intro Q hQ
      exact recordModelName_of_has Q _ _ (has_of_extends hQ.2.2 _ hh1)
    split at h
    · rename_i u hty
      have htr : GoMap.get (recordModelName P name (canonicalId mp name)).typeDefTranslations
          spec.Name = some u := by
        rw [hg1.2.1]
        exact hs model mp spec u hspec hty
      have hnoop : ∀ Q : Parser, GoMap.get Q.typeDefTranslations spec.Name = some u →
          ({ Q with typeDefTranslations := GoMap.set Q.typeDefTranslations spec.Name u } : Parser)
            = Q := by
        intro Q hq
        rw [GoMap.set_of_get _ _ _ hq]
      cases h
      simp only [hnoop _ htr]
      refine ⟨hg1, knownRecorded_set P _ known name hk hg1.2.2 hh1, fun Q hQ => ?_⟩
      unfold ParseModelBodyIn
      simp only [hfindQ Q hQ, hrecQ Q hQ, hty]
      rw [hnoop Q (by rw [hQ.2.1]; exact htr)]
    · rename_i fields hty
      split at h
      · cases h
      · cases h
      · rename_i P2 m2 hfl
        obtain ⟨hg2, hrep2⟩ := ParseFieldList_replay f hf _ _ fields mp P2 m2 hs1 hfl
        have hs2 : Saturated P2 := hs1.of_agree (Agree.of_grows_self hg2)
        have hk2 : KnownRecorded P2 (GoMap.set known name true) :=
          knownRecorded_set P P2 known name hk (extends_trans hg1.2.2 hg2.2.2)
            (has_of_extends hg2.2.2 _ hh1)
        obtain ⟨hg3, hk3, hrep3⟩ := parseUsedTypes_replay f hf mp _ P2 _ _ _ r hs2 hk2 h
        refine ⟨grows_trans (grows_trans hg1 hg2) hg3, hk3, fun Q hQ => ?_⟩
        have hQ2 : Agree P2 Q := Agree.of_grows hg3 hQ
        have hQ1 : Agree (recordModelName P name (canonicalId mp name)) Q := Agree.of_grows hg2 hQ2
        unfold ParseModelBodyIn
        simp only [hfindQ Q hQ1, hrecQ Q hQ1, hty, hrep2 Q hQ2,
          scanProperties_agree P2 Q _ _ _ hQ2 hk2]
        exact hrep3 Q hQ
    · rename_i hty
      cases h
      refine ⟨hg1, knownRecorded_set P _ known name hk hg1.2.2 hh1, fun Q hQ => ?_⟩
      unfold ParseModelBodyIn
      simp only [hfindQ Q hQ, hrecQ Q hQ, hty]

theorem ParseModelIn_replay (order : List String → List String) (fuel : Nat) :
    Replayable (ParseModelIn order fuel) := by
  induction fuel with
  | zero =>
    intro P known m name pkg r _ _ h
    simp [ParseModelIn] at h
  | succ n ih => exact ParseModelBodyIn_replay order _ ih

theorem registerTypeIn_of_ParseModelIn (order : List String → List String) (fuel : Nat)
    (P : Parser) (T : String) (r : ModelResult)
    (h1 : GoMap.get P.typeDefTranslations T = none) (h2 : IsBasicType T = false)
    (hr : ParseModelIn order fuel P [] NewModel T P.CurrentPackage = Outcome.ok r)
    (herr : r.err = none) (h3 : GoMap.get r.parser.typeDefTranslations T = none) :
    registerTypeIn order fuel P T =
      Outcome.ok ({ r.parser with
          Swagger := { r.parser.Swagger with
            Definitions := List.foldl registerModel
              (registerModel r.parser.Swagger.Definitions r.m) r.innerModels } },
        r.m.Id, none) := by
  unfold registerTypeIn
  simp only [h1, h2, Bool.false_eq_true, if_false, hr, herr, h3]

theorem backPatch_eq (typeName id : String) (p : ModelProperty) :
    backPatch typeName id p = if patchKey p = typeName then referTo p id else p := by
  unfold backPatch patchKey referTo
  by_cases h : p.Type_ = "array"
  · simp only [h, if_true]
  · simp only [h, if_false]

theorem patchKey_referTo_scalar (p : ModelProperty) (id : String) (h : p.Type_ ≠ "array") :
    patchKey (referTo p id) = patchKey p := by
  unfold patchKey referTo
  simp only [h, if_false]

theorem patchKey_referTo_array (p : ModelProperty) (id : String) (h : p.Type_ = "array") :
    patchKey (referTo p id) = "#/definitions/" ++ id := by
  unfold patchKey referTo
  simp only [h, if_true]

theorem sharp_mem_refText (id : String) : '#' ∈ ("#/definitions/" ++ id).data := by
  simp [String.data_append]

/-- The second loop of `ParseModel` leaves a property alone whose patch key is none of the
used types, and keeps the models collected so far. -/
theorem parseUsedTypes_keeps (g : ModelParser)
    (hgerr : ∀ P known m name pkg r, g P known m name pkg = Outcome.ok r → r.err = none)
    (pkg : String) (used : List String) (S : Parser) (known : GoMap Bool) (m : Model)
    (inner : List Model) (r : ModelResult)
    (h : parseUsedTypes g pkg used S known m inner = Outcome.ok r) (k : String)
    (q : ModelProperty) (hq : GoMap.get m.Properties k = some q)
    (hunt : ∀ U ∈ used, patchKey q ≠ U) :
    GoMap.get r.m.Properties k = some q ∧ ∀ x ∈ inner, x ∈ r.innerModels := by
  induction used generalizing S known m inner with
  | nil =>
    simp only [parseUsedTypes] at h
    cases h
    exact ⟨hq, fun x hx => hx⟩
  | cons U rest ih =>
    simp only [parseUsedTypes] at h
    split at h
    · cases h
    · cases h
    · rename_i rU hrU
      have hnone := hgerr _ _ _ _ _ _ hrU
      simp only [hnone] at h
      have hq1 : GoMap.get
          (({ m with Properties :=
              m.Properties.map (fun kv => (kv.1, backPatch U rU.m.Id kv.2)) } : Model).Properties)
          k = some q := by
        show GoMap.get (m.Properties.map (fun kv => (kv.1, backPatch U rU.m.Id kv.2))) k = some q
        rw [get_map_value, hq, Option.map_some', backPatch_eq,
          if_neg (hunt U (List.mem_cons_self _ _))]
      obtain ⟨h1, h2⟩ := ih _ _ _ _ h hq1 (fun V hV => hunt V (List.mem_cons_of_mem _ hV))
      exact ⟨h1, fun x hx => h2 x (List.mem_append_left _ hx)⟩

/-- The second loop of `ParseModel` patches a property whose patch key is one of the used
types with the canonical id of that type, whatever the order of the visit, and collects the
model of that type. -/
theorem parseUsedTypes_patches (g : ModelParser)
    (hgerr : ∀ P known m name pkg r, g P known m name pkg = Outcome.ok r → r.err = none)
    (hgframe : KeepsFrame g)
    (hgid : ∀ P known m name pkg r, g P known m name pkg = Outcome.ok r →
      ∃ spec mp, FindModelDefinition P name pkg = Outcome.ok (spec, mp) ∧
        r.m.Id = canonicalId mp name)
    (P0 : Parser) (pkg : String) (used : List String) (B : String) (hnd : used.Nodup)
    (hB : B ∈ used) (hsharp : ∀ U ∈ used, '#' ∉ U.data)
    (S : Parser) (known : GoMap Bool) (m : Model) (inner : List Model) (r : ModelResult)
    (hS : S.frame = P0.frame)
    (h : parseUsedTypes g pkg used S known m inner = Outcome.ok r) (k : String)
    (p : ModelProperty) (hp : GoMap.get m.Properties k = some p) (hpk : patchKey p = B) :
    ∃ spec mp, FindModelDefinition P0 B pkg = Outcome.ok (spec, mp) ∧
      GoMap.get r.m.Properties k = some (referTo p (canonicalId mp B)) ∧
      ∃ mB ∈ r.innerModels, mB.Id = canonicalId mp B := by
  induction used generalizing S known m inner with
  | nil => cases hB
  | cons U rest ih =>
    simp only [List.nodup_cons] at hnd
    simp only [parseUsedTypes] at h
    split at h
    · cases h
    · cases h
    · rename_i rU hrU
      have hnone := hgerr _ _ _ _ _ _ hrU
      simp only [hnone] at h
      have hfr : rU.parser.frame = P0.frame := (hgframe _ _ _ _ _ _ hrU).trans hS
      by_cases hUB : U = B
      · subst hUB
        obtain ⟨spec, mp, hfind, hid⟩ := hgid _ _ _ _ _ _ hrU
        rw [FindModelDefinition_frame P0 S hS] at hfind
        have hq1 : GoMap.get
            (({ m with Properties :=
                m.Properties.map (fun kv => (kv.1, backPatch U rU.m.Id kv.2)) } : Model).Properties)
            k = some (referTo p (canonicalId mp U)) := by
          show GoMap.get (m.Properties.map (fun kv => (kv.1, backPatch U rU.m.Id kv.2))) k = _
          rw [get_map_value, hp, Option.map_some', backPatch_eq, if_pos hpk, hid]
        have hunt : ∀ V ∈ rest, patchKey (referTo p (canonicalId mp U)) ≠ V := by
          intro V hV
          by_cases harr : p.Type_ = "array"
          · rw [patchKey_referTo_array p _ harr]
            intro e
            exact hsharp V (List.mem_cons_of_mem _ hV) (by rw [← e]; exact sharp_mem_refText _)
          · rw [patchKey_referTo_scalar p _ harr, hpk]
            intro e
            exact hnd.1 (by rw [e]; exact hV)
        obtain ⟨h1, h2⟩ := parseUsedTypes_keeps g hgerr pkg rest _ _ _ _ r h k _ hq1 hunt
        exact ⟨spec, mp, hfind, h1, rU.m,
          h2 _ (List.mem_append_right _ (List.mem_cons_self _ _)), hid⟩
      · have hBrest : B ∈ rest := by
          rcases List.mem_cons.1 hB with e | e
          · exact absurd e.symm hUB
          · exact e
        have hq1 : GoMap.get
            (({ m with Properties :=
                m.Properties.map (fun kv => (kv.1, backPatch U rU.m.Id kv.2)) } : Model).Properties)
            k = some p := by
          show GoMap.get (m.Properties.map (fun kv => (kv.1, backPatch U rU.m.Id kv.2))) k = _
          rw [get_map_value, hp, Option.map_some', backPatch_eq,
            if_neg (by rw [hpk]; exact fun e => hUB e.symm)]
        exact ih hnd.2 hBrest (fun V hV => hsharp V (List.mem_cons_of_mem _ hV)) _ _ _ _ hfr h hq1


theorem scanProperty_of_patchKey (Q : Parser) (known : GoMap Bool) (p : ModelProperty)
    (B : String) (hpk : patchKey p = B) (hitems : p.Type_ = "array" → p.Items.Type_ = "")
    (hb : IsBasicType B = false) (hm : IsImplementMarshalInterface Q B = false)
    (ht : GoMap.get Q.typeDefTranslations B = none) (hk : GoMap.has known B = false) :
    scanProperty Q known p = (p, some B) := by
  have hname : propertyTypeName Q p = B := by
    unfold propertyTypeName
    unfold patchKey at hpk
    by_cases harr : p.Type_ = "array"
    · simp only [harr, if_true] at hpk
      simp only [harr, if_true, hitems harr, ne_eq, not_true_eq_false, if_false, hpk, ht]
    · simp only [harr, if_false] at hpk
      subst hpk
      simp only [harr, if_false, ht]
  unfold scanProperty
  simp only [hname, hb, hm, hk, Bool.false_eq_true, if_false]

theorem scanProperty_used_name (Q : Parser) (known : GoMap Bool) (p : ModelProperty)
    (x : String) (h : (scanProperty Q known p).2 = some x) : x = propertyTypeName Q p := by
  unfold scanProperty at h
  simp only at h
  split at h
  · split at h
    · split at h <;> cases h
    · cases h
  · split at h
    · cases h
    · split at h
      · split at h <;> cases h
      · cases h
        rfl

theorem has_scanProperties_mono (Q : Parser) (known : GoMap Bool) (props : GoMap ModelProperty)
    (used : GoMap Bool) (x : String) (h : GoMap.has used x = true) :
    GoMap.has (scanProperties Q known props used).2 x = true := by
  induction props generalizing used with
  | nil => exact h
  | cons kv rest ih =>
    obtain ⟨k, p⟩ := kv
    simp only [scanProperties]
    apply ih
    split
    · exact (GoMap.has_set _ _ _ _).2 (Or.inl h)
    · exact h

theorem has_scanProperties_of_mem (Q : Parser) (known : GoMap Bool)
    (props : GoMap ModelProperty) (used : GoMap Bool) (kv : String × ModelProperty) (B : String)
    (hmem : kv ∈ props) (hs : (scanProperty Q known kv.2).2 = some B) :
    GoMap.has (scanProperties Q known props used).2 B = true := by
  induction props generalizing used with
  | nil => cases hmem
  | cons kv0 rest ih =>
    obtain ⟨k0, p0⟩ := kv0
    simp only [scanProperties]
    rcases List.mem_cons.1 hmem with e | e
    · subst e
      apply has_scanProperties_mono
      simp only [hs]
      exact (GoMap.has_set _ _ _ _).2 (Or.inr rfl)
    · exact ih _ e

theorem has_scanProperties_sub (Q : Parser) (known : GoMap Bool) (props : GoMap ModelProperty)
    (used : GoMap Bool) (x : String)
    (h : GoMap.has (scanProperties Q known props used).2 x = true) :
    GoMap.has used x = true ∨ ∃ kv ∈ props, x = propertyTypeName Q kv.2 := by
  induction props generalizing used with
  | nil => exact Or.inl h
  | cons kv0 rest ih =>
    obtain ⟨k0, p0⟩ := kv0
    simp only [scanProperties] at h
    rcases ih _ h with h1 | ⟨kv, hkv, hx⟩
    · cases hsc : (scanProperty Q known p0).2 with
      | none =>
        simp only [hsc] at h1
        exact Or.inl h1
      | some y =>
        simp only [hsc] at h1
        rcases (GoMap.has_set _ _ _ _).1 h1 with h2 | h2
        · exact Or.inl h2
        · refine Or.inr ⟨(k0, p0), List.mem_cons_self _ _, ?_⟩
          rw [h2]
          exact scanProperty_used_name Q known p0 y hsc
    · exact Or.inr ⟨kv, List.mem_cons_of_mem _ hkv, hx⟩

theorem nodup_keys_scanProperties_used (Q : Parser) (known : GoMap Bool)
    (props : GoMap ModelProperty) (used : GoMap Bool) (h : (GoMap.keys used).Nodup) :
    (GoMap.keys (scanProperties Q known props used).2).Nodup := by
  induction props generalizing used with
  | nil => exact h
  | cons kv0 rest ih =>
    obtain ⟨k0, p0⟩ := kv0
    simp only [scanProperties]
    apply ih
    split
    · exact GoMap.nodup_keys_set _ _ _ h
    · exact h

theorem nodup_keys_applyTag (m : Model) (property : ModelProperty) (name : String)
    (structTag : StructTag) (h : (GoMap.keys m.Properties).Nodup) :
    (GoMap.keys (applyTag m property name structTag).Properties).Nodup := by
  unfold applyTag
  simp only
  split
  · exact h
  · exact GoMap.nodup_keys_set _ _ _ h

theorem ParseModelProperty_nodup (g : ModelParser) (parser : Parser) (m : Model) (field : Field)
    (pkg : String) (parser1 : Parser) (m1 : Model) (hn : (GoMap.keys m.Properties).Nodup)
    (h : ParseModelProperty g parser m field pkg = Outcome.ok (parser1, m1)) :
    (GoMap.keys m1.Properties).Nodup := by
  unfold ParseModelProperty at h
  simp only at h
  split at h
  · cases h
    exact hn
  · split at h
    · split at h
      · cases h
      · split at h
        · cases h
        · cases h
        · cases h
          exact nodup_keys_mergeProperties _ _ hn
    · split at h
      · cases h
        exact GoMap.nodup_keys_set _ _ _ hn
      · cases h
        exact nodup_keys_applyTag _ _ _ _ hn

theorem parseFields_nodup (g : ModelParser) (pkg : String) (fields : List Field)
    (parser : Parser) (m : Model) (parser1 : Parser) (m1 : Model)
    (hn : (GoMap.keys m.Properties).Nodup)
    (h : parseFields g pkg fields parser m = Outcome.ok (parser1, m1)) :
    (GoMap.keys m1.Properties).Nodup := by
  induction fields generalizing parser m with
  | nil =>
    simp only [parseFields] at h
    cases h
    exact hn
  | cons field rest ih =>
    simp only [parseFields] at h
    split at h
    · rename_i p2 m2 hp
      exact ih p2 m2 (ParseModelProperty_nodup g _ _ _ _ _ _ hn hp) h
    · cases h
    · cases h

/-- What `ParseFieldList` returns for a model without properties: the id is kept, the
frame of the parser is kept, and no property name occurs twice. -/
theorem ParseFieldList_spec (g : ModelParser) (hg : KeepsFrame g) (parser : Parser)
    (id : String) (fields : List Field) (pkg : String) (parser1 : Parser) (m1 : Model)
    (h : ParseFieldList g parser { Id := id } fields pkg = Outcome.ok (parser1, m1)) :
    m1.Id = id ∧ parser1.frame = parser.frame ∧ (GoMap.keys m1.Properties).Nodup := by
  unfold ParseFieldList at h
  split at h
  · cases h
    exact ⟨rfl, rfl, List.nodup_nil⟩
  · exact ⟨parseFields_Id g pkg fields _ _ _ _ h, parseFields_frame g hg pkg fields _ _ _ _ h,
      parseFields_nodup g pkg fields _ { Id := id } _ _ List.nodup_nil h⟩

theorem ParseModelBodyIn_err (order : List String → List String) (g : ModelParser)
    (hg : ∀ P known m name pkg r, g P known m name pkg = Outcome.ok r → r.err = none)
    (P : Parser) (known : GoMap Bool) (m : Model) (name pkg : String) (r : ModelResult)
    (h : ParseModelBodyIn order g P known m name pkg = Outcome.ok r) : r.err = none := by
  unfold ParseModelBodyIn at h
  simp only at h
  split at h
  · cases h
  · cases h
  · split at h
    · cases h
      rfl
    · split at h
      · cases h
      · cases h
      · exact parseUsedTypes_err g hg _ _ _ _ _ _ _ h
    · cases h
      rfl

theorem ParseModelIn_err (order : List String → List String) (fuel : Nat) (P : Parser)
    (known : GoMap Bool) (m : Model) (name pkg : String) (r : ModelResult)
    (h : ParseModelIn order fuel P known m name pkg = Outcome.ok r) : r.err = none := by
  induction fuel generalizing P known m name pkg r with
  | zero => cases h
  | succ n ih => exact ParseModelBodyIn_err order (ParseModelIn order n) ih P known m name pkg r h

theorem ParseModelBodyIn_Id (order : List String → List String) (parseModel : ModelParser)
    (parser : Parser) (known : GoMap Bool) (m : Model) (modelName currentPackage : String)
    (spec : TypeSpec) (modelPackage : String) (r : ModelResult)
    (hf : FindModelDefinition parser modelName currentPackage = Outcome.ok (spec, modelPackage))
    (hr : ParseModelBodyIn order parseModel parser known m modelName currentPackage =
      Outcome.ok r) :
    r.m.Id = canonicalId modelPackage modelName := by
  unfold ParseModelBodyIn at hr
  simp only [hf] at hr
  split at hr
  · cases hr; rfl
  · unfold ParseFieldList at hr
    split at hr
    · cases hr
    · cases hr
    · rename_i p2 m2 hp
      split at hp
      · cases hp
        rw [parseUsedTypes_Id _ _ _ _ _ _ _ _ hr]
      · rw [parseUsedTypes_Id _ _ _ _ _ _ _ _ hr]
        exact parseFields_Id _ _ _ _ _ _ _ hp
  · cases hr; rfl

/-- The declaration `ParseModel` found when it returned, and the id it gave the model,
whatever the order of the second loop. -/
theorem ParseModelIn_found (order : List String → List String) (fuel : Nat) (P : Parser)
    (known : GoMap Bool) (m : Model) (name pkg : String) (r : ModelResult)
    (h : ParseModelIn order fuel P known m name pkg = Outcome.ok r) :
    ∃ spec modelPackage, FindModelDefinition P name pkg = Outcome.ok (spec, modelPackage) ∧
      r.m.Id = canonicalId modelPackage name := by
  cases fuel with
  | zero => cases h
  | succ n =>
    have h1 : ParseModelBodyIn order (ParseModelIn order n) P known m name pkg = Outcome.ok r := h
    cases hf : FindModelDefinition P name pkg with
    | fatal =>
      unfold ParseModelBodyIn at h1
      simp only [hf] at h1
      cases h1
    | outOfFuel =>
      unfold ParseModelBodyIn at h1
      simp only [hf] at h1
      cases h1
    | ok found =>
      obtain ⟨spec, modelPackage⟩ := found
      exact ⟨spec, modelPackage, rfl, ParseModelBodyIn_Id order _ _ _ _ _ _ _ _ _ hf h1⟩

theorem parseUsedTypes_keys (g : ModelParser) (pkg : String) (used : List String) (P : Parser)
    (known : GoMap Bool) (m : Model) (inner : List Model) (r : ModelResult)
    (h : parseUsedTypes g pkg used P known m inner = Outcome.ok r) :
    r.err = none → GoMap.keys r.m.Properties = GoMap.keys m.Properties := by
  induction used generalizing P known m inner with
  | nil =>
    simp only [parseUsedTypes] at h
    cases h
    intro _
    rfl
  | cons U rest ih =>
    simp only [parseUsedTypes] at h
    split at h
    · cases h
    · cases h
    · rename_i rU hU
      split at h
      · cases h
        intro he
        cases he
      · intro he
        rw [ih _ _ _ _ h he]
        exact keys_map_value _ _

theorem fieldProperty_shape (Q : Parser) (B : String) (f : Field) (hB : RefTarget Q B) :
    (fieldTypeString f = B → (fieldProperty f).Type_ = B) ∧
    (fieldTypeString f = "[]" ++ B →
      (fieldProperty f).Type_ = "array" ∧ (fieldProperty f).Items = { Ref := B }) := by
  obtain ⟨hb, _, _, _, hpre, htime⟩ := hB
  have hbase : (fieldTypeString f = B → (typeProperty (fieldTypeString f)).Type_ = B) ∧
      (fieldTypeString f = "[]" ++ B →
        (typeProperty (fieldTypeString f)).Type_ = "array" ∧
        (typeProperty (fieldTypeString f)).Items = { Ref := B }) := by
    constructor
    · intro e
      rw [e, typeProperty_of_plain B hpre htime]
    · intro e
      rw [e, typeProperty_slice B hb]
      exact ⟨rfl, rfl⟩
  unfold fieldProperty
  split
  · exact hbase
  · split
    · exact hbase
    · exact hbase

theorem patchKey_fieldProperty (Q : Parser) (B : String) (f : Field) (hB : RefTarget Q B)
    (hty : fieldTypeString f = B ∨ fieldTypeString f = "[]" ++ B) :
    patchKey (fieldProperty f) = B ∧
      ((fieldProperty f).Type_ = "array" → (fieldProperty f).Items.Type_ = "") := by
  have hshape := fieldProperty_shape Q B f hB
  have harr := hB.2.2.2.1
  unfold patchKey
  rcases hty with e | e
  · have h1 := hshape.1 e
    rw [h1]
    simp only [harr, if_false, true_and]
    intro h
    exact h.elim
  · obtain ⟨h1, h2⟩ := hshape.2 e
    rw [h1, h2]
    simp

/-- C22 (amended): let `A` be a type name that is no primitive name and has no recorded type
definition, declared as a struct, and let `f` be a field whose type text is `B` or `[]B`
(the struct `B` by value, by pointer, or a slice of it) and whose property is the one that
the field list of `A`, read with budget `fuel`, leaves under the name `k`: the field is
not dropped by a `-` tag and no later field or embedded struct writes the same name.  `B`
is another name than `A`, no primitive name, no marshalling type name, without recorded
type definition once the fields of `A` are read, and none of the texts `array`,
`time.Time` or an array text.  The other fields of `A` are arbitrary: tagged or not,
embedded, of primitive types or of other structs; no type text of a property contains
`#`.  Suppose `ParseModel` returns for `A` with budget `fuel + 1`, recording no type
definition named `A` and yielding no inner model under the id of `A`.  Then, in whatever
order the loop over the used types runs, `registerType(A)` returns the canonical id of `A`
without error; `B` is found, and Definitions contains its canonical id; and the entry of
`A` holds under `k` the property of the field with `$ref` equal to `#/definitions/`
followed by the id of `B` when the field is of type `B`, and with the `$ref` of its items
equal to that text when the field is of type `[]B`. -/
theorem C22_struct_field_references_definition (order : List String → List String)
    (horder : ∀ keys, (order keys).Perm keys) (fuel : Nat) (P : Parser) (A B nA pkg k : String)
    (fs : List Field) (f : Field) (Q : Parser) (mA : Model) (r : ModelResult)
    (hAt : GoMap.get P.typeDefTranslations A = none) (hAb : IsBasicType A = false)
    (hA : FindModelDefinition P A P.CurrentPackage =
      Outcome.ok (⟨nA, TypeExpr.structType fs⟩, pkg))
    (hty : fieldTypeString f = B ∨ fieldTypeString f = "[]" ++ B)
    (hfields : ParseFieldList (ParseModelIn order fuel)
      (recordModelName P A (canonicalId pkg A)) { Id := canonicalId pkg A } fs pkg =
        Outcome.ok (Q, mA))
    (hkeep : GoMap.get mA.Properties k = some (fieldProperty f))
    (hQB : RefTarget Q B) (hne : A ≠ B)
    (hsharp : ∀ kv ∈ mA.Properties, '#' ∉ (propertyTypeName Q kv.2).data)
    (hrun : ParseModelIn order (fuel + 1) P [] NewModel A P.CurrentPackage = Outcome.ok r)
    (htr : GoMap.get r.parser.typeDefTranslations A = none)
    (hid : ∀ m ∈ r.innerModels, m.Id ≠ canonicalId pkg A) :
    ∃ P1 s spec pkgB,
      registerTypeIn order (fuel + 1) P A = Outcome.ok (P1, canonicalId pkg A, none) ∧
      FindModelDefinition P B pkg = Outcome.ok (spec, pkgB) ∧
      GoMap.has P1.Swagger.Definitions (canonicalId pkgB B) = true ∧
      GoMap.get P1.Swagger.Definitions (canonicalId pkg A) = some s ∧
      (fieldTypeString f = B →
        GoMap.get s.Properties k =
          some { fieldProperty f with Ref := "#/definitions/" ++ canonicalId pkgB B }) ∧
      (fieldTypeString f = "[]" ++ B →
        GoMap.get s.Properties k =
          some { fieldProperty f with
            Items := { Ref := "#/definitions/" ++ canonicalId pkgB B } }) := by
  have hg := ParseModelIn_frame order fuel
  have hgerr := ParseModelIn_err order fuel
  have hgid := ParseModelIn_found order fuel
  obtain ⟨hmId, hQf, hnd⟩ := ParseFieldList_spec (ParseModelIn order fuel) hg _ _ fs pkg Q mA hfields
  have hQP : Q.frame = P.frame := by rw [hQf, recordModelName_frame]
  obtain ⟨hpk, hitems⟩ := patchKey_fieldProperty Q B f hQB hty
  have hk : GoMap.has (GoMap.set ([] : GoMap Bool) A true) B = false := by
    simp [GoMap.set, GoMap.has, GoMap.get, hne]
  have hscan := scanProperty_of_patchKey Q (GoMap.set ([] : GoMap Bool) A true) (fieldProperty f) B
    hpk hitems hQB.1 hQB.2.1 hQB.2.2.1 hk
  -- the second loop of the frame of `A`
  have hrun1 : ParseModelBodyIn order (ParseModelIn order fuel) P [] NewModel A P.CurrentPackage =
      Outcome.ok r := hrun
  unfold ParseModelBodyIn at hrun1
  have hfields1 : ParseFieldList (ParseModelIn order fuel)
      (recordModelName P A (canonicalId pkg A)) { NewModel with Id := canonicalId pkg A } fs pkg =
        Outcome.ok (Q, mA) := hfields
  simp only [hA, hfields1] at hrun1
  have hused : (order (GoMap.keys (scanProperties Q (GoMap.set ([] : GoMap Bool) A true)
      mA.Properties []).2)).Nodup :=
    (horder _).nodup_iff.2 (nodup_keys_scanProperties_used _ _ _ _ List.nodup_nil)
  have hBmem : B ∈ order (GoMap.keys (scanProperties Q (GoMap.set ([] : GoMap Bool) A true)
      mA.Properties []).2) := by
    rw [(horder _).mem_iff, ← GoMap.has_iff_mem_keys]
    exact has_scanProperties_of_mem _ _ _ _ (k, fieldProperty f) B
      (GoMap.mem_of_get _ _ _ hkeep) (by rw [hscan])
  have hsh : ∀ U ∈ order (GoMap.keys (scanProperties Q (GoMap.set ([] : GoMap Bool) A true)
      mA.Properties []).2), '#' ∉ U.data := by
    intro U hU
    rw [(horder _).mem_iff, ← GoMap.has_iff_mem_keys] at hU
    rcases has_scanProperties_sub _ _ _ _ _ hU with h0 | ⟨kv, hkv, e⟩
    · cases h0
    · rw [e]
      exact hsharp kv hkv
  have hget : GoMap.get (scanProperties Q (GoMap.set ([] : GoMap Bool) A true)
      mA.Properties []).1 k = some (fieldProperty f) := by
    rw [get_scanProperties, hkeep, Option.map_some', hscan]
  obtain ⟨spec, pkgB, hfind, hprop, mB, hmB, hmBid⟩ :=
    parseUsedTypes_patches (ParseModelIn order fuel) hgerr hg hgid Q pkg _ B hused hBmem hsh
      Q _ _ [] r rfl hrun1 k (fieldProperty f) hget hpk
  rw [FindModelDefinition_frame P Q hQP] at hfind
  have herr := parseUsedTypes_err _ hgerr _ _ _ _ _ _ _ hrun1
  have hrId : r.m.Id = canonicalId pkg A := by
    rw [parseUsedTypes_Id _ _ _ _ _ _ _ _ hrun1]
    exact hmId
  have hkeys : (GoMap.keys r.m.Properties).Nodup := by
    rw [parseUsedTypes_keys _ _ _ _ _ _ _ _ hrun1 herr]
    show (GoMap.keys (scanProperties Q _ mA.Properties []).1).Nodup
    rw [keys_scanProperties]
    exact hnd
  have hreg := registerTypeIn_of_ParseModelIn order (fuel + 1) P A r hAt hAb hrun herr htr
  rw [hrId] at hreg
  have hentry : ∃ s base,
      GoMap.get (registerModel r.parser.Swagger.Definitions r.m) (canonicalId pkg A) = some s ∧
      s.Properties = mergeProperties base r.m.Properties := by
    rw [← hrId]
    cases hD : GoMap.get r.parser.Swagger.Definitions r.m.Id with
    | none => exact ⟨_, [], get_registerModel_none _ _ hD, rfl⟩
    | some s0 => exact ⟨_, s0.Properties, get_registerModel_some _ _ s0 hD, rfl⟩
  obtain ⟨s, base, hs, hsp⟩ := hentry
  have hfinal : GoMap.get s.Properties k =
      some (referTo (fieldProperty f) (canonicalId pkgB B)) := by
    rw [hsp]
    exact get_mergeProperties_of_get _ _ _ _ hkeys hprop
  refine ⟨_, s, spec, pkgB, hreg, hfind, ?_, ?_, ?_, ?_⟩
  · rw [has_foldl_registerModel]
    exact Or.inr ⟨mB, hmB, hmBid⟩
  · show GoMap.get (List.foldl registerModel _ r.innerModels) _ = some s
    rw [get_foldl_registerModel_of_ne _ _ _ hid]
    exact hs
  · intro e
    rw [hfinal]
    have h1 := (fieldProperty_shape Q B f hQB).1 e
    have hna : (fieldProperty f).Type_ ≠ "array" := by
      rw [h1]
      exact hQB.2.2.2.1
    unfold referTo
    rw [if_neg hna]
  · intro e
    rw [hfinal]
    obtain ⟨h1, h2⟩ := (fieldProperty_shape Q B f hQB).2 e
    unfold referTo
    rw [if_pos h1, h2]


/-- C22 at a concrete input, the used types visited in reverse order: in package `models`,
`type Tree struct` with `Root Leaf` tagged `json:"root,omitempty" description:"the root"`,
`Leaves []Leaf` tagged `json:"leaves"`, `Owner *Person` and `Name string`, where `Leaf`
refers back to `Tree` and to `Person`. -/
theorem C22_struct_field_references_definition_witness :
    (∃ P1 s, registerTypeIn List.reverse 2 branchParser "Tree" =
        Outcome.ok (P1, "models.Tree", none) ∧
      GoMap.has P1.Swagger.Definitions "models.Leaf" = true ∧
      GoMap.get P1.Swagger.Definitions "models.Tree" = some s ∧
      GoMap.get s.Properties "root" =
        some { Type_ := "Leaf", Description := "the root",
               Ref := "#/definitions/models.Leaf" }) ∧
    (∃ P1 s, registerTypeIn List.reverse 2 branchParser "Tree" =
        Outcome.ok (P1, "models.Tree", none) ∧
      GoMap.has P1.Swagger.Definitions "models.Leaf" = true ∧
      GoMap.get P1.Swagger.Definitions "models.Tree" = some s ∧
      GoMap.get s.Properties "leaves" =
        some { Type_ := "array", Items := { Ref := "#/definitions/models.Leaf" } }) := by
  constructor
  · obtain ⟨P1, s, spec, pkgB, h1, h2, h3, h4, h5, _⟩ :=
      C22_struct_field_references_definition List.reverse
        (fun keys => List.reverse_perm keys) 1 branchParser
        "Tree" "Leaf" "Tree" "models" "root" _
        ⟨["Root"], Expr.ident "Leaf",
          some [("json", "root,omitempty"), ("description", "the root")]⟩ _ _ _
        (by decide) (by decide) rfl (Or.inl (by decide)) rfl (by decide) (by decide)
        (by decide) (by decide) rfl (by decide) (by decide)
    have hp : pkgB = "models" := by
      have h : (Outcome.ok (_, "models") : Outcome (TypeSpec × String)) =
          Outcome.ok (spec, pkgB) := h2
      cases h
      rfl
    subst hp
    exact ⟨P1, s, h1, h3, h4, h5 (by decide)⟩
  · obtain ⟨P1, s, spec, pkgB, h1, h2, h3, h4, _, h6⟩ :=
      C22_struct_field_references_definition List.reverse
        (fun keys => List.reverse_perm keys) 1 branchParser
        "Tree" "Leaf" "Tree" "models" "leaves" _
        ⟨["Leaves"], Expr.array (Expr.ident "Leaf"), some [("json", "leaves")]⟩ _ _ _
        (by decide) (by decide) rfl (Or.inr (by decide)) rfl (by decide) (by decide)
        (by decide) (by decide) rfl (by decide) (by decide)
    have hp : pkgB = "models" := by
      have h : (Outcome.ok (_, "models") : Outcome (TypeSpec × String)) =
          Outcome.ok (spec, pkgB) := h2
      cases h
      rfl
    subst hp
    exact ⟨P1, s, h1, h3, h4, h6 (by decide)⟩

theorem applyTag_properties (m : Model) (property : ModelProperty) (f : Field)
    (structTag : StructTag) (hp : property = typeProperty (fieldTypeString f))
    (ht : f.Tag = some structTag) :
    (applyTag m property (f.Names.headD "") structTag).Properties =
      match fieldKey f with
      | some k => GoMap.set m.Properties k (fieldProperty f)
      | none => m.Properties := by
  have htext : (if structTag.Get "json" ≠ "" then structTag.Get "json"
      else (if structTag.Get "thrift" ≠ "" then structTag.Get "thrift" else "")) =
      tagTextOf structTag := rfl
  unfold applyTag fieldKey fieldProperty
  simp only [ht, htext, hp]
  cases scanTagValues (strings.Split (tagTextOf structTag) ',') (f.Names.headD "") false with
  | none => rfl
  | some r =>
    obtain ⟨name, isRequired⟩ := r
    rfl

/-- What `ParseModelProperty` does with a named field whose item type is not `undefined`:
it returns, leaves the parser as it is, and stores the property `fieldProperty` under the
name `fieldKey`, or nothing when the tag drops the field. -/
theorem ParseModelProperty_named (g : ModelParser) (P : Parser) (m : Model) (f : Field)
    (pkg : String) (hnamed : f.Names ≠ [])
    (hitem : (typeProperty (fieldTypeString f)).Items.Type_ ≠ "undefined") :
    ∃ m1, ParseModelProperty g P m f pkg = Outcome.ok (P, m1) ∧
      m1.Properties =
        match fieldKey f with
        | some k => GoMap.set m.Properties k (fieldProperty f)
        | none => m.Properties := by
  have hlen : ¬ f.Names.length = 0 := by
    intro h
    exact hnamed (List.length_eq_zero.1 h)
  unfold ParseModelProperty
  simp only [hitem, and_false, if_false, hlen]
  cases ht : f.Tag with
  | none =>
    refine ⟨_, rfl, ?_⟩
    unfold fieldKey fieldProperty
    simp only [ht]
  | some structTag =>
    exact ⟨_, rfl, applyTag_properties m _ f structTag rfl ht⟩

/-- A named field that is skipped or stored under another name leaves the property under
`k` as it was. -/
theorem ParseModelProperty_other (g : ModelParser) (P : Parser) (m : Model) (f : Field)
    (pkg k : String) (hnamed : f.Names ≠ []) (hkey : fieldKey f ≠ some k) :
    ∃ m1, ParseModelProperty g P m f pkg = Outcome.ok (P, m1) ∧
      GoMap.get m1.Properties k = GoMap.get m.Properties k := by
  by_cases hitem : (typeProperty (fieldTypeString f)).Items.Type_ = "undefined"
  · by_cases hpre : strings.HasPrefix (fieldTypeString f) "[]" = true
    · refine ⟨m, ?_, rfl⟩
      unfold ParseModelProperty
      simp only [hpre, hitem, and_self, if_true]
    · have hlen : ¬ f.Names.length = 0 := by
        intro h
        exact hnamed (List.length_eq_zero.1 h)
      unfold ParseModelProperty
      simp only [hpre, false_and, if_false, hlen]
      cases ht : f.Tag with
      | none =>
        refine ⟨_, rfl, ?_⟩
        have hk : f.Names.headD "" ≠ k := by
          intro e
          apply hkey
          unfold fieldKey
          simp only [ht, e]
        exact GoMap.get_set_of_ne _ _ _ _ hk
      | some structTag =>
        refine ⟨_, rfl, ?_⟩
        rw [applyTag_properties m _ f structTag rfl ht]
        cases hfk : fieldKey f with
        | none => rfl
        | some k1 =>
          have hk : k1 ≠ k := by
            intro e
            apply hkey
            rw [hfk, e]
          exact GoMap.get_set_of_ne _ _ _ _ hk
  · obtain ⟨m1, h1, h2⟩ := ParseModelProperty_named g P m f pkg hnamed hitem
    refine ⟨m1, h1, ?_⟩
    rw [h2]
    cases hfk : fieldKey f with
    | none => rfl
    | some k1 =>
      have hk : k1 ≠ k := by
        intro e
        apply hkey
        rw [hfk, e]
      exact GoMap.get_set_of_ne _ _ _ _ hk

theorem parseFields_append (g : ModelParser) (pkg : String) (a b : List Field) (P : Parser)
    (m : Model) :
    parseFields g pkg (a ++ b) P m =
      match parseFields g pkg a P m with
      | Outcome.ok (P1, m1) => parseFields g pkg b P1 m1
      | Outcome.fatal => Outcome.fatal
      | Outcome.outOfFuel => Outcome.outOfFuel := by
  induction a generalizing P m with
  | nil => rfl
  | cons f rest ih =>
    simp only [List.cons_append, parseFields]
    cases ParseModelProperty g P m f pkg with
    | ok r =>
      obtain ⟨P1, m1⟩ := r
      exact ih P1 m1
    | fatal => rfl
    | outOfFuel => rfl

theorem parseFields_other (g : ModelParser) (pkg k : String) (post : List Field)
    (hpost : ∀ f ∈ post, f.Names ≠ [] ∧ fieldKey f ≠ some k) (P : Parser) (m : Model) :
    ∃ m1, parseFields g pkg post P m = Outcome.ok (P, m1) ∧
      GoMap.get m1.Properties k = GoMap.get m.Properties k := by
  induction post generalizing m with
  | nil => exact ⟨m, rfl, rfl⟩
  | cons f rest ih =>
    obtain ⟨hn, hk⟩ := hpost f (List.mem_cons_self _ _)
    obtain ⟨m1, h1, h2⟩ := ParseModelProperty_other g P m f pkg k hn hk
    obtain ⟨m2, h3, h4⟩ := ih (fun f1 hf1 => hpost f1 (List.mem_cons_of_mem _ hf1)) m1
    refine ⟨m2, ?_, h4.trans h2⟩
    simp only [parseFields, h1, h3]

/-- When the field list of a struct returns, a named field `f` read under the name `k`,
followed only by named fields read under other names, leaves under `k` the property
built from it.  The fields before `f` are arbitrary. -/
theorem ParseFieldList_keeps_field (g : ModelParser) (P0 : Parser) (m0 : Model)
    (pre post : List Field) (f : Field) (pkg k : String) (Q : Parser) (mA : Model)
    (hnamed : f.Names ≠ [])
    (hitem : (typeProperty (fieldTypeString f)).Items.Type_ ≠ "undefined")
    (hkey : fieldKey f = some k)
    (hpost : ∀ f1 ∈ post, f1.Names ≠ [] ∧ fieldKey f1 ≠ some k)
    (h : ParseFieldList g P0 m0 (pre ++ f :: post) pkg = Outcome.ok (Q, mA)) :
    GoMap.get mA.Properties k = some (fieldProperty f) := by
  unfold ParseFieldList at h
  have hne : ¬ pre ++ f :: post = [] := by simp
  simp only [hne, if_false] at h
  rw [parseFields_append] at h
  cases hpre : parseFields g pkg pre P0 { m0 with Properties := [] } with
  | fatal =>
    simp only [hpre] at h
    cases h
  | outOfFuel =>
    simp only [hpre] at h
    cases h
  | ok r =>
    obtain ⟨P1, m1⟩ := r
    simp only [hpre, parseFields] at h
    obtain ⟨m2, h1, h2⟩ := ParseModelProperty_named g P1 m1 f pkg hnamed hitem
    obtain ⟨m3, h3, h4⟩ := parseFields_other g pkg k post hpost P1 m2
    simp only [h1, h3] at h
    cases h
    rw [h4, h2, hkey]
    exact GoMap.get_set_self _ _ _

/-- A scalar field of a struct type named `array` ends the process: the first loop of
`ParseModel` reads the property as an array without item type and looks for a model with
the empty name. -/
theorem field_of_type_named_array_is_fatal :
    ∀ fuel, registerType (fuel + 2) quirkParser "Holder" = Outcome.fatal :=
  fun _ => rfl

/-- C22 (counterexample): struct fields of a struct type that get no reference, in
package `models`.  With `type Time struct { Unix int64 }`,
`type NullString struct { Valid bool }` and `type Event struct { At Time; Note NullString }`,
`Time` and `NullString` are structs that `FindModelDefinition` locates in `models`, and no
frame is resolving them; `registerType("Event")` returns the id `models.Event`, and
Definitions holds that entry alone; the properties `At` and `Note` carry the bare type
names and no reference: `Time` is a primitive name and `NullString` a marshalling type
name, which the first loop of `ParseModel` skips.  With `type Zone struct { Name string }`:
for `type Time struct { Zone Zone }`, `registerType("Time")` returns the primitive name
`Time` and Definitions stays empty; for `type Place struct { Z Zone }`, when
`typeDefTranslations` holds an entry for `Place` the call returns its translation with
Definitions empty, and when it holds an entry for `Zone` the property `Z` gets the
translated primitive type and `models.Zone` is not registered; for `Hidden`, whose field
`Z Zone` is tagged `json:"-"`, the entry has the property `N` alone and `models.Zone` is not
registered; for `Shadow`, whose fields `Z Zone` and `W string` are both tagged `json:"v"`,
the one property `v` is the string and `models.Zone` is not registered; for
`type Stamp struct { At time.Time }`, where `time.Time` is a struct that
`FindModelDefinition` locates in package `time`, the property `At` has the type `Time`
without reference and Definitions holds `models.Stamp` alone.  In package `shop`, with
`type Place struct { Z Zone }`, `type Zone struct { P other.Place }` and `type Place string`
in package `other`: resolving `Zone` records the type definition of `other.Place` under the
name `Place`, and `registerType("Place")` returns `string` with Definitions empty.  In
package `p/q`, with `type T struct { X r.U }`, `type U struct { Y q.T }` in package `r` and
`type T struct { X string }` in the package `p.q` that `r` has under the name `q`: `r.U` is
a struct that `FindModelDefinition` locates in `r`; the model of the other `T` comes back
among the inner models under the same id `p.q.T`, and its property `X`, a string, is
written over the property of the field `X r.U`. -/
theorem C22_counterexample_names_tags_and_tables :
    (FindModelDefinition stampParser "Time" "models").value?.map (fun r => r.2) =
      some "models" ∧
    (FindModelDefinition stampParser "NullString" "models").value?.map (fun r => r.2) =
      some "models" ∧
    (registerType 1 stampParser "Event").value?.map
      (fun r => (r.2.1, r.2.2,
        r.1.Swagger.Definitions.map (fun kv => (kv.1, kv.2.Properties)))) =
    some ("models.Event", none,
      [("models.Event",
        [("At", { Type_ := "Time" }), ("Note", { Type_ := "NullString" })])]) ∧
    (registerType 2 quirkParser "Time").value?.map
      (fun r => (r.2.1, r.2.2, r.1.Swagger.Definitions)) = some ("Time", none, []) ∧
    (registerType 2 { quirkParser with typeDefTranslations := [("Place", "string")] }
      "Place").value?.map
      (fun r => (r.2.1, r.2.2, r.1.Swagger.Definitions)) = some ("string", none, []) ∧
    (registerType 2 { quirkParser with typeDefTranslations := [("Zone", "string")] }
      "Place").value?.map
      (fun r => (r.2.1, r.2.2,
        r.1.Swagger.Definitions.map (fun kv => (kv.1, kv.2.Properties)))) =
    some ("models.Place", none,
      [("models.Place", [("Z", { Type_ := "string", Format := "string" })])]) ∧
    (registerType 2 quirkParser "Hidden").value?.map
      (fun r => (r.2.1, r.2.2,
        r.1.Swagger.Definitions.map (fun kv => (kv.1, kv.2.Properties)))) =
    some ("models.Hidden", none,
      [("models.Hidden", [("N", { Type_ := "string", Format := "string" })])]) ∧
    (registerType 2 quirkParser "Shadow").value?.map
      (fun r => (r.2.1, r.2.2,
        r.1.Swagger.Definitions.map (fun kv => (kv.1, kv.2.Properties)))) =
    some ("models.Shadow", none,
      [("models.Shadow", [("v", { Type_ := "string", Format := "string" })])]) ∧
    (FindModelDefinition quirkParser "time.Time" "models").value?.map (fun r => r.2) =
      some "time" ∧
    (registerType 2 quirkParser "Stamp").value?.map
      (fun r => (r.2.1, r.2.2,
        r.1.Swagger.Definitions.map (fun kv => (kv.1, kv.2.Properties)))) =
    some ("models.Stamp", none, [("models.Stamp", [("At", { Type_ := "Time" })])]) ∧
    (registerType 3 crossParser "Place").value?.map
      (fun r => (r.2.1, r.2.2, r.1.Swagger.Definitions)) = some ("string", none, []) ∧
    (FindModelDefinition collideParser "r.U" "p/q").value?.map (fun r => r.2) = some "r" ∧
    (registerType 3 collideParser "T").value?.map
      (fun r => (r.2.1, r.2.2,
        r.1.Swagger.Definitions.map (fun kv => (kv.1, kv.2.Properties)))) =
    some ("p.q.T", none,
      [("p.q.T", [("X", { Type_ := "string", Format := "string" })]),
       ("r.U", [("Y", { Ref := "#/definitions/p.q.T", Type_ := "q.T" })])]) :=
  ⟨rfl, rfl, rfl, rfl, rfl, rfl, rfl, rfl, rfl, rfl, rfl, rfl, rfl⟩

theorem perm_pair_cases (l : List String) (a b : String) (h : l.Perm [a, b]) :
    l = [a, b] ∨ l = [b, a] := by
  have hlen := h.length_eq
  match l, h, hlen with
  | [x, y], h, _ =>
    have hx : x ∈ [a, b] := h.subset (List.mem_cons_self _ _)
    simp only [List.mem_cons, List.mem_singleton, List.not_mem_nil, or_false] at hx
    rcases hx with e | e
    · subst e
      have h1 := (List.perm_cons x).1 h
      have h2 := List.perm_singleton.1 h1
      left
      rw [h2]
    · subst e
      have h1 : [x, y].Perm [x, a] := h.trans (List.Perm.swap _ _ _)
      have h2 := List.perm_singleton.1 ((List.perm_cons x).1 h1)
      right
      rw [h2]

/-- The cycle `type A struct { B *B; V []int }`, `type B struct { A *A }` ends the process
in whatever order the frame of `A` visits its two used types, `B` and `integer`. -/
theorem cycleSlice_fatal (order : List String → List String)
    (horder : ∀ keys, (order keys).Perm keys) (fuel : Nat) :
    registerTypeIn order (fuel + 2) cycleSliceParser "A" = Outcome.fatal := by
  have h0 : order [] = [] := List.perm_nil.1 (horder [])
  have hstep : registerTypeIn order (fuel + 2) cycleSliceParser "A" =
      match parseUsedTypes (ParseModelIn order (fuel + 1)) "models" (order ["B", "integer"])
          (recordModelName cycleSliceParser "A" "models.A") [("A", true)]
          { Id := "models.A"
            Properties := [("B", { Type_ := "B" }),
              ("V", { Type_ := "array", Items := { Type_ := "integer" } })] } [] with
      | Outcome.fatal => Outcome.fatal
      | Outcome.outOfFuel => Outcome.outOfFuel
      | Outcome.ok r =>
        match r.err with
        | some err => Outcome.ok (r.parser, "", some err)
        | none =>
          match GoMap.get r.parser.typeDefTranslations "A" with
          | some translation => Outcome.ok (r.parser, translation, none)
          | none =>
            Outcome.ok ({ r.parser with Swagger := { r.parser.Swagger with
              Definitions := r.innerModels.foldl registerModel
                (registerModel r.parser.Swagger.Definitions r.m) } }, r.m.Id, none) := by
    rfl
  rw [hstep]
  rcases perm_pair_cases _ _ _ (horder ["B", "integer"]) with e | e
  · rw [e]
    have hB : ParseModelIn order (fuel + 1) (recordModelName cycleSliceParser "A" "models.A")
        [("A", true)] NewModel "B" "models" =
        parseUsedTypes (ParseModelIn order fuel) "models" (order [])
          (recordModelName (recordModelName cycleSliceParser "A" "models.A") "B" "models.B")
          [("A", true), ("B", true)]
          { Id := "models.B"
            Properties := [("A", { Type_ := "A", Ref := "#/definitions/models.A" })] } [] := by
      rfl
    rw [h0] at hB
    simp only [parseUsedTypes, hB]
    rfl
  · rw [e]
    rfl

/-- C6 (the code at a failing input): with `type A struct { B *B; V []int }` and
`type B struct { A *A }` in package `models`, two structs that refer to each other through
named fields, `registerType("A")` ends the process for every recursion budget that lets the
run proceed, in whatever order the loop over the used types runs (first conjunct) and in
particular in the order of insertion (second conjunct): the item type of `V` is already
the wire type `integer`, which the first loop of `ParseModel` takes for a model name and
`FindModelDefinition` fails to find.  The same cycle without a slice of a primitive,
`type A struct { Id int; B *B }` with `type B struct { A A; Name string }`, resolves: the
call returns `models.A` and Definitions holds `models.A` and `models.B`. -/
theorem C6_cycle_with_primitive_slice_is_fatal :
    (∀ order : List String → List String, (∀ keys, (order keys).Perm keys) →
      ∀ fuel, registerTypeIn order (fuel + 2) cycleSliceParser "A" = Outcome.fatal) ∧
    (∀ fuel, registerType (fuel + 2) cycleSliceParser "A" = Outcome.fatal) ∧
    FindModelDefinition cycleSliceParser "integer" "models" = Outcome.fatal ∧
    (registerType 2 cycleFieldsParser "A").value?.map
      (fun r => (r.2.1, r.2.2, GoMap.keys r.1.Swagger.Definitions)) =
    some ("models.A", none, ["models.A", "models.B"]) :=
  ⟨fun order horder fuel => cycleSlice_fatal order horder fuel, fun _ => rfl, rfl, rfl⟩

/-- C6 at a concrete order: the used types visited in reverse. -/
theorem C6_cycle_with_primitive_slice_is_fatal_witness :
    (∀ keys : List String, (List.reverse keys).Perm keys) ∧
    registerTypeIn List.reverse 2 cycleSliceParser "A" = Outcome.fatal :=
  ⟨fun keys => List.reverse_perm keys,
    C6_cycle_with_primitive_slice_is_fatal.1 List.reverse (fun keys => List.reverse_perm keys) 0⟩

/-- C5 (counterexample): two ways in which a second `registerType("T")` changes
Definitions.  With `type MyInt int` and `type T struct { A MyInt }`, the first call stores
property `A` as a reference to `models.MyInt`; the second call, which finds the translation
of `MyInt` recorded by the first, overwrites it with type `integer`, format `int64`.  With
`type T struct { X A; Y B }`, `type A struct { L []B }` and `type B struct { Name string }`,
where no type definition is declared, a first call that visits the used types of `T` in
the order `A`, `B` leaves the parser `orderFirstRun`, where the property `L` of `models.A`
carries the reference in its items; a second call, from that parser, that visits them in
the order `B`, `A` finds `B` visited when it scans `A` and overwrites `L` with a property
that carries the reference itself and the bare name `B` in its items. -/
theorem C5_counterexample_alias_field_and_order :
    (registerType 2 aliasParser "T").value?.bind
      (fun r1 => (registerType 2 r1.1 "T").value?.map
        (fun r2 =>
          (r1.2.1, (GoMap.get r1.1.Swagger.Definitions "models.T").map (fun s => s.Properties),
           r2.2.1, (GoMap.get r2.1.Swagger.Definitions "models.T").map (fun s => s.Properties))))
    = some ("models.T",
        some [("A", { Ref := "#/definitions/models.MyInt", Type_ := "MyInt" })],
        "models.T",
        some [("A", { Type_ := "integer", Format := "int64" })]) ∧
    declaresNoTypeDefinition orderParser = true ∧
    registerTypeIn (fun keys => keys) 3 orderParser "T" =
      Outcome.ok (orderFirstRun, "models.T", none) ∧
    (registerTypeIn List.reverse 3 orderFirstRun "T").value?.map
      (fun r2 => (r2.2.1, r2.2.2,
        (GoMap.get r2.1.Swagger.Definitions "models.A").map (fun s => s.Properties))) =
    some ("models.T", none,
      some [("L", { Ref := "#/definitions/models.B", Type_ := "array",
                    Items := { Ref := "B" } })]) :=
  ⟨rfl, rfl, rfl, rfl⟩

/-- C5 (amended): when every type definition over an identifier that the parser can find
is already recorded in `typeDefTranslations` (in particular when the packages declare
none), a call `registerType(T)` that returned the id `id` without error returns, repeated
in the state it left with the used types of every frame visited in the same order as in
the first call, the same id without error and leaves that state, Definitions included,
exactly as it was; Definitions holds no id twice.  The order is any function of the used
type names, the same in both calls. -/
theorem C5_registerType_idempotent (order : List String → List String) (fuel : Nat)
    (P : Parser) (T : String) (P1 : Parser) (id : String) (hs : Saturated P)
    (hwf : WellFormedDefinitions P.Swagger.Definitions)
    (h : registerTypeIn order fuel P T = Outcome.ok (P1, id, none)) :
    registerTypeIn order fuel P1 T = Outcome.ok (P1, id, none) ∧
    (GoMap.keys P1.Swagger.Definitions).Nodup := by
  unfold registerTypeIn at h
  split at h
  · rename_i tr htr
    cases h
    refine ⟨?_, hwf.1⟩
    unfold registerTypeIn
    simp only [htr]
  · rename_i htr
    split at h
    · rename_i hb
      cases h
      refine ⟨?_, hwf.1⟩
      unfold registerTypeIn
      simp only [htr, hb, if_true]
    · rename_i hb
      split at h
      · cases h
      · cases h
      · rename_i r hr
        obtain ⟨hg, _, hrep⟩ := ParseModelIn_replay order fuel P [] NewModel T P.CurrentPackage r hs
          (fun k hk => by simp [GoMap.has, GoMap.get] at hk) hr
        have hsw : r.parser.Swagger = P.Swagger := by
          have := congrArg Parser.Swagger hg.1
          exact this
        have hcp : r.parser.CurrentPackage = P.CurrentPackage := by
          have := congrArg Parser.CurrentPackage hg.1
          exact this
        split at h
        · cases h
        · rename_i herr
          split at h
          · rename_i tr htr1
            rw [hg.2.1, htr] at htr1
            cases htr1
          · rename_i htr1
            cases h
            have hwf1 : WellFormedDefinitions
                (List.foldl registerModel (registerModel r.parser.Swagger.Definitions r.m)
                  r.innerModels) := by
              rw [hsw]
              exact wellFormed_foldl_registerModel (r.m :: r.innerModels) _ hwf
            refine ⟨?_, hwf1.1⟩
            have hidem := foldl_registerModel_idem (r.m :: r.innerModels)
              r.parser.Swagger.Definitions (by rw [hsw]; exact hwf)
            simp only [List.foldl_cons] at hidem
            have hb1 : IsBasicType T = false := by simpa using hb
            have key : ∀ P1 : Parser, Agree r.parser P1 →
                P1.CurrentPackage = P.CurrentPackage →
                registerTypeIn order fuel P1 T = Outcome.ok ({ P1 with
                  Swagger := { P1.Swagger with
                    Definitions := List.foldl registerModel
                      (registerModel P1.Swagger.Definitions r.m) r.innerModels } },
                  r.m.Id, none) := by
              intro P1 hP1 hc1
              have hrun := hrep P1 hP1
              rw [← hc1] at hrun
              have ht1 : GoMap.get P1.typeDefTranslations T = none := by
                rw [hP1.2.1]; exact htr1
              exact registerTypeIn_of_ParseModelIn order fuel P1 T _ ht1 hb1 hrun herr ht1
            refine Eq.trans (key _ ?_ ?_) ?_
            · exact ⟨rfl, rfl, extends_refl _⟩
            · exact hcp
            · simp only [hidem]

/-- C5 at a concrete input: `T` of package `models`, with the used types `A` and `B`,
registered twice, both times visiting the used types in reverse order. -/
theorem C5_registerType_idempotent_witness :
    ∃ P1, registerTypeIn List.reverse 2 orderParser "T" = Outcome.ok (P1, "models.T", none) ∧
      registerTypeIn List.reverse 2 P1 "T" = Outcome.ok (P1, "models.T", none) ∧
      (GoMap.keys P1.Swagger.Definitions).Nodup :=
  ⟨_, rfl,
    C5_registerType_idempotent List.reverse 2 orderParser "T" _ "models.T"
      (Saturated.of_declaresNoTypeDefinition orderParser (by decide))
      (by unfold WellFormedDefinitions; simp [orderParser, GoMap.keys, GoMap.get]) rfl⟩

end MSwagger
